import Mathlib

/-!
vwa-kernel: physical frame allocator, page tables and buddy heap.

Shallow embedding of `src/kernel/pmem.c`, `src/kernel/vmem.c` and
`src/kernel/heap/buddy.c`.

* `u64` values are natural numbers; where an operation can leave the 64-bit
  range it is reduced `% 2^64` explicitly.
* A bitmap (`u8 *`) is a function from byte index to byte value.
* `panic(...)` prints and hangs the processor; it is modelled as the
  `fatal` outcome, carrying the state at the moment of the halt.
* `mem_set`, `page_round_up` and `page_round_down` are declared but have no
  body in the given sources; their models say so in their doc comments.
-/

namespace Kernel

/-! ## Definitions -/

/-- Number of values of a `u64`. -/
def U64 : Nat := 2 ^ 64

/-- The `u64` value of `(u64)-1`. -/
def NEG1 : Nat := 2 ^ 64 - 1

/-- `PAGE_SIZE` of `paging.h`. -/
def PAGE_SIZE : Nat := 0x1000

/-! ### pmem.c: the frame bitmap -/

/-- `pmem_bitmap_get_block`: `(bitmap[block / 8] >> (7 - block % 8)) & 1`. -/
def pmem_bitmap_get_block (bitmap : Nat → Nat) (block : Nat) : Bool :=
  ((bitmap (block / 8) >>> (7 - block % 8)) &&& 1) != 0

/-- `pmem_bitmap_mark_block`: sets or clears bit `7 - block % 8` of byte
`block / 8`.  `~(1 << k)` is truncated to the `u8` it is stored into. -/
def pmem_bitmap_mark_block (bitmap : Nat → Nat) (block : Nat) (used : Bool) : Nat → Nat :=
  fun b =>
    if b = block / 8 then
      if used then bitmap b ||| (1 <<< (7 - block % 8))
      else bitmap b &&& (255 ^^^ (1 <<< (7 - block % 8)))
    else bitmap b

/-- The body of the `for` loop of `pmem_find_free_region`, iterated.  `fuel` is
the number of iterations left (`bitmap_bit_size - i`); the result is the pair
(returned block, value of `next` afterwards). -/
def pmem_find_loop (bitmap : Nat → Nat) (bitmap_bit_size size next : Nat) :
    Nat → Nat → Nat → Nat → Nat × Nat
  | 0, _, _, _ => (NEG1, next)
  | fuel + 1, i, cur_size, cur_start =>
    let cur_block := ((next + i) % U64) % bitmap_bit_size
    let cur_size1 := if cur_block = 0 then 0 else cur_size
    let cur_start1 := if cur_block = 0 then 0 else cur_start
    if pmem_bitmap_get_block bitmap cur_block then
      pmem_find_loop bitmap bitmap_bit_size size next fuel (i + 1) 0 (cur_block + 1)
    else
      if cur_size1 + 1 ≥ size then
        (cur_start1, (cur_start1 + 1) % bitmap_bit_size)
      else
        pmem_find_loop bitmap bitmap_bit_size size next fuel (i + 1) (cur_size1 + 1) cur_start1

/-- The cursor after the first statement of `pmem_find_free_region`:
`if (next > 0 && !pmem_bitmap_get_block(next - 1)) next = 0;`. -/
def pmem_reset_next (bitmap : Nat → Nat) (next : Nat) : Nat :=
  if next > 0 ∧ pmem_bitmap_get_block bitmap (next - 1) = false then 0 else next

/-- `pmem_find_free_region(size)` on a bitmap of `bitmap_bit_size` bits with
cursor `next`: the returned block (`NEG1` for not found) and the new cursor. -/
def pmem_find_free_region (bitmap : Nat → Nat) (bitmap_bit_size next size : Nat) : Nat × Nat :=
  let next1 := pmem_reset_next bitmap next
  pmem_find_loop bitmap bitmap_bit_size size next1 bitmap_bit_size 0 0 (next1 % bitmap_bit_size)

/-- A bitmap given by a list of bytes (zero beyond the list), for concrete
evaluation. -/
def bitmapOfList (l : List Nat) : Nat → Nat := fun i => l.getD i 0

/-- `mem_set(&bitmap[first], used * -1, len)` on the bitmap bytes. -/
def bitmap_fill (bitmap : Nat → Nat) (first len : Nat) (used : Bool) : Nat → Nat :=
  fun b => if first ≤ b ∧ b < first + len then (if used then 255 else 0) else bitmap b

/-- First loop of `pmem_bitmap_mark_blocks`:
`for (; block % 8 && count > 0; ++block, --count) pmem_bitmap_mark_block(block, used);`
returning the bitmap, `block` and `count` at loop exit. -/
def pmem_mark_head (used : Bool) : Nat → (Nat → Nat) → Nat → (Nat → Nat) × Nat × Nat
  | 0, bitmap, block => (bitmap, block, 0)
  | count + 1, bitmap, block =>
    if block % 8 ≠ 0 then
      pmem_mark_head used count (pmem_bitmap_mark_block bitmap block used) (block + 1)
    else (bitmap, block, count + 1)

/-- Last loop of `pmem_bitmap_mark_blocks`:
`for (; count > 0; ++block, --count) pmem_bitmap_mark_block(block, used);`. -/
def pmem_mark_rest (used : Bool) : Nat → (Nat → Nat) → Nat → (Nat → Nat)
  | 0, bitmap, _ => bitmap
  | count + 1, bitmap, block =>
    pmem_mark_rest used count (pmem_bitmap_mark_block bitmap block used) (block + 1)

/-- `pmem_bitmap_mark_blocks(block, count, used)`. -/
def pmem_bitmap_mark_blocks (bitmap : Nat → Nat) (block count : Nat) (used : Bool) : Nat → Nat :=
  let h := pmem_mark_head used count bitmap block
  let bitmap1 := h.1
  let block1 := h.2.1
  let count1 := h.2.2
  if count1 ≥ 8 then
    pmem_mark_rest used (count1 % 8) (bitmap_fill bitmap1 (block1 / 8) (count1 / 8) used)
      (block1 + (count1 - count1 % 8))
  else
    pmem_mark_rest used count1 bitmap1 block1

/-! ### paging.h, vmem.h -/

def PAGE_PRESENT : Nat := 1
def PAGE_WRITE : Nat := 2
def PAGE_USER : Nat := 4
def CLEAR_MASK : Nat := 0xfffffff000

/-- `GET_FLAG(pte, flag)` used as a condition. -/
def GET_FLAG (pte flag : Nat) : Bool := (pte &&& flag) != 0

/-- `ADDRESS(pte)`. -/
def ADDRESS (pte : Nat) : Nat := pte &&& CLEAR_MASK

def INDEX_PT1 (vaddr : Nat) : Nat := (vaddr >>> 12) &&& 0x1ff
def INDEX_PT2 (vaddr : Nat) : Nat := (vaddr >>> 21) &&& 0x1ff
def INDEX_PT3 (vaddr : Nat) : Nat := (vaddr >>> 30) &&& 0x1ff
def INDEX_PT4 (vaddr : Nat) : Nat := (vaddr >>> 39) &&& 0x1ff

/-! ### The kernel state -/

/-- The global state of the physical and virtual memory managers.

* `mem` holds the 64-bit words that page tables are made of, keyed by the
  (kernel-virtual) byte address of the word; `pt[i]` is the word at
  `pt + 8 * i`.
* `bitmap` holds the bytes of the frame bitmap.  Its storage is kept apart from
  `mem`: `pmem_init` marks the bitmap's own frames used, so that no frame
  handed out afterwards overlaps it.
* `kernel_virt` is `bootinfo->kernel_map.virt`; `pv_base` is the base of
  `P2V` / `V2P` (set to `kernel_map.virt` by `kmain` and `pmem_init`). -/
structure KState where
  mem : Nat → Nat
  bitmap : Nat → Nat
  bitmap_bit_size : Nat
  next : Nat
  blocks_allocated : Nat
  pv_base : Nat
  kernel_virt : Nat

/-- Outcome of a kernel routine: a normal return with a value and the new
state, the `panic` path (the processor hangs, in the given state), or the
exhaustion of the recursion budget of the model. -/
inductive Res (α : Type) where
  | ok : α → KState → Res α
  | fatal : KState → Res α
  | timeout : Res α

/-- `P2V(paddr)`. -/
def P2V (s : KState) (paddr : Nat) : Nat := (paddr + s.pv_base) % U64

/-- `V2P(vaddr)`. -/
def V2P (s : KState) (vaddr : Nat) : Nat := (vaddr + (U64 - s.pv_base % U64)) % U64

/-- Address of `pt[index]` for a table of 8-byte entries. -/
def entry_addr (pt index : Nat) : Nat := (pt + 8 * index) % U64

/-- Modelled from the spec: `mem_set(ptr, 0, len)` (its source, `utils`, is not
part of the given sources) zeroes the `len` bytes starting at `ptr`; on the
word-keyed memory it clears every word whose address lies in that range. -/
def mem_zero (mem : Nat → Nat) (ptr len : Nat) : Nat → Nat :=
  fun a => if (a + (U64 - ptr % U64)) % U64 < len then 0 else mem a

/-- Store of one page-table word. -/
def mem_write (mem : Nat → Nat) (addr val : Nat) : Nat → Nat :=
  fun a => if a = addr then val else mem a

/-! ### vmem.c and the allocating entry points of pmem.c

`vmem_map` calls `pmem_alloc_clean`, which calls `vmem_map_region`, which calls
`vmem_map`.  The bodies are written once, over the routine they call; the
recursion is closed by `vmem_map`, whose first argument bounds the nesting
depth of calls to `vmem_map`. -/

/-- The loop of `vmem_map_region` over the mapping routine `map`; the first
argument is the number of pages left, the second the loop variable `block`. -/
def vmem_map_region_with (map : Nat → Nat → Nat → Nat → KState → Res Unit)
    (pt4 vaddr paddr flags : Nat) : Nat → Nat → KState → Res Unit
  | 0, _, s => Res.ok () s
  | left + 1, block, s =>
    match map pt4 ((vaddr + block * PAGE_SIZE) % U64) ((paddr + block * PAGE_SIZE) % U64)
        flags s with
    | Res.ok _ s1 => vmem_map_region_with map pt4 vaddr paddr flags left (block + 1) s1
    | Res.fatal s1 => Res.fatal s1
    | Res.timeout => Res.timeout

/-- Body of `pmem_alloc` over the mapping routine. -/
def pmem_alloc_with (map : Nat → Nat → Nat → Nat → KState → Res Unit)
    (pt4 size : Nat) (s : KState) : Res Nat :=
  let r := pmem_find_free_region s.bitmap s.bitmap_bit_size s.next size
  let block := r.1
  let s1 := { s with next := r.2 }
  if block = NEG1 then Res.fatal s1
  else
    match vmem_map_region_with map pt4 ((s1.kernel_virt + block * PAGE_SIZE) % U64)
        ((block * PAGE_SIZE) % U64) PAGE_WRITE size 0 s1 with
    | Res.ok _ s2 =>
      Res.ok ((block * PAGE_SIZE) % U64)
        { s2 with
          bitmap := pmem_bitmap_mark_blocks s2.bitmap block size true
          blocks_allocated := (s2.blocks_allocated + 1) % U64 }
    | Res.fatal s2 => Res.fatal s2
    | Res.timeout => Res.timeout

/-- Body of `pmem_alloc_clean` over the mapping routine. -/
def pmem_alloc_clean_with (map : Nat → Nat → Nat → Nat → KState → Res Unit)
    (pt4 size : Nat) (s : KState) : Res Nat :=
  let r := pmem_find_free_region s.bitmap s.bitmap_bit_size s.next size
  let block := r.1
  let s1 := { s with next := r.2 }
  if block = NEG1 then Res.fatal s1
  else
    match vmem_map_region_with map pt4 ((s1.kernel_virt + block * PAGE_SIZE) % U64)
        ((block * PAGE_SIZE) % U64) PAGE_WRITE size 0 s1 with
    | Res.ok _ s2 =>
      Res.ok ((block * PAGE_SIZE) % U64)
        { s2 with
          bitmap := pmem_bitmap_mark_blocks s2.bitmap block size true
          mem := mem_zero s2.mem (P2V s2 ((block * PAGE_SIZE) % U64)) ((size * PAGE_SIZE) % U64)
          blocks_allocated := (s2.blocks_allocated + 1) % U64 }
    | Res.fatal s2 => Res.fatal s2
    | Res.timeout => Res.timeout

/-- `pmem_alloc_raw(size)`. -/
def pmem_alloc_raw (size : Nat) (s : KState) : Res Nat :=
  let r := pmem_find_free_region s.bitmap s.bitmap_bit_size s.next size
  let block := r.1
  let s1 := { s with next := r.2 }
  if block = NEG1 then Res.fatal s1
  else
    Res.ok ((block * PAGE_SIZE) % U64)
      { s1 with
        bitmap := pmem_bitmap_mark_blocks s1.bitmap block size true
        mem := mem_zero s1.mem (P2V s1 ((block * PAGE_SIZE) % U64)) ((size * PAGE_SIZE) % U64)
        blocks_allocated := (s1.blocks_allocated + 1) % U64 }

/-- One level of the walk of `vmem_map` / `vmem_map_raw`:
`if (!GET_FLAG(*entry, PAGE_PRESENT)) *entry = alloc(...) | PAGE_PRESENT | PAGE_WRITE | PAGE_USER;`
for the entry at address `slot`. -/
def vmem_ensure_table (alloc : KState → Res Nat) (slot : Nat) (s : KState) : Res Unit :=
  if GET_FLAG (s.mem slot) PAGE_PRESENT then Res.ok () s
  else
    match alloc s with
    | Res.ok frame s1 =>
      Res.ok () { s1 with
        mem := mem_write s1.mem slot (frame ||| PAGE_PRESENT ||| PAGE_WRITE ||| PAGE_USER) }
    | Res.fatal s1 => Res.fatal s1
    | Res.timeout => Res.timeout

/-- Body of `vmem_map` and `vmem_map_raw` over the allocator used for missing
tables. -/
def vmem_map_with (alloc : KState → Res Nat) (pt4 vaddr paddr flags : Nat) (s : KState) :
    Res Unit :=
  let pt4_entry := entry_addr pt4 (INDEX_PT4 vaddr)
  match vmem_ensure_table alloc pt4_entry s with
  | Res.fatal s1 => Res.fatal s1
  | Res.timeout => Res.timeout
  | Res.ok _ s1 =>
    let pt3 := P2V s1 (ADDRESS (s1.mem pt4_entry))
    let pt3_entry := entry_addr pt3 (INDEX_PT3 vaddr)
    match vmem_ensure_table alloc pt3_entry s1 with
    | Res.fatal s2 => Res.fatal s2
    | Res.timeout => Res.timeout
    | Res.ok _ s2 =>
      let pt2 := P2V s2 (ADDRESS (s2.mem pt3_entry))
      let pt2_entry := entry_addr pt2 (INDEX_PT2 vaddr)
      match vmem_ensure_table alloc pt2_entry s2 with
      | Res.fatal s3 => Res.fatal s3
      | Res.timeout => Res.timeout
      | Res.ok _ s3 =>
        let pt1 := P2V s3 (ADDRESS (s3.mem pt2_entry))
        let pt1_entry := entry_addr pt1 (INDEX_PT1 vaddr)
        if GET_FLAG (s3.mem pt1_entry) PAGE_PRESENT then Res.fatal s3
        else
          Res.ok () { s3 with
            mem := mem_write s3.mem pt1_entry ((paddr ||| flags ||| PAGE_PRESENT) % U64) }

/-- `vmem_map(pt4, vaddr, paddr, flags)`; the first argument bounds the depth
of nested calls (`vmem_map` → `pmem_alloc_clean` → `vmem_map_region` →
`vmem_map`), `Res.timeout` reporting that the bound was reached. -/
def vmem_map : Nat → Nat → Nat → Nat → Nat → KState → Res Unit
  | 0 => fun _ _ _ _ _ => Res.timeout
  | fuel + 1 => fun pt4 vaddr paddr flags s =>
    vmem_map_with (pmem_alloc_clean_with (vmem_map fuel) pt4 1) pt4 vaddr paddr flags s

/-- `vmem_map_raw(pt4, vaddr, paddr, flags)`. -/
def vmem_map_raw (pt4 vaddr paddr flags : Nat) (s : KState) : Res Unit :=
  vmem_map_with (pmem_alloc_raw 1) pt4 vaddr paddr flags s

/-- `vmem_map_region(pt4, vaddr, paddr, flags, blocks)`. -/
def vmem_map_region (fuel pt4 vaddr paddr flags blocks : Nat) (s : KState) : Res Unit :=
  vmem_map_region_with (vmem_map fuel) pt4 vaddr paddr flags blocks 0 s

/-- `pmem_alloc(pt4, size)`. -/
def pmem_alloc (fuel pt4 size : Nat) (s : KState) : Res Nat :=
  pmem_alloc_with (vmem_map fuel) pt4 size s

/-- `pmem_alloc_clean(pt4, size)`. -/
def pmem_alloc_clean (fuel pt4 size : Nat) (s : KState) : Res Nat :=
  pmem_alloc_clean_with (vmem_map fuel) pt4 size s

/-- `vmem_unmap(pt4, vaddr)`. -/
def vmem_unmap (pt4 vaddr : Nat) (s : KState) : Res Unit :=
  let pt4_entry := entry_addr pt4 (INDEX_PT4 vaddr)
  if !GET_FLAG (s.mem pt4_entry) PAGE_PRESENT then Res.fatal s
  else
    let pt3 := P2V s (ADDRESS (s.mem pt4_entry))
    let pt3_entry := entry_addr pt3 (INDEX_PT3 vaddr)
    if !GET_FLAG (s.mem pt3_entry) PAGE_PRESENT then Res.fatal s
    else
      let pt2 := P2V s (ADDRESS (s.mem pt3_entry))
      let pt2_entry := entry_addr pt2 (INDEX_PT2 vaddr)
      if !GET_FLAG (s.mem pt2_entry) PAGE_PRESENT then Res.fatal s
      else
        let pt1 := P2V s (ADDRESS (s.mem pt2_entry))
        let pt1_entry := entry_addr pt1 (INDEX_PT1 vaddr)
        if !GET_FLAG (s.mem pt1_entry) PAGE_PRESENT then Res.fatal s
        else Res.ok () { s with mem := mem_write s.mem pt1_entry 0 }

/-- The loop of `vmem_unmap_region`. -/
def vmem_unmap_region_loop (pt4 vaddr : Nat) : Nat → Nat → KState → Res Unit
  | 0, _, s => Res.ok () s
  | left + 1, block, s =>
    match vmem_unmap pt4 ((vaddr + block * PAGE_SIZE) % U64) s with
    | Res.ok _ s1 => vmem_unmap_region_loop pt4 vaddr left (block + 1) s1
    | Res.fatal s1 => Res.fatal s1
    | Res.timeout => Res.timeout

/-- `vmem_unmap_region(pt4, vaddr, blocks)`. -/
def vmem_unmap_region (pt4 vaddr blocks : Nat) (s : KState) : Res Unit :=
  vmem_unmap_region_loop pt4 vaddr blocks 0 s

/-- `pmem_free(pt4, base_addr, size)`. -/
def pmem_free (pt4 base_addr size : Nat) (s : KState) : Res Unit :=
  match vmem_unmap_region pt4 base_addr size s with
  | Res.ok _ s1 =>
    Res.ok () { s1 with
      bitmap := pmem_bitmap_mark_blocks s1.bitmap (base_addr / PAGE_SIZE) size false }
  | Res.fatal s1 => Res.fatal s1
  | Res.timeout => Res.timeout

/-! ### The walk of a virtual address, as a specification device -/

/-- Address of the L4 entry of `vaddr`: `&pt4[INDEX_PT4(vaddr)]`. -/
def pt4_entry_of (pt4 vaddr : Nat) : Nat := entry_addr pt4 (INDEX_PT4 vaddr)

/-- Address of the L3 entry of `vaddr`, through the L4 entry as stored. -/
def pt3_entry_of (s : KState) (pt4 vaddr : Nat) : Nat :=
  entry_addr (P2V s (ADDRESS (s.mem (pt4_entry_of pt4 vaddr)))) (INDEX_PT3 vaddr)

/-- Address of the L2 entry of `vaddr`. -/
def pt2_entry_of (s : KState) (pt4 vaddr : Nat) : Nat :=
  entry_addr (P2V s (ADDRESS (s.mem (pt3_entry_of s pt4 vaddr)))) (INDEX_PT2 vaddr)

/-- Address of the leaf (L1) entry of `vaddr`. -/
def pt1_entry_of (s : KState) (pt4 vaddr : Nat) : Nat :=
  entry_addr (P2V s (ADDRESS (s.mem (pt2_entry_of s pt4 vaddr)))) (INDEX_PT1 vaddr)

/-- The L4, L3 and L2 entries on the walk of `vaddr` are present. -/
def tables_present (s : KState) (pt4 vaddr : Nat) : Bool :=
  GET_FLAG (s.mem (pt4_entry_of pt4 vaddr)) PAGE_PRESENT &&
  GET_FLAG (s.mem (pt3_entry_of s pt4 vaddr)) PAGE_PRESENT &&
  GET_FLAG (s.mem (pt2_entry_of s pt4 vaddr)) PAGE_PRESENT

/-- The leaf entry of `vaddr` is reached and present. -/
def leaf_present (s : KState) (pt4 vaddr : Nat) : Bool :=
  tables_present s pt4 vaddr && GET_FLAG (s.mem (pt1_entry_of s pt4 vaddr)) PAGE_PRESENT

/-! ### buddy.c

The heap is byte-addressed memory `mem : Nat → Nat`; the bitmap of a pool page
is the 128 bytes at the start of that page.  A routine returns `BRes.ok` with
its value and the new memory, or `BRes.fatal` (the `panic` path) with the
memory at the halt. -/

def BUDDY_BITMAP_SIZE : Nat := 128
def LAYERS : Nat := 10
def SMALLEST : Nat := 8
def GREATEST : Nat := PAGE_SIZE
def TOTAL_BLOCKS : Nat := 1023

/-- Modelled from the spec: `math_pow(base, exp)` (its source, `math`, is not
part of the given sources) is integer exponentiation. -/
def math_pow (base exp : Nat) : Nat := base ^ exp

/-- `buddy_bit_offset_layer`. -/
def buddy_bit_offset_layer (layer : Nat) : Nat := math_pow 2 layer - 1

/-- `buddy_bits_in_layer`. -/
def buddy_bits_in_layer (layer : Nat) : Nat := math_pow 2 layer

/-- The loop of `buddy_layer_block_size`: halve `size`, `layer` times. -/
def buddy_block_size_loop : Nat → Nat → Nat
  | 0, size => size
  | i + 1, size => buddy_block_size_loop i (size / 2)

/-- `buddy_layer_block_size`. -/
def buddy_layer_block_size (layer : Nat) : Nat := buddy_block_size_loop layer GREATEST

/-- The `for (layer = 0; layer < LAYERS; layer++)` loop of
`buddy_layer_from_size`; the first argument is `LAYERS - layer`. -/
def buddy_layer_loop (n_bytes : Nat) : Nat → Nat → Nat → Nat
  | 0, layer, _ => layer
  | left + 1, layer, size =>
    if size / n_bytes = 1 then layer
    else buddy_layer_loop n_bytes left (layer + 1) (size / 2)

/-- `buddy_layer_from_size`; `none` is the fatal path. -/
def buddy_layer_from_size (n_bytes : Nat) : Option Nat :=
  if n_bytes > GREATEST / 2 then none
  else
    some (if n_bytes ≤ SMALLEST then LAYERS - 1
      else buddy_layer_loop n_bytes LAYERS 0 GREATEST)

/-- `buddy_bitmap_get_bit(bitmap, bit)`. -/
def buddy_bitmap_get_bit (mem : Nat → Nat) (bitmap bit : Nat) : Bool :=
  ((mem (bitmap + bit / 8) >>> (7 - bit % 8)) &&& 1) != 0

/-- `buddy_bitmap_mark_bit(bitmap, off, val)`. -/
def buddy_bitmap_mark_bit (mem : Nat → Nat) (bitmap off : Nat) (val : Bool) : Nat → Nat :=
  fun a =>
    if a = bitmap + off / 8 then
      if val then mem a ||| (1 <<< (7 - off % 8))
      else mem a &&& (255 ^^^ (1 <<< (7 - off % 8)))
    else mem a

/-- Outcome of a buddy routine. -/
inductive BRes (α : Type) where
  | ok : α → (Nat → Nat) → BRes α
  | fatal : (Nat → Nat) → BRes α

/-- The fields of `allocator_t` that the buddy allocator reads. -/
structure BuddyAllocator where
  base_addr : Nat
  blocks : Nat

/-- The pair scan of `buddy_alloc`,
`for (off = layer_off; off < layer_off + layer_size; off += 2)`:
the `off` of the first pair whose two bits differ.  The first argument bounds
the number of iterations. -/
def buddy_scan_pairs (mem : Nat → Nat) (bitmap limit : Nat) : Nat → Nat → Option Nat
  | 0, _ => none
  | left + 1, off =>
    if off < limit then
      if buddy_bitmap_get_bit mem bitmap off != buddy_bitmap_get_bit mem bitmap (off + 1) then
        some off
      else buddy_scan_pairs mem bitmap limit left (off + 2)
    else none

/-- The `while (layer != best_layer)` loop of `buddy_alloc`: the final `layer`,
`off` and memory.  The first argument bounds the number of iterations. -/
def buddy_descend (bitmap best_layer : Nat) : Nat → Nat → Nat → (Nat → Nat) →
    Nat × Nat × (Nat → Nat)
  | 0, layer, off, mem => (layer, off, mem)
  | left + 1, layer, off, mem =>
    if layer ≠ best_layer then
      buddy_descend bitmap best_layer left (layer + 1) (off * 2)
        (buddy_bitmap_mark_bit mem bitmap (buddy_bit_offset_layer (layer + 1) + off * 2) true)
    else (layer, off, mem)

/-- What `buddy_alloc` does once a pair with different values is found at
bitmap offset `off` of `layer`: mark the unused buddy, descend to
`best_layer`, compute the address. -/
def buddy_take (self : BuddyAllocator) (mem : Nat → Nat) (bitmap best_layer layer off : Nat) :
    Nat × (Nat → Nat) :=
  let buddy1 := buddy_bitmap_get_bit mem bitmap off
  let off1 := off + (if buddy1 then 1 else 0)
  let mem1 := buddy_bitmap_mark_bit mem bitmap off1 true
  let off2 := off1 - buddy_bit_offset_layer layer
  let d := buddy_descend bitmap best_layer best_layer layer off2 mem1
  (self.base_addr + d.2.1 * buddy_layer_block_size d.1, d.2.2)

/-- The `for (; layer > 0; layer--)` loop of `buddy_alloc` on one page. -/
def buddy_alloc_layers (self : BuddyAllocator) (mem : Nat → Nat) (bitmap best_layer : Nat) :
    Nat → Option (Nat × (Nat → Nat))
  | 0 => none
  | layer + 1 =>
    match buddy_scan_pairs mem bitmap
        (buddy_bit_offset_layer (layer + 1) + buddy_bits_in_layer (layer + 1))
        (buddy_bits_in_layer (layer + 1)) (buddy_bit_offset_layer (layer + 1)) with
    | some off => some (buddy_take self mem bitmap best_layer (layer + 1) off)
    | none => buddy_alloc_layers self mem bitmap best_layer layer

/-- The `for (page = 0; page < blocks; page++)` loop of `buddy_alloc`; the
first argument is `blocks - page`. -/
def buddy_alloc_pages (self : BuddyAllocator) (mem : Nat → Nat) (best_layer : Nat) :
    Nat → Nat → BRes Nat
  | 0, _ => BRes.fatal mem
  | left + 1, page =>
    match buddy_alloc_layers self mem (self.base_addr + page * PAGE_SIZE) best_layer
        best_layer with
    | some r => BRes.ok r.1 r.2
    | none => buddy_alloc_pages self mem best_layer left (page + 1)

/-- `buddy_alloc(self, n_bytes)`. -/
def buddy_alloc (self : BuddyAllocator) (n_bytes : Nat) (mem : Nat → Nat) : BRes Nat :=
  match buddy_layer_from_size n_bytes with
  | none => BRes.fatal mem
  | some best_layer =>
    if best_layer = 0 then BRes.fatal mem
    else buddy_alloc_pages self mem best_layer self.blocks 0

/-- The loop of `buddy_init` over the layers 0..5 of one page; the first
argument is the number of layers left. -/
def buddy_init_layers (bitmap : Nat) : Nat → Nat → (Nat → Nat) → (Nat → Nat)
  | 0, _, mem => mem
  | left + 1, layer, mem =>
    buddy_init_layers bitmap left (layer + 1)
      (buddy_bitmap_mark_bit mem bitmap (buddy_bit_offset_layer layer) true)

/-- The loop of `buddy_init` over the pool pages. -/
def buddy_init_pages (self : BuddyAllocator) : Nat → Nat → (Nat → Nat) → (Nat → Nat)
  | 0, _, mem => mem
  | left + 1, i, mem =>
    buddy_init_pages self left (i + 1)
      (buddy_init_layers (self.base_addr + i * PAGE_SIZE) 6 0 mem)

/-- `buddy_init(self)`. -/
def buddy_init (self : BuddyAllocator) (mem : Nat → Nat) : Nat → Nat :=
  buddy_init_pages self self.blocks 0 mem

/-- Modelled from the spec: `mem_set(ptr, 0, len)` on byte-addressed memory. -/
def heap_zero (mem : Nat → Nat) (ptr len : Nat) : Nat → Nat :=
  fun a => if ptr ≤ a ∧ a < ptr + len then 0 else mem a

/-- `if (off % 2 == 1) off--; else off++;`. -/
def buddy_sibling (off : Nat) : Nat := if off % 2 = 1 then off - 1 else off + 1

/-- The `while (layer != 0)` loop of `buddy_free`; reaching layer 0 without a
used sibling leaves the loops and ends in `panic`. -/
def buddy_free_climb (bitmap : Nat) : Nat → Nat → (Nat → Nat) → BRes Unit
  | 0, _, mem => BRes.fatal mem
  | layer + 1, off, mem =>
    let off1 := off / 2
    let mem1 := buddy_bitmap_mark_bit mem bitmap (buddy_bit_offset_layer layer + off1) false
    let off2 := buddy_sibling off1
    if buddy_bitmap_get_bit mem1 bitmap (buddy_bit_offset_layer layer + off2) then
      BRes.ok () mem1
    else buddy_free_climb bitmap layer off2 mem1

/-- The outer `for` loop of `buddy_free`, from `layer` downwards. -/
def buddy_free_probe (bitmap off_from_base vaddr : Nat) (mem : Nat → Nat) : Nat → BRes Unit
  | 0 => BRes.fatal mem
  | layer + 1 =>
    if off_from_base % buddy_layer_block_size (layer + 1) = 0 then
      let off := off_from_base / buddy_layer_block_size (layer + 1)
      if buddy_bitmap_get_bit mem bitmap (buddy_bit_offset_layer (layer + 1) + off) then
        let mem1 := heap_zero mem vaddr (buddy_layer_block_size (layer + 1))
        let mem2 := buddy_bitmap_mark_bit mem1 bitmap (buddy_bit_offset_layer (layer + 1) + off)
          false
        let off1 := buddy_sibling off
        if buddy_bitmap_get_bit mem2 bitmap (buddy_bit_offset_layer (layer + 1) + off1) then
          BRes.ok () mem2
        else buddy_free_climb bitmap (layer + 1) off1 mem2
      else buddy_free_probe bitmap off_from_base vaddr mem layer
    else BRes.fatal mem

/-- `buddy_free(self, vaddr)`. -/
def buddy_free (self : BuddyAllocator) (vaddr : Nat) (mem : Nat → Nat) : BRes Unit :=
  let off_from_base := (vaddr + (U64 - self.base_addr % U64)) % U64
  let page_num := off_from_base / PAGE_SIZE
  let bitmap := self.base_addr + page_num * PAGE_SIZE
  buddy_free_probe bitmap (off_from_base % PAGE_SIZE) vaddr mem (LAYERS - 1)

/-! ### buddy.c: specification devices -/

/-- Bitmap index of block `off` of `layer`. -/
def buddy_idx (layer off : Nat) : Nat := buddy_bit_offset_layer layer + off

/-- Bit of block `off` of `layer` in the page bitmap at `bitmap`. -/
def buddy_bit (mem : Nat → Nat) (bitmap layer off : Nat) : Bool :=
  buddy_bitmap_get_bit mem bitmap (buddy_idx layer off)

/-- The bitmap indices set by an allocation that takes the free buddy `off` of
`layer` and descends `depth` layers: the block and its leftmost descendants. -/
def buddy_chain (layer off depth i : Nat) : Prop :=
  ∃ j, j ≤ depth ∧ i = buddy_idx (layer + j) (off * 2 ^ j)

/-- The shape of the bitmap of the pool page at `bitmap`: a used block has a
used parent (so a free block has only free descendants), the block holding the
bitmap itself (block 0 of layer 5) is used and its two halves are free. -/
def BuddyTree (mem : Nat → Nat) (bitmap : Nat) : Prop :=
  (∀ layer off, layer < 9 → off < 2 ^ (layer + 1) →
    buddy_bit mem bitmap (layer + 1) off = true → buddy_bit mem bitmap layer (off / 2) = true) ∧
  buddy_bit mem bitmap 5 0 = true ∧
  buddy_bit mem bitmap 6 0 = false ∧
  buddy_bit mem bitmap 6 1 = false

/-- Block `(la, oa)` is block `(lb, ob)` or one of its ancestors. -/
def buddy_anc (la oa lb ob : Nat) : Prop := la ≤ lb ∧ ob / 2 ^ (lb - la) = oa

/-- The allocation `(a, n)` is live in a single-page pool: `a` is the address
of a block of the layer of `n` that lies outside the bitmap area, is marked
used and has only free proper descendants. -/
def BuddyLive (self : BuddyAllocator) (mem : Nat → Nat) (a n : Nat) : Prop :=
  ∃ L o, buddy_layer_from_size n = some L ∧ o < 2 ^ L ∧
    a = self.base_addr + o * buddy_layer_block_size L ∧
    128 ≤ o * buddy_layer_block_size L ∧
    buddy_bit mem self.base_addr L o = true ∧
    ∀ lb ob, L < lb → lb ≤ 9 → ob < 2 ^ lb → buddy_anc L o lb ob →
      buddy_bit mem self.base_addr lb ob = false

/-- Invariant of a single-page pool with the live allocations `live`
(address, requested size). -/
def BuddyInv (self : BuddyAllocator) (mem : Nat → Nat) (live : List (Nat × Nat)) : Prop :=
  BuddyTree mem self.base_addr ∧ (live.map Prod.fst).Nodup ∧
    ∀ p, p ∈ live → BuddyLive self mem p.1 p.2

/-- The states of a pool reachable from `buddy_init` on zeroed pages through
`buddy_alloc` calls and `buddy_free` calls on live blocks, with the list of
live allocations (address, requested size). -/
inductive BuddyReach (self : BuddyAllocator) : (Nat → Nat) → List (Nat × Nat) → Prop where
  | init (mem0 : Nat → Nat)
      (hzero : ∀ a, self.base_addr ≤ a → a < self.base_addr + self.blocks * PAGE_SIZE →
        mem0 a = 0) :
      BuddyReach self (buddy_init self mem0) []
  | alloc (mem mem1 : Nat → Nat) (live : List (Nat × Nat)) (n a : Nat)
      (hr : BuddyReach self mem live)
      (h : buddy_alloc self n mem = BRes.ok a mem1) :
      BuddyReach self mem1 ((a, n) :: live)
  | free (mem mem1 : Nat → Nat) (live : List (Nat × Nat)) (n a : Nat)
      (hr : BuddyReach self mem live) (hlive : (a, n) ∈ live)
      (h : buddy_free self a mem = BRes.ok () mem1) :
      BuddyReach self mem1 (live.erase (a, n))

/-! ### Frames and page-table words, as specification devices -/

/-- Frame `b` is inside the bitmap and marked free. -/
def frame_free (s : KState) (b : Nat) : Prop :=
  b < s.bitmap_bit_size ∧ pmem_bitmap_get_block s.bitmap b = false

/-- The word at `a` lies in the page at `P2V(b * PAGE_SIZE)`, the kernel-virtual
image of frame `b`. -/
def in_frame (s : KState) (b a : Nat) : Prop :=
  (a + (U64 - P2V s ((b * PAGE_SIZE) % U64) % U64)) % U64 < PAGE_SIZE

/-- The word at `a` lies in the image of no free frame. -/
def slot_used (s : KState) (a : Nat) : Prop := ∀ b, frame_free s b → ¬ in_frame s b a

/-- Size conditions on the frame bitmap: it is not empty, the cursor is inside
it, and every frame address fits the 28-bit address field of `CLEAR_MASK`. -/
def kstate_ok (s : KState) : Prop :=
  0 < s.bitmap_bit_size ∧ s.bitmap_bit_size ≤ 2 ^ 28 ∧ s.next < s.bitmap_bit_size

/-- What a routine may change between `s` and `s1`: no bitmap size or base, no
used bit is cleared, and no present word outside the free frames is written. -/
def footprint (s s1 : KState) : Prop :=
  s1.bitmap_bit_size = s.bitmap_bit_size ∧ s1.pv_base = s.pv_base ∧
  s1.kernel_virt = s.kernel_virt ∧
  (∀ b, pmem_bitmap_get_block s.bitmap b = true → pmem_bitmap_get_block s1.bitmap b = true) ∧
  (∀ a, slot_used s a → GET_FLAG (s.mem a) PAGE_PRESENT = true → s1.mem a = s.mem a)

/-- The entries that the walk of `vaddr` reads in `s` lie outside the free
frames. -/
def walk_clear (s : KState) (pt4 vaddr : Nat) : Prop :=
  slot_used s (pt4_entry_of pt4 vaddr) ∧
  (GET_FLAG (s.mem (pt4_entry_of pt4 vaddr)) PAGE_PRESENT = true →
    slot_used s (pt3_entry_of s pt4 vaddr) ∧
    (GET_FLAG (s.mem (pt3_entry_of s pt4 vaddr)) PAGE_PRESENT = true →
      slot_used s (pt2_entry_of s pt4 vaddr) ∧
      (GET_FLAG (s.mem (pt2_entry_of s pt4 vaddr)) PAGE_PRESENT = true →
        slot_used s (pt1_entry_of s pt4 vaddr))))

/-- Contract of an allocator of one zeroed frame, as `vmem_map_with` uses it: a
normal return hands out a frame that was free, marks it used and leaves its page
zeroed, within the footprint. -/
def alloc_spec (alloc : KState → Res Nat) : Prop :=
  ∀ s frame s1, kstate_ok s → alloc s = Res.ok frame s1 →
    footprint s s1 ∧ kstate_ok s1 ∧
    ∃ F, frame_free s F ∧ frame = F * PAGE_SIZE ∧
      pmem_bitmap_get_block s1.bitmap F = true ∧ ∀ a, in_frame s F a → s1.mem a = 0

/-- Frame `G` is the free frame with the smallest number. -/
def lowest_free (s : KState) (G : Nat) : Prop :=
  frame_free s G ∧ ∀ b, b < G → pmem_bitmap_get_block s.bitmap b = true

/-- The cursor is at a place from which `pmem_find_free_region` reaches the
lowest free frame first: either the bit before the cursor is clear (the search
restarts at block 0), or all bits below the cursor are set. -/
def cursor_low (s : KState) : Prop :=
  (0 < s.next ∧ pmem_bitmap_get_block s.bitmap (s.next - 1) = false) ∨
  (∀ b, b < s.next → pmem_bitmap_get_block s.bitmap b = true)

/-- The kernel-virtual address at which `pmem_alloc` maps frame `G`:
`kernel_map.virt + G * PAGE_SIZE`. -/
def kwin (s : KState) (G : Nat) : Nat := (s.kernel_virt + G * PAGE_SIZE) % U64

/-- Address of entry `idx` of the table in frame `F`. -/
def table_slot (s : KState) (F idx : Nat) : Nat :=
  entry_addr (P2V s ((F * PAGE_SIZE) % U64)) idx

/-- The page tables of the address space `pt4` form a tree of tables: `lvl F`
is the level (4 for the root, 1 for a leaf table, 0 for a frame that is no
table) of frame `F`; tables lie in used frames, and a present entry of a table
of level 2, 3 or 4 refers to a table of the level below. -/
def TreeWf (s : KState) (pt4 : Nat) (lvl : Nat → Nat) : Prop :=
  (∃ F4, lvl F4 = 4 ∧ pt4 = P2V s ((F4 * PAGE_SIZE) % U64)) ∧
  (∀ F, lvl F ≠ 0 →
    F < s.bitmap_bit_size ∧ pmem_bitmap_get_block s.bitmap F = true ∧ lvl F ≤ 4) ∧
  (∀ F idx, 2 ≤ lvl F → idx < 512 →
    GET_FLAG (s.mem (table_slot s F idx)) PAGE_PRESENT = true →
    ∃ G, ADDRESS (s.mem (table_slot s F idx)) = G * PAGE_SIZE ∧ lvl G + 1 = lvl F)

/-- The three tables of `v` are present and its leaf entry holds `val`. -/
def leaf_maps (s : KState) (pt4 v val : Nat) : Prop :=
  tables_present s pt4 v = true ∧ s.mem (pt1_entry_of s pt4 v) = val

/-- Invariant of a pool of any number of pages with the live allocations
`live` (address, requested size): in every page the six reserved bits are set
and the bits of the blocks inside the bitmap area are clear, and every live
address is the address, relative to the pool base, of a block of the layer of
its size that lies past the 128 bytes of the bitmap. -/
def BuddyPages (self : BuddyAllocator) (mem : Nat → Nat) (live : List (Nat × Nat)) : Prop :=
  (∀ pg l, pg < self.blocks → l ≤ 5 →
    buddy_bit mem (self.base_addr + pg * PAGE_SIZE) l 0 = true) ∧
  (∀ pg l off, pg < self.blocks → 6 ≤ l → l ≤ 9 → off < 2 ^ (l - 5) →
    buddy_bit mem (self.base_addr + pg * PAGE_SIZE) l off = false) ∧
  (∀ p, p ∈ live → ∃ L o, buddy_layer_from_size p.2 = some L ∧ o < 2 ^ L ∧
    p.1 = self.base_addr + o * buddy_layer_block_size L ∧
    128 ≤ o * buddy_layer_block_size L)

/-- `vmem_create_address_space()`, with the global `kernel_pt4` as an
argument; the first argument bounds the nesting of `vmem_map` calls inside the
two `pmem_alloc_clean` calls. -/
def vmem_create_address_space (fuel kernel_pt4 : Nat) (s : KState) : Res Nat :=
  match pmem_alloc_clean fuel kernel_pt4 1 s with
  | Res.fatal s1 => Res.fatal s1
  | Res.timeout => Res.timeout
  | Res.ok p1 s1 =>
    let pt4 := P2V s1 p1
    match pmem_alloc_clean fuel kernel_pt4 1 s1 with
    | Res.fatal s2 => Res.fatal s2
    | Res.timeout => Res.timeout
    | Res.ok p2 s2 =>
      let pt3 := P2V s2 p2
      let s3 := { s2 with
        mem := mem_write s2.mem (entry_addr pt4 0)
          (V2P s2 (pt3 ||| PAGE_PRESENT ||| PAGE_WRITE ||| PAGE_USER)) }
      let index := INDEX_PT3 s3.kernel_virt
      let s4 := { s3 with
        mem := mem_write s3.mem (entry_addr pt3 index)
          (s3.mem (entry_addr (P2V s3 (ADDRESS (s3.mem (entry_addr kernel_pt4 0)))) index)) }
      Res.ok pt4 s4

/-! ### mmap.h, bootinfo.h and `pmem_init` -/

/-- `region_t`: an entry of the boot memory map. -/
structure Region where
  base : Nat
  length : Nat
  type : Nat

/-- `REGION_TYPE`: the type of a usable region. -/
def FREE : Nat := 1

/-- `mapping_t`. -/
structure Mapping where
  phys : Nat
  virt : Nat
  size : Nat

/-- The fields of `bootinfo_t` that `pmem_init` reads; `num_regions` is the
length of `regions`. -/
structure BootInfo where
  kernel_load_addr : Nat
  kernel_map : Mapping
  regions : List Region

/-- Modelled from the spec: `page_round_up(addr)` (declared in `paging.h`, its
body is not part of the given sources) is the ceiling of `addr / 4096`, the
number of the first frame that starts at or after `addr`. -/
def page_round_up (addr : Nat) : Nat := (addr + (PAGE_SIZE - 1)) / PAGE_SIZE

/-- Modelled from the spec: `page_round_down(addr)` (declared in `paging.h`,
its body is not part of the given sources) is the floor of `addr / 4096`, the
number of the frame that holds `addr`. -/
def page_round_down (addr : Nat) : Nat := addr / PAGE_SIZE

/-- The body of the loop of `pmem_get_usable_mem_range` for the region `r`, on
the pair (`mem_base`, `mem_end`). -/
def pmem_range_step (acc : Nat × Nat) (r : Region) : Nat × Nat :=
  if r.type ≠ FREE then acc
  else
    let base := r.base
    let end_ := (base + r.length) % U64
    (if base < acc.1 then base else acc.1, if end_ > acc.2 then end_ else acc.2)

/-- `pmem_get_usable_mem_range()`: the pair (`mem_base`, `mem_end`) after the
loop over the regions. -/
def pmem_get_usable_mem_range (regions : List Region) : Nat × Nat :=
  regions.foldl pmem_range_step (NEG1, 0)

/-- The body of the loop of `pmem_init` that chooses the place of the bitmap,
for the region `r`, on `bitmap_addr`. -/
def pmem_place_step (kernel_load_addr bitmap_byte_size bitmap_addr : Nat) (r : Region) : Nat :=
  if r.type ≠ FREE then bitmap_addr
  else if r.length < bitmap_byte_size then bitmap_addr
  else if r.base < kernel_load_addr then bitmap_addr
  else if r.base > bitmap_addr then bitmap_addr
  else r.base

/-- The loop of `pmem_init` that chooses the place of the bitmap: the value of
`bitmap_addr` after it. -/
def pmem_bitmap_place (kernel_load_addr bitmap_byte_size : Nat) (regions : List Region) : Nat :=
  regions.foldl (pmem_place_step kernel_load_addr bitmap_byte_size) NEG1

/-- The body of the "mark free regions" loop of `pmem_init`;
`end_block - start_block` is a `u64` difference. -/
def pmem_free_step (bm : Nat → Nat) (r : Region) : Nat → Nat :=
  if r.type ≠ FREE then bm
  else
    let start_block := page_round_up r.base
    let end_block := page_round_down ((r.base + r.length) % U64)
    pmem_bitmap_mark_blocks bm start_block ((end_block + (U64 - start_block)) % U64) false

/-- The "mark free regions" loop of `pmem_init`. -/
def pmem_mark_free_regions (regions : List Region) (bitmap : Nat → Nat) : Nat → Nat :=
  regions.foldl pmem_free_step bitmap

/-- The body of the "mark reserved regions" loop of `pmem_init`. -/
def pmem_reserved_step (bitmap_bit_size : Nat) (bm : Nat → Nat) (r : Region) : Nat → Nat :=
  if r.type = FREE then bm
  else
    let start_block := page_round_down r.base
    let end_block := page_round_up ((r.base + r.length) % U64)
    if end_block > bitmap_bit_size then bm
    else pmem_bitmap_mark_blocks bm start_block ((end_block + (U64 - start_block)) % U64) true

/-- The "mark reserved regions" loop of `pmem_init`. -/
def pmem_mark_reserved_regions (bitmap_bit_size : Nat) (regions : List Region)
    (bitmap : Nat → Nat) : Nat → Nat :=
  regions.foldl (pmem_reserved_step bitmap_bit_size) bitmap

/-- The body of the loop of `pmem_init` that looks for the lowest non-free
region at or above the kernel load address, on `nearest_address`. -/
def pmem_nearest_step (kernel_load_addr nearest : Nat) (r : Region) : Nat :=
  if r.type = FREE then nearest
  else if r.base < kernel_load_addr then nearest
  else if r.base < nearest then r.base else nearest

/-- The value of `nearest_address` after that loop. -/
def pmem_nearest_address (kernel_load_addr : Nat) (regions : List Region) : Nat :=
  regions.foldl (pmem_nearest_step kernel_load_addr) NEG1

/-- What `pmem_init` leaves in the globals of `pmem.c`: the bytes of the
bitmap, the physical address it was placed at, its sizes, `kernel_region_end`
and `pv_base`. -/
structure PmemInit where
  bitmap : Nat → Nat
  bitmap_addr : Nat
  bitmap_bit_size : Nat
  bitmap_byte_size : Nat
  kernel_region_end : Nat
  pv_base : Nat

/-- `pmem_init()` on the boot information `bi`; `bitmap0` is what the memory
at the chosen place held before.  `none` is the `panic` path. -/
def pmem_init (bi : BootInfo) (bitmap0 : Nat → Nat) : Option PmemInit :=
  let pv_base := bi.kernel_map.virt
  let range := pmem_get_usable_mem_range bi.regions
  let bitmap_bit_size := ((range.2 + (U64 - range.1)) % U64) / PAGE_SIZE
  let bitmap_byte_size := bitmap_bit_size / 8
  let bitmap_addr := pmem_bitmap_place bi.kernel_load_addr bitmap_byte_size bi.regions
  if bitmap_addr = NEG1 ∨
      (bitmap_addr + bitmap_byte_size) % U64 > (bi.kernel_map.phys + bi.kernel_map.size) % U64
  then none
  else
    let bitmap := (bitmap_addr + pv_base) % U64
    let bm1 := bitmap_fill bitmap0 0 bitmap_byte_size true
    let bm2 := pmem_mark_free_regions bi.regions bm1
    let bm3 := pmem_mark_reserved_regions bitmap_bit_size bi.regions bm2
    let nearest_address := pmem_nearest_address bi.kernel_load_addr bi.regions
    let kernel_region_end := page_round_up nearest_address
    let bm4 := pmem_bitmap_mark_blocks bm3 0 kernel_region_end true
    let bm5 := pmem_bitmap_mark_blocks bm4
      (page_round_down ((bitmap + (U64 - pv_base % U64)) % U64))
      (page_round_up bitmap_byte_size) true
    some { bitmap := bm5, bitmap_addr := bitmap_addr, bitmap_bit_size := bitmap_bit_size,
           bitmap_byte_size := bitmap_byte_size, kernel_region_end := kernel_region_end,
           pv_base := pv_base }

/-- `PAGE_GLOBAL` of `paging.h`. -/
def PAGE_GLOBAL : Nat := 256

/-- `vga_range` of `vmem.c`: (`base`, `end`). -/
def vga_range : Nat × Nat := (0xa0000, 0xbffff)

/-- `vmem_map_region_raw(pt4, vaddr, paddr, flags, blocks)`. -/
def vmem_map_region_raw (pt4 vaddr paddr flags blocks : Nat) (s : KState) : Res Unit :=
  vmem_map_region_with vmem_map_raw pt4 vaddr paddr flags blocks 0 s

/-- The statements of `vmem_init` up to the mapping for VGA: the root table is
allocated, the kernel region and the VGA range are mapped; `kernel_region_end`
is the global set by `pmem_init`.  The value is `kernel_pt4`. -/
def vmem_init_kernel (kernel_region_end : Nat) (s : KState) : Res Nat :=
  match pmem_alloc_raw 1 s with
  | Res.fatal s1 => Res.fatal s1
  | Res.timeout => Res.timeout
  | Res.ok p s1 =>
    let kernel_pt4 := P2V s1 p
    match vmem_map_region_raw kernel_pt4 s1.kernel_virt 0 (PAGE_WRITE ||| PAGE_GLOBAL)
        kernel_region_end s1 with
    | Res.fatal s2 => Res.fatal s2
    | Res.timeout => Res.timeout
    | Res.ok _ s2 =>
      let vga_size := page_round_up ((vga_range.2 + (U64 - vga_range.1)) % U64)
      match vmem_map_region_raw kernel_pt4 ((vga_range.1 + s2.kernel_virt) % U64) vga_range.1
          PAGE_WRITE vga_size s2 with
      | Res.fatal s3 => Res.fatal s3
      | Res.timeout => Res.timeout
      | Res.ok _ s3 => Res.ok kernel_pt4 s3

/-- The page count that `vmem_init` passes to `vmem_map_region_raw` for the
"pmem bitmap and page tables" mapping:
`page_round_up(bitmap_bit_size / PAGE_SIZE) + blocks_allocated`. -/
def vmem_init_bitmap_blocks (s : KState) : Nat :=
  (page_round_up (s.bitmap_bit_size / PAGE_SIZE) + s.blocks_allocated) % U64

/-- `vmem_init()`; `bitmap` is the (virtual) address of the frame bitmap, a
global of `pmem.c`.  The value is `kernel_pt4`; the load of the root into the
processor is left out. -/
def vmem_init (kernel_region_end bitmap : Nat) (s : KState) : Res Nat :=
  match vmem_init_kernel kernel_region_end s with
  | Res.fatal s3 => Res.fatal s3
  | Res.timeout => Res.timeout
  | Res.ok kernel_pt4 s3 =>
    match vmem_map_region_raw kernel_pt4 bitmap (V2P s3 bitmap) PAGE_WRITE
        (vmem_init_bitmap_blocks s3) s3 with
    | Res.fatal s4 => Res.fatal s4
    | Res.timeout => Res.timeout
    | Res.ok _ s4 => Res.ok kernel_pt4 s4

/-! ### Marking runs of bits: `buddy_bitmap_mark_bits`, and the bit-by-bit reading -/

/-- Modelled from the spec: `mem_set(ptr, val * -1, len)` on byte-addressed
memory (`0xff` for `true`, 0 for `false`). -/
def heap_fill (mem : Nat → Nat) (ptr len : Nat) (val : Bool) : Nat → Nat :=
  fun a => if ptr ≤ a ∧ a < ptr + len then (if val then 255 else 0) else mem a

/-- First loop of `buddy_bitmap_mark_bits`:
`for (; off % 8 && count > 0; ++off, --count) buddy_bitmap_mark_bit(bitmap, off, val);`
returning the memory, `off` and `count` at loop exit. -/
def buddy_mark_head (val : Bool) (bitmap : Nat) : Nat → (Nat → Nat) → Nat →
    (Nat → Nat) × Nat × Nat
  | 0, mem, off => (mem, off, 0)
  | count + 1, mem, off =>
    if off % 8 ≠ 0 then
      buddy_mark_head val bitmap count (buddy_bitmap_mark_bit mem bitmap off val) (off + 1)
    else (mem, off, count + 1)

/-- Last loop of `buddy_bitmap_mark_bits`:
`for (; count > 0; ++off, --count) buddy_bitmap_mark_bit(bitmap, off, val);`. -/
def buddy_mark_rest (val : Bool) (bitmap : Nat) : Nat → (Nat → Nat) → Nat → (Nat → Nat)
  | 0, mem, _ => mem
  | count + 1, mem, off =>
    buddy_mark_rest val bitmap count (buddy_bitmap_mark_bit mem bitmap off val) (off + 1)

/-- `buddy_bitmap_mark_bits(bitmap, off, count, val)`. -/
def buddy_bitmap_mark_bits (mem : Nat → Nat) (bitmap off count : Nat) (val : Bool) : Nat → Nat :=
  let h := buddy_mark_head val bitmap count mem off
  let mem1 := h.1
  let off1 := h.2.1
  let count1 := h.2.2
  if count1 ≥ 8 then
    buddy_mark_rest val bitmap (count1 % 8)
      (heap_fill mem1 (bitmap + off1 / 8) (count1 / 8) val) (off1 + (count1 - count1 % 8))
  else
    buddy_mark_rest val bitmap count1 mem1 off1

/-- The reading of `pmem_bitmap_mark_blocks(b, c, v)` to compare with: one call
`pmem_bitmap_mark_block(i, v)` for each `i` in `b .. b+c-1`, in this order. -/
def pmem_bitmap_mark_each (bitmap : Nat → Nat) (b c : Nat) (v : Bool) : Nat → Nat :=
  (List.range c).foldl (fun bm k => pmem_bitmap_mark_block bm (b + k) v) bitmap

/-- The reading of `buddy_bitmap_mark_bits(bitmap, off, count, val)` to compare
with: one call `buddy_bitmap_mark_bit(bitmap, i, val)` for each `i` in
`off .. off+count-1`, in this order. -/
def buddy_bitmap_mark_each (mem : Nat → Nat) (bitmap off count : Nat) (val : Bool) :
    Nat → Nat :=
  (List.range count).foldl (fun m k => buddy_bitmap_mark_bit m bitmap (off + k) val) mem

/-- The memory that holds the bytes `bm` from address `bitmap` on and `mem`
below it. -/
def heap_embed (bitmap : Nat) (bm mem : Nat → Nat) : Nat → Nat :=
  fun a => if bitmap ≤ a then bm (a - bitmap) else mem a

/-- Block `(la, x)` is block 0 of a layer 0..5 (it holds the bitmap) or an
ancestor of, or equal to, the block of an allocation `(address, size)` of the
list `live`. -/
def buddy_covered (self : BuddyAllocator) (live : List (Nat × Nat)) (la x : Nat) : Prop :=
  (x = 0 ∧ la ≤ 5) ∨
  ∃ p, p ∈ live ∧ ∃ L o, buddy_layer_from_size p.2 = some L ∧ o < 2 ^ L ∧
    p.1 = self.base_addr + o * buddy_layer_block_size L ∧ buddy_anc la x L o

/-- Between `s` and `s1` the tree of tables, typed by `lvl` in `s` and by
`lvl1` in `s1`, has grown only into frames that were free in `s`, and no word
outside the tables of `s` and the frames free in `s` has changed. -/
def tree_grown (s s1 : KState) (lvl lvl1 : Nat → Nat) : Prop :=
  (∀ X, lvl1 X ≠ 0 → lvl X ≠ 0 ∨ frame_free s X) ∧
  (∀ a, (∀ X, lvl X ≠ 0 ∨ frame_free s X → ¬ in_frame s X a) → s1.mem a = s.mem a)

/-- Every table on the walk of `vaddr` from `pt4`, given by the address field
of a present L4, L3 or L2 entry that the walk reads, satisfies `P`. -/
def walk_tables (s : KState) (pt4 vaddr : Nat) (P : Nat → Prop) : Prop :=
  GET_FLAG (s.mem (pt4_entry_of pt4 vaddr)) PAGE_PRESENT = true →
    P (ADDRESS (s.mem (pt4_entry_of pt4 vaddr))) ∧
    (GET_FLAG (s.mem (pt3_entry_of s pt4 vaddr)) PAGE_PRESENT = true →
      P (ADDRESS (s.mem (pt3_entry_of s pt4 vaddr))) ∧
      (GET_FLAG (s.mem (pt2_entry_of s pt4 vaddr)) PAGE_PRESENT = true →
        P (ADDRESS (s.mem (pt2_entry_of s pt4 vaddr)))))

/-- The precondition under which the recursion through `vmem_map` is bounded:
for every free frame `f` the L4, L3 and L2 entries on the walk of
`kernel_map.virt + f * PAGE_SIZE` in `pt4` are present. -/
def window_tables (s : KState) (pt4 : Nat) : Prop :=
  ∀ f, frame_free s f → tables_present s pt4 (kwin s f) = true

/-! ### A concrete state for evaluating the routines -/

/-- Memory given by a list of (address, word) pairs, zero elsewhere. -/
def memOfList : List (Nat × Nat) → Nat → Nat
  | [], _ => 0
  | (a, w) :: rest, x => if x = a then w else memOfList rest x

/-- A small kernel state: `kernel_map.virt = pv_base = 0xC0000000`, eight
frames of which 0..4 are used, the root table in frame 1 (virtual
`0xC0001000`), an L3 table in frame 2, an L2 table in frame 3 and an L1 table
in frame 4 that maps the kernel-virtual pages of frames 0..4. -/
def demo_state : KState where
  mem := memOfList
    [(0xC0001000, 0x2007), (0xC0002018, 0x3007), (0xC0003000, 0x4007),
     (0xC0004000, 0x0003), (0xC0004008, 0x1003), (0xC0004010, 0x2003),
     (0xC0004018, 0x3003), (0xC0004020, 0x4003)]
  bitmap := bitmapOfList [0xF8]
  bitmap_bit_size := 8
  next := 0
  blocks_allocated := 0
  pv_base := 0xC0000000
  kernel_virt := 0xC0000000

/-- Root table of `demo_state`. -/
def demo_pt4 : Nat := 0xC0001000

/-- The state of an outcome, if it has one. -/
def Res.state {α : Type} : Res α → Option KState
  | Res.ok _ s => some s
  | Res.fatal s => some s
  | Res.timeout => none

/-- The value of a normal return. -/
def Res.value {α : Type} : Res α → Option α
  | Res.ok a _ => some a
  | _ => none

/-- Whether the outcome is the fatal path. -/
def Res.isFatal {α : Type} : Res α → Bool
  | Res.fatal _ => true
  | _ => false

/-- Bit `block` of the bitmap of the outcome state. -/
def Res.bit {α : Type} (r : Res α) (block : Nat) : Option Bool :=
  (Res.state r).map (fun s => pmem_bitmap_get_block s.bitmap block)

/-- Word at `addr` in the outcome state. -/
def Res.word {α : Type} (r : Res α) (addr : Nat) : Option Nat :=
  (Res.state r).map (fun s => s.mem addr)

/-- Sequencing: run `f` on the state of a normal return. -/
def Res.andThen {α β : Type} (r : Res α) (f : α → KState → Res β) : Res β :=
  match r with
  | Res.ok a s => f a s
  | Res.fatal s => Res.fatal s
  | Res.timeout => Res.timeout

/-- The value of a normal return of a heap routine. -/
def BRes.value {α : Type} : BRes α → Option α
  | BRes.ok a _ => some a
  | BRes.fatal _ => none

/-- A single-page pool at `0x200000`. -/
def demo_pool : BuddyAllocator := { base_addr := 0x200000, blocks := 1 }

/-- A kernel state with the page tables of `demo_state` and 1024 frames:
frames 0..4 and 6..511 are used, frame 5 and the frames from 512 on are free,
and the cursor stands at frame 512, whose kernel-window page has no L1 table
yet. -/
def demo_state2 : KState :=
  { demo_state with
    bitmap := fun i => if i = 0 then 0xFB else if i < 64 then 0xFF else 0
    bitmap_bit_size := 1024
    next := 512 }

/-- The levels of the tables of `demo_state` and `demo_state2`. -/
def demo_lvl (F : Nat) : Nat :=
  if F = 1 then 4 else if F = 2 then 3 else if F = 3 then 2 else if F = 4 then 1 else 0

/-- The heap memory a heap routine leaves behind, on either path. -/
def BRes.mem {α : Type} : BRes α → (Nat → Nat)
  | BRes.ok _ m => m
  | BRes.fatal m => m

/-- Whether a heap routine took the fatal path. -/
def BRes.isFatal {α : Type} : BRes α → Bool
  | BRes.ok _ _ => false
  | BRes.fatal _ => true

/-- The page of `demo_pool` right after `buddy_init` on zeroed memory. -/
def demo_heap : Nat → Nat := buddy_init demo_pool (fun _ => 0)

/-- The page of `demo_pool` after one `buddy_alloc(8)` call, which returns
`0x200080`. -/
def demo_heap1 : Nat → Nat := (buddy_alloc demo_pool 8 demo_heap).mem

/-- The page of `demo_pool` after a second `buddy_alloc(8)` call, which returns
`0x200088`. -/
def demo_heap_pair : Nat → Nat := (buddy_alloc demo_pool 8 demo_heap1).mem

/-- The page `demo_heap_pair` with the byte `0xAB` stored in the second
block. -/
def demo_heap2 : Nat → Nat :=
  fun a => if a = 0x200088 then 0xAB else demo_heap_pair a

/-- The page of `demo_pool` after `k` allocations of 2048, 1024, 512, ...
bytes; after five of them every block outside the bitmap area is taken. -/
def demo_fill : Nat → (Nat → Nat)
  | 0 => demo_heap
  | k + 1 => (buddy_alloc demo_pool (4096 / 2 ^ (k + 1)) (demo_fill k)).mem

/-- A kernel state like `demo_state` with the kernel mapped at
`kernel_map.virt = pv_base = 0x8000000000`, whose L4 index is 1: the root table
in frame 1 (virtual `0x8000001000`) has its slot 1 point to the L3 table in
frame 2. -/
def demo_state_high : KState where
  mem := memOfList
    [(0x8000001008, 0x2007), (0x8000002000, 0x3007), (0x8000003000, 0x4007),
     (0x8000004000, 0x0003), (0x8000004008, 0x1003), (0x8000004010, 0x2003),
     (0x8000004018, 0x3003), (0x8000004020, 0x4003)]
  bitmap := bitmapOfList [0xF8]
  bitmap_bit_size := 8
  next := 0
  blocks_allocated := 0
  pv_base := 0x8000000000
  kernel_virt := 0x8000000000

/-- The L3 entry reached for `vaddr` from the returned root, in the state of a
normal return. -/
def Res.l3_entry_new (r : Res Nat) (vaddr : Nat) : Option Nat :=
  match r with
  | Res.ok root s => some (s.mem (pt3_entry_of s root vaddr))
  | _ => none

/-- The L3 entry reached for `vaddr` from the root `pt4`, in the state of a
normal return. -/
def Res.l3_entry_from (r : Res Nat) (pt4 vaddr : Nat) : Option Nat :=
  match r with
  | Res.ok _ s => some (s.mem (pt3_entry_of s pt4 vaddr))
  | _ => none

/-- A boot memory map with two free regions and no other region, loaded at
`0x100000`, with a kernel mapping of 2 MiB from `0x100000`. -/
def demo_boot : BootInfo where
  kernel_load_addr := 0x100000
  kernel_map := { phys := 0x100000, virt := 0xC0000000, size := 0x200000 }
  regions := [{ base := 0x0, length := 0x9FC00, type := FREE },
              { base := 0x100000, length := 0x7F00000, type := FREE }]

/-- The bit of frame `i` after `pmem_init`, if it returns. -/
def PmemInit.bit (r : Option PmemInit) (i : Nat) : Option Bool :=
  r.map (fun st => pmem_bitmap_get_block st.bitmap i)

/-- A boot memory map with a hole: free memory in frames 0..7 and 16..31, a
reserved region in frame 8, nothing in frames 9..15; the kernel is loaded at
`0x1000`. -/
def demo_boot_hole : BootInfo where
  kernel_load_addr := 0x1000
  kernel_map := { phys := 0x1000, virt := 0xC0000000, size := 0x100000 }
  regions := [{ base := 0x0, length := 0x8000, type := FREE },
              { base := 0x8000, length := 0x1000, type := 2 },
              { base := 0x10000, length := 0x10000, type := FREE }]

/-- A boot memory map with a free region shorter than a page that holds no
frame boundary (bytes `0x100..0x1FF`), free memory in frames 1..7 and 16..32,
a reserved region in frame 8, nothing in frames 9..15; the kernel is loaded at
`0x1000`. -/
def demo_boot_tiny : BootInfo where
  kernel_load_addr := 0x1000
  kernel_map := { phys := 0x1000, virt := 0xC0000000, size := 0x100000 }
  regions := [{ base := 0x100, length := 0x100, type := FREE },
              { base := 0x1000, length := 0x7000, type := FREE },
              { base := 0x8000, length := 0x1000, type := 2 },
              { base := 0x10000, length := 0x11000, type := FREE }]

/-- The sizes and places chosen by `pmem_init`, if it returns:
`bitmap_addr`, `bitmap_bit_size`, `bitmap_byte_size`, `kernel_region_end`. -/
def PmemInit.globals (r : Option PmemInit) : Option (Nat × Nat × Nat × Nat) :=
  r.map (fun st => (st.bitmap_addr, st.bitmap_bit_size, st.bitmap_byte_size,
    st.kernel_region_end))

/-- A machine of 1 GiB right after `pmem_init`: `2 ^ 18` frames, of which the
frames 0..263 are used (low memory and the eight frames of the bitmap at
physical `0x100000`), no page table yet, `kernel_map.virt = 0xC0000000`. -/
def demo_state_boot : KState where
  mem := fun _ => 0
  bitmap := fun i => if i < 33 then 255 else 0
  bitmap_bit_size := 2 ^ 18
  next := 264
  blocks_allocated := 0
  pv_base := 0xC0000000
  kernel_virt := 0xC0000000

/-- Whether the page of `vaddr` is mapped from the returned root, in the state
of a normal return. -/
def Res.mapped (r : Res Nat) (vaddr : Nat) : Option Bool :=
  match r with
  | Res.ok root s => some (leaf_present s root vaddr)
  | _ => none

/-- The page count for the bitmap mapping in the state of a normal return. -/
def Res.bitmap_blocks (r : Res Nat) : Option Nat :=
  match r with
  | Res.ok _ s => some (vmem_init_bitmap_blocks s)
  | _ => none

/-- A pool of two pages at `0x200000`. -/
def demo_pool2 : BuddyAllocator := { base_addr := 0x200000, blocks := 2 }

/-- The two-page pool after `buddy_init` on zeroed pages. -/
def demo_pages : Nat → Nat := buddy_init demo_pool2 (fun _ => 0)

/-- The two-page pool after `buddy_init` and one `buddy_alloc(2048)`. -/
def demo_pages1 : Nat → Nat := (buddy_alloc demo_pool2 2048 demo_pages).mem

/-- The two-page pool after `buddy_init` and two `buddy_alloc(2048)`. -/
def demo_pages2 : Nat → Nat := (buddy_alloc demo_pool2 2048 demo_pages1).mem

/-- A boot memory map whose lowest free region starts at 1 MiB: free memory in
frames 256..511, a reserved region in frame 512; the kernel is loaded at
`0x100000`. -/
def demo_boot_offset : BootInfo where
  kernel_load_addr := 0x100000
  kernel_map := { phys := 0x100000, virt := 0xC0000000, size := 0x200000 }
  regions := [{ base := 0x100000, length := 0x100000, type := FREE },
              { base := 0x200000, length := 0x1000, type := 2 }]

/-- The two-page pool after `buddy_init` and one `buddy_alloc(128)`. -/
def demo_pages_small : Nat → Nat := (buddy_alloc demo_pool2 128 demo_pages).mem

/-! ## Theorems -/

/-! ### The next-fit scan -/

theorem succ_mod_cases (x N : Nat) :
    (x + 1) % N = 0 ∨ (x + 1) % N = x % N + 1 := by
  rcases Nat.eq_zero_or_pos N with h0 | hN
  · subst h0; simp
  · have hr : x % N < N := Nat.mod_lt _ hN
    have hx : x + 1 = N * (x / N) + (x % N + 1) := by
      have := Nat.div_add_mod x N
      omega
    have hm : (x + 1) % N = (x % N + 1) % N := by
      rw [hx, Nat.mul_add_mod]
    by_cases hlt : x % N + 1 < N
    · right; rw [hm, Nat.mod_eq_of_lt hlt]
    · left
      have : x % N + 1 = N := by omega
      rw [hm, this, Nat.mod_self]

/-- The block examined by iteration `i + 1` is the successor of the block of
iteration `i`, or block 0 (also when `next + i` overflows the `u64`). -/
theorem cur_block_succ (N next i : Nat) :
    ((next + (i + 1)) % U64) % N = 0 ∨
      ((next + (i + 1)) % U64) % N = ((next + i) % U64) % N + 1 := by
  have hx : (next + (i + 1)) % U64 = 0 ∨ (next + (i + 1)) % U64 = (next + i) % U64 + 1 := by
    have := succ_mod_cases (next + i) U64
    rwa [← Nat.add_assoc]
  rcases hx with h | h
  · left; rw [h, Nat.zero_mod]
  · rw [h]; exact succ_mod_cases _ _

theorem cur_block_lt (N next i : Nat) (hN : 0 < N) : ((next + i) % U64) % N < N :=
  Nat.mod_lt _ hN

/-- Soundness of the scan: a found block starts a run of `size` clear bits that
ends inside the bitmap, and the cursor is left one past the start. -/
theorem pmem_find_loop_sound (bm : Nat → Nat) (N size next : Nat) (hN : 0 < N)
    (hsz : 1 ≤ size) :
    ∀ (fuel i cs st : Nat),
      (((next + i) % U64) % N = 0 ∨ ((next + i) % U64) % N = st + cs) →
      (∀ j, j < cs → pmem_bitmap_get_block bm (st + j) = false) →
      cs < size →
      (pmem_find_loop bm N size next fuel i cs st).1 ≠ NEG1 →
      (pmem_find_loop bm N size next fuel i cs st).1 + size ≤ N ∧
      (∀ j, j < size →
        pmem_bitmap_get_block bm ((pmem_find_loop bm N size next fuel i cs st).1 + j) = false) ∧
      (pmem_find_loop bm N size next fuel i cs st).2 =
        ((pmem_find_loop bm N size next fuel i cs st).1 + 1) % N := by
  intro fuel
  induction fuel with
  | zero => intro i cs st _ _ _ h; simp [pmem_find_loop] at h
  | succ fuel ih =>
    intro i cs st hcb hclear hcs hne
    have hlt := cur_block_lt N next i hN
    have hnx := cur_block_succ N next i
    simp only [pmem_find_loop] at hne ⊢
    by_cases hused : pmem_bitmap_get_block bm (((next + i) % U64) % N) = true
    · rw [if_pos hused] at hne ⊢
      refine ih (i + 1) 0 _ ?_ ?_ (by omega) hne
      · rcases hnx with h | h
        · left; exact h
        · right; rw [h]
      · intro j hj; omega
    · rw [if_neg hused] at hne ⊢
      have hfree : pmem_bitmap_get_block bm (((next + i) % U64) % N) = false := by
        simpa using hused
      by_cases hz : ((next + i) % U64) % N = 0
      · simp only [hz, if_true] at hne hfree hnx ⊢
        by_cases hge : 0 + 1 ≥ size
        · rw [if_pos hge]
          have hs1 : size = 1 := by omega
          subst hs1
          refine ⟨by omega, ?_, rfl⟩
          intro j hj
          have : j = 0 := by omega
          subst this; simpa using hfree
        · rw [if_neg hge] at hne ⊢
          refine ih (i + 1) (0 + 1) 0 ?_ ?_ (by omega) hne
          · rcases hnx with h | h
            · left; exact h
            · right; rw [h]
          · intro j hj
            have : j = 0 := by omega
            subst this; simpa using hfree
      · simp only [hz, if_false] at hne ⊢
        have hcur : ((next + i) % U64) % N = st + cs := by
          rcases hcb with h | h
          · exact absurd h hz
          · exact h
        have hclear1 : ∀ j, j < cs + 1 → pmem_bitmap_get_block bm (st + j) = false := by
          intro j hj
          by_cases hjc : j < cs
          · exact hclear j hjc
          · have : j = cs := by omega
            subst this; rw [← hcur]; exact hfree
        by_cases hge : cs + 1 ≥ size
        · rw [if_pos hge]
          have hs1 : size = cs + 1 := by omega
          refine ⟨by omega, ?_, rfl⟩
          intro j hj
          exact hclear1 j (by omega)
        · rw [if_neg hge] at hne ⊢
          refine ih (i + 1) (cs + 1) st ?_ hclear1 (by omega) hne
          rcases hnx with h | h
          · left; exact h
          · right; rw [h, hcur]; omega

/-- Completeness of the scan: if the iterations `i0 .. i0 + size - 1` visit
clear bits and do not cross block 0 after the first, the scan finds a region. -/
theorem pmem_find_loop_complete (bm : Nat → Nat) (N size next i0 : Nat) (hN : 0 < N)
    (hN64 : N + N ≤ U64) (hwin : i0 + size ≤ N)
    (hfree : ∀ j, j < size → pmem_bitmap_get_block bm (((next + (i0 + j)) % U64) % N) = false)
    (hnz : ∀ j, 0 < j → j < size → ((next + (i0 + j)) % U64) % N ≠ 0) :
    ∀ (fuel i cs st : Nat), i + fuel = N → i ≤ i0 + cs → cs < size → st ≤ N →
      (pmem_find_loop bm N size next fuel i cs st).1 ≠ NEG1 := by
  intro fuel
  induction fuel with
  | zero => intro i cs st h1 h2 h3 _; omega
  | succ fuel ih =>
    intro i cs st hfuel hi hcs hst
    have hlt := cur_block_lt N next i hN
    simp only [pmem_find_loop]
    by_cases hused : pmem_bitmap_get_block bm (((next + i) % U64) % N) = true
    · rw [if_pos hused]
      have hlt0 : i < i0 := by
        by_contra hge
        have hge : i0 ≤ i := by omega
        have := hfree (i - i0) (by omega)
        rw [show i0 + (i - i0) = i by omega] at this
        rw [this] at hused
        exact Bool.noConfusion hused
      exact ih (i + 1) 0 _ (by omega) (by omega) (by omega) (by omega)
    · rw [if_neg hused]
      by_cases hz : ((next + i) % U64) % N = 0
      · simp only [hz, if_true]
        by_cases hge : 0 + 1 ≥ size
        · rw [if_pos hge]; simp only [NEG1]; omega
        · rw [if_neg hge]
          have hle : i ≤ i0 := by
            by_contra hgt
            have := hnz (i - i0) (by omega) (by omega)
            rw [show i0 + (i - i0) = i by omega] at this
            exact this hz
          exact ih (i + 1) (0 + 1) 0 (by omega) (by omega) (by omega) (by omega)
      · simp only [hz, if_false]
        by_cases hge : cs + 1 ≥ size
        · rw [if_pos hge]
          have h64 : N + N ≤ 2 ^ 64 := hN64
          simp only [NEG1]
          omega
        · rw [if_neg hge]
          exact ih (i + 1) (cs + 1) st (by omega) (by omega) (by omega) hst

theorem pmem_reset_next_le (bm : Nat → Nat) (next : Nat) : pmem_reset_next bm next ≤ next := by
  unfold pmem_reset_next
  split <;> omega

theorem pmem_reset_next_cases (bm : Nat → Nat) (next : Nat) :
    pmem_reset_next bm next = 0 ∨
      (pmem_reset_next bm next = next ∧ 0 < next ∧
        pmem_bitmap_get_block bm (next - 1) = true) := by
  unfold pmem_reset_next
  by_cases h : next > 0 ∧ pmem_bitmap_get_block bm (next - 1) = false
  · left; rw [if_pos h]
  · rw [if_neg h]
    rcases Nat.eq_zero_or_pos next with h0 | hp
    · left; exact h0
    · right
      refine ⟨rfl, hp, ?_⟩
      cases hb : pmem_bitmap_get_block bm (next - 1)
      · exact absurd ⟨hp, hb⟩ h
      · rfl

/-- A found block starts a run of clear bits inside the bitmap. -/
theorem pmem_find_free_region_run (bm : Nat → Nat) (N next n : Nat)
    (hN : 0 < N) (hN64 : N < U64) (hnext : next < N) (hn : 1 ≤ n)
    (hfound : (pmem_find_free_region bm N next n).1 ≠ NEG1) :
    (pmem_find_free_region bm N next n).1 + n ≤ N ∧
      ∀ j, j < n →
        pmem_bitmap_get_block bm ((pmem_find_free_region bm N next n).1 + j) = false := by
  unfold pmem_find_free_region at hfound ⊢
  simp only [] at hfound ⊢
  have hle := pmem_reset_next_le bm next
  have h0 : ((pmem_reset_next bm next + 0) % U64) % N = pmem_reset_next bm next % N + 0 := by
    rw [Nat.add_zero, Nat.add_zero, Nat.mod_eq_of_lt (a := pmem_reset_next bm next)]
    omega
  have := pmem_find_loop_sound bm N n (pmem_reset_next bm next) hN hn N 0 0
    (pmem_reset_next bm next % N) (Or.inr h0) (by intro j hj; omega) (by omega) hfound
  exact ⟨this.1, this.2.1⟩

/-- C1: on a bitmap of `N > 0` bits with cursor below `N` and `n ≥ 1`, a block
`s` returned by `pmem_find_free_region(n)` other than `-1` satisfies
`s + n ≤ N` and the bits `s .. s + n - 1` are all clear: the run never wraps
past the end of the bitmap. -/
theorem pmem_find_free_region_sound (bm : Nat → Nat) (N next n : Nat)
    (hN : 0 < N) (hN64 : N < U64) (hnext : next < N) (hn : 1 ≤ n)
    (hfound : (pmem_find_free_region bm N next n).1 ≠ NEG1) :
    (pmem_find_free_region bm N next n).1 + n ≤ N ∧
      ∀ j, j < n →
        pmem_bitmap_get_block bm ((pmem_find_free_region bm N next n).1 + j) = false := by
  unfold pmem_find_free_region at hfound ⊢
  simp only [] at hfound ⊢
  have hle := pmem_reset_next_le bm next
  have h0 : ((pmem_reset_next bm next + 0) % U64) % N = pmem_reset_next bm next % N + 0 := by
    rw [Nat.add_zero, Nat.add_zero, Nat.mod_eq_of_lt (a := pmem_reset_next bm next)]
    omega
  have := pmem_find_loop_sound bm N n (pmem_reset_next bm next) hN hn N 0 0
    (pmem_reset_next bm next % N) (Or.inr h0) (by intro j hj; omega) (by omega) hfound
  exact ⟨this.1, this.2.1⟩

theorem pmem_find_free_region_sound_witness :
    (pmem_find_free_region (bitmapOfList [0xF0]) 8 0 2).1 + 2 ≤ 8 ∧
      ∀ j, j < 2 →
        pmem_bitmap_get_block (bitmapOfList [0xF0])
          ((pmem_find_free_region (bitmapOfList [0xF0]) 8 0 2).1 + j) = false :=
  pmem_find_free_region_sound (bitmapOfList [0xF0]) 8 0 2 (by decide) (by decide) (by decide)
    (by decide) (by decide)

/-- C2: on a bitmap of `N > 0` bits (`N ≤ 2^63`, so that `next + i` cannot
overflow; `pmem_init` only produces sizes below `2^52`) with cursor below `N`
and `n ≥ 1` (in particular `1 ≤ n ≤ N`), `pmem_find_free_region(n)` returns `-1` if and only if the
bitmap has no run of `n` consecutive clear bits `s .. s + n - 1` with
`s + n ≤ N`; a run straddling the cursor is found as well. -/
theorem pmem_find_free_region_complete (bm : Nat → Nat) (N next n : Nat)
    (hN : 0 < N) (hN63 : N ≤ 2 ^ 63) (hnext : next < N) (hn : 1 ≤ n) :
    (pmem_find_free_region bm N next n).1 = NEG1 ↔
      ¬ ∃ s, s + n ≤ N ∧ ∀ j, j < n → pmem_bitmap_get_block bm (s + j) = false := by
  have hN64 : N < U64 := by simp only [U64]; omega
  have h2N : N + N ≤ U64 := by simp only [U64]; omega
  constructor
  · intro hneg hex
    obtain ⟨s, hsN, hs⟩ := hex
    apply absurd hneg
    unfold pmem_find_free_region
    simp only []
    have hle := pmem_reset_next_le bm next
    have hmod : ∀ i, i < N →
        ((pmem_reset_next bm next + i) % U64) % N = (pmem_reset_next bm next + i) % N := by
      intro i hi
      rw [Nat.mod_eq_of_lt (a := pmem_reset_next bm next + i)]
      omega
    -- the window of iterations that visits the run
    have hwin : ∃ i0, i0 + n ≤ N ∧
        ∀ j, j < n → (pmem_reset_next bm next + (i0 + j)) % N = s + j := by
      rcases pmem_reset_next_cases bm next with h0 | ⟨heq, hpos, hset⟩
      · refine ⟨s, hsN, ?_⟩
        intro j hj
        rw [h0, Nat.zero_add, Nat.mod_eq_of_lt]; omega
      · rw [heq]
        by_cases hlo : next ≤ s
        · refine ⟨s - next, by omega, ?_⟩
          intro j hj
          rw [show next + (s - next + j) = s + j by omega, Nat.mod_eq_of_lt]; omega
        · have hout : s + n ≤ next - 1 := by
            by_contra hc
            have := hs (next - 1 - s) (by omega)
            rw [show s + (next - 1 - s) = next - 1 by omega] at this
            rw [this] at hset
            exact Bool.noConfusion hset
          refine ⟨N - next + s, by omega, ?_⟩
          intro j hj
          rw [show next + (N - next + s + j) = N + (s + j) by omega, Nat.add_mod_left,
            Nat.mod_eq_of_lt]
          omega
    obtain ⟨i0, hi0, hvis⟩ := hwin
    refine pmem_find_loop_complete bm N n (pmem_reset_next bm next) i0 hN h2N hi0 ?_ ?_
      N 0 0 _ (by omega) (by omega) (by omega) (Nat.le_of_lt (Nat.mod_lt _ hN))
    · intro j hj
      rw [hmod (i0 + j) (by omega), hvis j hj]
      exact hs j hj
    · intro j hj0 hj
      rw [hmod (i0 + j) (by omega), hvis j hj]
      omega
  · intro hno
    by_contra hne
    have := pmem_find_free_region_run bm N next n hN hN64 hnext hn hne
    exact hno ⟨_, this.1, this.2⟩

theorem pmem_find_free_region_complete_witness :
    (pmem_find_free_region (bitmapOfList [0x0F]) 8 3 4).1 = NEG1 ↔
      ¬ ∃ s, s + 4 ≤ 8 ∧
        ∀ j, j < 4 → pmem_bitmap_get_block (bitmapOfList [0x0F]) (s + j) = false :=
  pmem_find_free_region_complete (bitmapOfList [0x0F]) 8 3 4 (by decide) (by decide)
    (by decide) (by decide)

/-! ### Mapping a present page, unmapping -/

theorem vmem_ensure_table_present (alloc : KState → Res Nat) (slot : Nat) (s : KState)
    (h : GET_FLAG (s.mem slot) PAGE_PRESENT = true) :
    vmem_ensure_table alloc slot s = Res.ok () s := by
  unfold vmem_ensure_table
  rw [if_pos h]

/-- With all three tables present `vmem_map` and `vmem_map_raw` only look at
the leaf entry. -/
theorem vmem_map_with_tables_present (alloc : KState → Res Nat) (pt4 v p f : Nat) (s : KState)
    (h : tables_present s pt4 v = true) :
    vmem_map_with alloc pt4 v p f s =
      if GET_FLAG (s.mem (pt1_entry_of s pt4 v)) PAGE_PRESENT then Res.fatal s
      else Res.ok () { s with
        mem := mem_write s.mem (pt1_entry_of s pt4 v) ((p ||| f ||| PAGE_PRESENT) % U64) } := by
  simp only [tables_present, pt2_entry_of, pt3_entry_of, pt4_entry_of, Bool.and_eq_true] at h
  obtain ⟨⟨h4, h3⟩, h2⟩ := h
  unfold vmem_map_with
  simp only [pt1_entry_of, pt2_entry_of, pt3_entry_of, pt4_entry_of]
  rw [vmem_ensure_table_present alloc _ s h4]
  simp only []
  rw [vmem_ensure_table_present alloc _ s h3]
  simp only []
  rw [vmem_ensure_table_present alloc _ s h2]

/-- C7: when the leaf entry of `v` is present, `vmem_map` and `vmem_map_raw`
take the fatal path for all `p` and `f`, halting in the unchanged state: no
page-table entry and no bitmap bit is modified. -/
theorem vmem_map_present_is_fatal (fuel pt4 v p f : Nat) (s : KState)
    (h : leaf_present s pt4 v = true) :
    vmem_map (fuel + 1) pt4 v p f s = Res.fatal s ∧
      vmem_map_raw pt4 v p f s = Res.fatal s := by
  simp only [leaf_present, Bool.and_eq_true] at h
  obtain ⟨ht, hl⟩ := h
  constructor
  · simp only [vmem_map]
    rw [vmem_map_with_tables_present _ pt4 v p f s ht, if_pos hl]
  · simp only [vmem_map_raw]
    rw [vmem_map_with_tables_present _ pt4 v p f s ht, if_pos hl]

/-- `vmem_unmap` in one equation: the leaf entry is zeroed when it is reached
and present, the fatal path is taken otherwise. -/
theorem vmem_unmap_eq (pt4 v : Nat) (s : KState) :
    vmem_unmap pt4 v s =
    if leaf_present s pt4 v then
      Res.ok () { s with mem := mem_write s.mem (pt1_entry_of s pt4 v) 0 }
    else Res.fatal s := by
  unfold vmem_unmap leaf_present tables_present pt1_entry_of pt2_entry_of pt3_entry_of
    pt4_entry_of
  simp only []
  cases h4 : GET_FLAG (s.mem (entry_addr pt4 (INDEX_PT4 v))) PAGE_PRESENT <;>
    simp only [Bool.not_false, Bool.not_true, if_true, Bool.false_and, Bool.true_and,
      Bool.false_eq_true, if_false]
  cases h3 : GET_FLAG (s.mem (entry_addr (P2V s (ADDRESS (s.mem (entry_addr pt4
      (INDEX_PT4 v))))) (INDEX_PT3 v))) PAGE_PRESENT <;>
    simp only [Bool.not_false, Bool.not_true, if_true, Bool.false_and, Bool.true_and,
      Bool.false_eq_true, if_false]
  cases h2 : GET_FLAG (s.mem (entry_addr (P2V s (ADDRESS (s.mem (entry_addr (P2V s
      (ADDRESS (s.mem (entry_addr pt4 (INDEX_PT4 v))))) (INDEX_PT3 v))))) (INDEX_PT2 v)))
      PAGE_PRESENT <;>
    simp only [Bool.not_false, Bool.not_true, if_true, Bool.false_and, Bool.true_and,
      Bool.false_eq_true, if_false]
  cases h1 : GET_FLAG (s.mem (entry_addr (P2V s (ADDRESS (s.mem (entry_addr (P2V s
      (ADDRESS (s.mem (entry_addr (P2V s (ADDRESS (s.mem (entry_addr pt4 (INDEX_PT4 v)))))
      (INDEX_PT3 v))))) (INDEX_PT2 v))))) (INDEX_PT1 v))) PAGE_PRESENT <;>
    simp only [Bool.not_false, Bool.not_true, if_true, Bool.false_and, Bool.true_and,
      Bool.false_eq_true, if_false]

/-- C8: `vmem_unmap` takes the fatal path exactly when the L4, L3, L2 or L1
entry on the walk of `v` is not present, and then halts in the unchanged
state; otherwise it returns in the state that differs from the old one only
in the leaf entry of `v`, which is 0 (no other entry, no bitmap bit and no
other field changes). -/
theorem vmem_unmap_spec (pt4 v : Nat) (s : KState) :
    (leaf_present s pt4 v = false → vmem_unmap pt4 v s = Res.fatal s) ∧
    (leaf_present s pt4 v = true →
      vmem_unmap pt4 v s =
        Res.ok () { s with mem := mem_write s.mem (pt1_entry_of s pt4 v) 0 }) ∧
    ((∃ s1, vmem_unmap pt4 v s = Res.fatal s1) ↔ leaf_present s pt4 v = false) ∧
    (∀ a, mem_write s.mem (pt1_entry_of s pt4 v) 0 a =
      if a = pt1_entry_of s pt4 v then 0 else s.mem a) := by
  have key := vmem_unmap_eq pt4 v s
  refine ⟨?_, ?_, ?_, ?_⟩
  · intro h; rw [key, h]; rfl
  · intro h; rw [key, h]; rfl
  · constructor
    · rintro ⟨s1, hs1⟩
      cases hl : leaf_present s pt4 v
      · rfl
      · rw [key, hl] at hs1
        simp only [if_true] at hs1
        exact Res.noConfusion hs1
    · intro h
      exact ⟨s, by rw [key, h]; rfl⟩
  · intro a; rfl

theorem vmem_map_present_is_fatal_witness :
    vmem_map (0 + 1) demo_pt4 0xC0000000 0x7000 PAGE_WRITE demo_state = Res.fatal demo_state ∧
      vmem_map_raw demo_pt4 0xC0000000 0x7000 PAGE_WRITE demo_state = Res.fatal demo_state :=
  vmem_map_present_is_fatal 0 demo_pt4 0xC0000000 0x7000 PAGE_WRITE demo_state (by decide)

/-- C3 (fails on the code): in `demo_state` the call `pmem_alloc(pt4, 1)`
returns the physical address `0x5000`, having mapped it at
`kernel_map.virt + 0x5000`; the following `pmem_free(pt4, 0x5000, 1)` passes
the physical address to `vmem_unmap_region` as a virtual address, finds it
unmapped and takes the fatal path, with bit 5 of the bitmap still set. -/
theorem pmem_alloc_then_free_is_fatal :
    Res.value (pmem_alloc 1 demo_pt4 1 demo_state) = some 0x5000 ∧
    pmem_bitmap_get_block demo_state.bitmap 5 = false ∧
    Res.isFatal (Res.andThen (pmem_alloc 1 demo_pt4 1 demo_state)
      (fun p s => pmem_free demo_pt4 p 1 s)) = true ∧
    Res.bit (Res.andThen (pmem_alloc 1 demo_pt4 1 demo_state)
      (fun p s => pmem_free demo_pt4 p 1 s)) 5 = some true := by
  decide

/-! ### buddy.c: layers -/

theorem div_eq_one_iff (a n : Nat) (hn : 0 < n) : a / n = 1 ↔ n ≤ a ∧ a < 2 * n := by
  constructor
  · intro h
    have h1 : 1 ≤ a / n := by omega
    have h2 : a / n < 2 := by omega
    rw [Nat.le_div_iff_mul_le hn] at h1
    rw [Nat.div_lt_iff_lt_mul hn] at h2
    omega
  · rintro ⟨h1, h2⟩
    have h3 : 1 ≤ a / n := by rw [Nat.le_div_iff_mul_le hn]; omega
    have h4 : a / n < 2 := by rw [Nat.div_lt_iff_lt_mul hn]; omega
    omega

theorem step_neg_layer (n left layer size size2 : Nat) (h : ¬ size / n = 1)
    (h2 : size / 2 = size2) :
    buddy_layer_loop n (left + 1) layer size = buddy_layer_loop n left (layer + 1) size2 := by
  subst h2; simp only [buddy_layer_loop]; rw [if_neg h]

theorem step_pos_layer (n left layer size : Nat) (h : size / n = 1) :
    buddy_layer_loop n (left + 1) layer size = layer := by
  simp only [buddy_layer_loop]; rw [if_pos h]

/-- Value of `buddy_layer_from_size` by size class. -/
theorem buddy_layer_from_size_cases (n : Nat) (hn : n ≤ 2048) :
    (n ≤ 8 ∧ buddy_layer_from_size n = some 9) ∨
    (8 < n ∧ n ≤ 16 ∧ buddy_layer_from_size n = some 8) ∨
    (16 < n ∧ n ≤ 32 ∧ buddy_layer_from_size n = some 7) ∨
    (32 < n ∧ n ≤ 64 ∧ buddy_layer_from_size n = some 6) ∨
    (64 < n ∧ n ≤ 128 ∧ buddy_layer_from_size n = some 5) ∨
    (128 < n ∧ n ≤ 256 ∧ buddy_layer_from_size n = some 4) ∨
    (256 < n ∧ n ≤ 512 ∧ buddy_layer_from_size n = some 3) ∨
    (512 < n ∧ n ≤ 1024 ∧ buddy_layer_from_size n = some 2) ∨
    (1024 < n ∧ n ≤ 2048 ∧ buddy_layer_from_size n = some 1) := by
  by_cases h8 : n ≤ 8
  · left
    refine ⟨h8, ?_⟩
    simp only [buddy_layer_from_size, GREATEST, PAGE_SIZE, SMALLEST, LAYERS]
    rw [if_neg (by omega), if_pos h8]
  · right
    have hpos : 0 < n := by omega
    have key : ∀ a, a / n = 1 ↔ n ≤ a ∧ a < 2 * n := fun a => div_eq_one_iff a n hpos
    have hv : buddy_layer_from_size n = some (buddy_layer_loop n 10 0 4096) := by
      simp only [buddy_layer_from_size, GREATEST, PAGE_SIZE, SMALLEST, LAYERS]
      rw [if_neg (by omega), if_neg h8]
    have hc : (8 < n ∧ n ≤ 16) ∨ (16 < n ∧ n ≤ 32) ∨ (32 < n ∧ n ≤ 64) ∨ (64 < n ∧ n ≤ 128) ∨
        (128 < n ∧ n ≤ 256) ∨ (256 < n ∧ n ≤ 512) ∨ (512 < n ∧ n ≤ 1024) ∨
        (1024 < n ∧ n ≤ 2048) := by
      omega
    rcases hc with c | c | c | c | c | c | c | c
    · left; refine ⟨c.1, c.2, ?_⟩
      rw [hv]
      rw [step_neg_layer n _ _ 4096 2048 (by rw [key]; omega) rfl,
        step_neg_layer n _ _ 2048 1024 (by rw [key]; omega) rfl,
        step_neg_layer n _ _ 1024 512 (by rw [key]; omega) rfl,
        step_neg_layer n _ _ 512 256 (by rw [key]; omega) rfl,
        step_neg_layer n _ _ 256 128 (by rw [key]; omega) rfl,
        step_neg_layer n _ _ 128 64 (by rw [key]; omega) rfl,
        step_neg_layer n _ _ 64 32 (by rw [key]; omega) rfl,
        step_neg_layer n _ _ 32 16 (by rw [key]; omega) rfl,
        step_pos_layer n _ _ 16 (by rw [key]; omega)]
    · right; left; refine ⟨c.1, c.2, ?_⟩
      rw [hv]
      rw [step_neg_layer n _ _ 4096 2048 (by rw [key]; omega) rfl,
        step_neg_layer n _ _ 2048 1024 (by rw [key]; omega) rfl,
        step_neg_layer n _ _ 1024 512 (by rw [key]; omega) rfl,
        step_neg_layer n _ _ 512 256 (by rw [key]; omega) rfl,
        step_neg_layer n _ _ 256 128 (by rw [key]; omega) rfl,
        step_neg_layer n _ _ 128 64 (by rw [key]; omega) rfl,
        step_neg_layer n _ _ 64 32 (by rw [key]; omega) rfl,
        step_pos_layer n _ _ 32 (by rw [key]; omega)]
    · right; right; left; refine ⟨c.1, c.2, ?_⟩
      rw [hv]
      rw [step_neg_layer n _ _ 4096 2048 (by rw [key]; omega) rfl,
        step_neg_layer n _ _ 2048 1024 (by rw [key]; omega) rfl,
        step_neg_layer n _ _ 1024 512 (by rw [key]; omega) rfl,
        step_neg_layer n _ _ 512 256 (by rw [key]; omega) rfl,
        step_neg_layer n _ _ 256 128 (by rw [key]; omega) rfl,
        step_neg_layer n _ _ 128 64 (by rw [key]; omega) rfl,
        step_pos_layer n _ _ 64 (by rw [key]; omega)]
    · right; right; right; left; refine ⟨c.1, c.2, ?_⟩
      rw [hv]
      rw [step_neg_layer n _ _ 4096 2048 (by rw [key]; omega) rfl,
        step_neg_layer n _ _ 2048 1024 (by rw [key]; omega) rfl,
        step_neg_layer n _ _ 1024 512 (by rw [key]; omega) rfl,
        step_neg_layer n _ _ 512 256 (by rw [key]; omega) rfl,
        step_neg_layer n _ _ 256 128 (by rw [key]; omega) rfl,
        step_pos_layer n _ _ 128 (by rw [key]; omega)]
    · right; right; right; right; left; refine ⟨c.1, c.2, ?_⟩
      rw [hv]
      rw [step_neg_layer n _ _ 4096 2048 (by rw [key]; omega) rfl,
        step_neg_layer n _ _ 2048 1024 (by rw [key]; omega) rfl,
        step_neg_layer n _ _ 1024 512 (by rw [key]; omega) rfl,
        step_neg_layer n _ _ 512 256 (by rw [key]; omega) rfl,
        step_pos_layer n _ _ 256 (by rw [key]; omega)]
    · right; right; right; right; right; left; refine ⟨c.1, c.2, ?_⟩
      rw [hv]
      rw [step_neg_layer n _ _ 4096 2048 (by rw [key]; omega) rfl,
        step_neg_layer n _ _ 2048 1024 (by rw [key]; omega) rfl,
        step_neg_layer n _ _ 1024 512 (by rw [key]; omega) rfl,
        step_pos_layer n _ _ 512 (by rw [key]; omega)]
    · right; right; right; right; right; right; left; refine ⟨c.1, c.2, ?_⟩
      rw [hv]
      rw [step_neg_layer n _ _ 4096 2048 (by rw [key]; omega) rfl,
        step_neg_layer n _ _ 2048 1024 (by rw [key]; omega) rfl,
        step_pos_layer n _ _ 1024 (by rw [key]; omega)]
    · right; right; right; right; right; right; right; refine ⟨c.1, c.2, ?_⟩
      rw [hv]
      rw [step_neg_layer n _ _ 4096 2048 (by rw [key]; omega) rfl,
        step_pos_layer n _ _ 2048 (by rw [key]; omega)]

/-- C9: for `n ≤ 2048`, `buddy_layer_from_size(n)` returns a layer `L` with
`1 ≤ L ≤ 9`, `buddy_layer_block_size(L) = 4096 / 2^L ≥ n` and `L = 9` or
`buddy_layer_block_size(L + 1) < n` (the deepest layer that fits); for
`n > 2048` it takes the fatal path.  The value 0 is never returned. -/
theorem buddy_layer_from_size_spec (n : Nat) :
    (n ≤ 2048 → ∃ L, buddy_layer_from_size n = some L ∧ 1 ≤ L ∧ L ≤ 9 ∧
      buddy_layer_block_size L = 4096 / 2 ^ L ∧ n ≤ buddy_layer_block_size L ∧
      (L = 9 ∨ buddy_layer_block_size (L + 1) < n)) ∧
    (2048 < n → buddy_layer_from_size n = none) := by
  constructor
  · intro hn
    rcases buddy_layer_from_size_cases n hn with
      ⟨h, e⟩ | ⟨h1, h2, e⟩ | ⟨h1, h2, e⟩ | ⟨h1, h2, e⟩ | ⟨h1, h2, e⟩ | ⟨h1, h2, e⟩ |
      ⟨h1, h2, e⟩ | ⟨h1, h2, e⟩ | ⟨h1, h2, e⟩
    · exact ⟨9, e, by omega, by omega, by decide, by
        rw [show buddy_layer_block_size 9 = 8 by decide]; omega, Or.inl rfl⟩
    · exact ⟨8, e, by omega, by omega, by decide, by
        rw [show buddy_layer_block_size 8 = 16 by decide]; omega, Or.inr (by
        rw [show buddy_layer_block_size (8 + 1) = 8 by decide]; omega)⟩
    · exact ⟨7, e, by omega, by omega, by decide, by
        rw [show buddy_layer_block_size 7 = 32 by decide]; omega, Or.inr (by
        rw [show buddy_layer_block_size (7 + 1) = 16 by decide]; omega)⟩
    · exact ⟨6, e, by omega, by omega, by decide, by
        rw [show buddy_layer_block_size 6 = 64 by decide]; omega, Or.inr (by
        rw [show buddy_layer_block_size (6 + 1) = 32 by decide]; omega)⟩
    · exact ⟨5, e, by omega, by omega, by decide, by
        rw [show buddy_layer_block_size 5 = 128 by decide]; omega, Or.inr (by
        rw [show buddy_layer_block_size (5 + 1) = 64 by decide]; omega)⟩
    · exact ⟨4, e, by omega, by omega, by decide, by
        rw [show buddy_layer_block_size 4 = 256 by decide]; omega, Or.inr (by
        rw [show buddy_layer_block_size (4 + 1) = 128 by decide]; omega)⟩
    · exact ⟨3, e, by omega, by omega, by decide, by
        rw [show buddy_layer_block_size 3 = 512 by decide]; omega, Or.inr (by
        rw [show buddy_layer_block_size (3 + 1) = 256 by decide]; omega)⟩
    · exact ⟨2, e, by omega, by omega, by decide, by
        rw [show buddy_layer_block_size 2 = 1024 by decide]; omega, Or.inr (by
        rw [show buddy_layer_block_size (2 + 1) = 512 by decide]; omega)⟩
    · exact ⟨1, e, by omega, by omega, by decide, by
        rw [show buddy_layer_block_size 1 = 2048 by decide]; omega, Or.inr (by
        rw [show buddy_layer_block_size (1 + 1) = 1024 by decide]; omega)⟩
  · intro hn
    simp only [buddy_layer_from_size, GREATEST, PAGE_SIZE]
    rw [if_pos (by omega)]

theorem buddy_layer_from_size_spec_witness :
    (∃ L, buddy_layer_from_size 100 = some L ∧ 1 ≤ L ∧ L ≤ 9 ∧
      buddy_layer_block_size L = 4096 / 2 ^ L ∧ 100 ≤ buddy_layer_block_size L ∧
      (L = 9 ∨ buddy_layer_block_size (L + 1) < 100)) ∧
    buddy_layer_from_size 5000 = none :=
  ⟨(buddy_layer_from_size_spec 100).1 (by decide),
    (buddy_layer_from_size_spec 5000).2 (by decide)⟩

/-! ### buddy.c: bits -/

theorem shift_and_one_eq_testBit (x k : Nat) : (((x >>> k) &&& 1) != 0) = x.testBit k := by
  simp only [Nat.testBit, Nat.and_comm]

theorem testBit_set_bit (x k j : Nat) :
    (x ||| (1 <<< k)).testBit j = (decide (k = j) || x.testBit j) := by
  rw [Nat.testBit_or, Nat.one_shiftLeft, Nat.testBit_two_pow, Bool.or_comm]

theorem testBit_clear_bit (x k j : Nat) (hj : j < 8) :
    (x &&& (255 ^^^ (1 <<< k))).testBit j = (!decide (k = j) && x.testBit j) := by
  rw [Nat.testBit_and, Nat.testBit_xor, Nat.one_shiftLeft, Nat.testBit_two_pow,
    show (255 : Nat) = 2 ^ 8 - 1 by norm_num, Nat.testBit_two_pow_sub_one]
  simp [hj, Bool.and_comm]

/-- Reading a bit after `buddy_bitmap_mark_bit`. -/
theorem buddy_get_mark (mem : Nat → Nat) (bm off i : Nat) (val : Bool) :
    buddy_bitmap_get_bit (buddy_bitmap_mark_bit mem bm off val) bm i =
      if i = off then val else buddy_bitmap_get_bit mem bm i := by
  unfold buddy_bitmap_get_bit buddy_bitmap_mark_bit
  simp only [shift_and_one_eq_testBit]
  by_cases hb : i / 8 = off / 8
  · rw [if_pos (by rw [hb])]
    have hk : (7 - off % 8 = 7 - i % 8) ↔ i = off := by omega
    cases val
    · simp only [Bool.false_eq_true, if_false]
      rw [testBit_clear_bit _ _ _ (by omega)]
      by_cases hio : i = off
      · subst hio; simp
      · rw [if_neg hio]
        have : ¬ (7 - off % 8 = 7 - i % 8) := fun h => hio (hk.1 h)
        simp [this]
    · simp only [if_true]
      rw [testBit_set_bit]
      by_cases hio : i = off
      · subst hio; simp
      · rw [if_neg hio]
        have : ¬ (7 - off % 8 = 7 - i % 8) := fun h => hio (hk.1 h)
        simp [this]
  · have hne : ¬ (bm + i / 8 = bm + off / 8) := by omega
    rw [if_neg hne]
    have hio : i ≠ off := fun h => hb (by rw [h])
    rw [if_neg hio]

theorem buddy_mark_other (mem : Nat → Nat) (bm off : Nat) (val : Bool) (a : Nat)
    (h : a ≠ bm + off / 8) : buddy_bitmap_mark_bit mem bm off val a = mem a := by
  unfold buddy_bitmap_mark_bit
  rw [if_neg h]

theorem buddy_bit_offset_layer_eq (l : Nat) : buddy_bit_offset_layer l = 2 ^ l - 1 := rfl

theorem buddy_bits_in_layer_eq (l : Nat) : buddy_bits_in_layer l = 2 ^ l := rfl

theorem buddy_idx_eq (l o : Nat) : buddy_idx l o = 2 ^ l - 1 + o := rfl

theorem two_pow_pos_nat (l : Nat) : 0 < 2 ^ l := Nat.pow_pos (by decide)

/-- Left child: `idx (l + 1) (2 * o) = 2 * idx l o + 1`. -/
theorem buddy_idx_child (l o : Nat) : buddy_idx (l + 1) (2 * o) = 2 * buddy_idx l o + 1 := by
  have := two_pow_pos_nat l
  simp only [buddy_idx_eq, Nat.pow_succ]
  omega

/-- Blocks of different layers have different bitmap indices. -/
theorem buddy_idx_lt_of_layer_lt (l l2 o o2 : Nat) (hl : l < l2) (ho : o < 2 ^ l) :
    buddy_idx l o < buddy_idx l2 o2 := by
  have h1 : 2 ^ (l + 1) ≤ 2 ^ l2 := Nat.pow_le_pow_right (by decide) hl
  have := two_pow_pos_nat l
  simp only [buddy_idx_eq, Nat.pow_succ] at *
  omega

theorem buddy_idx_inj (l l2 o o2 : Nat) (ho : o < 2 ^ l) (ho2 : o2 < 2 ^ l2)
    (h : buddy_idx l o = buddy_idx l2 o2) : l = l2 ∧ o = o2 := by
  rcases Nat.lt_trichotomy l l2 with hlt | heq | hgt
  · have := buddy_idx_lt_of_layer_lt l l2 o o2 hlt ho; omega
  · subst heq
    refine ⟨rfl, ?_⟩
    simp only [buddy_idx_eq] at h
    omega
  · have := buddy_idx_lt_of_layer_lt l2 l o2 o hgt ho2; omega

theorem buddy_idx_lt_total (l o : Nat) (hl : l ≤ 9) (ho : o < 2 ^ l) : buddy_idx l o < 1023 := by
  have h1 : 2 ^ l ≤ 2 ^ 9 := Nat.pow_le_pow_right (by decide) hl
  have := two_pow_pos_nat l
  simp only [buddy_idx_eq]
  norm_num at h1
  omega

theorem buddy_block_size_loop_pow (i : Nat) : ∀ k, i ≤ k →
    buddy_block_size_loop i (2 ^ k) = 2 ^ (k - i) := by
  induction i with
  | zero => intro k _; rfl
  | succ i ih =>
    intro k hk
    obtain ⟨k2, rfl⟩ : ∃ k2, k = k2 + 1 := ⟨k - 1, by omega⟩
    simp only [buddy_block_size_loop]
    rw [Nat.pow_succ, Nat.mul_div_cancel _ (by decide : 0 < 2), ih k2 (by omega)]
    congr 1
    omega

/-- `buddy_layer_block_size(layer) = 2^(12 - layer)`. -/
theorem buddy_layer_block_size_eq (l : Nat) (hl : l ≤ 12) :
    buddy_layer_block_size l = 2 ^ (12 - l) := by
  unfold buddy_layer_block_size GREATEST PAGE_SIZE
  rw [show (0x1000 : Nat) = 2 ^ 12 by norm_num]
  exact buddy_block_size_loop_pow l 12 hl

/-! ### buddy.c: the loops of `buddy_alloc` -/

/-- A pair returned by the scan lies in the scanned range, an even number of
bits after the start, and its two bits differ. -/
theorem buddy_scan_pairs_some (mem : Nat → Nat) (bm limit : Nat) :
    ∀ (fuel off r : Nat), buddy_scan_pairs mem bm limit fuel off = some r →
      ∃ k, r = off + 2 * k ∧ r < limit ∧
        buddy_bitmap_get_bit mem bm r ≠ buddy_bitmap_get_bit mem bm (r + 1) := by
  intro fuel
  induction fuel with
  | zero => intro off r h; simp [buddy_scan_pairs] at h
  | succ fuel ih =>
    intro off r h
    simp only [buddy_scan_pairs] at h
    by_cases hlt : off < limit
    · rw [if_pos hlt] at h
      by_cases hd : (buddy_bitmap_get_bit mem bm off != buddy_bitmap_get_bit mem bm (off + 1)) = true
      · rw [if_pos hd] at h
        have hr : off = r := by simpa using h
        subst hr
        exact ⟨0, by omega, hlt, by simpa using hd⟩
      · rw [if_neg hd] at h
        obtain ⟨k, hk, hlim, hne⟩ := ih (off + 2) r h
        exact ⟨k + 1, by omega, hlim, hne⟩
    · rw [if_neg hlt] at h
      exact Option.noConfusion h

/-- The descent of `buddy_alloc` ends on `best_layer` at the leftmost
descendant, having set the bits of the left children on the way and nothing
else. -/
theorem buddy_descend_spec (bm L : Nat) (hL : L ≤ 9) :
    ∀ (fuel layer off : Nat) (mem : Nat → Nat), layer ≤ L → L - layer ≤ fuel →
      off < 2 ^ layer →
      (buddy_descend bm L fuel layer off mem).1 = L ∧
      (buddy_descend bm L fuel layer off mem).2.1 = off * 2 ^ (L - layer) ∧
      (∀ i, buddy_bitmap_get_bit (buddy_descend bm L fuel layer off mem).2.2 bm i = true ↔
        (buddy_bitmap_get_bit mem bm i = true ∨
          ∃ j, 1 ≤ j ∧ j ≤ L - layer ∧ i = buddy_idx (layer + j) (off * 2 ^ j))) ∧
      (∀ a, (a < bm ∨ bm + 128 ≤ a) →
        (buddy_descend bm L fuel layer off mem).2.2 a = mem a) := by
  intro fuel
  induction fuel with
  | zero =>
    intro layer off mem h1 h2 _
    have : layer = L := by omega
    subst this
    simp only [buddy_descend, Nat.sub_self, Nat.pow_zero, Nat.mul_one, true_and]
    refine ⟨?_, fun a _ => trivial⟩
    intro i
    constructor
    · intro h; exact Or.inl h
    · rintro (h | ⟨j, h1, h2, _⟩)
      · exact h
      · omega
  | succ fuel ih =>
    intro layer off mem h1 h2 hoff
    simp only [buddy_descend]
    by_cases hne : layer ≠ L
    · rw [if_pos hne]
      have hoff2 : off * 2 < 2 ^ (layer + 1) := by rw [Nat.pow_succ]; omega
      obtain ⟨e1, e2, e3, e4⟩ := ih (layer + 1) (off * 2)
        (buddy_bitmap_mark_bit mem bm (buddy_bit_offset_layer (layer + 1) + off * 2) true)
        (by omega) (by omega) hoff2
      refine ⟨e1, ?_, ?_, ?_⟩
      · rw [e2, Nat.mul_assoc, ← Nat.pow_succ']
        congr 2
        omega
      · intro i
        rw [e3, buddy_get_mark]
        constructor
        · rintro (h | ⟨j, hj1, hj2, hj3⟩)
          · by_cases hi : i = buddy_bit_offset_layer (layer + 1) + off * 2
            · right
              exact ⟨1, by omega, by omega, by rw [hi]; simp [buddy_idx]⟩
            · rw [if_neg hi] at h
              exact Or.inl h
          · right
            refine ⟨j + 1, by omega, by omega, ?_⟩
            rw [hj3, Nat.pow_succ']
            congr 1
            · omega
            · rw [Nat.mul_assoc]
        · rintro (h | ⟨j, hj1, hj2, hj3⟩)
          · left
            by_cases hi : i = buddy_bit_offset_layer (layer + 1) + off * 2
            · rw [if_pos hi]
            · rw [if_neg hi]; exact h
          · by_cases hj : j = 1
            · left
              subst hj
              rw [if_pos (by rw [hj3]; simp [buddy_idx])]
            · right
              refine ⟨j - 1, by omega, by omega, ?_⟩
              rw [hj3]
              obtain ⟨j2, rfl⟩ : ∃ j2, j = j2 + 1 := ⟨j - 1, by omega⟩
              rw [Nat.pow_succ']
              congr 1
              · omega
              · rw [Nat.add_sub_cancel, Nat.mul_assoc]
      · intro a ha
        rw [e4 a ha]
        apply buddy_mark_other
        have hlt := buddy_idx_lt_total (layer + 1) (off * 2) (by omega) hoff2
        simp only [buddy_idx] at hlt
        omega
    · have : layer = L := by
        by_contra h; exact hne h
      subst this
      rw [if_neg hne]
      simp only [Nat.sub_self, Nat.pow_zero, Nat.mul_one, true_and]
      refine ⟨?_, fun a _ => trivial⟩
      intro i
      constructor
      · intro h; exact Or.inl h
      · rintro (h | ⟨j, h1, h2, _⟩)
        · exact h
        · omega

/-- What `buddy_take` does at a pair found by the scan of `layer`. -/
theorem buddy_take_spec (self : BuddyAllocator) (mem : Nat → Nat) (bm L l r k : Nat)
    (hL : L ≤ 9) (hl1 : 1 ≤ l) (hlL : l ≤ L)
    (hr : r = buddy_bit_offset_layer l + 2 * k) (hk : 2 * k < 2 ^ l)
    (hne : buddy_bitmap_get_bit mem bm r ≠ buddy_bitmap_get_bit mem bm (r + 1)) :
    ∃ off, off < 2 ^ l ∧ buddy_bit mem bm l off = false ∧
      buddy_bit mem bm l (buddy_sibling off) = true ∧
      (buddy_take self mem bm L l r).1 =
        self.base_addr + (off * 2 ^ (L - l)) * buddy_layer_block_size L ∧
      (∀ i, buddy_bitmap_get_bit (buddy_take self mem bm L l r).2 bm i = true ↔
        (buddy_bitmap_get_bit mem bm i = true ∨ buddy_chain l off (L - l) i)) ∧
      (∀ a, (a < bm ∨ bm + 128 ≤ a) → (buddy_take self mem bm L l r).2 a = mem a) := by
  have hpos := two_pow_pos_nat l
  have heven : 2 ^ l = 2 * 2 ^ (l - 1) := by
    obtain ⟨l2, rfl⟩ : ∃ l2, l = l2 + 1 := ⟨l - 1, by omega⟩
    rw [Nat.pow_succ, Nat.add_sub_cancel]; omega
  have hlo : buddy_bit_offset_layer l = 2 ^ l - 1 := rfl
  refine ⟨2 * k + (if buddy_bitmap_get_bit mem bm r then 1 else 0), ?_, ?_, ?_, ?_⟩
  · split <;> omega
  · unfold buddy_bit buddy_idx
    cases hb : buddy_bitmap_get_bit mem bm r
    · simp only [Bool.false_eq_true, if_false, Nat.add_zero]
      rw [← hr]; exact hb
    · simp only [if_true]
      rw [hb] at hne
      rw [← Nat.add_assoc, ← hr]
      cases hb2 : buddy_bitmap_get_bit mem bm (r + 1)
      · rfl
      · rw [hb2] at hne; exact absurd rfl hne
  · unfold buddy_bit buddy_idx buddy_sibling
    cases hb : buddy_bitmap_get_bit mem bm r
    · simp only [Bool.false_eq_true, if_false, Nat.add_zero]
      rw [if_neg (by omega), ← Nat.add_assoc, ← hr]
      rw [hb] at hne
      cases hb2 : buddy_bitmap_get_bit mem bm (r + 1)
      · rw [hb2] at hne; exact absurd rfl hne
      · rfl
    · simp only [if_true]
      rw [if_pos (by omega), Nat.add_sub_cancel, ← hr]
      exact hb
  · have hoff1 : r + (if buddy_bitmap_get_bit mem bm r then 1 else 0) -
        buddy_bit_offset_layer l =
        2 * k + (if buddy_bitmap_get_bit mem bm r then 1 else 0) := by
      rw [hr]; omega
    have hofflt : 2 * k + (if buddy_bitmap_get_bit mem bm r then 1 else 0) < 2 ^ l := by
      split <;> omega
    have hidx : r + (if buddy_bitmap_get_bit mem bm r then 1 else 0) =
        buddy_idx l (2 * k + (if buddy_bitmap_get_bit mem bm r then 1 else 0)) := by
      rw [hr]; unfold buddy_idx; omega
    obtain ⟨e1, e2, e3, e4⟩ := buddy_descend_spec bm L hL L l
      (2 * k + (if buddy_bitmap_get_bit mem bm r then 1 else 0))
      (buddy_bitmap_mark_bit mem bm
        (r + (if buddy_bitmap_get_bit mem bm r then 1 else 0)) true)
      hlL (by omega) hofflt
    unfold buddy_take
    simp only [hoff1]
    refine ⟨?_, ?_, ?_⟩
    · rw [e1, e2]
    · intro i
      rw [e3, buddy_get_mark]
      unfold buddy_chain
      constructor
      · rintro (h | ⟨j, hj1, hj2, hj3⟩)
        · by_cases hi : i = r + (if buddy_bitmap_get_bit mem bm r then 1 else 0)
          · right
            exact ⟨0, by omega, by rw [hi, hidx]; simp⟩
          · rw [if_neg hi] at h
            exact Or.inl h
        · right
          exact ⟨j, hj2, hj3⟩
      · rintro (h | ⟨j, hj2, hj3⟩)
        · left
          by_cases hi : i = r + (if buddy_bitmap_get_bit mem bm r then 1 else 0)
          · rw [if_pos hi]
          · rw [if_neg hi]; exact h
        · by_cases hj : j = 0
          · left
            subst hj
            rw [if_pos (by rw [hj3, hidx]; simp)]
          · right
            exact ⟨j, by omega, hj2, hj3⟩
    · intro a ha
      rw [e4 a ha]
      apply buddy_mark_other
      have hlt := buddy_idx_lt_total l _ (by omega) hofflt
      rw [← hidx] at hlt
      omega

/-- The layer loop of `buddy_alloc` on one page: a result is the allocation of
the leftmost descendant on `L` of a free block whose buddy is used. -/
theorem buddy_alloc_layers_some (self : BuddyAllocator) (mem : Nat → Nat) (bm L : Nat)
    (hL : L ≤ 9) :
    ∀ (top : Nat) (r : Nat × (Nat → Nat)), top ≤ L →
      buddy_alloc_layers self mem bm L top = some r →
      ∃ l off, 1 ≤ l ∧ l ≤ top ∧ off < 2 ^ l ∧ buddy_bit mem bm l off = false ∧
        buddy_bit mem bm l (buddy_sibling off) = true ∧
        r.1 = self.base_addr + (off * 2 ^ (L - l)) * buddy_layer_block_size L ∧
        (∀ i, buddy_bitmap_get_bit r.2 bm i = true ↔
          (buddy_bitmap_get_bit mem bm i = true ∨ buddy_chain l off (L - l) i)) ∧
        (∀ a, (a < bm ∨ bm + 128 ≤ a) → r.2 a = mem a) := by
  intro top
  induction top with
  | zero => intro r _ h; simp [buddy_alloc_layers] at h
  | succ top ih =>
    intro r htop h
    simp only [buddy_alloc_layers] at h
    cases hs : buddy_scan_pairs mem bm
        (buddy_bit_offset_layer (top + 1) + buddy_bits_in_layer (top + 1))
        (buddy_bits_in_layer (top + 1)) (buddy_bit_offset_layer (top + 1)) with
    | none =>
      rw [hs] at h
      obtain ⟨l, off, h1, h2, rest⟩ := ih r (by omega) h
      exact ⟨l, off, h1, by omega, rest⟩
    | some p =>
      rw [hs] at h
      have hr : buddy_take self mem bm L (top + 1) p = r := by simpa using h
      obtain ⟨k, hk, hlim, hne⟩ := buddy_scan_pairs_some mem bm _ _ _ _ hs
      rw [buddy_bits_in_layer_eq] at hlim
      obtain ⟨off, g1, g2, g3, g4, g5, g6⟩ := buddy_take_spec self mem bm L (top + 1) p k hL
        (by omega) htop hk (by omega) hne
      rw [hr] at g4 g5 g6
      exact ⟨top + 1, off, by omega, by omega, g1, g2, g3, g4, g5, g6⟩

/-! ### buddy.c: the loops of `buddy_free` -/

theorem buddy_sibling_div_two (x : Nat) : buddy_sibling x / 2 = x / 2 := by
  unfold buddy_sibling
  split <;> omega

theorem buddy_sibling_ne (x : Nat) : buddy_sibling x ≠ x := by
  unfold buddy_sibling
  split <;> omega

theorem buddy_sibling_lt (x l : Nat) (hl : 1 ≤ l) (hx : x < 2 ^ l) : buddy_sibling x < 2 ^ l := by
  obtain ⟨l2, rfl⟩ : ∃ l2, l = l2 + 1 := ⟨l - 1, by omega⟩
  rw [Nat.pow_succ] at hx ⊢
  unfold buddy_sibling
  split <;> omega

theorem buddy_sibling_sibling (x : Nat) : buddy_sibling (buddy_sibling x) = x := by
  unfold buddy_sibling
  split <;> split <;> omega

theorem div_two_pow_lt (off layer l : Nat) (hl : l ≤ layer) (ho : off < 2 ^ layer) :
    off / 2 ^ (layer - l) < 2 ^ l := by
  rw [Nat.div_lt_iff_lt_mul (two_pow_pos_nat _), ← Nat.pow_add]
  rw [show l + (layer - l) = layer by omega]
  exact ho

theorem div_two_pow_succ (off k : Nat) : off / 2 ^ (k + 1) = off / 2 / 2 ^ k := by
  rw [Nat.pow_succ', Nat.div_div_eq_div_mul]

/-- The climb of `buddy_free`: when the buddies of the ancestors above layer
`t` are free and the buddy of the ancestor on layer `t` is used, the climb
returns, having cleared exactly the ancestors on the layers `t .. layer - 1`. -/
theorem buddy_free_climb_spec (bm : Nat) :
    ∀ (layer off : Nat) (mem : Nat → Nat) (t : Nat), layer ≤ 9 → off < 2 ^ layer →
      1 ≤ t → t < layer →
      (∀ l, t < l → l < layer →
        buddy_bit mem bm l (buddy_sibling (off / 2 ^ (layer - l))) = false) →
      buddy_bit mem bm t (buddy_sibling (off / 2 ^ (layer - t))) = true →
      ∃ mem2, buddy_free_climb bm layer off mem = BRes.ok () mem2 ∧
        (∀ i, buddy_bitmap_get_bit mem2 bm i = true ↔
          (buddy_bitmap_get_bit mem bm i = true ∧
            ¬ ∃ l, t ≤ l ∧ l < layer ∧ i = buddy_idx l (off / 2 ^ (layer - l)))) ∧
        (∀ a, (a < bm ∨ bm + 128 ≤ a) → mem2 a = mem a) := by
  intro layer
  induction layer with
  | zero => intro off mem t _ _ _ h; omega
  | succ layer ih =>
    intro off mem t hl9 hoff ht1 ht hclear hset
    simp only [buddy_free_climb]
    have hoff1 : off / 2 < 2 ^ layer := by
      rw [Nat.pow_succ] at hoff; omega
    have hidxlt := buddy_idx_lt_total layer (off / 2) (by omega) hoff1
    have hread : ∀ l x, l ≤ layer → x < 2 ^ l → (l = layer → x ≠ off / 2) →
        buddy_bit (buddy_bitmap_mark_bit mem bm (buddy_bit_offset_layer layer + off / 2) false)
          bm l x = buddy_bit mem bm l x := by
      intro l x hl hx hne
      unfold buddy_bit
      rw [buddy_get_mark, if_neg]
      intro heq
      have := buddy_idx_inj l layer x (off / 2) hx hoff1 heq
      exact hne this.1 this.2
    by_cases htl : t = layer
    · subst htl
      have hs : buddy_bit mem bm t (buddy_sibling (off / 2)) = true := by
        have := hset
        rwa [show t + 1 - t = 1 by omega, Nat.pow_one] at this
      have hs1 : buddy_bitmap_get_bit
          (buddy_bitmap_mark_bit mem bm (buddy_bit_offset_layer t + off / 2) false) bm
          (buddy_bit_offset_layer t + buddy_sibling (off / 2)) = true := by
        have := hread t (buddy_sibling (off / 2)) (Nat.le_refl _)
          (buddy_sibling_lt _ _ ht1 hoff1) (fun _ => buddy_sibling_ne _)
        unfold buddy_bit buddy_idx at this
        rw [this]; exact hs
      rw [if_pos hs1]
      refine ⟨_, rfl, ?_, ?_⟩
      · intro i
        rw [buddy_get_mark]
        constructor
        · intro h
          by_cases hi : i = buddy_bit_offset_layer t + off / 2
          · rw [if_pos hi] at h; exact Bool.noConfusion h
          · rw [if_neg hi] at h
            refine ⟨h, ?_⟩
            rintro ⟨l, h1, h2, h3⟩
            have : l = t := by omega
            subst this
            apply hi
            rw [h3, show l + 1 - l = 1 by omega, Nat.pow_one]
            rfl
        · rintro ⟨h, hn⟩
          rw [if_neg]
          · exact h
          · intro hi
            apply hn
            exact ⟨t, Nat.le_refl _, by omega, by
              rw [hi, show t + 1 - t = 1 by omega, Nat.pow_one]; rfl⟩
      · intro a ha
        apply buddy_mark_other
        unfold buddy_idx at hidxlt
        omega
    · have htlt : t < layer := by omega
      have hc : buddy_bit mem bm layer (buddy_sibling (off / 2)) = false := by
        have := hclear layer htlt (by omega)
        rwa [show layer + 1 - layer = 1 by omega, Nat.pow_one] at this
      have hc1 : ¬ buddy_bitmap_get_bit
          (buddy_bitmap_mark_bit mem bm (buddy_bit_offset_layer layer + off / 2) false) bm
          (buddy_bit_offset_layer layer + buddy_sibling (off / 2)) = true := by
        have := hread layer (buddy_sibling (off / 2)) (Nat.le_refl _)
          (buddy_sibling_lt _ _ (by omega) hoff1) (fun _ => buddy_sibling_ne _)
        unfold buddy_bit buddy_idx at this
        rw [this]
        unfold buddy_bit buddy_idx at hc
        rw [hc]
        exact Bool.false_ne_true
      rw [if_neg hc1]
      have hanc : ∀ l, l < layer →
          buddy_sibling (off / 2) / 2 ^ (layer - l) = off / 2 ^ (layer + 1 - l) := by
        intro l hl
        obtain ⟨d, hd⟩ : ∃ d, layer - l = d + 1 := ⟨layer - l - 1, by omega⟩
        rw [hd, show layer + 1 - l = (d + 1) + 1 by omega, div_two_pow_succ,
          buddy_sibling_div_two, div_two_pow_succ off (d + 1), div_two_pow_succ (off / 2) d]
      obtain ⟨mem2, e1, e2, e3⟩ := ih (buddy_sibling (off / 2))
        (buddy_bitmap_mark_bit mem bm (buddy_bit_offset_layer layer + off / 2) false) t
        (by omega) (buddy_sibling_lt _ _ (by omega) hoff1) ht1 htlt
        (by
          intro l h1 h2
          rw [hanc l h2]
          have hlt : off / 2 ^ (layer + 1 - l) < 2 ^ l := div_two_pow_lt off (layer + 1) l
            (by omega) hoff
          rw [hread l _ (by omega) (buddy_sibling_lt _ _ (by omega) hlt) (by omega)]
          exact hclear l h1 (by omega))
        (by
          rw [hanc t htlt]
          have hlt : off / 2 ^ (layer + 1 - t) < 2 ^ t := div_two_pow_lt off (layer + 1) t
            (by omega) hoff
          rw [hread t _ (by omega) (buddy_sibling_lt _ _ (by omega) hlt) (by omega)]
          exact hset)
      refine ⟨mem2, e1, ?_, ?_⟩
      · intro i
        rw [e2, buddy_get_mark]
        constructor
        · rintro ⟨h, hn⟩
          by_cases hi : i = buddy_bit_offset_layer layer + off / 2
          · rw [if_pos hi] at h; exact Bool.noConfusion h
          · rw [if_neg hi] at h
            refine ⟨h, ?_⟩
            rintro ⟨l, h1, h2, h3⟩
            by_cases hll : l = layer
            · subst hll
              apply hi
              rw [h3, show l + 1 - l = 1 by omega, Nat.pow_one]; rfl
            · apply hn
              exact ⟨l, h1, by omega, by rw [h3, hanc l (by omega)]⟩
        · rintro ⟨h, hn⟩
          have hi : i ≠ buddy_bit_offset_layer layer + off / 2 := by
            intro hi
            apply hn
            exact ⟨layer, by omega, by omega, by
              rw [hi, show layer + 1 - layer = 1 by omega, Nat.pow_one]; rfl⟩
          rw [if_neg hi]
          refine ⟨h, ?_⟩
          rintro ⟨l, h1, h2, h3⟩
          apply hn
          exact ⟨l, h1, by omega, by rw [h3, hanc l h2]⟩
      · intro a ha
        rw [e3 a ha]
        apply buddy_mark_other
        unfold buddy_idx at hidxlt
        omega

theorem buddy_block_size_split (L d : Nat) (h : L + d ≤ 12) :
    buddy_layer_block_size L = 2 ^ d * buddy_layer_block_size (L + d) := by
  rw [buddy_layer_block_size_eq L (by omega), buddy_layer_block_size_eq (L + d) h,
    ← Nat.pow_add]
  congr 1
  omega

theorem buddy_block_size_pos (L : Nat) (h : L ≤ 12) : 0 < buddy_layer_block_size L := by
  rw [buddy_layer_block_size_eq L h]; exact two_pow_pos_nat _

/-- The probe of `buddy_free` from layer `L + d` downwards finds the block on
layer `L` when the leftmost descendants of that block are free. -/
theorem buddy_free_probe_spec (bm vaddr : Nat) (mem : Nat → Nat) (L o : Nat) (hL1 : 1 ≤ L)
    (hset : buddy_bit mem bm L o = true) :
    ∀ d, L + d ≤ 9 →
      (∀ j, 1 ≤ j → j ≤ d → buddy_bit mem bm (L + j) (o * 2 ^ j) = false) →
      buddy_free_probe bm (o * buddy_layer_block_size L) vaddr mem (L + d) =
        if buddy_bitmap_get_bit
            (buddy_bitmap_mark_bit (heap_zero mem vaddr (buddy_layer_block_size L)) bm
              (buddy_bit_offset_layer L + o) false) bm
            (buddy_bit_offset_layer L + buddy_sibling o) then
          BRes.ok ()
            (buddy_bitmap_mark_bit (heap_zero mem vaddr (buddy_layer_block_size L)) bm
              (buddy_bit_offset_layer L + o) false)
        else
          buddy_free_climb bm L (buddy_sibling o)
            (buddy_bitmap_mark_bit (heap_zero mem vaddr (buddy_layer_block_size L)) bm
              (buddy_bit_offset_layer L + o) false) := by
  intro d
  induction d with
  | zero =>
    intro h9 _
    obtain ⟨L2, rfl⟩ : ∃ L2, L = L2 + 1 := ⟨L - 1, by omega⟩
    rw [Nat.add_zero]
    simp only [buddy_free_probe]
    have hpos := buddy_block_size_pos (L2 + 1) (by omega)
    rw [if_pos (Nat.mul_mod_left _ _), Nat.mul_div_cancel _ hpos]
    unfold buddy_bit buddy_idx at hset
    rw [if_pos hset]
  | succ d ih =>
    intro h9 hclear
    rw [show L + (d + 1) = (L + d) + 1 by omega]
    simp only [buddy_free_probe]
    have hsplit := buddy_block_size_split L (d + 1) (by omega)
    rw [show L + (d + 1) = (L + d) + 1 by omega] at hsplit
    have hpos := buddy_block_size_pos (L + d + 1) (by omega)
    have hmul : o * buddy_layer_block_size L =
        (o * 2 ^ (d + 1)) * buddy_layer_block_size (L + d + 1) := by
      rw [hsplit, Nat.mul_assoc]
    rw [hmul, if_pos (Nat.mul_mod_left _ _), Nat.mul_div_cancel _ hpos]
    have hc := hclear (d + 1) (by omega) (Nat.le_refl _)
    unfold buddy_bit buddy_idx at hc
    rw [show L + (d + 1) = L + d + 1 by omega] at hc
    rw [if_neg (by rw [hc]; exact Bool.false_ne_true), ← hmul]
    exact ih (by omega) (fun j h1 h2 => hclear j h1 (by omega))

theorem heap_zero_get (mem : Nat → Nat) (bm ptr len i : Nat) (h : bm + i / 8 < ptr) :
    buddy_bitmap_get_bit (heap_zero mem ptr len) bm i = buddy_bitmap_get_bit mem bm i := by
  unfold buddy_bitmap_get_bit heap_zero
  rw [if_neg (by omega)]

theorem buddy_block_offset_lt (L o : Nat) (hL : L ≤ 12) (ho : o < 2 ^ L) :
    o * buddy_layer_block_size L < 4096 := by
  rw [buddy_layer_block_size_eq L hL]
  have h1 : o * 2 ^ (12 - L) < 2 ^ L * 2 ^ (12 - L) :=
    Nat.mul_lt_mul_of_pos_right ho (two_pow_pos_nat _)
  rw [← Nat.pow_add, show L + (12 - L) = 12 by omega] at h1
  norm_num at h1
  exact h1

theorem buddy_sibling_div_pow (o d : Nat) (hd : 1 ≤ d) :
    buddy_sibling o / 2 ^ d = o / 2 ^ d := by
  obtain ⟨d2, rfl⟩ : ∃ d2, d = d2 + 1 := ⟨d - 1, by omega⟩
  rw [div_two_pow_succ, buddy_sibling_div_two, ← div_two_pow_succ]

/-- `buddy_free` of the block `o` of layer `L` of a single-page pool: when the
leftmost descendants of the block are free, the buddies of its ancestors above
layer `t` are free and the buddy on layer `t` is used, `buddy_free` returns and
has cleared exactly the block and its ancestors down to layer `t`. -/
theorem buddy_free_block_spec (self : BuddyAllocator) (mem : Nat → Nat) (L o t : Nat)
    (hL1 : 1 ≤ L) (hL9 : L ≤ 9) (ho : o < 2 ^ L)
    (h128 : 128 ≤ o * buddy_layer_block_size L)
    (hset : buddy_bit mem self.base_addr L o = true)
    (hspine : ∀ j, 1 ≤ j → L + j ≤ 9 →
      buddy_bit mem self.base_addr (L + j) (o * 2 ^ j) = false)
    (ht1 : 1 ≤ t) (htL : t ≤ L)
    (hsibs : ∀ l, t < l → l ≤ L →
      buddy_bit mem self.base_addr l (buddy_sibling (o / 2 ^ (L - l))) = false)
    (hsib : buddy_bit mem self.base_addr t (buddy_sibling (o / 2 ^ (L - t))) = true) :
    ∃ mem2, buddy_free self (self.base_addr + o * buddy_layer_block_size L) mem =
        BRes.ok () mem2 ∧
      ∀ i, i < 1024 → (buddy_bitmap_get_bit mem2 self.base_addr i = true ↔
        (buddy_bitmap_get_bit mem self.base_addr i = true ∧
          ¬ ∃ l, t ≤ l ∧ l ≤ L ∧ i = buddy_idx l (o / 2 ^ (L - l)))) := by
  have hx := buddy_block_offset_lt L o (by omega) ho
  have hoff : (self.base_addr + o * buddy_layer_block_size L +
      (U64 - self.base_addr % U64)) % U64 = o * buddy_layer_block_size L := by
    simp only [U64]
    omega
  unfold buddy_free
  simp only [hoff]
  rw [show o * buddy_layer_block_size L / PAGE_SIZE = 0 by
        simp only [PAGE_SIZE]; omega,
      show o * buddy_layer_block_size L % PAGE_SIZE = o * buddy_layer_block_size L by
        simp only [PAGE_SIZE]; omega,
      Nat.zero_mul, Nat.add_zero, show LAYERS - 1 = L + (9 - L) by simp only [LAYERS]; omega]
  rw [buddy_free_probe_spec self.base_addr _ mem L o hL1 hset (9 - L) (by omega)
    (fun j h1 h2 => hspine j h1 (by omega))]
  -- bits of the memory after zeroing the block and clearing its bit
  have hz : ∀ i, i < 1024 →
      buddy_bitmap_get_bit
        (buddy_bitmap_mark_bit
          (heap_zero mem (self.base_addr + o * buddy_layer_block_size L)
            (buddy_layer_block_size L)) self.base_addr
          (buddy_bit_offset_layer L + o) false) self.base_addr i =
      if i = buddy_idx L o then false else buddy_bitmap_get_bit mem self.base_addr i := by
    intro i hi
    rw [buddy_get_mark, heap_zero_get _ _ _ _ _ (by omega)]
    rfl
  have hzb : ∀ l x, l ≤ 9 → x < 2 ^ l → (l = L → x ≠ o) →
      buddy_bit
        (buddy_bitmap_mark_bit
          (heap_zero mem (self.base_addr + o * buddy_layer_block_size L)
            (buddy_layer_block_size L)) self.base_addr
          (buddy_bit_offset_layer L + o) false) self.base_addr l x =
      buddy_bit mem self.base_addr l x := by
    intro l x hl hx hne
    unfold buddy_bit
    have hlt := buddy_idx_lt_total l x hl hx
    rw [hz _ (by omega), if_neg]
    intro heq
    have := buddy_idx_inj l L x o hx ho heq
    exact hne this.1 this.2
  by_cases htl : t = L
  · subst htl
    rw [Nat.sub_self, Nat.pow_zero, Nat.div_one] at hsib
    have hs1 := hzb t (buddy_sibling o) hL9 (buddy_sibling_lt _ _ hL1 ho)
      (fun _ => buddy_sibling_ne _)
    rw [hsib] at hs1
    unfold buddy_bit buddy_idx at hs1
    rw [if_pos hs1]
    refine ⟨_, rfl, ?_⟩
    intro i hi
    rw [hz i hi]
    constructor
    · intro h
      by_cases hio : i = buddy_idx t o
      · rw [if_pos hio] at h; exact Bool.noConfusion h
      · rw [if_neg hio] at h
        refine ⟨h, ?_⟩
        rintro ⟨l, h1, h2, h3⟩
        have : l = t := by omega
        subst this
        apply hio
        rw [h3, Nat.sub_self, Nat.pow_zero, Nat.div_one]
    · rintro ⟨h, hn⟩
      rw [if_neg]
      · exact h
      · intro hio
        exact hn ⟨t, Nat.le_refl _, Nat.le_refl _, by
          rw [hio, Nat.sub_self, Nat.pow_zero, Nat.div_one]⟩
  · have htlt : t < L := by omega
    have hc := hsibs L htlt (Nat.le_refl _)
    rw [Nat.sub_self, Nat.pow_zero, Nat.div_one] at hc
    have hs1 := hzb L (buddy_sibling o) hL9 (buddy_sibling_lt _ _ hL1 ho)
      (fun _ => buddy_sibling_ne _)
    rw [hc] at hs1
    unfold buddy_bit buddy_idx at hs1
    rw [if_neg (by rw [hs1]; exact Bool.false_ne_true)]
    obtain ⟨mem2, e1, e2, _⟩ := buddy_free_climb_spec self.base_addr L (buddy_sibling o)
      (buddy_bitmap_mark_bit
        (heap_zero mem (self.base_addr + o * buddy_layer_block_size L)
          (buddy_layer_block_size L)) self.base_addr
        (buddy_bit_offset_layer L + o) false)
      t hL9 (buddy_sibling_lt _ _ hL1 ho) ht1 htlt
      (by
        intro l h1 h2
        rw [buddy_sibling_div_pow o (L - l) (by omega)]
        have hlt : o / 2 ^ (L - l) < 2 ^ l := div_two_pow_lt o L l (by omega) ho
        rw [hzb l _ (by omega) (buddy_sibling_lt _ _ (by omega) hlt) (by omega)]
        exact hsibs l h1 (by omega))
      (by
        rw [buddy_sibling_div_pow o (L - t) (by omega)]
        have hlt : o / 2 ^ (L - t) < 2 ^ t := div_two_pow_lt o L t (by omega) ho
        rw [hzb t _ (by omega) (buddy_sibling_lt _ _ (by omega) hlt) (by omega)]
        exact hsib)
    refine ⟨mem2, e1, ?_⟩
    intro i hi
    rw [e2, hz i hi]
    constructor
    · rintro ⟨h, hn⟩
      by_cases hio : i = buddy_idx L o
      · rw [if_pos hio] at h; exact Bool.noConfusion h
      · rw [if_neg hio] at h
        refine ⟨h, ?_⟩
        rintro ⟨l, h1, h2, h3⟩
        by_cases hlL : l = L
        · subst hlL
          apply hio
          rw [h3, Nat.sub_self, Nat.pow_zero, Nat.div_one]
        · apply hn
          exact ⟨l, h1, by omega, by rw [h3, buddy_sibling_div_pow o (L - l) (by omega)]⟩
    · rintro ⟨h, hn⟩
      have hio : i ≠ buddy_idx L o := by
        intro hio
        exact hn ⟨L, by omega, Nat.le_refl _, by
          rw [hio, Nat.sub_self, Nat.pow_zero, Nat.div_one]⟩
      rw [if_neg hio]
      refine ⟨h, ?_⟩
      rintro ⟨l, h1, h2, h3⟩
      apply hn
      exact ⟨l, h1, by omega, by rw [h3, buddy_sibling_div_pow o (L - l) (by omega)]⟩

/-! ### buddy.c: the tree of blocks -/

/-- A used block has used ancestors. -/
theorem buddy_tree_anc (mem : Nat → Nat) (bm : Nat) (ht : BuddyTree mem bm) :
    ∀ (j l o : Nat), l + j ≤ 9 → o < 2 ^ (l + j) → buddy_bit mem bm (l + j) o = true →
      buddy_bit mem bm l (o / 2 ^ j) = true := by
  intro j
  induction j with
  | zero => intro l o _ _ h; simpa using h
  | succ j ih =>
    intro l o h9 ho h
    rw [show l + (j + 1) = (l + j) + 1 by omega] at ho h
    have hp := ht.1 (l + j) o (by omega) ho h
    have ho2 : o / 2 < 2 ^ (l + j) := by rw [Nat.pow_succ] at ho; omega
    have := ih l (o / 2) (by omega) ho2 hp
    rwa [← div_two_pow_succ] at this

/-- A free block has free descendants. -/
theorem buddy_tree_desc (mem : Nat → Nat) (bm : Nat) (ht : BuddyTree mem bm)
    (j l o x : Nat) (h9 : l + j ≤ 9) (hx : x < 2 ^ (l + j)) (hanc : x / 2 ^ j = o)
    (hfree : buddy_bit mem bm l o = false) : buddy_bit mem bm (l + j) x = false := by
  cases hb : buddy_bit mem bm (l + j) x
  · rfl
  · have := buddy_tree_anc mem bm ht j l x h9 hx hb
    rw [hanc, hfree] at this
    exact Bool.noConfusion this

/-- The blocks on the layers 0..5 that contain the bitmap are used. -/
theorem buddy_tree_reserved (mem : Nat → Nat) (bm : Nat) (ht : BuddyTree mem bm) (l : Nat)
    (hl : l ≤ 5) : buddy_bit mem bm l 0 = true := by
  have := buddy_tree_anc mem bm ht (5 - l) l 0 (by omega)
    (by rw [show l + (5 - l) = 5 by omega]; norm_num)
    (by rw [show l + (5 - l) = 5 by omega]; exact ht.2.1)
  simpa using this

/-- The blocks inside the bitmap area (below block 0 of layer 5) are free. -/
theorem buddy_tree_inside (mem : Nat → Nat) (bm : Nat) (ht : BuddyTree mem bm) (l x : Nat)
    (hl6 : 6 ≤ l) (hl9 : l ≤ 9) (hx : x < 2 ^ (l - 5)) : buddy_bit mem bm l x = false := by
  have hx2 : x / 2 ^ (l - 6) < 2 := by
    rw [Nat.div_lt_iff_lt_mul (two_pow_pos_nat _), ← Nat.pow_succ']
    rwa [show (l - 6).succ = l - 5 by omega]
  have hxl : x < 2 ^ (6 + (l - 6)) := by
    rw [show 6 + (l - 6) = l by omega]
    exact Nat.lt_of_lt_of_le hx (Nat.pow_le_pow_right (by decide) (by omega))
  have h6 : buddy_bit mem bm 6 (x / 2 ^ (l - 6)) = false := by
    have hc : x / 2 ^ (l - 6) = 0 ∨ x / 2 ^ (l - 6) = 1 := by
      generalize x / 2 ^ (l - 6) = y at hx2
      omega
    rcases hc with h | h
    · rw [h]; exact ht.2.2.1
    · rw [h]; exact ht.2.2.2
  have := buddy_tree_desc mem bm ht (l - 6) 6 _ x (by omega) hxl rfl h6
  rwa [show 6 + (l - 6) = l by omega] at this

theorem mul_pow_div_pow (o a b : Nat) (h : b ≤ a) : o * 2 ^ a / 2 ^ b = o * 2 ^ (a - b) := by
  rw [show a = (a - b) + b by omega, Nat.pow_add, ← Nat.mul_assoc,
    Nat.mul_div_cancel _ (two_pow_pos_nat b), Nat.add_sub_cancel]

theorem mul_pow_lt_pow (off l d : Nat) (h : off < 2 ^ l) : off * 2 ^ d < 2 ^ (l + d) := by
  rw [Nat.pow_add]
  exact Nat.mul_lt_mul_of_pos_right h (two_pow_pos_nat _)

/-- The blocks on the chain of an allocation were free before it. -/
theorem buddy_chain_free (mem : Nat → Nat) (bm : Nat) (ht : BuddyTree mem bm)
    (l off j : Nat) (h9 : l + j ≤ 9) (hoff : off < 2 ^ l)
    (hfree : buddy_bit mem bm l off = false) :
    buddy_bit mem bm (l + j) (off * 2 ^ j) = false :=
  buddy_tree_desc mem bm ht j l off _ h9 (mul_pow_lt_pow off l j hoff)
    (Nat.mul_div_cancel _ (two_pow_pos_nat j)) hfree

/-- A free block whose buddy is used lies outside the bitmap area, and so do
its descendants. -/
theorem buddy_free_buddy_outside (mem : Nat → Nat) (bm : Nat) (ht : BuddyTree mem bm)
    (l off : Nat) (hl1 : 1 ≤ l) (hl9 : l ≤ 9) (_hoff : off < 2 ^ l)
    (hfree : buddy_bit mem bm l off = false)
    (hsib : buddy_bit mem bm l (buddy_sibling off) = true) :
    128 ≤ off * buddy_layer_block_size l := by
  by_contra hlt
  have hlt : off * buddy_layer_block_size l < 128 := by omega
  rw [buddy_layer_block_size_eq l (by omega)] at hlt
  by_cases h5 : l ≤ 5
  · have h0 : off = 0 := by
      have hp : 2 ^ 7 ≤ 2 ^ (12 - l) := Nat.pow_le_pow_right (by decide) (by omega)
      norm_num at hp
      by_contra hne
      have : 1 * 2 ^ (12 - l) ≤ off * 2 ^ (12 - l) :=
        Nat.mul_le_mul_right _ (by omega)
      omega
    rw [h0, buddy_tree_reserved mem bm ht l h5] at hfree
    exact Bool.noConfusion hfree
  · have hoff5 : off < 2 ^ (l - 5) := by
      have : off * 2 ^ (12 - l) < 2 ^ (l - 5) * 2 ^ (12 - l) := by
        rw [← Nat.pow_add, show l - 5 + (12 - l) = 7 by omega]
        norm_num
        exact hlt
      exact Nat.lt_of_mul_lt_mul_right this
    have hs5 : buddy_sibling off < 2 ^ (l - 5) := buddy_sibling_lt _ _ (by omega) hoff5
    rw [buddy_tree_inside mem bm ht l _ (by omega) hl9 hs5] at hsib
    exact Bool.noConfusion hsib

/-- Allocation followed by `buddy_free` of the returned block, on the bitmap:
given the bits set by the allocation (the chain from the free buddy `off` of
layer `l` down to layer `L`), `buddy_free` returns and restores every bit. -/
theorem buddy_roundtrip_core (self : BuddyAllocator) (mem mem1 : Nat → Nat) (L l off : Nat)
    (ht : BuddyTree mem self.base_addr) (hl1 : 1 ≤ l) (hlL : l ≤ L) (hL9 : L ≤ 9)
    (hoff : off < 2 ^ l)
    (hfree : buddy_bit mem self.base_addr l off = false)
    (hsib : buddy_bit mem self.base_addr l (buddy_sibling off) = true)
    (hbits : ∀ i, buddy_bitmap_get_bit mem1 self.base_addr i = true ↔
      (buddy_bitmap_get_bit mem self.base_addr i = true ∨ buddy_chain l off (L - l) i)) :
    ∃ mem2, buddy_free self (self.base_addr + (off * 2 ^ (L - l)) * buddy_layer_block_size L)
        mem1 = BRes.ok () mem2 ∧
      ∀ i, i < 1023 →
        buddy_bitmap_get_bit mem2 self.base_addr i = buddy_bitmap_get_bit mem self.base_addr i := by
  have hoE : off * 2 ^ (L - l) < 2 ^ L := by
    have := mul_pow_lt_pow off l (L - l) hoff
    rwa [show l + (L - l) = L by omega] at this
  -- the bits after the allocation, block by block
  have hb1 : ∀ la x, la ≤ 9 → x < 2 ^ la →
      (buddy_bit mem1 self.base_addr la x = true ↔
        (buddy_bit mem self.base_addr la x = true ∨
          (l ≤ la ∧ la ≤ L ∧ x = off * 2 ^ (la - l)))) := by
    intro la x hla hx
    unfold buddy_bit
    rw [hbits]
    constructor
    · rintro (h | ⟨j, hj, hi⟩)
      · exact Or.inl h
      · right
        have := buddy_idx_inj la (l + j) x _ hx (mul_pow_lt_pow off l j hoff) hi
        refine ⟨by omega, by omega, ?_⟩
        rw [this.2, this.1, Nat.add_sub_cancel_left]
    · rintro (h | ⟨h1, h2, h3⟩)
      · exact Or.inl h
      · right
        exact ⟨la - l, by omega, by rw [h3, show l + (la - l) = la by omega]⟩
  have hanc : ∀ la, l ≤ la → la ≤ L →
      off * 2 ^ (L - l) / 2 ^ (L - la) = off * 2 ^ (la - l) := by
    intro la h1 h2
    rw [mul_pow_div_pow off (L - l) (L - la) (by omega)]
    congr 2
    omega
  have h128 : 128 ≤ off * 2 ^ (L - l) * buddy_layer_block_size L := by
    have := buddy_free_buddy_outside mem self.base_addr ht l off hl1 (by omega) hoff hfree hsib
    rw [buddy_block_size_split l (L - l) (by omega), show l + (L - l) = L by omega,
      ← Nat.mul_assoc] at this
    exact this
  obtain ⟨mem2, e1, e2⟩ := buddy_free_block_spec self mem1 L (off * 2 ^ (L - l)) l
    (by omega) hL9 hoE h128
    (by
      rw [hb1 L _ hL9 hoE]
      exact Or.inr ⟨hlL, Nat.le_refl _, rfl⟩)
    (by
      intro j hj1 hj9
      have hx : off * 2 ^ (L - l) * 2 ^ j < 2 ^ (L + j) := mul_pow_lt_pow _ L j hoE
      cases hb : buddy_bit mem1 self.base_addr (L + j) (off * 2 ^ (L - l) * 2 ^ j)
      · rfl
      · rw [hb1 (L + j) _ hj9 hx] at hb
        rcases hb with h | ⟨_, h2, _⟩
        · have := buddy_chain_free mem self.base_addr ht l off (L - l + j) (by omega) hoff hfree
          rw [show l + (L - l + j) = L + j by omega, Nat.pow_add, ← Nat.mul_assoc] at this
          rw [this] at h
          exact Bool.noConfusion h
        · omega)
    hl1 hlL
    (by
      intro la h1 h2
      rw [hanc la (by omega) h2]
      have hx : off * 2 ^ (la - l) < 2 ^ la := by
        have := mul_pow_lt_pow off l (la - l) hoff
        rwa [show l + (la - l) = la by omega] at this
      have hsx := buddy_sibling_lt _ _ (by omega) hx
      cases hb : buddy_bit mem1 self.base_addr la (buddy_sibling (off * 2 ^ (la - l)))
      · rfl
      · rw [hb1 la _ (by omega) hsx] at hb
        rcases hb with h | ⟨_, _, h3⟩
        · have hd : buddy_sibling (off * 2 ^ (la - l)) / 2 ^ (la - l) = off := by
            rw [buddy_sibling_div_pow _ _ (by omega)]
            exact Nat.mul_div_cancel _ (two_pow_pos_nat _)
          have := buddy_tree_desc mem self.base_addr ht (la - l) l off _ (by omega)
            (by rw [show l + (la - l) = la by omega]; exact hsx) hd hfree
          rw [show l + (la - l) = la by omega, h] at this
          exact Bool.noConfusion this
        · exact absurd h3 (buddy_sibling_ne _))
    (by
      rw [hanc l (Nat.le_refl _) hlL, Nat.sub_self, Nat.pow_zero, Nat.mul_one]
      rw [hb1 l _ (by omega) (buddy_sibling_lt _ _ hl1 hoff)]
      exact Or.inl hsib)
  refine ⟨mem2, e1, ?_⟩
  intro i hi
  rw [Bool.eq_iff_iff, e2 i (by omega), hbits]
  constructor
  · rintro ⟨h | ⟨j, hj, hij⟩, hn⟩
    · exact h
    · exfalso
      apply hn
      refine ⟨l + j, by omega, by omega, ?_⟩
      rw [hij, hanc (l + j) (by omega) (by omega), Nat.add_sub_cancel_left]
  · intro h
    refine ⟨Or.inl h, ?_⟩
    rintro ⟨la, h1, h2, h3⟩
    rw [hanc la h1 h2] at h3
    have := buddy_chain_free mem self.base_addr ht l off (la - l) (by omega) hoff hfree
    rw [show l + (la - l) = la by omega] at this
    unfold buddy_bit at this
    rw [← h3, h] at this
    exact Bool.noConfusion this

/-! ### buddy.c: `buddy_alloc` on a single page -/

theorem buddy_layer_from_size_some (n L : Nat) (h : buddy_layer_from_size n = some L) :
    1 ≤ L ∧ L ≤ 9 := by
  have hn : n ≤ 2048 := by
    by_contra hgt
    simp only [buddy_layer_from_size, GREATEST, PAGE_SIZE] at h
    rw [if_pos (by omega)] at h
    exact Option.noConfusion h
  rcases buddy_layer_from_size_cases n hn with
    ⟨_, e⟩ | ⟨_, _, e⟩ | ⟨_, _, e⟩ | ⟨_, _, e⟩ | ⟨_, _, e⟩ | ⟨_, _, e⟩ |
    ⟨_, _, e⟩ | ⟨_, _, e⟩ | ⟨_, _, e⟩ <;>
  · rw [e] at h
    have := Option.some.inj h
    omega

/-- A successful `buddy_alloc` on a single-page pool takes a free block `off`
of some layer `l ≤ L` whose buddy is used, marks it and its leftmost
descendants down to the layer `L` of the request, and returns the address of
the last of them. -/
theorem buddy_alloc_ok_single (self : BuddyAllocator) (hb : self.blocks = 1) (n a : Nat)
    (mem mem1 : Nat → Nat) (h : buddy_alloc self n mem = BRes.ok a mem1) :
    ∃ L l off, buddy_layer_from_size n = some L ∧ 1 ≤ l ∧ l ≤ L ∧ L ≤ 9 ∧ off < 2 ^ l ∧
      buddy_bit mem self.base_addr l off = false ∧
      buddy_bit mem self.base_addr l (buddy_sibling off) = true ∧
      a = self.base_addr + (off * 2 ^ (L - l)) * buddy_layer_block_size L ∧
      (∀ i, buddy_bitmap_get_bit mem1 self.base_addr i = true ↔
        (buddy_bitmap_get_bit mem self.base_addr i = true ∨ buddy_chain l off (L - l) i)) ∧
      (∀ x, (x < self.base_addr ∨ self.base_addr + 128 ≤ x) → mem1 x = mem x) := by
  unfold buddy_alloc at h
  cases hl : buddy_layer_from_size n with
  | none => rw [hl] at h; exact BRes.noConfusion h
  | some L =>
    rw [hl] at h
    simp only [] at h
    have hL := buddy_layer_from_size_some n L hl
    rw [if_neg (by omega), hb] at h
    simp only [buddy_alloc_pages, Nat.zero_mul, Nat.add_zero] at h
    cases hr : buddy_alloc_layers self mem self.base_addr L L with
    | none => rw [hr] at h; exact BRes.noConfusion h
    | some r =>
      rw [hr] at h
      simp only [] at h
      injection h with h1 h2
      obtain ⟨l, off, g1, g2, g3, g4, g5, g6, g7, g8⟩ :=
        buddy_alloc_layers_some self mem self.base_addr L hL.2 L r (Nat.le_refl _) hr
      rw [h1] at g6
      rw [h2] at g7 g8
      exact ⟨L, l, off, rfl, g1, g2, hL.2, g3, g4, g5, g6, g7, g8⟩

/-! ### buddy.c: ancestors -/

theorem buddy_anc_tree (mem : Nat → Nat) (bm : Nat) (ht : BuddyTree mem bm)
    (la oa lb ob : Nat) (hanc : buddy_anc la oa lb ob) (hlb : lb ≤ 9) (hob : ob < 2 ^ lb)
    (hset : buddy_bit mem bm lb ob = true) : buddy_bit mem bm la oa = true := by
  obtain ⟨h1, h2⟩ := hanc
  have := buddy_tree_anc mem bm ht (lb - la) la ob (by omega)
    (by rw [show la + (lb - la) = lb by omega]; exact hob)
    (by rw [show la + (lb - la) = lb by omega]; exact hset)
  rwa [h2] at this

theorem buddy_anc_chain (l off j : Nat) : buddy_anc l off (l + j) (off * 2 ^ j) := by
  refine ⟨by omega, ?_⟩
  rw [Nat.add_sub_cancel_left]
  exact Nat.mul_div_cancel _ (two_pow_pos_nat j)

theorem buddy_anc_cmp (la oa lb ob lc oc : Nat) (h1 : buddy_anc la oa lc oc)
    (h2 : buddy_anc lb ob lc oc) (hle : la ≤ lb) : buddy_anc la oa lb ob := by
  refine ⟨hle, ?_⟩
  rw [← h2.2, ← h1.2, Nat.div_div_eq_div_mul, ← Nat.pow_add]
  congr 2
  have := h2.1
  omega

theorem buddy_anc_trans (la oa lb ob lc oc : Nat) (h1 : buddy_anc la oa lb ob)
    (h2 : buddy_anc lb ob lc oc) : buddy_anc la oa lc oc := by
  refine ⟨Nat.le_trans h1.1 h2.1, ?_⟩
  rw [← h1.2, ← h2.2, Nat.div_div_eq_div_mul, ← Nat.pow_add]
  congr 2
  have := h1.1
  have := h2.1
  omega

theorem buddy_anc_sibling (la oa l off : Nat) (h : buddy_anc la oa l off) (hlt : la < l) :
    buddy_anc la oa l (buddy_sibling off) := by
  refine ⟨h.1, ?_⟩
  rw [buddy_sibling_div_pow _ _ (by omega)]
  exact h.2

theorem buddy_anc_eq (la oa ob : Nat) (h : buddy_anc la oa la ob) : oa = ob := by
  have := h.2
  rw [Nat.sub_self, Nat.pow_zero, Nat.div_one] at this
  exact this.symm

/-- No block on the chain of an allocation lies strictly below a used block
whose proper descendants are all free. -/
theorem buddy_chain_not_under (mem : Nat → Nat) (bm : Nat) (ht : BuddyTree mem bm)
    (l off : Nat) (hl9 : l ≤ 9) (hoff : off < 2 ^ l)
    (hfree : buddy_bit mem bm l off = false)
    (hsib : buddy_bit mem bm l (buddy_sibling off) = true) (hl1 : 1 ≤ l)
    (LX oX : Nat) (hLX : LX ≤ 9) (hoX : oX < 2 ^ LX)
    (hX : buddy_bit mem bm LX oX = true)
    (hdesc : ∀ lb ob, LX < lb → lb ≤ 9 → ob < 2 ^ lb → buddy_anc LX oX lb ob →
      buddy_bit mem bm lb ob = false)
    (j : Nat) (_hj : LX < l + j) (hanc : buddy_anc LX oX (l + j) (off * 2 ^ j)) : False := by
  by_cases hle : l ≤ LX
  · have h1 := buddy_anc_cmp l off LX oX (l + j) (off * 2 ^ j) (buddy_anc_chain l off j) hanc hle
    have := buddy_anc_tree mem bm ht l off LX oX h1 hLX hoX hX
    rw [hfree] at this
    exact Bool.noConfusion this
  · have h1 := buddy_anc_cmp LX oX l off (l + j) (off * 2 ^ j) hanc (buddy_anc_chain l off j)
      (by omega)
    have h2 := buddy_anc_sibling LX oX l off h1 (by omega)
    have := hdesc l (buddy_sibling off) (by omega) hl9 (buddy_sibling_lt _ _ hl1 hoff) h2
    rw [hsib] at this
    exact Bool.noConfusion this

/-- Blocks with the same address: the one on the deeper layer is the leftmost
descendant of the other. -/
theorem buddy_same_addr (L1 L2 o1 o2 : Nat) (hle : L1 ≤ L2) (h12 : L2 ≤ 12)
    (h : o1 * buddy_layer_block_size L1 = o2 * buddy_layer_block_size L2) :
    o2 = o1 * 2 ^ (L2 - L1) := by
  have hs := buddy_block_size_split L1 (L2 - L1) (by omega)
  rw [show L1 + (L2 - L1) = L2 by omega] at hs
  rw [hs, ← Nat.mul_assoc] at h
  exact (Nat.eq_of_mul_eq_mul_right (buddy_block_size_pos L2 h12) h).symm

/-- The bits after an allocation, block by block. -/
theorem buddy_bits_after_chain (mem mem1 : Nat → Nat) (bm L l off : Nat) (hlL : l ≤ L)
    (hoff : off < 2 ^ l)
    (hbits : ∀ i, buddy_bitmap_get_bit mem1 bm i = true ↔
      (buddy_bitmap_get_bit mem bm i = true ∨ buddy_chain l off (L - l) i))
    (la x : Nat) (hx : x < 2 ^ la) :
    (buddy_bit mem1 bm la x = true ↔
      (buddy_bit mem bm la x = true ∨ (l ≤ la ∧ la ≤ L ∧ x = off * 2 ^ (la - l)))) := by
  unfold buddy_bit
  rw [hbits]
  constructor
  · rintro (h | ⟨j, hj, hi⟩)
    · exact Or.inl h
    · right
      have := buddy_idx_inj la (l + j) x _ hx (mul_pow_lt_pow off l j hoff) hi
      refine ⟨by omega, by omega, ?_⟩
      rw [this.2, this.1, Nat.add_sub_cancel_left]
  · rintro (h | ⟨h1, h2, h3⟩)
    · exact Or.inl h
    · right
      exact ⟨la - l, by omega, by rw [h3, show l + (la - l) = la by omega]⟩

/-- `buddy_alloc` preserves the invariant of a single-page pool. -/
theorem buddy_alloc_preserves (self : BuddyAllocator) (hb : self.blocks = 1)
    (mem mem1 : Nat → Nat) (live : List (Nat × Nat)) (n a : Nat)
    (hinv : BuddyInv self mem live) (h : buddy_alloc self n mem = BRes.ok a mem1) :
    BuddyInv self mem1 ((a, n) :: live) := by
  obtain ⟨ht, hnd, hlive⟩ := hinv
  obtain ⟨L, l, off, hLn, hl1, hlL, hL9, hoff, hfree, hsib, ha, hbits, _⟩ :=
    buddy_alloc_ok_single self hb n a mem mem1 h
  have hb1 := buddy_bits_after_chain mem mem1 self.base_addr L l off hlL hoff hbits
  have hoE : off * 2 ^ (L - l) < 2 ^ L := by
    have := mul_pow_lt_pow off l (L - l) hoff
    rwa [show l + (L - l) = L by omega] at this
  have hchainfree : ∀ la, l ≤ la → la ≤ L →
      buddy_bit mem self.base_addr la (off * 2 ^ (la - l)) = false := by
    intro la h1 h2
    have := buddy_chain_free mem self.base_addr ht l off (la - l) (by omega) hoff hfree
    rwa [show l + (la - l) = la by omega] at this
  have hout := buddy_free_buddy_outside mem self.base_addr ht l off hl1 (by omega) hoff hfree hsib
  -- the chain stays clear of the live blocks
  have hnotunder : ∀ LX oX, LX ≤ 9 → oX < 2 ^ LX → buddy_bit mem self.base_addr LX oX = true →
      (∀ lb ob, LX < lb → lb ≤ 9 → ob < 2 ^ lb → buddy_anc LX oX lb ob →
        buddy_bit mem self.base_addr lb ob = false) →
      ∀ la, l ≤ la → la ≤ L → LX < la → ¬ buddy_anc LX oX la (off * 2 ^ (la - l)) := by
    intro LX oX h1 h2 h3 h4 la g1 g2 g3 hanc
    have := buddy_chain_not_under mem self.base_addr ht l off (by omega) hoff hfree hsib hl1
      LX oX h1 h2 h3 h4 (la - l) (by omega)
    rw [show l + (la - l) = la by omega] at this
    exact this hanc
  refine ⟨⟨?_, ?_, ?_, ?_⟩, ?_, ?_⟩
  · -- a used block has a used parent
    intro la x hla hx hset
    have hx2 : x / 2 < 2 ^ la := by rw [Nat.pow_succ] at hx; omega
    rw [hb1 (la + 1) x hx] at hset
    rw [hb1 la (x / 2) hx2]
    rcases hset with h1 | ⟨g1, g2, g3⟩
    · exact Or.inl (ht.1 la x hla hx h1)
    · by_cases hla1 : la + 1 = l
      · left
        have hxo : x = off := by
          rw [g3, show la + 1 - l = 0 by omega, Nat.pow_zero, Nat.mul_one]
        have hs := ht.1 la (buddy_sibling off) hla
          (by rw [hla1]; exact buddy_sibling_lt _ _ hl1 hoff) (by rw [hla1]; exact hsib)
        rwa [buddy_sibling_div_two, ← hxo] at hs
      · right
        refine ⟨by omega, by omega, ?_⟩
        rw [g3, show la + 1 - l = (la - l) + 1 by omega, Nat.pow_succ, ← Nat.mul_assoc,
          Nat.mul_div_cancel _ (by decide : 0 < 2)]
  · rw [hb1 5 0 (by norm_num)]
    exact Or.inl ht.2.1
  · cases hc : buddy_bit mem1 self.base_addr 6 0
    · rfl
    · rw [hb1 6 0 (by norm_num)] at hc
      rcases hc with h1 | ⟨g1, g2, g3⟩
      · rw [ht.2.2.1] at h1; exact Bool.noConfusion h1
      · exfalso
        have hz : off = 0 := by
          have hp := two_pow_pos_nat (6 - l)
          rcases Nat.eq_zero_or_pos off with h0 | hpos
          · exact h0
          · have := Nat.mul_pos hpos hp
            omega
        rw [hz] at hout
        omega
  · cases hc : buddy_bit mem1 self.base_addr 6 1
    · rfl
    · rw [hb1 6 1 (by norm_num)] at hc
      rcases hc with h1 | ⟨g1, g2, g3⟩
      · rw [ht.2.2.2] at h1; exact Bool.noConfusion h1
      · exfalso
        have hs := buddy_block_size_split l (6 - l) (by omega)
        rw [show l + (6 - l) = 6 by omega, show buddy_layer_block_size 6 = 64 by decide] at hs
        rw [hs, ← Nat.mul_assoc, ← g3] at hout
        omega
  · -- the new address is not live yet
    rw [List.map_cons, List.nodup_cons]
    refine ⟨?_, hnd⟩
    intro hmem
    obtain ⟨p, hp, hpa⟩ := List.mem_map.1 hmem
    obtain ⟨LX, oX, hLX, hoX, haX, _, hsetX, hdescX⟩ := hlive p hp
    have hLX9 := (buddy_layer_from_size_some _ _ hLX).2
    have haddr : off * 2 ^ (L - l) * buddy_layer_block_size L =
        oX * buddy_layer_block_size LX := by
      have : p.1 = a := hpa
      rw [haX, ha] at this
      omega
    rcases Nat.lt_trichotomy LX L with hlt | heq | hgt
    · have ho := buddy_same_addr LX L oX _ (by omega) (by omega) haddr.symm
      apply hnotunder LX oX hLX9 hoX hsetX hdescX L hlL (Nat.le_refl _) hlt
      refine ⟨by omega, ?_⟩
      rw [ho]
      exact Nat.mul_div_cancel _ (two_pow_pos_nat _)
    · subst heq
      have ho := Nat.eq_of_mul_eq_mul_right (buddy_block_size_pos LX (by omega)) haddr
      rw [← ho, hchainfree LX hlL (Nat.le_refl _)] at hsetX
      exact Bool.noConfusion hsetX
    · have ho := buddy_same_addr L LX _ oX (by omega) (by omega) haddr
      have hanc : buddy_anc L (off * 2 ^ (L - l)) LX oX := by
        refine ⟨by omega, ?_⟩
        rw [ho]
        exact Nat.mul_div_cancel _ (two_pow_pos_nat _)
      have := buddy_anc_tree mem self.base_addr ht _ _ _ _ hanc hLX9 hoX hsetX
      rw [hchainfree L hlL (Nat.le_refl _)] at this
      exact Bool.noConfusion this
  · intro p hp
    rcases List.mem_cons.1 hp with hpe | hpl
    · -- the new block
      subst hpe
      refine ⟨L, off * 2 ^ (L - l), hLn, hoE, ha, ?_, ?_, ?_⟩
      · have := hout
        rw [buddy_block_size_split l (L - l) (by omega), show l + (L - l) = L by omega,
          ← Nat.mul_assoc] at this
        exact this
      · rw [hb1 L _ hoE]
        exact Or.inr ⟨hlL, Nat.le_refl _, rfl⟩
      · intro lb ob h1 h2 h3 hanc
        cases hc : buddy_bit mem1 self.base_addr lb ob
        · rfl
        · rw [hb1 lb ob h3] at hc
          rcases hc with hm | ⟨_, g2, _⟩
          · have hf : buddy_anc l off lb ob :=
              buddy_anc_trans l off L _ lb ob
                (by
                  have := buddy_anc_chain l off (L - l)
                  rwa [show l + (L - l) = L by omega] at this) hanc
            have := buddy_anc_tree mem self.base_addr ht l off lb ob hf h2 h3 hm
            rw [hfree] at this
            exact Bool.noConfusion this
          · omega
    · -- the blocks that were live before
      obtain ⟨LX, oX, hLX, hoX, haX, h128X, hsetX, hdescX⟩ := hlive p hpl
      have hLX9 := (buddy_layer_from_size_some _ _ hLX).2
      refine ⟨LX, oX, hLX, hoX, haX, h128X, ?_, ?_⟩
      · rw [hb1 LX oX hoX]
        exact Or.inl hsetX
      · intro lb ob h1 h2 h3 hanc
        cases hc : buddy_bit mem1 self.base_addr lb ob
        · rfl
        · rw [hb1 lb ob h3] at hc
          rcases hc with hm | ⟨g1, g2, g3⟩
          · rw [hdescX lb ob h1 h2 h3 hanc] at hm
            exact Bool.noConfusion hm
          · exfalso
            rw [g3] at hanc
            exact hnotunder LX oX hLX9 hoX hsetX hdescX lb g1 g2 h1 hanc

/-! ### buddy.c: `buddy_free` of a live block -/

theorem exists_div_two_pow_eq_one : ∀ (o : Nat), 1 ≤ o → ∃ d, o / 2 ^ d = 1 := by
  intro o
  induction o using Nat.strong_induction_on with
  | _ o ih =>
    intro ho
    by_cases h1 : o = 1
    · exact ⟨0, by rw [h1]; rfl⟩
    · obtain ⟨d, hd⟩ := ih (o / 2) (by omega) (by omega)
      exact ⟨d + 1, by rw [div_two_pow_succ]; exact hd⟩

theorem exists_last_true (P : Nat → Bool) (a : Nat) (hP : P a = true) :
    ∀ n, ∃ t, a ≤ t ∧ t ≤ a + n ∧ P t = true ∧ ∀ l, t < l → l ≤ a + n → P l = false := by
  intro n
  induction n with
  | zero => exact ⟨a, Nat.le_refl _, Nat.le_refl _, hP, fun l h1 h2 => by omega⟩
  | succ n ih =>
    obtain ⟨t, h1, h2, h3, h4⟩ := ih
    cases hc : P (a + (n + 1))
    · refine ⟨t, h1, by omega, h3, ?_⟩
      intro l g1 g2
      by_cases hl : l = a + (n + 1)
      · rw [hl]; exact hc
      · exact h4 l g1 (by omega)
    · exact ⟨a + (n + 1), by omega, Nat.le_refl _, hc, fun l g1 g2 => by omega⟩

/-- Going up from a block outside the bitmap area, some ancestor (or the block
itself) has a used buddy on a layer `t ≥ 1`; `t` is the first such layer. -/
theorem buddy_stop_layer (mem : Nat → Nat) (bm : Nat) (ht : BuddyTree mem bm) (L o : Nat)
    (hL9 : L ≤ 9) (ho : o < 2 ^ L) (h128 : 128 ≤ o * buddy_layer_block_size L) :
    ∃ t, 1 ≤ t ∧ t ≤ L ∧
      (∀ l, t < l → l ≤ L → buddy_bit mem bm l (buddy_sibling (o / 2 ^ (L - l))) = false) ∧
      buddy_bit mem bm t (buddy_sibling (o / 2 ^ (L - t))) = true := by
  rw [buddy_layer_block_size_eq L (by omega)] at h128
  have ho1 : 1 ≤ o := by
    rcases Nat.eq_zero_or_pos o with h0 | hp
    · rw [h0] at h128; omega
    · exact hp
  obtain ⟨d, hd⟩ := exists_div_two_pow_eq_one o ho1
  have hd1 : 2 ^ d ≤ o := by
    have : 1 ≤ o / 2 ^ d := by omega
    rw [Nat.le_div_iff_mul_le (two_pow_pos_nat d)] at this
    omega
  have hd2 : o < 2 ^ (d + 1) := by
    have : o / 2 ^ d < 2 := by omega
    rw [Nat.div_lt_iff_lt_mul (two_pow_pos_nat d)] at this
    rw [Nat.pow_succ]; omega
  have hdL : d < L := by
    by_contra hge
    have : 2 ^ L ≤ 2 ^ d := Nat.pow_le_pow_right (by decide) (by omega)
    omega
  have hd5 : L - d ≤ 5 := by
    by_contra hgt
    have h1 : 2 ^ (d + 1) ≤ 2 ^ (L - 5) := Nat.pow_le_pow_right (by decide) (by omega)
    have h2 : o * 2 ^ (12 - L) < 2 ^ (L - 5) * 2 ^ (12 - L) :=
      Nat.mul_lt_mul_of_pos_right (by omega) (two_pow_pos_nat _)
    rw [← Nat.pow_add, show L - 5 + (12 - L) = 7 by omega] at h2
    norm_num at h2
    omega
  have hstar : buddy_bit mem bm (L - d) (buddy_sibling (o / 2 ^ (L - (L - d)))) = true := by
    rw [show L - (L - d) = d by omega, hd]
    exact buddy_tree_reserved mem bm ht (L - d) hd5
  obtain ⟨t, h1, h2, h3, h4⟩ := exists_last_true
    (fun l => buddy_bit mem bm l (buddy_sibling (o / 2 ^ (L - l)))) (L - d) hstar d
  rw [show L - d + d = L by omega] at h2 h4
  exact ⟨t, by omega, h2, h4, h3⟩

theorem div_two_eq_cases (x y : Nat) (h : x / 2 = y / 2) : x = y ∨ x = buddy_sibling y := by
  unfold buddy_sibling
  split <;> omega

/-- `buddy_free` of a live block of a single-page pool returns, and the bits
afterwards are the old ones without the block and its ancestors down to the
first layer on which the buddy is used. -/
theorem buddy_free_live_spec (self : BuddyAllocator) (mem : Nat → Nat) (L o : Nat)
    (ht : BuddyTree mem self.base_addr) (hL1 : 1 ≤ L) (hL9 : L ≤ 9) (ho : o < 2 ^ L)
    (h128 : 128 ≤ o * buddy_layer_block_size L)
    (hset : buddy_bit mem self.base_addr L o = true)
    (hdesc : ∀ lb ob, L < lb → lb ≤ 9 → ob < 2 ^ lb → buddy_anc L o lb ob →
      buddy_bit mem self.base_addr lb ob = false) :
    ∃ mem2 t, buddy_free self (self.base_addr + o * buddy_layer_block_size L) mem =
        BRes.ok () mem2 ∧ 1 ≤ t ∧ t ≤ L ∧
      (∀ l, t < l → l ≤ L →
        buddy_bit mem self.base_addr l (buddy_sibling (o / 2 ^ (L - l))) = false) ∧
      buddy_bit mem self.base_addr t (buddy_sibling (o / 2 ^ (L - t))) = true ∧
      ∀ la x, la ≤ 9 → x < 2 ^ la →
        (buddy_bit mem2 self.base_addr la x = true ↔
          (buddy_bit mem self.base_addr la x = true ∧
            ¬ (t ≤ la ∧ la ≤ L ∧ x = o / 2 ^ (L - la)))) := by
  obtain ⟨t, ht1, htL, hsibs, hsib⟩ := buddy_stop_layer mem self.base_addr ht L o hL9 ho h128
  obtain ⟨mem2, e1, e2⟩ := buddy_free_block_spec self mem L o t hL1 hL9 ho h128 hset
    (fun j h1 h2 => hdesc (L + j) _ (by omega) h2 (mul_pow_lt_pow o L j ho)
      (buddy_anc_chain L o j))
    ht1 htL hsibs hsib
  refine ⟨mem2, t, e1, ht1, htL, hsibs, hsib, ?_⟩
  intro la x hla hx
  have hlt := buddy_idx_lt_total la x hla hx
  unfold buddy_bit
  rw [e2 _ (by omega)]
  constructor
  · rintro ⟨h, hn⟩
    refine ⟨h, ?_⟩
    rintro ⟨g1, g2, g3⟩
    exact hn ⟨la, g1, g2, by rw [g3]⟩
  · rintro ⟨h, hn⟩
    refine ⟨h, ?_⟩
    rintro ⟨l, g1, g2, g3⟩
    have := buddy_idx_inj la l x _ hx (div_two_pow_lt o L l g2 ho) g3
    apply hn
    rw [this.1]
    exact ⟨g1, g2, this.2⟩

/-- `buddy_free` of a live block preserves the invariant of a single-page
pool. -/
theorem buddy_free_preserves (self : BuddyAllocator) (mem mem1 : Nat → Nat)
    (live : List (Nat × Nat)) (n a : Nat) (hinv : BuddyInv self mem live)
    (hmem : (a, n) ∈ live) (h : buddy_free self a mem = BRes.ok () mem1) :
    BuddyInv self mem1 (live.erase (a, n)) := by
  obtain ⟨ht, hnd, hlive⟩ := hinv
  obtain ⟨L, o, hLn, ho, ha, h128, hset, hdesc⟩ := hlive (a, n) hmem
  simp only [] at hLn ha
  have hL := buddy_layer_from_size_some n L hLn
  obtain ⟨mem2, t, e1, ht1, htL, hsibs, hsib, hb2⟩ :=
    buddy_free_live_spec self mem L o ht hL.1 hL.2 ho h128 hset hdesc
  rw [← ha, h] at e1
  have hm : mem1 = mem2 := by
    injection e1
  subst hm
  refine ⟨⟨?_, ?_, ?_, ?_⟩, ?_, ?_⟩
  · intro la x hla hx hs
    have hx2 : x / 2 < 2 ^ la := by rw [Nat.pow_succ] at hx; omega
    rw [hb2 (la + 1) x (by omega) hx] at hs
    rw [hb2 la (x / 2) (by omega) hx2]
    refine ⟨ht.1 la x hla hx hs.1, ?_⟩
    rintro ⟨g1, g2, g3⟩
    by_cases hlaL : la = L
    · subst hlaL
      rw [Nat.sub_self, Nat.pow_zero, Nat.div_one] at g3
      have := hdesc (la + 1) x (by omega) (by omega) hx
        ⟨by omega, by rw [Nat.add_sub_cancel_left, Nat.pow_one]; exact g3⟩
      rw [hs.1] at this
      exact Bool.noConfusion this
    · have hpn : x / 2 = (o / 2 ^ (L - (la + 1))) / 2 := by
        rw [g3, show L - la = (L - (la + 1)) + 1 by omega, Nat.pow_succ,
          Nat.div_div_eq_div_mul]
      rcases div_two_eq_cases _ _ hpn with hc | hc
      · exact hs.2 ⟨by omega, by omega, hc⟩
      · have := hsibs (la + 1) (by omega) (by omega)
        rw [← hc, hs.1] at this
        exact Bool.noConfusion this
  · rw [hb2 5 0 (by omega) (by norm_num)]
    refine ⟨ht.2.1, ?_⟩
    rintro ⟨_, g2, g3⟩
    have hlt : o < 2 ^ (L - 5) := by
      have := g3.symm
      rw [Nat.div_eq_zero_iff (two_pow_pos_nat _)] at this
      exact this
    rw [buddy_layer_block_size_eq L (by omega)] at h128
    have h2 : o * 2 ^ (12 - L) < 2 ^ (L - 5) * 2 ^ (12 - L) :=
      Nat.mul_lt_mul_of_pos_right hlt (two_pow_pos_nat _)
    rw [← Nat.pow_add, show L - 5 + (12 - L) = 7 by omega] at h2
    norm_num at h2
    omega
  · cases hc : buddy_bit mem1 self.base_addr 6 0
    · rfl
    · rw [hb2 6 0 (by omega) (by norm_num), ht.2.2.1] at hc
      exact Bool.noConfusion hc.1
  · cases hc : buddy_bit mem1 self.base_addr 6 1
    · rfl
    · rw [hb2 6 1 (by omega) (by norm_num), ht.2.2.2] at hc
      exact Bool.noConfusion hc.1
  · exact List.Nodup.sublist ((List.erase_sublist (a, n) live).map Prod.fst) hnd
  · intro p hp
    have hnd2 : live.Nodup := List.Nodup.of_map Prod.fst hnd
    rw [List.Nodup.mem_erase_iff hnd2] at hp
    obtain ⟨hne, hpl⟩ := hp
    have hpa : p.1 ≠ a := by
      intro heq
      exact hne (List.inj_on_of_nodup_map hnd hpl hmem heq)
    obtain ⟨LY, oY, hLY, hoY, haY, h128Y, hsetY, hdescY⟩ := hlive p hpl
    have hLY9 := (buddy_layer_from_size_some _ _ hLY).2
    refine ⟨LY, oY, hLY, hoY, haY, h128Y, ?_, ?_⟩
    · rw [hb2 LY oY hLY9 hoY]
      refine ⟨hsetY, ?_⟩
      rintro ⟨_, g2, g3⟩
      by_cases hLL : LY = L
      · subst hLL
        rw [Nat.sub_self, Nat.pow_zero, Nat.div_one] at g3
        apply hpa
        rw [haY, ha, g3]
      · have := hdescY L o (by omega) hL.2 ho ⟨g2, g3.symm⟩
        rw [hset] at this
        exact Bool.noConfusion this
    · intro lb ob h1 h2 h3 hanc
      cases hc : buddy_bit mem1 self.base_addr lb ob
      · rfl
      · rw [hb2 lb ob h2 h3, hdescY lb ob h1 h2 h3 hanc] at hc
        exact Bool.noConfusion hc.1

/-- The bits of a zeroed page after `buddy_init`: block 0 of the layers 0..5. -/
theorem buddy_init_bits (self : BuddyAllocator) (hb : self.blocks = 1) (mem0 : Nat → Nat)
    (hzero : ∀ a, self.base_addr ≤ a → a < self.base_addr + self.blocks * PAGE_SIZE →
      mem0 a = 0) (i : Nat) (hi : i < 1024) :
    buddy_bitmap_get_bit (buddy_init self mem0) self.base_addr i =
      decide (i = 0 ∨ i = 1 ∨ i = 3 ∨ i = 7 ∨ i = 15 ∨ i = 31) := by
  have hz : buddy_bitmap_get_bit mem0 self.base_addr i = false := by
    unfold buddy_bitmap_get_bit
    rw [hzero _ (by omega) (by rw [hb]; simp only [PAGE_SIZE]; omega)]
    simp
  unfold buddy_init
  rw [hb]
  simp only [buddy_init_pages, buddy_init_layers, Nat.zero_mul, Nat.add_zero, buddy_get_mark,
    hz, buddy_bit_offset_layer, math_pow]
  norm_num
  by_cases h0 : i = 0 <;> by_cases h1 : i = 1 <;> by_cases h3 : i = 3 <;>
    by_cases h7 : i = 7 <;> by_cases h15 : i = 15 <;> by_cases h31 : i = 31 <;>
    simp [h0, h1, h3, h7, h15, h31]

/-- On a zeroed page `buddy_init` establishes the invariant with no live
block. -/
theorem buddy_init_inv (self : BuddyAllocator) (hb : self.blocks = 1) (mem0 : Nat → Nat)
    (hzero : ∀ a, self.base_addr ≤ a → a < self.base_addr + self.blocks * PAGE_SIZE →
      mem0 a = 0) :
    BuddyInv self (buddy_init self mem0) [] := by
  have hbit : ∀ la x, la ≤ 9 → x < 2 ^ la →
      buddy_bit (buddy_init self mem0) self.base_addr la x =
        decide (2 ^ la - 1 + x = 0 ∨ 2 ^ la - 1 + x = 1 ∨ 2 ^ la - 1 + x = 3 ∨
          2 ^ la - 1 + x = 7 ∨ 2 ^ la - 1 + x = 15 ∨ 2 ^ la - 1 + x = 31) := by
    intro la x hla hx
    have := buddy_idx_lt_total la x hla hx
    unfold buddy_bit
    rw [buddy_init_bits self hb mem0 hzero _ (by omega), buddy_idx_eq]
  refine ⟨⟨?_, ?_, ?_, ?_⟩, List.nodup_nil, ?_⟩
  · intro la x hla hx hs
    have hx2 : x / 2 < 2 ^ la := by rw [Nat.pow_succ] at hx; omega
    rw [hbit (la + 1) x (by omega) hx] at hs
    rw [hbit la (x / 2) (by omega) hx2]
    interval_cases la <;> simp only [decide_eq_true_eq] at hs ⊢ <;> norm_num at hs hx ⊢ <;> omega
  · rw [hbit 5 0 (by omega) (by norm_num)]; decide
  · rw [hbit 6 0 (by omega) (by norm_num)]; decide
  · rw [hbit 6 1 (by omega) (by norm_num)]; decide
  · intro p hp
    cases hp

/-- Every reachable state of a single-page pool satisfies the invariant. -/
theorem buddy_reach_inv (self : BuddyAllocator) (hb : self.blocks = 1) (mem : Nat → Nat)
    (live : List (Nat × Nat)) (hr : BuddyReach self mem live) : BuddyInv self mem live := by
  induction hr with
  | init mem0 hzero => exact buddy_init_inv self hb mem0 hzero
  | alloc mem mem1 live n a _ h ih => exact buddy_alloc_preserves self hb mem mem1 live n a ih h
  | free mem mem1 live n a _ hlive h ih =>
    exact buddy_free_preserves self mem mem1 live n a ih hlive h

/-- C10: in every state of a single-page pool reachable from `buddy_init` on a
zeroed page through `buddy_alloc` calls and `buddy_free` calls on live blocks,
whenever `buddy_alloc(n)` returns an address `a`, the following `buddy_free(a)`
returns normally and every one of the 1023 bitmap bits of the page has the value
it had before the `buddy_alloc` call. -/
theorem buddy_alloc_free_roundtrip (self : BuddyAllocator) (hb : self.blocks = 1)
    (mem mem1 : Nat → Nat) (live : List (Nat × Nat)) (n a : Nat)
    (hr : BuddyReach self mem live) (h : buddy_alloc self n mem = BRes.ok a mem1) :
    ∃ mem2, buddy_free self a mem1 = BRes.ok () mem2 ∧
      ∀ i, i < 1023 →
        buddy_bitmap_get_bit mem2 self.base_addr i = buddy_bitmap_get_bit mem self.base_addr i := by
  have hinv := buddy_reach_inv self hb mem live hr
  obtain ⟨L, l, off, _, hl1, hlL, hL9, hoff, hfree, hsib, ha, hbits, _⟩ :=
    buddy_alloc_ok_single self hb n a mem mem1 h
  rw [ha]
  exact buddy_roundtrip_core self mem mem1 L l off hinv.1 hl1 hlL hL9 hoff hfree hsib hbits

/-- C10 at a concrete pool: an 8-byte request right after `buddy_init`. -/
theorem buddy_alloc_free_roundtrip_witness :
    ∃ a mem1 mem2,
      buddy_alloc demo_pool 8 (buddy_init demo_pool (fun _ => 0)) = BRes.ok a mem1 ∧
      buddy_free demo_pool a mem1 = BRes.ok () mem2 ∧
      ∀ i, i < 1023 → buddy_bitmap_get_bit mem2 demo_pool.base_addr i =
        buddy_bitmap_get_bit (buddy_init demo_pool (fun _ => 0)) demo_pool.base_addr i := by
  cases h : buddy_alloc demo_pool 8 (buddy_init demo_pool (fun _ => 0)) with
  | fatal m =>
    have hv : BRes.value (buddy_alloc demo_pool 8 (buddy_init demo_pool (fun _ => 0))) =
        some 0x200080 := by
      set_option maxRecDepth 100000 in decide
    rw [h] at hv
    exact Option.noConfusion hv
  | ok a mem1 =>
    obtain ⟨mem2, h2, h3⟩ := buddy_alloc_free_roundtrip demo_pool rfl
      (buddy_init demo_pool (fun _ => 0)) mem1 [] 8 a
      (BuddyReach.init (fun _ => 0) (fun _ _ _ => rfl)) h
    exact ⟨a, mem1, mem2, rfl, h2, h3⟩

/-! ### Page-table words and frames -/

theorem clear_mask_testBit (i : Nat) :
    CLEAR_MASK.testBit i = (decide (12 ≤ i) && decide (i < 40)) := by
  have : CLEAR_MASK = (2 ^ 28 - 1) <<< 12 := by decide
  rw [this, Nat.testBit_shiftLeft, Nat.testBit_two_pow_sub_one]
  by_cases h : 12 ≤ i
  · simp only [h, decide_True, Bool.true_and, ge_iff_le]
    congr 1
    exact propext (by omega)
  · simp [h]

theorem frame_testBit (F i : Nat) :
    (F * PAGE_SIZE).testBit i = (decide (12 ≤ i) && F.testBit (i - 12)) := by
  have : F * PAGE_SIZE = F <<< 12 := by rw [Nat.shiftLeft_eq]; rfl
  rw [this, Nat.testBit_shiftLeft]

/-- The address field of a freshly written table entry is the frame address. -/
theorem address_table_entry (F : Nat) (hF : F < 2 ^ 28) :
    ADDRESS (F * PAGE_SIZE ||| PAGE_PRESENT ||| PAGE_WRITE ||| PAGE_USER) = F * PAGE_SIZE := by
  apply Nat.eq_of_testBit_eq
  intro i
  unfold ADDRESS
  rw [Nat.testBit_and, Nat.testBit_or, Nat.testBit_or, Nat.testBit_or, clear_mask_testBit,
    frame_testBit]
  have h1 : PAGE_PRESENT = 2 ^ 0 := rfl
  have h2 : PAGE_WRITE = 2 ^ 1 := rfl
  have h4 : PAGE_USER = 2 ^ 2 := rfl
  rw [h1, h2, h4, Nat.testBit_two_pow, Nat.testBit_two_pow, Nat.testBit_two_pow]
  by_cases h12 : 12 ≤ i
  · by_cases h40 : i < 40
    · have a0 : ¬ (0 = i) := by omega
      have a1 : ¬ (1 = i) := by omega
      have a2 : ¬ (2 = i) := by omega
      simp [h12, h40, a0, a1, a2]
    · have : F.testBit (i - 12) = false :=
        Nat.testBit_lt_two_pow (lt_of_lt_of_le hF (Nat.pow_le_pow_right (by decide) (by omega)))
      simp [h12, h40, this]
  · simp [h12]

theorem get_flag_present_eq (x : Nat) : GET_FLAG x PAGE_PRESENT = x.testBit 0 := by
  unfold GET_FLAG PAGE_PRESENT
  rw [Nat.testBit_zero, Nat.and_one_is_mod]
  rcases Nat.mod_two_eq_zero_or_one x with h | h <;> simp [h]

theorem get_flag_table_entry (F : Nat) :
    GET_FLAG (F ||| PAGE_PRESENT ||| PAGE_WRITE ||| PAGE_USER) PAGE_PRESENT = true := by
  rw [get_flag_present_eq, Nat.testBit_or, Nat.testBit_or, Nat.testBit_or]
  have h1 : PAGE_PRESENT.testBit 0 = true := by decide
  simp [h1]

theorem get_flag_leaf_entry (p f : Nat) :
    GET_FLAG ((p ||| f ||| PAGE_PRESENT) % U64) PAGE_PRESENT = true := by
  rw [get_flag_present_eq]
  have : U64 = 2 ^ 64 := rfl
  rw [this, Nat.testBit_mod_two_pow, Nat.testBit_or]
  have h1 : PAGE_PRESENT.testBit 0 = true := by decide
  simp [h1]

theorem get_flag_zero : GET_FLAG 0 PAGE_PRESENT = false := by decide

theorem index_lt (x k : Nat) : (x >>> k) &&& 0x1ff < 512 :=
  Nat.lt_of_le_of_lt Nat.and_le_right (by decide)

/-- An entry of the table in frame `F` lies in the image of `F`. -/
theorem entry_in_frame (s : KState) (F idx : Nat) (hidx : idx < 512) :
    in_frame s F (entry_addr (P2V s ((F * PAGE_SIZE) % U64)) idx) := by
  unfold in_frame entry_addr
  have h : P2V s ((F * PAGE_SIZE) % U64) < U64 := Nat.mod_lt _ (by decide)
  generalize P2V s ((F * PAGE_SIZE) % U64) = x at h
  simp only [U64, PAGE_SIZE] at h ⊢
  omega

/-- The images of two frames below `2^28` do not overlap. -/
theorem in_frame_inj (s : KState) (b F a : Nat) (hb : b < 2 ^ 28) (hF : F < 2 ^ 28)
    (h1 : in_frame s b a) (h2 : in_frame s F a) : b = F := by
  unfold in_frame P2V at h1 h2
  simp only [U64, PAGE_SIZE] at h1 h2
  norm_num at hb hF
  omega

theorem in_frame_congr (s t : KState) (h : t.pv_base = s.pv_base) (b a : Nat) :
    in_frame t b a ↔ in_frame s b a := by
  unfold in_frame P2V
  rw [h]

theorem P2V_congr (s t : KState) (h : t.pv_base = s.pv_base) (x : Nat) : P2V t x = P2V s x := by
  unfold P2V
  rw [h]

theorem footprint_refl (s : KState) : footprint s s :=
  ⟨rfl, rfl, rfl, fun _ h => h, fun _ _ _ => rfl⟩

/-- Frames free after a routine were free before it. -/
theorem frame_free_of_footprint (s s1 : KState) (h : footprint s s1) (b : Nat)
    (hf : frame_free s1 b) : frame_free s b := by
  obtain ⟨hN, _, _, hbits, _⟩ := h
  refine ⟨by rw [← hN]; exact hf.1, ?_⟩
  cases hb : pmem_bitmap_get_block s.bitmap b
  · rfl
  · have := hbits b hb
    rw [hf.2] at this
    exact Bool.noConfusion this

theorem slot_used_mono (s s1 : KState) (h : footprint s s1) (a : Nat) (hu : slot_used s a) :
    slot_used s1 a := by
  intro b hb hin
  exact hu b (frame_free_of_footprint s s1 h b hb) ((in_frame_congr s s1 h.2.1 b a).1 hin)

theorem footprint_trans (s s1 s2 : KState) (h1 : footprint s s1) (h2 : footprint s1 s2) :
    footprint s s2 := by
  refine ⟨h2.1.trans h1.1, h2.2.1.trans h1.2.1, h2.2.2.1.trans h1.2.2.1, ?_, ?_⟩
  · intro b hb
    exact h2.2.2.2.1 b (h1.2.2.2.1 b hb)
  · intro a hu hp
    have e1 := h1.2.2.2.2 a hu hp
    rw [h2.2.2.2.2 a (slot_used_mono s s1 h1 a hu) (by rw [e1]; exact hp), e1]

/-- Reading a bit after `pmem_bitmap_mark_block`. -/
theorem pmem_get_mark (bm : Nat → Nat) (block i : Nat) (used : Bool) :
    pmem_bitmap_get_block (pmem_bitmap_mark_block bm block used) i =
      if i = block then used else pmem_bitmap_get_block bm i := by
  have := buddy_get_mark bm 0 block i used
  simp only [buddy_bitmap_get_bit, buddy_bitmap_mark_bit, Nat.zero_add] at this
  exact this

/-- Marking one block used is one call of `pmem_bitmap_mark_block`. -/
theorem pmem_bitmap_mark_blocks_one (bm : Nat → Nat) (block : Nat) (used : Bool) :
    pmem_bitmap_mark_blocks bm block 1 used = pmem_bitmap_mark_block bm block used := by
  unfold pmem_bitmap_mark_blocks
  by_cases h : block % 8 ≠ 0
  · simp [pmem_mark_head, pmem_mark_rest, h]
  · simp [pmem_mark_head, pmem_mark_rest, h]

/-- The cursor after a successful search is the block after the found one. -/
theorem pmem_find_free_region_cursor (bm : Nat → Nat) (N next n : Nat)
    (hN : 0 < N) (hN64 : N < U64) (hnext : next < N) (hn : 1 ≤ n)
    (hfound : (pmem_find_free_region bm N next n).1 ≠ NEG1) :
    (pmem_find_free_region bm N next n).2 = ((pmem_find_free_region bm N next n).1 + 1) % N := by
  unfold pmem_find_free_region at hfound ⊢
  simp only [] at hfound ⊢
  have hle := pmem_reset_next_le bm next
  have h0 : ((pmem_reset_next bm next + 0) % U64) % N = pmem_reset_next bm next % N + 0 := by
    rw [Nat.add_zero, Nat.add_zero, Nat.mod_eq_of_lt (a := pmem_reset_next bm next)]
    omega
  have := pmem_find_loop_sound bm N n (pmem_reset_next bm next) hN hn N 0 0
    (pmem_reset_next bm next % N) (Or.inr h0) (by intro j hj; omega) (by omega) hfound
  exact this.2.2

theorem vmem_map_region_with_one (map : Nat → Nat → Nat → Nat → KState → Res Unit)
    (pt4 va pa fl : Nat) (s : KState) :
    vmem_map_region_with map pt4 va pa fl 1 0 s =
      match map pt4 ((va + 0 * PAGE_SIZE) % U64) ((pa + 0 * PAGE_SIZE) % U64) fl s with
      | Res.ok _ s1 => Res.ok () s1
      | Res.fatal s1 => Res.fatal s1
      | Res.timeout => Res.timeout := by
  simp only [vmem_map_region_with]

theorem mem_zero_page_in (mem : Nat → Nat) (s : KState) (F a : Nat) (h : in_frame s F a) :
    mem_zero mem (P2V s ((F * PAGE_SIZE) % U64)) ((1 * PAGE_SIZE) % U64) a = 0 := by
  unfold in_frame at h
  unfold mem_zero
  exact if_pos h

theorem mem_zero_page_out (mem : Nat → Nat) (s : KState) (F a : Nat) (h : ¬ in_frame s F a) :
    mem_zero mem (P2V s ((F * PAGE_SIZE) % U64)) ((1 * PAGE_SIZE) % U64) a = mem a := by
  unfold in_frame at h
  unfold mem_zero
  exact if_neg h

/-- `pmem_alloc_clean(pt4, 1)` meets the allocator contract when the mapping
routine it calls stays within the footprint. -/
theorem pmem_alloc_clean_with_spec (map : Nat → Nat → Nat → Nat → KState → Res Unit)
    (pt4 : Nat)
    (hmap : ∀ v p f s s1, kstate_ok s → map pt4 v p f s = Res.ok () s1 →
      footprint s s1 ∧ kstate_ok s1) :
    alloc_spec (pmem_alloc_clean_with map pt4 1) := by
  intro s frame s1 hok h
  unfold pmem_alloc_clean_with at h
  simp only [] at h
  have hN64 : s.bitmap_bit_size < U64 :=
    lt_of_le_of_lt hok.2.1 (by decide)
  by_cases hb : (pmem_find_free_region s.bitmap s.bitmap_bit_size s.next 1).1 = NEG1
  · rw [if_pos hb] at h; exact Res.noConfusion h
  · rw [if_neg hb, vmem_map_region_with_one] at h
    obtain ⟨hrun1, hrun2⟩ :=
      pmem_find_free_region_run _ _ _ 1 hok.1 hN64 hok.2.2 (le_refl 1) hb
    have hcur := pmem_find_free_region_cursor _ _ _ 1 hok.1 hN64 hok.2.2 (le_refl 1) hb
    have hclear := hrun2 0 (by decide)
    rw [Nat.add_zero] at hclear
    generalize (pmem_find_free_region s.bitmap s.bitmap_bit_size s.next 1).1 = F at *
    generalize (pmem_find_free_region s.bitmap s.bitmap_bit_size s.next 1).2 = nx at *
    have hF28 : F < 2 ^ 28 := by have := hok.2.1; omega
    have hFmod : (F * PAGE_SIZE) % U64 = F * PAGE_SIZE := by
      apply Nat.mod_eq_of_lt
      simp only [U64, PAGE_SIZE]
      norm_num at hF28
      omega
    have hok0 : kstate_ok { s with next := nx } := by
      refine ⟨hok.1, hok.2.1, ?_⟩
      show nx < s.bitmap_bit_size
      rw [hcur]
      exact Nat.mod_lt _ hok.1
    cases hm : map pt4 (((s.kernel_virt + F * PAGE_SIZE) % U64 + 0 * PAGE_SIZE) % U64)
        (((F * PAGE_SIZE) % U64 + 0 * PAGE_SIZE) % U64) PAGE_WRITE { s with next := nx } with
    | fatal t => rw [hm] at h; exact Res.noConfusion h
    | timeout => rw [hm] at h; exact Res.noConfusion h
    | ok u s2 =>
      rw [hm] at h
      obtain ⟨hfp, hok2⟩ := hmap _ _ _ _ _ hok0 hm
      have hfr : frame = (F * PAGE_SIZE) % U64 := by
        injection h with a b
        exact a.symm
      have hs1 : s1 = { s2 with
          bitmap := pmem_bitmap_mark_blocks s2.bitmap F 1 true
          mem := mem_zero s2.mem (P2V s2 ((F * PAGE_SIZE) % U64)) ((1 * PAGE_SIZE) % U64)
          blocks_allocated := (s2.blocks_allocated + 1) % U64 } := by
        injection h with a b
        exact b.symm
      have hfree : frame_free s F := ⟨by omega, hclear⟩
      subst hs1
      refine ⟨⟨hfp.1, hfp.2.1, hfp.2.2.1, ?_, ?_⟩, ⟨hok2.1, hok2.2.1, hok2.2.2⟩,
        F, hfree, by rw [hfr, hFmod], ?_, ?_⟩
      · intro b hbs
        show pmem_bitmap_get_block (pmem_bitmap_mark_blocks s2.bitmap F 1 true) b = true
        rw [pmem_bitmap_mark_blocks_one, pmem_get_mark]
        by_cases hbF : b = F
        · rw [if_pos hbF]
        · rw [if_neg hbF]; exact hfp.2.2.2.1 b hbs
      · intro a hu hp
        show mem_zero s2.mem (P2V s2 ((F * PAGE_SIZE) % U64)) ((1 * PAGE_SIZE) % U64) a = s.mem a
        rw [mem_zero_page_out, hfp.2.2.2.2 a hu hp]
        intro hin
        exact hu F hfree ((in_frame_congr s s2 hfp.2.1 F a).1 hin)
      · show pmem_bitmap_get_block (pmem_bitmap_mark_blocks s2.bitmap F 1 true) F = true
        rw [pmem_bitmap_mark_blocks_one, pmem_get_mark, if_pos rfl]
      · intro a hin
        show mem_zero s2.mem (P2V s2 ((F * PAGE_SIZE) % U64)) ((1 * PAGE_SIZE) % U64) a = 0
        exact mem_zero_page_in _ _ _ _ ((in_frame_congr s s2 hfp.2.1 F a).2 hin)

/-- `pmem_alloc_raw(1)` meets the allocator contract. -/
theorem pmem_alloc_raw_spec : alloc_spec (pmem_alloc_raw 1) := by
  intro s frame s1 hok h
  unfold pmem_alloc_raw at h
  simp only [] at h
  have hN64 : s.bitmap_bit_size < U64 :=
    lt_of_le_of_lt hok.2.1 (by decide)
  by_cases hb : (pmem_find_free_region s.bitmap s.bitmap_bit_size s.next 1).1 = NEG1
  · rw [if_pos hb] at h; exact Res.noConfusion h
  · rw [if_neg hb] at h
    obtain ⟨hrun1, hrun2⟩ :=
      pmem_find_free_region_run _ _ _ 1 hok.1 hN64 hok.2.2 (le_refl 1) hb
    have hcur := pmem_find_free_region_cursor _ _ _ 1 hok.1 hN64 hok.2.2 (le_refl 1) hb
    have hclear := hrun2 0 (by decide)
    rw [Nat.add_zero] at hclear
    generalize (pmem_find_free_region s.bitmap s.bitmap_bit_size s.next 1).1 = F at *
    generalize (pmem_find_free_region s.bitmap s.bitmap_bit_size s.next 1).2 = nx at *
    have hF28 : F < 2 ^ 28 := by have := hok.2.1; omega
    have hFmod : (F * PAGE_SIZE) % U64 = F * PAGE_SIZE := by
      apply Nat.mod_eq_of_lt
      simp only [U64, PAGE_SIZE]
      norm_num at hF28
      omega
    have hfr : frame = (F * PAGE_SIZE) % U64 := by
      injection h with a b
      exact a.symm
    have hs1 : s1 = { ({ s with next := nx } : KState) with
        bitmap := pmem_bitmap_mark_blocks s.bitmap F 1 true
        mem := mem_zero s.mem (P2V { s with next := nx } ((F * PAGE_SIZE) % U64))
          ((1 * PAGE_SIZE) % U64)
        blocks_allocated := (s.blocks_allocated + 1) % U64 } := by
      injection h with a b
      exact b.symm
    have hfree : frame_free s F := ⟨by omega, hclear⟩
    subst hs1
    refine ⟨⟨rfl, rfl, rfl, ?_, ?_⟩, ⟨hok.1, hok.2.1, ?_⟩, F, hfree, by rw [hfr, hFmod], ?_, ?_⟩
    · intro b hbs
      show pmem_bitmap_get_block (pmem_bitmap_mark_blocks s.bitmap F 1 true) b = true
      rw [pmem_bitmap_mark_blocks_one, pmem_get_mark]
      by_cases hbF : b = F
      · rw [if_pos hbF]
      · rw [if_neg hbF]; exact hbs
    · intro a hu hp
      show mem_zero s.mem (P2V { s with next := nx } ((F * PAGE_SIZE) % U64))
        ((1 * PAGE_SIZE) % U64) a = s.mem a
      rw [mem_zero_page_out]
      intro hin
      exact hu F hfree ((in_frame_congr s { s with next := nx } rfl F a).1 hin)
    · show nx < s.bitmap_bit_size
      rw [hcur]
      exact Nat.mod_lt _ hok.1
    · show pmem_bitmap_get_block (pmem_bitmap_mark_blocks s.bitmap F 1 true) F = true
      rw [pmem_bitmap_mark_blocks_one, pmem_get_mark, if_pos rfl]
    · intro a hin
      show mem_zero s.mem (P2V { s with next := nx } ((F * PAGE_SIZE) % U64))
        ((1 * PAGE_SIZE) % U64) a = 0
      exact mem_zero_page_in _ _ _ _ ((in_frame_congr s { s with next := nx } rfl F a).2 hin)

/-- One level of the walk: the entry is present afterwards; it either was so
before, or holds a frame that was free, is now marked used and is zeroed. -/
theorem vmem_ensure_table_spec (alloc : KState → Res Nat) (ha : alloc_spec alloc)
    (slot : Nat) (s s1 : KState) (hok : kstate_ok s)
    (h : vmem_ensure_table alloc slot s = Res.ok () s1) :
    footprint s s1 ∧ kstate_ok s1 ∧ GET_FLAG (s1.mem slot) PAGE_PRESENT = true ∧
    ((GET_FLAG (s.mem slot) PAGE_PRESENT = true ∧ s1 = s) ∨
     (GET_FLAG (s.mem slot) PAGE_PRESENT = false ∧ ∃ F, frame_free s F ∧
        pmem_bitmap_get_block s1.bitmap F = true ∧
        s1.mem slot = F * PAGE_SIZE ||| PAGE_PRESENT ||| PAGE_WRITE ||| PAGE_USER ∧
        ∀ a, in_frame s F a → a ≠ slot → s1.mem a = 0)) := by
  unfold vmem_ensure_table at h
  cases hp : GET_FLAG (s.mem slot) PAGE_PRESENT with
  | true =>
    rw [hp, if_pos rfl] at h
    have hs : s1 = s := by
      injection h with a b
      exact b.symm
    subst hs
    exact ⟨footprint_refl _, hok, hp, Or.inl ⟨rfl, rfl⟩⟩
  | false =>
    rw [hp] at h
    simp only [Bool.false_eq_true, if_false] at h
    cases hm : alloc s with
    | fatal t => rw [hm] at h; exact Res.noConfusion h
    | timeout => rw [hm] at h; exact Res.noConfusion h
    | ok frame s2 =>
      rw [hm] at h
      obtain ⟨hfp, hok2, F, hfree, hfr, hbit, hzero⟩ := ha s frame s2 hok hm
      have hs : s1 = { s2 with
          mem := mem_write s2.mem slot (frame ||| PAGE_PRESENT ||| PAGE_WRITE ||| PAGE_USER) } := by
        injection h with a b
        exact b.symm
      subst hs
      refine ⟨⟨hfp.1, hfp.2.1, hfp.2.2.1, hfp.2.2.2.1, ?_⟩, ⟨hok2.1, hok2.2.1, hok2.2.2⟩, ?_,
        Or.inr ⟨rfl, F, hfree, hbit, ?_, ?_⟩⟩
      · intro a hu hpa
        show mem_write s2.mem slot _ a = s.mem a
        unfold mem_write
        have hne : a ≠ slot := by
          intro e
          rw [e, hp] at hpa
          exact Bool.noConfusion hpa
        rw [if_neg hne]
        exact hfp.2.2.2.2 a hu hpa
      · show GET_FLAG (mem_write s2.mem slot _ slot) PAGE_PRESENT = true
        unfold mem_write
        rw [if_pos rfl]
        exact get_flag_table_entry frame
      · show mem_write s2.mem slot _ slot = _
        unfold mem_write
        rw [if_pos rfl, hfr]
      · intro a hin hne
        show mem_write s2.mem slot _ a = 0
        unfold mem_write
        rw [if_neg hne]
        exact hzero a hin

/-- One level of the walk, seen from the next level: the next entry lies
outside the free frames, and what held below a present next entry still holds. -/
theorem vmem_ensure_table_next (alloc : KState → Res Nat) (ha : alloc_spec alloc)
    (slot idx : Nat) (hidx : idx < 512) (C : KState → Prop) (s s1 : KState) (hok : kstate_ok s)
    (hu : slot_used s slot)
    (hnext : GET_FLAG (s.mem slot) PAGE_PRESENT = true →
      slot_used s (entry_addr (P2V s (ADDRESS (s.mem slot))) idx) ∧
      (GET_FLAG (s.mem (entry_addr (P2V s (ADDRESS (s.mem slot))) idx)) PAGE_PRESENT = true →
        C s))
    (h : vmem_ensure_table alloc slot s = Res.ok () s1) :
    slot_used s1 (entry_addr (P2V s1 (ADDRESS (s1.mem slot))) idx) ∧
    (GET_FLAG (s1.mem (entry_addr (P2V s1 (ADDRESS (s1.mem slot))) idx)) PAGE_PRESENT = true →
      C s1) := by
  obtain ⟨hfp, hok1, _, hcase⟩ := vmem_ensure_table_spec alloc ha slot s s1 hok h
  rcases hcase with ⟨hp, hs⟩ | ⟨_, F, hfree, hbit, hval, hzero⟩
  · subst hs
    exact hnext hp
  · have hF28 : F < 2 ^ 28 := lt_of_lt_of_le hfree.1 hok.2.1
    have hFmod : (F * PAGE_SIZE) % U64 = F * PAGE_SIZE := by
      apply Nat.mod_eq_of_lt
      simp only [U64, PAGE_SIZE]
      norm_num at hF28
      omega
    have hin : in_frame s F (entry_addr (P2V s1 (ADDRESS (s1.mem slot))) idx) := by
      rw [hval, address_table_entry F hF28, P2V_congr s s1 hfp.2.1, ← hFmod]
      exact entry_in_frame s F idx hidx
    have hne : entry_addr (P2V s1 (ADDRESS (s1.mem slot))) idx ≠ slot := by
      intro e
      rw [e] at hin
      exact hu F hfree hin
    have hz := hzero _ hin hne
    refine ⟨?_, ?_⟩
    · intro b hb hinb
      have hb28 : b < 2 ^ 28 := lt_of_lt_of_le hb.1 hok1.2.1
      have := in_frame_inj s b F _ hb28 hF28 ((in_frame_congr s s1 hfp.2.1 b _).1 hinb) hin
      have h2 := hb.2
      rw [this, hbit] at h2
      exact Bool.noConfusion h2
    · intro hp
      rw [hz, get_flag_zero] at hp
      exact Bool.noConfusion hp

/-- A normal return of the body of `vmem_map` / `vmem_map_raw`, taken apart:
the three levels that were ensured, the entries read and the final store. -/
theorem vmem_map_with_inv (alloc : KState → Res Nat) (pt4 v p f : Nat) (s s1 : KState)
    (h : vmem_map_with alloc pt4 v p f s = Res.ok () s1) :
    ∃ t1 t2 t3 e3 e2 e1,
      e3 = entry_addr (P2V t1 (ADDRESS (t1.mem (pt4_entry_of pt4 v)))) (INDEX_PT3 v) ∧
      e2 = entry_addr (P2V t2 (ADDRESS (t2.mem e3))) (INDEX_PT2 v) ∧
      e1 = entry_addr (P2V t3 (ADDRESS (t3.mem e2))) (INDEX_PT1 v) ∧
      vmem_ensure_table alloc (pt4_entry_of pt4 v) s = Res.ok () t1 ∧
      vmem_ensure_table alloc e3 t1 = Res.ok () t2 ∧
      vmem_ensure_table alloc e2 t2 = Res.ok () t3 ∧
      GET_FLAG (t3.mem e1) PAGE_PRESENT = false ∧
      s1 = { t3 with mem := mem_write t3.mem e1 ((p ||| f ||| PAGE_PRESENT) % U64) } := by
  unfold vmem_map_with at h
  simp only [] at h
  cases h4 : vmem_ensure_table alloc (entry_addr pt4 (INDEX_PT4 v)) s with
  | fatal t => rw [h4] at h; exact Res.noConfusion h
  | timeout => rw [h4] at h; exact Res.noConfusion h
  | ok u t1 =>
    rw [h4] at h
    simp only [] at h
    cases h3 : vmem_ensure_table alloc
        (entry_addr (P2V t1 (ADDRESS (t1.mem (entry_addr pt4 (INDEX_PT4 v))))) (INDEX_PT3 v))
        t1 with
    | fatal t => rw [h3] at h; exact Res.noConfusion h
    | timeout => rw [h3] at h; exact Res.noConfusion h
    | ok u2 t2 =>
      rw [h3] at h
      simp only [] at h
      cases h2 : vmem_ensure_table alloc
          (entry_addr (P2V t2 (ADDRESS (t2.mem
            (entry_addr (P2V t1 (ADDRESS (t1.mem (entry_addr pt4 (INDEX_PT4 v)))))
              (INDEX_PT3 v))))) (INDEX_PT2 v)) t2 with
      | fatal t => rw [h2] at h; exact Res.noConfusion h
      | timeout => rw [h2] at h; exact Res.noConfusion h
      | ok u3 t3 =>
        rw [h2] at h
        simp only [] at h
        refine ⟨t1, t2, t3, _, _, _, rfl, rfl, rfl, h4, h3, h2, ?_⟩
        cases hl : GET_FLAG (t3.mem (entry_addr (P2V t3 (ADDRESS (t3.mem
            (entry_addr (P2V t2 (ADDRESS (t2.mem
              (entry_addr (P2V t1 (ADDRESS (t1.mem (entry_addr pt4 (INDEX_PT4 v)))))
                (INDEX_PT3 v))))) (INDEX_PT2 v))))) (INDEX_PT1 v))) PAGE_PRESENT with
        | true =>
          rw [hl, if_pos rfl] at h
          exact Res.noConfusion h
        | false =>
          rw [hl] at h
          simp only [Bool.false_eq_true, if_false] at h
          refine ⟨hl, ?_⟩
          injection h with a b
          exact b.symm

theorem footprint_leaf_write (t : KState) (e val : Nat)
    (h : GET_FLAG (t.mem e) PAGE_PRESENT = false) :
    footprint t { t with mem := mem_write t.mem e val } := by
  refine ⟨rfl, rfl, rfl, fun _ hb => hb, ?_⟩
  intro a _ hp
  show mem_write t.mem e val a = t.mem a
  unfold mem_write
  have : a ≠ e := by
    intro e2
    rw [e2, h] at hp
    exact Bool.noConfusion hp
  rw [if_neg this]

/-- The body of `vmem_map` / `vmem_map_raw` stays within the footprint. -/
theorem vmem_map_with_footprint (alloc : KState → Res Nat) (ha : alloc_spec alloc)
    (pt4 v p f : Nat) (s s1 : KState) (hok : kstate_ok s)
    (h : vmem_map_with alloc pt4 v p f s = Res.ok () s1) :
    footprint s s1 ∧ kstate_ok s1 := by
  obtain ⟨t1, t2, t3, e3, e2, e1, _, _, _, h4, h3, h2, hl, hs⟩ :=
    vmem_map_with_inv alloc pt4 v p f s s1 h
  obtain ⟨f1, ok1, _, _⟩ := vmem_ensure_table_spec alloc ha _ s t1 hok h4
  obtain ⟨f2, ok2, _, _⟩ := vmem_ensure_table_spec alloc ha _ t1 t2 ok1 h3
  obtain ⟨f3, ok3, _, _⟩ := vmem_ensure_table_spec alloc ha _ t2 t3 ok2 h2
  subst hs
  exact ⟨footprint_trans _ _ _ (footprint_trans _ _ _ (footprint_trans _ _ _ f1 f2) f3)
    (footprint_leaf_write t3 e1 _ hl), ok3⟩

/-- `vmem_map`, with all the frames it allocates on the way, stays within the
footprint. -/
theorem vmem_map_footprint : ∀ (fuel pt4 v p f : Nat) (s s1 : KState), kstate_ok s →
    vmem_map fuel pt4 v p f s = Res.ok () s1 → footprint s s1 ∧ kstate_ok s1 := by
  intro fuel
  induction fuel with
  | zero =>
    intro pt4 v p f s s1 _ h
    exact Res.noConfusion h
  | succ fuel ih =>
    intro pt4 v p f s s1 hok h
    exact vmem_map_with_footprint _
      (pmem_alloc_clean_with_spec (vmem_map fuel) pt4 (fun v p f s s1 => ih pt4 v p f s s1))
      pt4 v p f s s1 hok h

/-- The allocator of `vmem_map` meets the allocator contract. -/
theorem vmem_map_alloc_spec (fuel pt4 : Nat) :
    alloc_spec (pmem_alloc_clean_with (vmem_map fuel) pt4 1) :=
  pmem_alloc_clean_with_spec (vmem_map fuel) pt4
    (fun v p f s s1 => vmem_map_footprint fuel pt4 v p f s s1)

/-- A present word outside the free frames survives a routine, and stays
outside the free frames. -/
theorem footprint_keeps (s s1 : KState) (h : footprint s s1) (a : Nat) (hu : slot_used s a)
    (hp : GET_FLAG (s.mem a) PAGE_PRESENT = true) :
    s1.mem a = s.mem a ∧ slot_used s1 a ∧ GET_FLAG (s1.mem a) PAGE_PRESENT = true := by
  have e := h.2.2.2.2 a hu hp
  exact ⟨e, slot_used_mono s s1 h a hu, by rw [e]; exact hp⟩

theorem mem_write_ne (mem : Nat → Nat) (e val a : Nat) (h : a ≠ e) :
    mem_write mem e val a = mem a := by
  unfold mem_write
  rw [if_neg h]

theorem mem_write_eq (mem : Nat → Nat) (e val : Nat) : mem_write mem e val e = val := by
  unfold mem_write
  rw [if_pos rfl]

theorem ne_of_present_absent (mem : Nat → Nat) (a e : Nat)
    (ha : GET_FLAG (mem a) PAGE_PRESENT = true) (he : GET_FLAG (mem e) PAGE_PRESENT = false) :
    a ≠ e := by
  intro h
  rw [h, he] at ha
  exact Bool.noConfusion ha

/-- After a normal return of the body of `vmem_map` / `vmem_map_raw` from a
state in which the walk of `v` lies outside the free frames: the three tables
of `v` are present, the leaf entry holds the new mapping, and the walk still
lies outside the free frames. -/
theorem vmem_map_with_walk (alloc : KState → Res Nat) (ha : alloc_spec alloc)
    (pt4 v p f : Nat) (s s1 : KState) (hok : kstate_ok s) (hw : walk_clear s pt4 v)
    (h : vmem_map_with alloc pt4 v p f s = Res.ok () s1) :
    tables_present s1 pt4 v = true ∧
    s1.mem (pt1_entry_of s1 pt4 v) = (p ||| f ||| PAGE_PRESENT) % U64 ∧
    (slot_used s1 (pt4_entry_of pt4 v) ∧ slot_used s1 (pt3_entry_of s1 pt4 v) ∧
      slot_used s1 (pt2_entry_of s1 pt4 v) ∧ slot_used s1 (pt1_entry_of s1 pt4 v)) ∧
    (pt4_entry_of pt4 v ≠ pt1_entry_of s1 pt4 v ∧
      pt3_entry_of s1 pt4 v ≠ pt1_entry_of s1 pt4 v ∧
      pt2_entry_of s1 pt4 v ≠ pt1_entry_of s1 pt4 v) := by
  obtain ⟨t1, t2, t3, e3, e2, e1, he3, he2, he1, h4, h3, h2, hl, hs⟩ :=
    vmem_map_with_inv alloc pt4 v p f s s1 h
  obtain ⟨f1, ok1, p4, _⟩ := vmem_ensure_table_spec alloc ha _ s t1 hok h4
  obtain ⟨f2, ok2, p3, _⟩ := vmem_ensure_table_spec alloc ha _ t1 t2 ok1 h3
  obtain ⟨f3, ok3, p2, _⟩ := vmem_ensure_table_spec alloc ha _ t2 t3 ok2 h2
  have n4 := vmem_ensure_table_next alloc ha (pt4_entry_of pt4 v) (INDEX_PT3 v) (index_lt _ _)
    (fun t => slot_used t (pt2_entry_of t pt4 v) ∧
      (GET_FLAG (t.mem (pt2_entry_of t pt4 v)) PAGE_PRESENT = true →
        slot_used t (pt1_entry_of t pt4 v))) s t1 hok hw.1 hw.2 h4
  rw [← he3] at n4
  have n3 := vmem_ensure_table_next alloc ha e3 (INDEX_PT2 v) (index_lt _ _)
    (fun t => slot_used t (entry_addr (P2V t (ADDRESS (t.mem
      (entry_addr (P2V t (ADDRESS (t.mem e3))) (INDEX_PT2 v))))) (INDEX_PT1 v))) t1 t2 ok1 n4.1
    (by
      intro hp
      have := n4.2 hp
      simp only [pt1_entry_of, pt2_entry_of, pt3_entry_of] at this
      rw [← he3] at this
      exact this) h3
  rw [← he2] at n3
  have n2 := vmem_ensure_table_next alloc ha e2 (INDEX_PT1 v) (index_lt _ _)
    (fun _ => True) t2 t3 ok2 n3.1
    (by
      intro hp
      have := n3.2 hp
      simp only [] at this
      rw [← he2] at this
      exact ⟨this, fun _ => trivial⟩) h2
  rw [← he1] at n2
  have k4a := footprint_keeps t1 t2 f2 _ (slot_used_mono s t1 f1 _ hw.1) p4
  have k4b := footprint_keeps t2 t3 f3 _ k4a.2.1 k4a.2.2
  have k3 := footprint_keeps t2 t3 f3 e3 (slot_used_mono t1 t2 f2 e3 n4.1) p3
  have u2 := slot_used_mono t2 t3 f3 e2 n3.1
  have hpv12 : ∀ x, P2V t3 x = P2V t1 x := fun x =>
    (P2V_congr t2 t3 f3.2.1 x).trans (P2V_congr t1 t2 f2.2.1 x)
  have hpv23 : ∀ x, P2V t3 x = P2V t2 x := fun x => P2V_congr t2 t3 f3.2.1 x
  have hm4 : s1.mem (pt4_entry_of pt4 v) = t1.mem (pt4_entry_of pt4 v) := by
    rw [hs]
    show mem_write t3.mem e1 _ _ = _
    rw [mem_write_ne _ _ _ _ (ne_of_present_absent t3.mem _ e1 k4b.2.2 hl), k4b.1, k4a.1]
  have hE3 : pt3_entry_of s1 pt4 v = e3 := by
    unfold pt3_entry_of
    rw [hm4, he3, ← hpv12, hs]
    rfl
  have hm3 : s1.mem e3 = t2.mem e3 := by
    rw [hs]
    show mem_write t3.mem e1 _ _ = _
    rw [mem_write_ne _ _ _ _ (ne_of_present_absent t3.mem _ e1 k3.2.2 hl), k3.1]
  have hE2 : pt2_entry_of s1 pt4 v = e2 := by
    unfold pt2_entry_of
    rw [hE3, hm3, he2, ← hpv23, hs]
    rfl
  have hm2 : s1.mem e2 = t3.mem e2 := by
    rw [hs]
    show mem_write t3.mem e1 _ _ = _
    rw [mem_write_ne _ _ _ _ (ne_of_present_absent t3.mem _ e1 p2 hl)]
  have hE1 : pt1_entry_of s1 pt4 v = e1 := by
    unfold pt1_entry_of
    rw [hE2, hm2, he1, hs]
    rfl
  have hused : ∀ a, slot_used t3 a → slot_used s1 a := by
    intro a hu
    rw [hs]
    exact hu
  refine ⟨?_, ?_, ⟨hused _ k4b.2.1, ?_, ?_, ?_⟩, ?_, ?_, ?_⟩
  · unfold tables_present
    rw [hE2, hE3, hm4, hm3, hm2, p4, p3, p2]
    rfl
  · rw [hE1, hs]
    exact mem_write_eq _ _ _
  · rw [hE3]; exact hused _ k3.2.1
  · rw [hE2]; exact hused _ u2
  · rw [hE1]; exact hused _ n2.1
  · rw [hE1]; exact ne_of_present_absent t3.mem _ e1 k4b.2.2 hl
  · rw [hE1, hE3]; exact ne_of_present_absent t3.mem _ e1 k3.2.2 hl
  · rw [hE1, hE2]; exact ne_of_present_absent t3.mem _ e1 p2 hl

/-- A store to a word that is none of the three table entries of the walk of
`v` leaves the walk of `v` as it was. -/
theorem walk_after_write (t : KState) (pt4 v e w : Nat)
    (h4 : pt4_entry_of pt4 v ≠ e) (h3 : pt3_entry_of t pt4 v ≠ e)
    (h2 : pt2_entry_of t pt4 v ≠ e) :
    pt1_entry_of { t with mem := mem_write t.mem e w } pt4 v = pt1_entry_of t pt4 v ∧
    tables_present { t with mem := mem_write t.mem e w } pt4 v = tables_present t pt4 v := by
  have a3 : pt3_entry_of { t with mem := mem_write t.mem e w } pt4 v =
      pt3_entry_of t pt4 v := by
    unfold pt3_entry_of
    show entry_addr (P2V _ (ADDRESS (mem_write t.mem _ w (pt4_entry_of pt4 v)))) _ = _
    rw [mem_write_ne _ _ _ _ h4]
    rfl
  have a2 : pt2_entry_of { t with mem := mem_write t.mem e w } pt4 v =
      pt2_entry_of t pt4 v := by
    unfold pt2_entry_of
    rw [a3]
    show entry_addr (P2V _ (ADDRESS (mem_write t.mem _ w (pt3_entry_of t pt4 v)))) _ = _
    rw [mem_write_ne _ _ _ _ h3]
    rfl
  have a1 : pt1_entry_of { t with mem := mem_write t.mem e w } pt4 v =
      pt1_entry_of t pt4 v := by
    unfold pt1_entry_of
    rw [a2]
    show entry_addr (P2V _ (ADDRESS (mem_write t.mem _ w (pt2_entry_of t pt4 v)))) _ = _
    rw [mem_write_ne _ _ _ _ h2]
    rfl
  refine ⟨a1, ?_⟩
  unfold tables_present
  rw [a2, a3]
  show (GET_FLAG (mem_write t.mem _ w (pt4_entry_of pt4 v)) PAGE_PRESENT &&
    GET_FLAG (mem_write t.mem _ w (pt3_entry_of t pt4 v)) PAGE_PRESENT &&
    GET_FLAG (mem_write t.mem _ w (pt2_entry_of t pt4 v)) PAGE_PRESENT) = _
  rw [mem_write_ne _ _ _ _ h4, mem_write_ne _ _ _ _ h3, mem_write_ne _ _ _ _ h2]

/-- No word of `demo_state` below the image of frame 5 lies in a free frame. -/
theorem demo_slot_used (a : Nat) (h : a < 0xC0005000) : slot_used demo_state a := by
  intro b hb hin
  have hb8 : b < 8 := hb.1
  have hfree := hb.2
  unfold in_frame P2V at hin
  simp only [U64, PAGE_SIZE] at hin
  have hpv : demo_state.pv_base = 0xC0000000 := rfl
  rw [hpv] at hin
  interval_cases b
  · exact absurd hfree (by decide)
  · exact absurd hfree (by decide)
  · exact absurd hfree (by decide)
  · exact absurd hfree (by decide)
  · exact absurd hfree (by decide)
  · omega
  · omega
  · omega

theorem leaf_value_lt (p f : Nat) (hp : p < U64) (hf : f < PAGE_SIZE) :
    (p ||| f ||| PAGE_PRESENT) % U64 = p ||| f ||| PAGE_PRESENT := by
  apply Nat.mod_eq_of_lt
  have h1 : f < 2 ^ 64 := lt_trans hf (by decide)
  have h2 : PAGE_PRESENT < 2 ^ 64 := by decide
  exact Nat.or_lt_two_pow (Nat.or_lt_two_pow hp h1) h2

/-- C5: in a state whose bitmap covers at most `2^28` frames and in which the
entries read by the walk of `v` lie outside the free frames, whenever
`vmem_map(pt4, v, p, f)` returns (`p` a 64-bit value, `f` within the low 12
bits; a return implies that the leaf entry of `v` was absent), the entries
reached through the indices of bits 39-47, 30-38 and 21-29 of `v` are present,
the L1 entry reached through bits 12-20 equals `p | f | PAGE_PRESENT`, and
every present word outside the free frames, so every present page-table entry,
has the value it had before the call. -/
theorem vmem_map_installs_leaf (fuel pt4 v p f : Nat) (s s1 : KState)
    (hok : kstate_ok s) (hw : walk_clear s pt4 v) (hp : p < U64) (hf : f < PAGE_SIZE)
    (h : vmem_map fuel pt4 v p f s = Res.ok () s1) :
    tables_present s1 pt4 v = true ∧
    s1.mem (pt1_entry_of s1 pt4 v) = p ||| f ||| PAGE_PRESENT ∧
    ∀ a, slot_used s a → GET_FLAG (s.mem a) PAGE_PRESENT = true → s1.mem a = s.mem a := by
  have hfp := (vmem_map_footprint fuel pt4 v p f s s1 hok h).1
  cases fuel with
  | zero => exact Res.noConfusion h
  | succ fuel =>
    have hk := vmem_map_with_walk _ (vmem_map_alloc_spec fuel pt4) pt4 v p f s s1 hok hw h
    refine ⟨hk.1, ?_, hfp.2.2.2.2⟩
    rw [hk.2.1, leaf_value_lt p f hp hf]

/-- C5 at `demo_state`: mapping `0xC0200000`, whose L2 entry is absent, takes
frame 5 for the missing table. -/
theorem vmem_map_installs_leaf_witness :
    ∃ s1, vmem_map 2 demo_pt4 0xC0200000 0x7000 PAGE_WRITE demo_state = Res.ok () s1 ∧
      tables_present s1 demo_pt4 0xC0200000 = true ∧
      s1.mem (pt1_entry_of s1 demo_pt4 0xC0200000) = 0x7000 ||| PAGE_WRITE ||| PAGE_PRESENT ∧
      ∀ a, slot_used demo_state a → GET_FLAG (demo_state.mem a) PAGE_PRESENT = true →
        s1.mem a = demo_state.mem a := by
  cases h : vmem_map 2 demo_pt4 0xC0200000 0x7000 PAGE_WRITE demo_state with
  | fatal t =>
    have hv : Res.value (vmem_map 2 demo_pt4 0xC0200000 0x7000 PAGE_WRITE demo_state) =
        some () := by decide
    rw [h] at hv
    exact Option.noConfusion hv
  | timeout =>
    have hv : Res.value (vmem_map 2 demo_pt4 0xC0200000 0x7000 PAGE_WRITE demo_state) =
        some () := by decide
    rw [h] at hv
    exact Option.noConfusion hv
  | ok u s1 =>
    exact ⟨s1, rfl, vmem_map_installs_leaf 2 demo_pt4 0xC0200000 0x7000 PAGE_WRITE demo_state s1
      ⟨by decide, by decide, by decide⟩
      ⟨demo_slot_used _ (by decide), fun _ => ⟨demo_slot_used _ (by decide), fun _ =>
        ⟨demo_slot_used _ (by decide), fun hp => absurd hp (by decide)⟩⟩⟩
      (by decide) (by decide) h⟩

/-- C6: in a state whose bitmap covers at most `2^28` frames and in which the
entries read by the walk of `v` lie outside the free frames, whenever
`vmem_map(pt4, v, p, f)` returns, the following `vmem_unmap(pt4, v)` returns
and leaves the leaf entry of `v` equal to 0 (absent) without touching the
bitmap; a second `vmem_map(pt4, v, p, f)` then returns in exactly the state
reached after the first `vmem_map`: the page tables are those of that state
and no frame has been allocated. -/
theorem vmem_map_unmap_map (fuel fuel2 pt4 v p f : Nat) (s s1 : KState)
    (hok : kstate_ok s) (hw : walk_clear s pt4 v)
    (h : vmem_map fuel pt4 v p f s = Res.ok () s1) :
    ∃ s2, vmem_unmap pt4 v s1 = Res.ok () s2 ∧
      s2.mem (pt1_entry_of s2 pt4 v) = 0 ∧ leaf_present s2 pt4 v = false ∧
      s2.bitmap = s1.bitmap ∧ s2.blocks_allocated = s1.blocks_allocated ∧
      vmem_map (fuel2 + 1) pt4 v p f s2 = Res.ok () s1 := by
  cases fuel with
  | zero => exact Res.noConfusion h
  | succ fuel =>
    obtain ⟨tp, lv, _, d4, d3, d2⟩ :=
      vmem_map_with_walk _ (vmem_map_alloc_spec fuel pt4) pt4 v p f s s1 hok hw h
    have hlp : leaf_present s1 pt4 v = true := by
      unfold leaf_present
      rw [tp, lv, get_flag_leaf_entry]
      rfl
    obtain ⟨a1, atp⟩ := walk_after_write s1 pt4 v (pt1_entry_of s1 pt4 v) 0 d4 d3 d2
    refine ⟨{ s1 with mem := mem_write s1.mem (pt1_entry_of s1 pt4 v) 0 }, ?_, ?_, ?_, rfl, rfl, ?_⟩
    · rw [vmem_unmap_eq, hlp, if_pos rfl]
    · rw [a1]
      exact mem_write_eq _ _ _
    · unfold leaf_present
      rw [a1, atp, tp]
      show (true && GET_FLAG (mem_write s1.mem _ 0 (pt1_entry_of s1 pt4 v)) PAGE_PRESENT) = false
      rw [mem_write_eq, get_flag_zero]
      rfl
    · simp only [vmem_map]
      rw [vmem_map_with_tables_present _ pt4 v p f _ (atp.trans tp), a1]
      have hz : GET_FLAG (({ s1 with mem := mem_write s1.mem (pt1_entry_of s1 pt4 v) 0 } :
          KState).mem (pt1_entry_of s1 pt4 v)) PAGE_PRESENT = false := by
        show GET_FLAG (mem_write s1.mem _ 0 (pt1_entry_of s1 pt4 v)) PAGE_PRESENT = false
        rw [mem_write_eq, get_flag_zero]
      rw [hz]
      simp only [Bool.false_eq_true, if_false]
      have hmem : mem_write (mem_write s1.mem (pt1_entry_of s1 pt4 v) 0) (pt1_entry_of s1 pt4 v)
          ((p ||| f ||| PAGE_PRESENT) % U64) = s1.mem := by
        funext a
        unfold mem_write
        by_cases ha : a = pt1_entry_of s1 pt4 v
        · rw [if_pos ha, ha, lv]
        · rw [if_neg ha, if_neg ha]
      rw [hmem]

/-- C6 at `demo_state`: mapping `0xC0400000`, unmapping it and mapping it
again. -/
theorem vmem_map_unmap_map_witness :
    ∃ s1 s2, vmem_map 2 demo_pt4 0xC0400000 0x6000 PAGE_WRITE demo_state = Res.ok () s1 ∧
      vmem_unmap demo_pt4 0xC0400000 s1 = Res.ok () s2 ∧
      s2.mem (pt1_entry_of s2 demo_pt4 0xC0400000) = 0 ∧
      leaf_present s2 demo_pt4 0xC0400000 = false ∧
      s2.bitmap = s1.bitmap ∧ s2.blocks_allocated = s1.blocks_allocated ∧
      vmem_map (0 + 1) demo_pt4 0xC0400000 0x6000 PAGE_WRITE s2 = Res.ok () s1 := by
  cases h : vmem_map 2 demo_pt4 0xC0400000 0x6000 PAGE_WRITE demo_state with
  | fatal t =>
    have hv : Res.value (vmem_map 2 demo_pt4 0xC0400000 0x6000 PAGE_WRITE demo_state) =
        some () := by decide
    rw [h] at hv
    exact Option.noConfusion hv
  | timeout =>
    have hv : Res.value (vmem_map 2 demo_pt4 0xC0400000 0x6000 PAGE_WRITE demo_state) =
        some () := by decide
    rw [h] at hv
    exact Option.noConfusion hv
  | ok u s1 =>
    obtain ⟨s2, h2⟩ := vmem_map_unmap_map 2 0 demo_pt4 0xC0400000 0x6000 PAGE_WRITE demo_state s1
      ⟨by decide, by decide, by decide⟩
      ⟨demo_slot_used _ (by decide), fun _ => ⟨demo_slot_used _ (by decide), fun _ =>
        ⟨demo_slot_used _ (by decide), fun hp => absurd hp (by decide)⟩⟩⟩ h
    exact ⟨s1, s2, rfl, h2⟩

/-! ### The lowest free frame -/

/-- Searching one block from a start below which every bit is set: a found
block has only set bits below it. -/
theorem pmem_find_loop_lowest (bm : Nat → Nat) (N start : Nat) (hN : 0 < N)
    (hN28 : N ≤ 2 ^ 28) (hstart : start ≤ N) :
    ∀ (fuel i cs st : Nat), i + fuel = N →
      (∀ b, b < N → b < start + i → pmem_bitmap_get_block bm b = true) →
      (((start + i) % U64) % N = 0 ∨ ((start + i) % U64) % N = st) →
      (pmem_find_loop bm N 1 start fuel i cs st).1 ≠ NEG1 →
      ∀ b, b < (pmem_find_loop bm N 1 start fuel i cs st).1 →
        pmem_bitmap_get_block bm b = true := by
  intro fuel
  induction fuel with
  | zero =>
    intro i cs st _ _ _ h
    simp [pmem_find_loop] at h
  | succ fuel ih =>
    intro i cs st hfuel hinv hcb hne
    have hmod : (start + i) % U64 = start + i := by
      apply Nat.mod_eq_of_lt
      simp only [U64]
      norm_num at hN28
      omega
    have hlt : ((start + i) % U64) % N < N := Nat.mod_lt _ hN
    simp only [pmem_find_loop] at hne ⊢
    by_cases hused : pmem_bitmap_get_block bm (((start + i) % U64) % N) = true
    · rw [if_pos hused] at hne ⊢
      refine ih (i + 1) 0 (((start + i) % U64) % N + 1) (by omega) ?_ ?_ hne
      · intro b hbN hb
        by_cases hbi : b < start + i
        · exact hinv b hbN hbi
        · have hbe : b = start + i := by omega
          rw [hmod, ← hbe, Nat.mod_eq_of_lt hbN] at hused
          exact hused
      · exact cur_block_succ N start i
    · rw [if_neg hused] at hne ⊢
      have hge : ¬ (N ≤ start + i) := by
        intro hge
        exact hused (hinv _ hlt (by omega))
      have hcur : ((start + i) % U64) % N = start + i := by
        rw [hmod]
        exact Nat.mod_eq_of_lt (by omega)
      simp only [Nat.zero_add, ge_iff_le, Nat.le_add_left, if_true]
      intro b hb
      have hb2 : b < start + i := by
        rw [hcur] at hb hcb
        split at hb
        · omega
        · rcases hcb with h0 | h1
          · omega
          · omega
      exact hinv b (by omega) hb2

/-- From a cursor at which the search reaches the lowest free frame first, a
search for one block returns the lowest free frame and moves the cursor right
behind it. -/
theorem pmem_find_free_region_lowest (s : KState) (hok : kstate_ok s) (hlow : cursor_low s)
    (hfound : (pmem_find_free_region s.bitmap s.bitmap_bit_size s.next 1).1 ≠ NEG1) :
    lowest_free s (pmem_find_free_region s.bitmap s.bitmap_bit_size s.next 1).1 ∧
    (pmem_find_free_region s.bitmap s.bitmap_bit_size s.next 1).2 =
      ((pmem_find_free_region s.bitmap s.bitmap_bit_size s.next 1).1 + 1) %
        s.bitmap_bit_size := by
  have hN64 : s.bitmap_bit_size < U64 := lt_of_le_of_lt hok.2.1 (by decide)
  obtain ⟨hrun1, hrun2⟩ :=
    pmem_find_free_region_run _ _ _ 1 hok.1 hN64 hok.2.2 (le_refl 1) hfound
  have hcur := pmem_find_free_region_cursor _ _ _ 1 hok.1 hN64 hok.2.2 (le_refl 1) hfound
  have hclear := hrun2 0 (by decide)
  rw [Nat.add_zero] at hclear
  refine ⟨⟨⟨by omega, hclear⟩, ?_⟩, hcur⟩
  have hle := pmem_reset_next_le s.bitmap s.next
  have hbelow : ∀ b, b < s.bitmap_bit_size → b < pmem_reset_next s.bitmap s.next + 0 →
      pmem_bitmap_get_block s.bitmap b = true := by
    intro b _ hb
    rcases pmem_reset_next_cases s.bitmap s.next with h0 | ⟨he, hpos, hset⟩
    · rw [h0] at hb; omega
    · rcases hlow with ⟨_, hc⟩ | hall
      · rw [hc] at hset; exact Bool.noConfusion hset
      · exact hall b (by rw [he] at hb; omega)
  unfold pmem_find_free_region at hfound ⊢
  simp only [] at hfound ⊢
  have hst : pmem_reset_next s.bitmap s.next % s.bitmap_bit_size =
      pmem_reset_next s.bitmap s.next := Nat.mod_eq_of_lt (by have := hok.2.2; omega)
  refine pmem_find_loop_lowest s.bitmap s.bitmap_bit_size (pmem_reset_next s.bitmap s.next)
    hok.1 hok.2.1 (by have := hok.2.2; omega) s.bitmap_bit_size 0 0 _ (by omega) hbelow ?_ hfound
  right
  rw [Nat.add_zero, Nat.mod_eq_of_lt (lt_of_le_of_lt hle (lt_trans hok.2.2 hN64))]

theorem lowest_free_unique (s : KState) (G F : Nat) (hG : lowest_free s G)
    (hF : lowest_free s F) : G = F := by
  rcases Nat.lt_trichotomy G F with h | h | h
  · have := hF.2 G h
    rw [hG.1.2] at this
    exact Bool.noConfusion this
  · exact h
  · have := hG.2 F h
    rw [hF.1.2] at this
    exact Bool.noConfusion this

/-- A normal return of `pmem_alloc_clean(pt4, 1)`, taken apart. -/
theorem pmem_alloc_clean_with_inv (map : Nat → Nat → Nat → Nat → KState → Res Unit)
    (pt4 : Nat) (s : KState) (frame : Nat) (s1 : KState)
    (h : pmem_alloc_clean_with map pt4 1 s = Res.ok frame s1) :
    ∃ F nx s2, (pmem_find_free_region s.bitmap s.bitmap_bit_size s.next 1).1 = F ∧
      (pmem_find_free_region s.bitmap s.bitmap_bit_size s.next 1).2 = nx ∧ F ≠ NEG1 ∧
      map pt4 (kwin s F) ((F * PAGE_SIZE) % U64) PAGE_WRITE { s with next := nx } =
        Res.ok () s2 ∧
      frame = (F * PAGE_SIZE) % U64 ∧
      s1 = { s2 with
        bitmap := pmem_bitmap_mark_block s2.bitmap F true
        mem := mem_zero s2.mem (P2V s2 ((F * PAGE_SIZE) % U64)) ((1 * PAGE_SIZE) % U64)
        blocks_allocated := (s2.blocks_allocated + 1) % U64 } := by
  unfold pmem_alloc_clean_with at h
  simp only [] at h
  by_cases hb : (pmem_find_free_region s.bitmap s.bitmap_bit_size s.next 1).1 = NEG1
  · rw [if_pos hb] at h; exact Res.noConfusion h
  · rw [if_neg hb, vmem_map_region_with_one] at h
    have ev : ∀ F, ((s.kernel_virt + F * PAGE_SIZE) % U64 + 0 * PAGE_SIZE) % U64 =
        kwin s F := by
      intro F
      unfold kwin
      rw [Nat.zero_mul, Nat.add_zero, Nat.mod_mod]
    have ep : ∀ F, ((F * PAGE_SIZE) % U64 + 0 * PAGE_SIZE) % U64 = (F * PAGE_SIZE) % U64 := by
      intro F
      rw [Nat.zero_mul, Nat.add_zero, Nat.mod_mod]
    rw [ev, ep] at h
    cases hm : map pt4 (kwin s (pmem_find_free_region s.bitmap s.bitmap_bit_size s.next 1).1)
        (((pmem_find_free_region s.bitmap s.bitmap_bit_size s.next 1).1 * PAGE_SIZE) % U64)
        PAGE_WRITE
        { s with next := (pmem_find_free_region s.bitmap s.bitmap_bit_size s.next 1).2 } with
    | fatal t => rw [hm] at h; exact Res.noConfusion h
    | timeout => rw [hm] at h; exact Res.noConfusion h
    | ok u s2 =>
      rw [hm] at h
      refine ⟨_, _, s2, rfl, rfl, hb, hm, ?_, ?_⟩
      · injection h with a b
        exact a.symm
      · injection h with a b
        rw [← b, pmem_bitmap_mark_blocks_one]

/-- A normal return of one level of the walk, taken apart. -/
theorem vmem_ensure_table_inv (alloc : KState → Res Nat) (slot : Nat) (s t1 : KState)
    (h : vmem_ensure_table alloc slot s = Res.ok () t1) :
    (GET_FLAG (s.mem slot) PAGE_PRESENT = true ∧ t1 = s) ∨
    (GET_FLAG (s.mem slot) PAGE_PRESENT = false ∧ ∃ frame s2, alloc s = Res.ok frame s2 ∧
      t1 = { s2 with
        mem := mem_write s2.mem slot (frame ||| PAGE_PRESENT ||| PAGE_WRITE ||| PAGE_USER) }) := by
  unfold vmem_ensure_table at h
  cases hp : GET_FLAG (s.mem slot) PAGE_PRESENT with
  | true =>
    rw [hp, if_pos rfl] at h
    left
    refine ⟨rfl, ?_⟩
    injection h with a b
    exact b.symm
  | false =>
    rw [hp] at h
    simp only [Bool.false_eq_true, if_false] at h
    right
    refine ⟨rfl, ?_⟩
    cases hm : alloc s with
    | fatal t => rw [hm] at h; exact Res.noConfusion h
    | timeout => rw [hm] at h; exact Res.noConfusion h
    | ok frame s2 =>
      rw [hm] at h
      refine ⟨frame, s2, rfl, ?_⟩
      injection h with a b
      exact b.symm

theorem cursor_low_after_find (s : KState) (G : Nat) (hfree : frame_free s G)
    (hnext : s.next = (G + 1) % s.bitmap_bit_size) : cursor_low s := by
  by_cases h0 : s.next = 0
  · right
    intro b hb
    omega
  · left
    have hlt : G + 1 < s.bitmap_bit_size := by
      by_contra hge
      have hG := hfree.1
      have : G + 1 = s.bitmap_bit_size := by omega
      rw [this, Nat.mod_self] at hnext
      exact h0 hnext
    rw [Nat.mod_eq_of_lt hlt] at hnext
    refine ⟨by omega, ?_⟩
    rw [hnext, Nat.add_sub_cancel]
    exact hfree.2

/-- Mapping the kernel-window page of the lowest free frame never returns when
one of its tables is missing: the table would be taken from the same frame,
whose mapping needs the same table. -/
theorem vmem_map_lowest_no_return : ∀ (fuel pt4 G p f : Nat) (s s1 : KState),
    kstate_ok s → lowest_free s G → s.next = (G + 1) % s.bitmap_bit_size →
    tables_present s pt4 (kwin s G) = false →
    vmem_map fuel pt4 (kwin s G) p f s = Res.ok () s1 → False := by
  intro fuel
  induction fuel with
  | zero =>
    intro pt4 G p f s s1 _ _ _ _ h
    exact Res.noConfusion h
  | succ fuel ih =>
    intro pt4 G p f s s1 hok hlG hnext htp h
    have hlow := cursor_low_after_find s G hlG.1 hnext
    have halloc : ∀ frame s2,
        pmem_alloc_clean_with (vmem_map fuel) pt4 1 s = Res.ok frame s2 → False := by
      intro frame s2 ha
      obtain ⟨F, nx, s3, hF, hnx, hne, hm, _, _⟩ :=
        pmem_alloc_clean_with_inv (vmem_map fuel) pt4 s frame s2 ha
      have hl := pmem_find_free_region_lowest s hok hlow (by rw [hF]; exact hne)
      rw [hF, hnx] at hl
      have hFG : F = G := lowest_free_unique s F G hl.1 hlG
      rw [hFG] at hl hm
      have hs : ({ s with next := nx } : KState) = s := by
        rw [hl.2, ← hnext]
      rw [hs] at hm
      exact ih pt4 G _ _ s s3 hok hlG hnext htp hm
    obtain ⟨t1, t2, t3, e3, e2, e1, he3, he2, he1, h4, h3, h2, _, _⟩ :=
      vmem_map_with_inv _ pt4 (kwin s G) p f s s1 h
    rcases vmem_ensure_table_inv _ _ s t1 h4 with ⟨p4, e⟩ | ⟨_, frame, s2, ha, _⟩
    · subst e
      rcases vmem_ensure_table_inv _ _ t1 t2 h3 with ⟨p3, e⟩ | ⟨_, frame, s2, ha, _⟩
      · subst e
        rcases vmem_ensure_table_inv _ _ t2 t3 h2 with ⟨p2, e⟩ | ⟨_, frame, s2, ha, _⟩
        · subst e
          simp only [tables_present, pt2_entry_of, pt3_entry_of] at htp
          rw [← he3, ← he2, p4, p3, p2] at htp
          exact Bool.noConfusion htp
        · exact halloc frame s2 ha
      · exact halloc frame s2 ha
    · exact halloc frame s2 ha

/-- From a cursor at which the search reaches the lowest free frame first, a
returning `pmem_alloc_clean(pt4, 1)` takes the lowest free frame `G`, whose
kernel-window page has all its tables, writes the leaf entry of that page,
marks `G` and zeroes it; nothing else changes. -/
theorem pmem_alloc_clean_low (fuel pt4 : Nat) (s s1 : KState) (frame : Nat)
    (hok : kstate_ok s) (hlow : cursor_low s)
    (h : pmem_alloc_clean_with (vmem_map fuel) pt4 1 s = Res.ok frame s1) :
    ∃ G, lowest_free s G ∧ frame = G * PAGE_SIZE ∧
      tables_present s pt4 (kwin s G) = true ∧
      GET_FLAG (s.mem (pt1_entry_of s pt4 (kwin s G))) PAGE_PRESENT = false ∧
      s1.next = (G + 1) % s.bitmap_bit_size ∧
      (∀ b, pmem_bitmap_get_block s1.bitmap b =
        if b = G then true else pmem_bitmap_get_block s.bitmap b) ∧
      (∀ a, in_frame s G a → s1.mem a = 0) ∧
      (∀ a, ¬ in_frame s G a → a ≠ pt1_entry_of s pt4 (kwin s G) → s1.mem a = s.mem a) := by
  obtain ⟨F, nx, s2, hF, hnx, hne, hm, hfr, hs1⟩ :=
    pmem_alloc_clean_with_inv (vmem_map fuel) pt4 s frame s1 h
  have hl := pmem_find_free_region_lowest s hok hlow (by rw [hF]; exact hne)
  rw [hF, hnx] at hl
  have hF28 : F < 2 ^ 28 := lt_of_lt_of_le hl.1.1.1 hok.2.1
  have hFmod : (F * PAGE_SIZE) % U64 = F * PAGE_SIZE := by
    apply Nat.mod_eq_of_lt
    simp only [U64, PAGE_SIZE]
    norm_num at hF28
    omega
  have hok0 : kstate_ok { s with next := nx } := by
    refine ⟨hok.1, hok.2.1, ?_⟩
    show nx < s.bitmap_bit_size
    rw [hl.2]
    exact Nat.mod_lt _ hok.1
  have htp : tables_present s pt4 (kwin s F) = true := by
    cases hc : tables_present s pt4 (kwin s F) with
    | true => rfl
    | false =>
      exfalso
      exact vmem_map_lowest_no_return fuel pt4 F _ _ { s with next := nx } s2 hok0 hl.1 hl.2 hc hm
  cases fuel with
  | zero => exact Res.noConfusion hm
  | succ fuel =>
    simp only [vmem_map] at hm
    rw [vmem_map_with_tables_present _ pt4 (kwin s F) _ _ { s with next := nx }
      (show tables_present { s with next := nx } pt4 (kwin s F) = true from htp)] at hm
    cases hleaf : GET_FLAG (s.mem (pt1_entry_of s pt4 (kwin s F))) PAGE_PRESENT with
    | true =>
      exfalso
      have hm2 := hm
      rw [show ({ s with next := nx } : KState).mem = s.mem from rfl,
        show pt1_entry_of { s with next := nx } pt4 (kwin s F) =
          pt1_entry_of s pt4 (kwin s F) from rfl, hleaf, if_pos rfl] at hm2
      exact Res.noConfusion hm2
    | false =>
      have hm2 := hm
      rw [show ({ s with next := nx } : KState).mem = s.mem from rfl,
        show pt1_entry_of { s with next := nx } pt4 (kwin s F) =
          pt1_entry_of s pt4 (kwin s F) from rfl, hleaf] at hm2
      simp only [Bool.false_eq_true, if_false] at hm2
      have hs2 : s2 = { ({ s with next := nx } : KState) with
          mem := mem_write s.mem (pt1_entry_of s pt4 (kwin s F))
            (((F * PAGE_SIZE) % U64 ||| PAGE_WRITE ||| PAGE_PRESENT) % U64) } := by
        injection hm2 with a b
        exact b.symm
      subst hs2
      subst hs1
      refine ⟨F, hl.1, by rw [hfr, hFmod], htp, hleaf, hl.2, ?_, ?_, ?_⟩
      · intro b
        show pmem_bitmap_get_block (pmem_bitmap_mark_block s.bitmap F true) b = _
        rw [pmem_get_mark]
      · intro a hin
        exact mem_zero_page_in _ _ _ _ hin
      · intro a hin hne2
        show mem_zero (mem_write s.mem (pt1_entry_of s pt4 (kwin s F)) _)
          (P2V s ((F * PAGE_SIZE) % U64)) ((1 * PAGE_SIZE) % U64) a = s.mem a
        rw [mem_zero_page_out _ _ _ _ hin]
        exact mem_write_ne _ _ _ _ hne2

/-! ### The tree of page tables -/

theorem table_slot_congr (s t : KState) (h : t.pv_base = s.pv_base) (F idx : Nat) :
    table_slot t F idx = table_slot s F idx := by
  unfold table_slot
  rw [P2V_congr s t h]

theorem frame_mod (F : Nat) (hF : F < 2 ^ 28) : (F * PAGE_SIZE) % U64 = F * PAGE_SIZE := by
  apply Nat.mod_eq_of_lt
  simp only [U64, PAGE_SIZE]
  norm_num at hF
  omega

theorem table_slot_in_frame (s : KState) (F idx : Nat) (hidx : idx < 512) :
    in_frame s F (table_slot s F idx) :=
  entry_in_frame s F idx hidx

theorem table_slot_frame_inj (s : KState) (F G i j : Nat) (hF : F < 2 ^ 28) (hG : G < 2 ^ 28)
    (hi : i < 512) (hj : j < 512) (h : table_slot s F i = table_slot s G j) : F = G := by
  have h1 := table_slot_in_frame s F i hi
  have h2 := table_slot_in_frame s G j hj
  rw [h] at h1
  exact in_frame_inj s F G _ hF hG h1 h2

theorem tree_typed_lt (s : KState) (pt4 : Nat) (lvl : Nat → Nat) (hok : kstate_ok s)
    (ht : TreeWf s pt4 lvl) (F : Nat) (hF : lvl F ≠ 0) : F < 2 ^ 28 :=
  lt_of_lt_of_le (ht.2.1 F hF).1 hok.2.1

theorem tree_free_untyped (s : KState) (pt4 : Nat) (lvl : Nat → Nat)
    (ht : TreeWf s pt4 lvl) (G : Nat) (hG : frame_free s G) : lvl G = 0 := by
  by_contra h
  have := (ht.2.1 G h).2.1
  rw [hG.2] at this
  exact Bool.noConfusion this

/-- An entry of a table lies outside the free frames. -/
theorem tree_slot_used (s : KState) (pt4 : Nat) (lvl : Nat → Nat) (hok : kstate_ok s)
    (ht : TreeWf s pt4 lvl) (F idx : Nat) (hF : lvl F ≠ 0) (hidx : idx < 512) :
    slot_used s (table_slot s F idx) := by
  intro b hb hin
  have hb28 : b < 2 ^ 28 := lt_of_lt_of_le hb.1 hok.2.1
  have := in_frame_inj s b F _ hb28 (tree_typed_lt s pt4 lvl hok ht F hF) hin
    (table_slot_in_frame s F idx hidx)
  rw [this] at hb
  exact hF (tree_free_untyped s pt4 lvl ht F hb)

/-- The root entry of a walk is an entry of the level-4 table. -/
theorem tree_walk_root (s : KState) (pt4 : Nat) (lvl : Nat → Nat) (ht : TreeWf s pt4 lvl)
    (v : Nat) : ∃ F4, lvl F4 = 4 ∧ pt4_entry_of pt4 v = table_slot s F4 (INDEX_PT4 v) := by
  obtain ⟨F4, h4, hp⟩ := ht.1
  refine ⟨F4, h4, ?_⟩
  unfold pt4_entry_of table_slot
  rw [hp]

/-- A present entry of a table of level 2, 3 or 4 leads to the table of the
level below. -/
theorem tree_walk_next (s : KState) (pt4 : Nat) (lvl : Nat → Nat) (hok : kstate_ok s)
    (ht : TreeWf s pt4 lvl) (F idx : Nat) (hF : 2 ≤ lvl F) (hidx : idx < 512)
    (hp : GET_FLAG (s.mem (table_slot s F idx)) PAGE_PRESENT = true) :
    ∃ G, lvl G + 1 = lvl F ∧ ADDRESS (s.mem (table_slot s F idx)) = G * PAGE_SIZE ∧
      ∀ j, entry_addr (P2V s (ADDRESS (s.mem (table_slot s F idx)))) j = table_slot s G j := by
  obtain ⟨G, hG, hl⟩ := ht.2.2 F idx hF hidx hp
  refine ⟨G, hl, hG, ?_⟩
  intro j
  rw [hG]
  unfold table_slot
  rw [frame_mod G (tree_typed_lt s pt4 lvl hok ht G (by omega))]

/-- The walk of every address stays inside the tables, hence outside the free
frames. -/
theorem tree_walk_clear (s : KState) (pt4 : Nat) (lvl : Nat → Nat) (hok : kstate_ok s)
    (ht : TreeWf s pt4 lvl) (v : Nat) : walk_clear s pt4 v := by
  obtain ⟨F4, h4, e4⟩ := tree_walk_root s pt4 lvl ht v
  refine ⟨?_, ?_⟩
  · rw [e4]
    exact tree_slot_used s pt4 lvl hok ht F4 _ (by omega) (index_lt _ _)
  · intro p4
    rw [e4] at p4
    obtain ⟨G3, l3, _, e3⟩ := tree_walk_next s pt4 lvl hok ht F4 _ (by omega) (index_lt _ _) p4
    have E3 : pt3_entry_of s pt4 v = table_slot s G3 (INDEX_PT3 v) := by
      unfold pt3_entry_of
      rw [e4]
      exact e3 _
    refine ⟨?_, ?_⟩
    · rw [E3]
      exact tree_slot_used s pt4 lvl hok ht G3 _ (by omega) (index_lt _ _)
    · intro p3
      rw [E3] at p3
      obtain ⟨G2, l2, _, e2⟩ :=
        tree_walk_next s pt4 lvl hok ht G3 _ (by omega) (index_lt _ _) p3
      have E2 : pt2_entry_of s pt4 v = table_slot s G2 (INDEX_PT2 v) := by
        unfold pt2_entry_of
        rw [E3]
        exact e2 _
      refine ⟨?_, ?_⟩
      · rw [E2]
        exact tree_slot_used s pt4 lvl hok ht G2 _ (by omega) (index_lt _ _)
      · intro p2
        rw [E2] at p2
        obtain ⟨G1, l1, _, e1⟩ :=
          tree_walk_next s pt4 lvl hok ht G2 _ (by omega) (index_lt _ _) p2
        have E1 : pt1_entry_of s pt4 v = table_slot s G1 (INDEX_PT1 v) := by
          unfold pt1_entry_of
          rw [E2]
          exact e1 _
        rw [E1]
        exact tree_slot_used s pt4 lvl hok ht G1 _ (by omega) (index_lt _ _)

/-- With its three tables present, the leaf entry of a walk is an entry of a
level-1 table. -/
theorem tree_walk_leaf (s : KState) (pt4 : Nat) (lvl : Nat → Nat) (hok : kstate_ok s)
    (ht : TreeWf s pt4 lvl) (v : Nat) (htp : tables_present s pt4 v = true) :
    ∃ G1, lvl G1 = 1 ∧ pt1_entry_of s pt4 v = table_slot s G1 (INDEX_PT1 v) := by
  simp only [tables_present, Bool.and_eq_true] at htp
  obtain ⟨⟨p4, p3⟩, p2⟩ := htp
  obtain ⟨F4, h4, e4⟩ := tree_walk_root s pt4 lvl ht v
  rw [e4] at p4
  obtain ⟨G3, l3, _, e3⟩ := tree_walk_next s pt4 lvl hok ht F4 _ (by omega) (index_lt _ _) p4
  have E3 : pt3_entry_of s pt4 v = table_slot s G3 (INDEX_PT3 v) := by
    unfold pt3_entry_of
    rw [e4]
    exact e3 _
  rw [E3] at p3
  obtain ⟨G2, l2, _, e2⟩ := tree_walk_next s pt4 lvl hok ht G3 _ (by omega) (index_lt _ _) p3
  have E2 : pt2_entry_of s pt4 v = table_slot s G2 (INDEX_PT2 v) := by
    unfold pt2_entry_of
    rw [E3]
    exact e2 _
  rw [E2] at p2
  obtain ⟨G1, l1, _, e1⟩ := tree_walk_next s pt4 lvl hok ht G2 _ (by omega) (index_lt _ _) p2
  refine ⟨G1, by omega, ?_⟩
  unfold pt1_entry_of
  rw [E2]
  exact e1 _

theorem tree_grown_refl (s : KState) (lvl : Nat → Nat) : tree_grown s s lvl lvl :=
  ⟨fun _ h => Or.inl h, fun _ _ => rfl⟩

theorem tree_grown_trans (s t u : KState) (lvl lvl1 lvl2 : Nat → Nat) (hfp : footprint s t)
    (h1 : tree_grown s t lvl lvl1) (h2 : tree_grown t u lvl1 lvl2) :
    tree_grown s u lvl lvl2 := by
  constructor
  · intro X hX
    rcases h2.1 X hX with h | h
    · exact h1.1 X h
    · exact Or.inr (frame_free_of_footprint s t hfp X h)
  · intro a ha
    rw [h2.2 a ?_, h1.2 a ha]
    intro X hX hin
    have hin2 := (in_frame_congr s t hfp.2.1 X a).1 hin
    rcases hX with h | h
    · rcases h1.1 X h with h3 | h3
      · exact ha X (Or.inl h3) hin2
      · exact ha X (Or.inr h3) hin2
    · exact ha X (Or.inr (frame_free_of_footprint s t hfp X h)) hin2

theorem tree_grown_leaf_write (t : KState) (lvl : Nat → Nat) (G1 idx val : Nat)
    (hG1 : lvl G1 ≠ 0) (hidx : idx < 512) :
    tree_grown t { t with mem := mem_write t.mem (table_slot t G1 idx) val } lvl lvl := by
  constructor
  · intro X hX
    exact Or.inl hX
  · intro a ha
    show mem_write t.mem (table_slot t G1 idx) val a = t.mem a
    apply mem_write_ne
    intro e
    exact ha G1 (Or.inl hG1) (by rw [e]; exact table_slot_in_frame t G1 idx hidx)

/-- Installing a new table: frame `G0`, free in `t`, whose kernel-window page
had its three tables, has been zeroed and marked used (state `s2`, in which
only that page and the leaf entry of its kernel-window page differ from `t`),
and the entry `idx` of the table in frame `F`, of level 2, 3 or 4, has been set
to refer to it (state `t1`).  The tree of tables is kept, with `G0` one level
below `F`. -/
theorem vmem_ensure_table_tree (pt4 : Nat) (t s2 t1 : KState) (lvl : Nat → Nat)
    (F idx G0 frame : Nat) (hok : kstate_ok t) (ht : TreeWf t pt4 lvl)
    (hF : 2 ≤ lvl F) (hidx : idx < 512) (hfree0 : frame_free t G0)
    (hfr : frame = G0 * PAGE_SIZE) (htp : tables_present t pt4 (kwin t G0) = true)
    (hN : s2.bitmap_bit_size = t.bitmap_bit_size) (hpv : s2.pv_base = t.pv_base)
    (hbits : ∀ b, pmem_bitmap_get_block s2.bitmap b =
      if b = G0 then true else pmem_bitmap_get_block t.bitmap b)
    (hzero : ∀ a, in_frame t G0 a → s2.mem a = 0)
    (hother : ∀ a, ¬ in_frame t G0 a → a ≠ pt1_entry_of t pt4 (kwin t G0) →
      s2.mem a = t.mem a)
    (e : t1 = { s2 with
      mem := mem_write s2.mem (table_slot t F idx)
        (frame ||| PAGE_PRESENT ||| PAGE_WRITE ||| PAGE_USER) }) :
    ∃ lvl1, TreeWf t1 pt4 lvl1 ∧ (∀ X, lvl X ≠ 0 → lvl1 X = lvl X) ∧ lvl1 G0 + 1 = lvl F ∧
      ADDRESS (t1.mem (table_slot t F idx)) = G0 * PAGE_SIZE ∧ tree_grown t t1 lvl lvl1 := by
  have hG028 : G0 < 2 ^ 28 := lt_of_lt_of_le hfree0.1 hok.2.1
  have hF0 : lvl F ≠ 0 := by omega
  have hF28 := tree_typed_lt t pt4 lvl hok ht F hF0
  have hlG0 : lvl G0 = 0 := tree_free_untyped t pt4 lvl ht G0 hfree0
  have hG0F : G0 ≠ F := by
    intro e2
    rw [e2] at hlG0
    exact hF0 hlG0
  have hmem : ∀ a, t1.mem a =
      if a = table_slot t F idx then frame ||| PAGE_PRESENT ||| PAGE_WRITE ||| PAGE_USER
      else s2.mem a := by
    intro a
    rw [e]
    rfl
  have hbit1 : ∀ b, pmem_bitmap_get_block t1.bitmap b =
      if b = G0 then true else pmem_bitmap_get_block t.bitmap b := by
    intro b
    rw [e]
    exact hbits b
  have hN1 : t1.bitmap_bit_size = t.bitmap_bit_size := by
    rw [e]
    exact hN
  have hpv1 : t1.pv_base = t.pv_base := by
    rw [e]
    exact hpv
  obtain ⟨F1, hF1, hL⟩ := tree_walk_leaf t pt4 lvl hok ht (kwin t G0) htp
  refine ⟨fun X => if X = G0 then lvl F - 1 else lvl X, ⟨?_, ?_, ?_⟩, ?_, ?_, ?_, ⟨?_, ?_⟩⟩
  · obtain ⟨F4, h4, hp4⟩ := ht.1
    refine ⟨F4, ?_, ?_⟩
    · have : F4 ≠ G0 := by
        intro e2
        rw [e2, hlG0] at h4
        omega
      simp only [if_neg this]
      exact h4
    · rw [P2V_congr t t1 hpv1]
      exact hp4
  · intro X hX
    by_cases hXG : X = G0
    · rw [hXG, hN1, hbit1, if_pos rfl]
      simp only [if_true]
      have := (ht.2.1 F hF0).2.2
      exact ⟨hfree0.1, trivial, by omega⟩
    · simp only [if_neg hXG] at hX ⊢
      obtain ⟨a1, a2, a3⟩ := ht.2.1 X hX
      rw [hN1, hbit1, if_neg hXG]
      exact ⟨a1, a2, a3⟩
  · intro X j hX hj hpres
    rw [table_slot_congr t t1 hpv1] at hpres ⊢
    rw [hmem] at hpres ⊢
    by_cases hXG : X = G0
    · exfalso
      rw [hXG] at hpres
      have hne : table_slot t G0 j ≠ table_slot t F idx := by
        intro e2
        exact hG0F (table_slot_frame_inj t G0 F j idx hG028 hF28 hj hidx e2)
      rw [if_neg hne, hzero _ (table_slot_in_frame t G0 j hj), get_flag_zero] at hpres
      exact Bool.noConfusion hpres
    · simp only [if_neg hXG] at hX ⊢
      have hX0 : lvl X ≠ 0 := by omega
      have hX28 := tree_typed_lt t pt4 lvl hok ht X hX0
      by_cases hs : table_slot t X j = table_slot t F idx
      · have hXF : X = F := table_slot_frame_inj t X F j idx hX28 hF28 hj hidx hs
        rw [if_pos hs, hfr]
        refine ⟨G0, address_table_entry G0 hG028, ?_⟩
        rw [if_pos rfl, hXF]
        omega
      · rw [if_neg hs] at hpres ⊢
        have hnin : ¬ in_frame t G0 (table_slot t X j) := by
          intro hin
          exact hXG (in_frame_inj t X G0 _ hX28 hG028 (table_slot_in_frame t X j hj) hin)
        have hneL : table_slot t X j ≠ pt1_entry_of t pt4 (kwin t G0) := by
          intro e2
          rw [hL] at e2
          have hF1' := tree_typed_lt t pt4 lvl hok ht F1 (by omega)
          have := table_slot_frame_inj t X F1 j _ hX28 hF1' hj (index_lt _ _) e2
          rw [this] at hX
          omega
        rw [hother _ hnin hneL] at hpres ⊢
        obtain ⟨G, hG, hlG⟩ := ht.2.2 X j hX hj hpres
        refine ⟨G, hG, ?_⟩
        have : G ≠ G0 := by
          intro e2
          rw [e2, hlG0] at hlG
          omega
        rw [if_neg this]
        exact hlG
  · intro X hX
    have : X ≠ G0 := by
      intro e2
      rw [e2] at hX
      exact hX hlG0
    simp only [if_neg this]
  · simp only [if_true]
    omega
  · rw [hmem, if_pos rfl, hfr]
    exact address_table_entry G0 hG028
  · intro X hX
    by_cases hXG : X = G0
    · right
      rw [hXG]
      exact hfree0
    · left
      simp only [if_neg hXG] at hX
      exact hX
  · intro a ha
    have hne : a ≠ table_slot t F idx := by
      intro e2
      exact ha F (Or.inl hF0) (by rw [e2]; exact table_slot_in_frame t F idx hidx)
    rw [hmem, if_neg hne]
    apply hother _ (ha G0 (Or.inr hfree0))
    intro e2
    rw [hL] at e2
    exact ha F1 (Or.inl (by omega)) (by rw [e2]; exact table_slot_in_frame t F1 _ (index_lt _ _))

/-- One level of the walk of `vmem_map` from a cursor at which the search
reaches the lowest free frame first, at an entry of a table of level 2, 3 or 4:
the cursor stays such, a frame taken lies below the free frame `B`, the tree of
tables is kept and grows only into a frame that was free, and no word outside
the tables and the free frames changes. -/
theorem vmem_ensure_table_grow (fuel pt4 : Nat) (t t1 : KState) (lvl : Nat → Nat)
    (F idx B : Nat) (hok : kstate_ok t) (hlow : cursor_low t) (ht : TreeWf t pt4 lvl)
    (hF : 2 ≤ lvl F) (hidx : idx < 512) (hBfree : frame_free t B)
    (hB : GET_FLAG (t.mem (table_slot t F idx)) PAGE_PRESENT = false →
      tables_present t pt4 (kwin t B) = true →
      GET_FLAG (t.mem (pt1_entry_of t pt4 (kwin t B))) PAGE_PRESENT = true)
    (h : vmem_ensure_table (pmem_alloc_clean_with (vmem_map fuel) pt4 1) (table_slot t F idx) t =
      Res.ok () t1) :
    cursor_low t1 ∧
    (∀ b, pmem_bitmap_get_block t1.bitmap b = true →
      pmem_bitmap_get_block t.bitmap b = true ∨ b < B) ∧
    ∃ lvl1 G, TreeWf t1 pt4 lvl1 ∧ (∀ X, lvl X ≠ 0 → lvl1 X = lvl X) ∧ lvl1 G + 1 = lvl F ∧
      ADDRESS (t1.mem (table_slot t F idx)) = G * PAGE_SIZE ∧ tree_grown t t1 lvl lvl1 := by
  rcases vmem_ensure_table_inv _ _ t t1 h with ⟨hp, e⟩ | ⟨hp, frame, s2, ha, e⟩
  · subst e
    obtain ⟨G, hG, hl⟩ := ht.2.2 F idx hF hidx hp
    exact ⟨hlow, fun b hb => Or.inl hb, lvl, G, ht, fun _ _ => rfl, hl, hG, tree_grown_refl _ lvl⟩
  · obtain ⟨hfp, hok2, _⟩ := vmem_map_alloc_spec fuel pt4 t frame s2 hok ha
    obtain ⟨G0, hl, hfr, htp, hleaf, hnext, hbits, hzero, hother⟩ :=
      pmem_alloc_clean_low fuel pt4 t s2 frame hok hlow ha
    have hG028 : G0 < 2 ^ 28 := lt_of_lt_of_le hl.1.1 hok.2.1
    have hF0 : lvl F ≠ 0 := by omega
    have hF28 := tree_typed_lt t pt4 lvl hok ht F hF0
    have hlG0 : lvl G0 = 0 := tree_free_untyped t pt4 lvl ht G0 hl.1
    have hG0F : G0 ≠ F := by
      intro e2
      rw [e2] at hlG0
      exact hF0 hlG0
    have hneB : G0 ≠ B := by
      intro e2
      rw [e2] at htp hleaf
      have := hB hp htp
      rw [hleaf] at this
      exact Bool.noConfusion this
    have hltB : G0 < B := by
      rcases Nat.lt_trichotomy G0 B with h1 | h1 | h1
      · exact h1
      · exact absurd h1 hneB
      · have := hl.2 B h1
        rw [hBfree.2] at this
        exact Bool.noConfusion this
    have hbit1 : ∀ b, pmem_bitmap_get_block t1.bitmap b =
        if b = G0 then true else pmem_bitmap_get_block t.bitmap b := by
      intro b
      rw [e]
      exact hbits b
    have hnext1 : t1.next = (G0 + 1) % t.bitmap_bit_size := by
      rw [e]
      exact hnext
    obtain ⟨lvl1, c1, c2, c3, c4, c5⟩ :=
      vmem_ensure_table_tree pt4 t s2 t1 lvl F idx G0 frame hok ht hF hidx hl.1 hfr htp
        hfp.1 hfp.2.1 hbits hzero hother e
    refine ⟨?_, ?_, lvl1, G0, c1, c2, c3, c4, c5⟩
    · right
      intro b hb
      rw [hbit1]
      by_cases hbG : b = G0
      · rw [if_pos hbG]
      · rw [if_neg hbG]
        apply hl.2
        rw [hnext1] at hb
        have := Nat.mod_le (G0 + 1) t.bitmap_bit_size
        omega
    · intro b hb
      rw [hbit1] at hb
      by_cases hbG : b = G0
      · right; rw [hbG]; exact hltB
      · rw [if_neg hbG] at hb
        exact Or.inl hb

/-- The same, without the account of the growth. -/
theorem vmem_ensure_table_low (fuel pt4 : Nat) (t t1 : KState) (lvl : Nat → Nat)
    (F idx B : Nat) (hok : kstate_ok t) (hlow : cursor_low t) (ht : TreeWf t pt4 lvl)
    (hF : 2 ≤ lvl F) (hidx : idx < 512) (hBfree : frame_free t B)
    (hB : GET_FLAG (t.mem (table_slot t F idx)) PAGE_PRESENT = false →
      tables_present t pt4 (kwin t B) = true →
      GET_FLAG (t.mem (pt1_entry_of t pt4 (kwin t B))) PAGE_PRESENT = true)
    (h : vmem_ensure_table (pmem_alloc_clean_with (vmem_map fuel) pt4 1) (table_slot t F idx) t =
      Res.ok () t1) :
    cursor_low t1 ∧
    (∀ b, pmem_bitmap_get_block t1.bitmap b = true →
      pmem_bitmap_get_block t.bitmap b = true ∨ b < B) ∧
    ∃ lvl1 G, TreeWf t1 pt4 lvl1 ∧ (∀ X, lvl X ≠ 0 → lvl1 X = lvl X) ∧ lvl1 G + 1 = lvl F ∧
      ADDRESS (t1.mem (table_slot t F idx)) = G * PAGE_SIZE := by
  obtain ⟨a, b, lvl1, G, c1, c2, c3, c4, _⟩ :=
    vmem_ensure_table_grow fuel pt4 t t1 lvl F idx B hok hlow ht hF hidx hBfree hB h
  exact ⟨a, b, lvl1, G, c1, c2, c3, c4⟩

theorem tables_present_false4 (s : KState) (pt4 v : Nat)
    (h : GET_FLAG (s.mem (pt4_entry_of pt4 v)) PAGE_PRESENT = false) :
    tables_present s pt4 v = false := by
  unfold tables_present
  rw [h]
  rfl

theorem tables_present_false3 (s : KState) (pt4 v : Nat)
    (h : GET_FLAG (s.mem (pt3_entry_of s pt4 v)) PAGE_PRESENT = false) :
    tables_present s pt4 v = false := by
  unfold tables_present
  rw [h, Bool.and_false, Bool.false_and]

theorem tables_present_false2 (s : KState) (pt4 v : Nat)
    (h : GET_FLAG (s.mem (pt2_entry_of s pt4 v)) PAGE_PRESENT = false) :
    tables_present s pt4 v = false := by
  unfold tables_present
  rw [h, Bool.and_false]

/-- A store to an entry of a level-1 table keeps the tree of tables. -/
theorem tree_leaf_write (t : KState) (pt4 : Nat) (lvl : Nat → Nat) (hok : kstate_ok t)
    (ht : TreeWf t pt4 lvl) (G1 idx val : Nat) (hG1 : lvl G1 = 1) (hidx : idx < 512) :
    TreeWf { t with mem := mem_write t.mem (table_slot t G1 idx) val } pt4 lvl := by
  refine ⟨ht.1, ht.2.1, ?_⟩
  intro X j hX hj hp
  have hne : table_slot t X j ≠ table_slot t G1 idx := by
    intro e
    have := table_slot_frame_inj t X G1 j idx (tree_typed_lt t pt4 lvl hok ht X (by omega))
      (tree_typed_lt t pt4 lvl hok ht G1 (by omega)) hj hidx e
    rw [this] at hX
    omega
  have hm : ({ t with mem := mem_write t.mem (table_slot t G1 idx) val } : KState).mem
      (table_slot { t with mem := mem_write t.mem (table_slot t G1 idx) val } X j) =
      t.mem (table_slot t X j) := by
    show mem_write t.mem (table_slot t G1 idx) val (table_slot t X j) = _
    exact mem_write_ne _ _ _ _ hne
  rw [hm] at hp ⊢
  exact ht.2.2 X j hX hj hp

theorem frame_free_after (s t : KState) (B : Nat) (hN : t.bitmap_bit_size = s.bitmap_bit_size)
    (hfree : frame_free s B)
    (hbits : ∀ b, pmem_bitmap_get_block t.bitmap b = true →
      pmem_bitmap_get_block s.bitmap b = true ∨ b < B) : frame_free t B := by
  refine ⟨by rw [hN]; exact hfree.1, ?_⟩
  cases hb : pmem_bitmap_get_block t.bitmap B with
  | false => rfl
  | true =>
    rcases hbits B hb with h | h
    · rw [hfree.2] at h
      exact Bool.noConfusion h
    · omega

/-- `vmem_map` from a cursor at which the search reaches the lowest free frame
first, in a tree of tables: the cursor stays such, the frames taken lie below
the free frame `B` (when `v` is the kernel-window page of `B`, or that page is
mapped already), the tree of tables is kept and grows only into frames that
were free, and no word outside the tables and the free frames changes. -/
theorem vmem_map_grow (fuel pt4 v p f : Nat) (s s1 : KState) (lvl : Nat → Nat) (B : Nat)
    (hok : kstate_ok s) (hlow : cursor_low s) (ht : TreeWf s pt4 lvl)
    (hBfree : frame_free s B)
    (hB : v = kwin s B ∨ ∀ t, footprint s t → leaf_present t pt4 (kwin s B) = true)
    (h : vmem_map fuel pt4 v p f s = Res.ok () s1) :
    cursor_low s1 ∧
    (∀ b, pmem_bitmap_get_block s1.bitmap b = true →
      pmem_bitmap_get_block s.bitmap b = true ∨ b < B) ∧
    ∃ lvl1, TreeWf s1 pt4 lvl1 ∧ (∀ X, lvl X ≠ 0 → lvl1 X = lvl X) ∧
      tree_grown s s1 lvl lvl1 := by
  cases fuel with
  | zero => exact Res.noConfusion h
  | succ fuel =>
    obtain ⟨t1, t2, t3, e3, e2, e1, he3, he2, he1, h4, h3, h2, hl, hs⟩ :=
      vmem_map_with_inv _ pt4 v p f s s1 h
    have ha := vmem_map_alloc_spec fuel pt4
    obtain ⟨f1, ok1, p4, _⟩ := vmem_ensure_table_spec _ ha _ s t1 hok h4
    obtain ⟨f2, ok2, p3, _⟩ := vmem_ensure_table_spec _ ha _ t1 t2 ok1 h3
    obtain ⟨f3, ok3, p2, _⟩ := vmem_ensure_table_spec _ ha _ t2 t3 ok2 h2
    have hleafB : ∀ t, footprint s t → tables_present t pt4 (kwin s B) = true →
        (∀ t2, footprint s t2 → leaf_present t2 pt4 (kwin s B) = true) →
        GET_FLAG (t.mem (pt1_entry_of t pt4 (kwin s B))) PAGE_PRESENT = true := by
      intro t hft _ hall
      have := hall t hft
      simp only [leaf_present, Bool.and_eq_true] at this
      exact this.2
    have kw1 : kwin t1 B = kwin s B := by unfold kwin; rw [f1.2.2.1]
    have kw2 : kwin t2 B = kwin s B := by unfold kwin; rw [f2.2.2.1, f1.2.2.1]
    -- level 4
    obtain ⟨F4, hF4, e4⟩ := tree_walk_root s pt4 lvl ht v
    rw [e4] at h4
    obtain ⟨low1, bits1, lvl1, G3, ht1, ext1, hG3, a4, g1⟩ :=
      vmem_ensure_table_grow fuel pt4 s t1 lvl F4 (INDEX_PT4 v) B hok hlow ht (by omega)
        (index_lt _ _) hBfree
        (by
          intro habs htp
          rcases hB with hv | hall
          · rw [← hv, tables_present_false4 s pt4 v (by rw [e4]; exact habs)] at htp
            exact Bool.noConfusion htp
          · exact hleafB s (footprint_refl s) htp hall) h4
    have free1 := frame_free_after s t1 B f1.1 hBfree bits1
    have hG3l : lvl1 G3 = 3 := by omega
    have E3 : e3 = table_slot t1 G3 (INDEX_PT3 v) := by
      rw [he3, e4, a4]
      unfold table_slot
      rw [frame_mod G3 (tree_typed_lt t1 pt4 lvl1 ok1 ht1 G3 (by omega))]
    have P3 : pt3_entry_of t1 pt4 v = e3 := he3.symm
    -- level 3
    rw [E3] at h3
    obtain ⟨low2, bits2, lvl2, G2, ht2, ext2, hG2, a3, g2⟩ :=
      vmem_ensure_table_grow fuel pt4 t1 t2 lvl1 G3 (INDEX_PT3 v) B ok1 low1 ht1 (by omega)
        (index_lt _ _) free1
        (by
          intro habs htp
          rw [kw1] at htp ⊢
          rcases hB with hv | hall
          · rw [← hv, tables_present_false3 t1 pt4 v (by rw [P3, E3]; exact habs)] at htp
            exact Bool.noConfusion htp
          · exact hleafB t1 f1 htp hall) h3
    have free2 := frame_free_after t1 t2 B f2.1 free1 bits2
    have hG2l : lvl2 G2 = 2 := by omega
    have u4 : slot_used t1 (pt4_entry_of pt4 v) :=
      slot_used_mono s t1 f1 _ (by
        rw [e4]
        exact tree_slot_used s pt4 lvl hok ht F4 _ (by omega) (index_lt _ _))
    have k4 := footprint_keeps t1 t2 f2 _ u4 p4
    have P3b : pt3_entry_of t2 pt4 v = e3 := by
      unfold pt3_entry_of
      rw [k4.1, P2V_congr t1 t2 f2.2.1]
      exact he3.symm
    have E2 : e2 = table_slot t2 G2 (INDEX_PT2 v) := by
      rw [he2, E3, a3]
      unfold table_slot
      rw [frame_mod G2 (tree_typed_lt t2 pt4 lvl2 ok2 ht2 G2 (by omega))]
    have P2 : pt2_entry_of t2 pt4 v = e2 := by
      unfold pt2_entry_of
      rw [P3b]
      exact he2.symm
    -- level 2
    rw [E2] at h2
    obtain ⟨low3, bits3, lvl3, G1, ht3, ext3, hG1, a2, g3⟩ :=
      vmem_ensure_table_grow fuel pt4 t2 t3 lvl2 G2 (INDEX_PT2 v) B ok2 low2 ht2 (by omega)
        (index_lt _ _) free2
        (by
          intro habs htp
          rw [kw2] at htp ⊢
          rcases hB with hv | hall
          · rw [← hv, tables_present_false2 t2 pt4 v (by rw [P2, E2]; exact habs)] at htp
            exact Bool.noConfusion htp
          · exact hleafB t2 (footprint_trans s t1 t2 f1 f2) htp hall) h2
    have hG1l : lvl3 G1 = 1 := by omega
    have E1 : e1 = table_slot t3 G1 (INDEX_PT1 v) := by
      rw [he1, E2, a2]
      unfold table_slot
      rw [frame_mod G1 (tree_typed_lt t3 pt4 lvl3 ok3 ht3 G1 (by omega))]
    -- the leaf
    have hw := tree_leaf_write t3 pt4 lvl3 ok3 ht3 G1 (INDEX_PT1 v)
      ((p ||| f ||| PAGE_PRESENT) % U64) hG1l (index_lt _ _)
    rw [← E1] at hw
    have gw := tree_grown_leaf_write t3 lvl3 G1 (INDEX_PT1 v)
      ((p ||| f ||| PAGE_PRESENT) % U64) (by omega) (index_lt _ _)
    rw [← E1] at gw
    rw [hs]
    refine ⟨low3, ?_, lvl3, hw, ?_, ?_⟩
    · intro b hb
      rcases bits3 b hb with h | h
      · rcases bits2 b h with h | h
        · exact bits1 b h
        · exact Or.inr h
      · exact Or.inr h
    · intro X hX
      have x1 := ext1 X hX
      have x2 := ext2 X (by rw [x1]; exact hX)
      have x3 := ext3 X (by rw [x2, x1]; exact hX)
      rw [x3, x2, x1]
    · have f12 := footprint_trans s t1 t2 f1 f2
      have g12 := tree_grown_trans s t1 t2 lvl lvl1 lvl2 f1 g1 g2
      have g13 := tree_grown_trans s t2 t3 lvl lvl2 lvl3 f12 g12 g3
      exact tree_grown_trans s t3 _ lvl lvl3 lvl3 (footprint_trans s t2 t3 f12 f3) g13 gw

/-- The same, without the account of the growth. -/
theorem vmem_map_low (fuel pt4 v p f : Nat) (s s1 : KState) (lvl : Nat → Nat) (B : Nat)
    (hok : kstate_ok s) (hlow : cursor_low s) (ht : TreeWf s pt4 lvl)
    (hBfree : frame_free s B)
    (hB : v = kwin s B ∨ ∀ t, footprint s t → leaf_present t pt4 (kwin s B) = true)
    (h : vmem_map fuel pt4 v p f s = Res.ok () s1) :
    cursor_low s1 ∧
    (∀ b, pmem_bitmap_get_block s1.bitmap b = true →
      pmem_bitmap_get_block s.bitmap b = true ∨ b < B) ∧
    ∃ lvl1, TreeWf s1 pt4 lvl1 ∧ (∀ X, lvl X ≠ 0 → lvl1 X = lvl X) := by
  obtain ⟨a, b, lvl1, c1, c2, _⟩ := vmem_map_grow fuel pt4 v p f s s1 lvl B hok hlow ht hBfree hB h
  exact ⟨a, b, lvl1, c1, c2⟩

/-! ### Marking a run of blocks -/

theorem pmem_mark_rest_get (used : Bool) : ∀ (c : Nat) (bm : Nat → Nat) (b0 b : Nat),
    pmem_bitmap_get_block (pmem_mark_rest used c bm b0) b =
      if b0 ≤ b ∧ b < b0 + c then used else pmem_bitmap_get_block bm b := by
  intro c
  induction c with
  | zero =>
    intro bm b0 b
    simp only [pmem_mark_rest]
    rw [if_neg (by omega)]
  | succ c ih =>
    intro bm b0 b
    simp only [pmem_mark_rest]
    rw [ih, pmem_get_mark]
    by_cases h1 : b0 + 1 ≤ b ∧ b < b0 + 1 + c
    · rw [if_pos h1, if_pos (by omega)]
    · rw [if_neg h1]
      by_cases h2 : b = b0
      · rw [if_pos h2, if_pos (by omega)]
      · rw [if_neg h2, if_neg (by omega)]

theorem pmem_mark_head_step (used : Bool) (c : Nat) (bm : Nat → Nat) (b0 : Nat)
    (h : b0 % 8 ≠ 0) :
    pmem_mark_head used (c + 1) bm b0 =
      pmem_mark_head used c (pmem_bitmap_mark_block bm b0 used) (b0 + 1) := by
  show (if b0 % 8 ≠ 0 then _ else _) = _
  rw [if_pos h]

theorem pmem_mark_head_stop (used : Bool) (c : Nat) (bm : Nat → Nat) (b0 : Nat)
    (h : ¬ b0 % 8 ≠ 0) :
    pmem_mark_head used (c + 1) bm b0 = (bm, b0, c + 1) := by
  show (if b0 % 8 ≠ 0 then _ else _) = _
  rw [if_neg h]

theorem pmem_mark_head_spec (used : Bool) : ∀ (c : Nat) (bm : Nat → Nat) (b0 : Nat),
    (pmem_mark_head used c bm b0).2.1 + (pmem_mark_head used c bm b0).2.2 = b0 + c ∧
    b0 ≤ (pmem_mark_head used c bm b0).2.1 ∧
    ((pmem_mark_head used c bm b0).2.2 = 0 ∨ (pmem_mark_head used c bm b0).2.1 % 8 = 0) ∧
    ∀ b, pmem_bitmap_get_block (pmem_mark_head used c bm b0).1 b =
      if b0 ≤ b ∧ b < (pmem_mark_head used c bm b0).2.1 then used
      else pmem_bitmap_get_block bm b := by
  intro c
  induction c with
  | zero =>
    intro bm b0
    refine ⟨rfl, le_refl _, Or.inl rfl, ?_⟩
    intro b
    show pmem_bitmap_get_block bm b = if b0 ≤ b ∧ b < b0 then used else _
    rw [if_neg (by omega)]
  | succ c ih =>
    intro bm b0
    by_cases h : b0 % 8 ≠ 0
    · rw [pmem_mark_head_step used c bm b0 h]
      obtain ⟨i1, i2, i3, i4⟩ := ih (pmem_bitmap_mark_block bm b0 used) (b0 + 1)
      refine ⟨by omega, by omega, i3, ?_⟩
      intro b
      rw [i4, pmem_get_mark]
      by_cases h1 : b0 + 1 ≤ b ∧ b < (pmem_mark_head used c (pmem_bitmap_mark_block bm b0 used)
          (b0 + 1)).2.1
      · rw [if_pos h1, if_pos (by omega)]
      · rw [if_neg h1]
        by_cases h2 : b = b0
        · rw [if_pos h2, if_pos (by omega)]
        · rw [if_neg h2, if_neg (by omega)]
    · rw [pmem_mark_head_stop used c bm b0 h]
      refine ⟨rfl, le_refl _, Or.inr (show b0 % 8 = 0 by omega), ?_⟩
      intro b
      show pmem_bitmap_get_block bm b = if b0 ≤ b ∧ b < b0 then used else _
      rw [if_neg (by omega)]

theorem bitmap_fill_get (bm : Nat → Nat) (first len : Nat) (used : Bool) (b : Nat) :
    pmem_bitmap_get_block (bitmap_fill bm first len used) b =
      if first * 8 ≤ b ∧ b < (first + len) * 8 then used else pmem_bitmap_get_block bm b := by
  unfold pmem_bitmap_get_block bitmap_fill
  by_cases h : first * 8 ≤ b ∧ b < (first + len) * 8
  · rw [if_pos h, if_pos (by omega)]
    rw [shift_and_one_eq_testBit]
    cases used with
    | false => simp
    | true =>
      simp only [if_true]
      rw [show (255 : Nat) = 2 ^ 8 - 1 by norm_num, Nat.testBit_two_pow_sub_one]
      exact decide_eq_true (by omega)
  · rw [if_neg h, if_neg (by omega)]

/-- The bits after `pmem_bitmap_mark_blocks(block, count, used)`: the `count`
bits from `block` on hold `used`, the others are as before. -/
theorem pmem_bitmap_mark_blocks_get (bm : Nat → Nat) (block count : Nat) (used : Bool) (b : Nat) :
    pmem_bitmap_get_block (pmem_bitmap_mark_blocks bm block count used) b =
      if block ≤ b ∧ b < block + count then used else pmem_bitmap_get_block bm b := by
  unfold pmem_bitmap_mark_blocks
  obtain ⟨i1, i2, i3, i4⟩ := pmem_mark_head_spec used count bm block
  simp only []
  generalize (pmem_mark_head used count bm block).1 = bm1 at *
  generalize (pmem_mark_head used count bm block).2.1 = b1 at *
  generalize (pmem_mark_head used count bm block).2.2 = c1 at *
  by_cases h8 : c1 ≥ 8
  · rw [if_pos h8, pmem_mark_rest_get, bitmap_fill_get, i4]
    have hb1 : b1 % 8 = 0 := by omega
    by_cases h1 : b1 + (c1 - c1 % 8) ≤ b ∧ b < b1 + (c1 - c1 % 8) + c1 % 8
    · rw [if_pos h1, if_pos (by omega)]
    · rw [if_neg h1]
      by_cases h2 : b1 / 8 * 8 ≤ b ∧ b < (b1 / 8 + c1 / 8) * 8
      · rw [if_pos h2, if_pos (by omega)]
      · rw [if_neg h2]
        by_cases h3 : block ≤ b ∧ b < b1
        · rw [if_pos h3, if_pos (by omega)]
        · rw [if_neg h3, if_neg (by omega)]
  · rw [if_neg h8, pmem_mark_rest_get, i4]
    by_cases h1 : b1 ≤ b ∧ b < b1 + c1
    · rw [if_pos h1, if_pos (by omega)]
    · rw [if_neg h1]
      by_cases h3 : block ≤ b ∧ b < b1
      · rw [if_pos h3, if_pos (by omega)]
      · rw [if_neg h3, if_neg (by omega)]

/-! ### Mapped pages stay mapped -/

/-- The walk of `v` is the same in two states that agree on the base and on
the three table entries of the walk. -/
theorem walk_congr (s t : KState) (pt4 v : Nat) (hpv : t.pv_base = s.pv_base)
    (m4 : t.mem (pt4_entry_of pt4 v) = s.mem (pt4_entry_of pt4 v))
    (m3 : t.mem (pt3_entry_of s pt4 v) = s.mem (pt3_entry_of s pt4 v))
    (m2 : t.mem (pt2_entry_of s pt4 v) = s.mem (pt2_entry_of s pt4 v)) :
    pt1_entry_of t pt4 v = pt1_entry_of s pt4 v ∧
    tables_present t pt4 v = tables_present s pt4 v := by
  have a3 : pt3_entry_of t pt4 v = pt3_entry_of s pt4 v := by
    unfold pt3_entry_of
    rw [m4, P2V_congr s t hpv]
  have a2 : pt2_entry_of t pt4 v = pt2_entry_of s pt4 v := by
    unfold pt2_entry_of
    rw [a3, m3, P2V_congr s t hpv]
  have a1 : pt1_entry_of t pt4 v = pt1_entry_of s pt4 v := by
    unfold pt1_entry_of
    rw [a2, m2, P2V_congr s t hpv]
  refine ⟨a1, ?_⟩
  unfold tables_present
  rw [a2, a3, m4, m3, m2]

/-- In a tree of tables a mapped page stays mapped, with the same leaf entry,
through every routine that stays within the footprint. -/
theorem walk_stable (s t : KState) (pt4 v val : Nat) (lvl : Nat → Nat) (hok : kstate_ok s)
    (ht : TreeWf s pt4 lvl) (hl : leaf_maps s pt4 v val)
    (hval : GET_FLAG val PAGE_PRESENT = true) (hfp : footprint s t) :
    leaf_maps t pt4 v val := by
  obtain ⟨htp, hleaf⟩ := hl
  have hw := tree_walk_clear s pt4 lvl hok ht v
  have htp2 := htp
  simp only [tables_present, Bool.and_eq_true] at htp2
  obtain ⟨⟨p4, p3⟩, p2⟩ := htp2
  obtain ⟨u4, r4⟩ := hw
  obtain ⟨u3, r3⟩ := r4 p4
  obtain ⟨u2, r2⟩ := r3 p3
  have u1 := r2 p2
  have p1 : GET_FLAG (s.mem (pt1_entry_of s pt4 v)) PAGE_PRESENT = true := by
    rw [hleaf]
    exact hval
  obtain ⟨a1, atp⟩ := walk_congr s t pt4 v hfp.2.1 (hfp.2.2.2.2 _ u4 p4) (hfp.2.2.2.2 _ u3 p3)
    (hfp.2.2.2.2 _ u2 p2)
  refine ⟨atp.trans htp, ?_⟩
  rw [a1, hfp.2.2.2.2 _ u1 p1]
  exact hleaf

theorem leaf_present_of_maps (s : KState) (pt4 v val : Nat) (h : leaf_maps s pt4 v val)
    (hval : GET_FLAG val PAGE_PRESENT = true) : leaf_present s pt4 v = true := by
  unfold leaf_present
  rw [h.1, h.2, hval]
  rfl

/-- The loop of `vmem_map_region` as `pmem_alloc` runs it, over the
kernel-window pages of the free frames from `B` on: every page of the region is
mapped afterwards, the frames taken for tables lie below `B`, the tree of
tables is kept and grows only into frames that were free, and no word outside
the tables and the free frames changes. -/
theorem vmem_map_region_grow (fuel pt4 va pa B n : Nat) :
    ∀ (left i : Nat) (t t1 : KState) (lvl : Nat → Nat),
    i + left = n → kstate_ok t → cursor_low t → TreeWf t pt4 lvl → frame_free t B →
    va = kwin t B →
    (∀ j, j < i → leaf_maps t pt4 ((va + j * PAGE_SIZE) % U64)
      (((pa + j * PAGE_SIZE) % U64 ||| PAGE_WRITE ||| PAGE_PRESENT) % U64)) →
    vmem_map_region_with (vmem_map fuel) pt4 va pa PAGE_WRITE left i t = Res.ok () t1 →
    kstate_ok t1 ∧ footprint t t1 ∧
    (∀ b, pmem_bitmap_get_block t1.bitmap b = true →
      pmem_bitmap_get_block t.bitmap b = true ∨ b < B) ∧
    (∃ lvl1, TreeWf t1 pt4 lvl1 ∧ (∀ X, lvl X ≠ 0 → lvl1 X = lvl X) ∧
      tree_grown t t1 lvl lvl1) ∧
    ∀ j, j < n → leaf_maps t1 pt4 ((va + j * PAGE_SIZE) % U64)
      (((pa + j * PAGE_SIZE) % U64 ||| PAGE_WRITE ||| PAGE_PRESENT) % U64) := by
  intro left
  induction left with
  | zero =>
    intro i t t1 lvl hi hok _ ht _ _ hleaf h
    simp only [vmem_map_region_with] at h
    have e : t1 = t := by
      injection h with a b
      exact b.symm
    subst e
    exact ⟨hok, footprint_refl _, fun b hb => Or.inl hb,
      ⟨lvl, ht, fun _ _ => rfl, tree_grown_refl _ lvl⟩,
      fun j hj => hleaf j (by omega)⟩
  | succ left ih =>
    intro i t t1 lvl hi hok hlow ht hBfree hva hleaf h
    simp only [vmem_map_region_with] at h
    cases hm : vmem_map fuel pt4 ((va + i * PAGE_SIZE) % U64) ((pa + i * PAGE_SIZE) % U64)
        PAGE_WRITE t with
    | fatal x => rw [hm] at h; exact Res.noConfusion h
    | timeout => rw [hm] at h; exact Res.noConfusion h
    | ok u t2 =>
      rw [hm] at h
      simp only [] at h
      obtain ⟨fp, ok2⟩ := vmem_map_footprint fuel pt4 _ _ _ t t2 hok hm
      have hva0 : (va + 0 * PAGE_SIZE) % U64 = va := by
        rw [Nat.zero_mul, Nat.add_zero, hva]
        unfold kwin
        exact Nat.mod_mod _ _
      have hB : (va + i * PAGE_SIZE) % U64 = kwin t B ∨
          ∀ x, footprint t x → leaf_present x pt4 (kwin t B) = true := by
        rcases Nat.eq_zero_or_pos i with h0 | hpos
        · left
          rw [h0, hva0, hva]
        · right
          intro x hx
          have := walk_stable t x pt4 _ _ lvl hok ht (hleaf 0 hpos) (get_flag_leaf_entry _ _) hx
          rw [hva0, hva] at this
          exact leaf_present_of_maps x pt4 _ _ this (get_flag_leaf_entry _ _)
      obtain ⟨low2, bits2, lvl2, ht2, ext2, g2⟩ :=
        vmem_map_grow fuel pt4 _ _ _ t t2 lvl B hok hlow ht hBfree hB hm
      have hk : leaf_maps t2 pt4 ((va + i * PAGE_SIZE) % U64)
          (((pa + i * PAGE_SIZE) % U64 ||| PAGE_WRITE ||| PAGE_PRESENT) % U64) := by
        cases fuel with
        | zero => exact Res.noConfusion hm
        | succ fuel =>
          have := vmem_map_with_walk _ (vmem_map_alloc_spec fuel pt4) pt4 _ _ _ t t2 hok
            (tree_walk_clear t pt4 lvl hok ht _) hm
          exact ⟨this.1, this.2.1⟩
      have free2 := frame_free_after t t2 B fp.1 hBfree bits2
      have hva2 : va = kwin t2 B := by
        rw [hva]
        unfold kwin
        rw [fp.2.2.1]
      have hleaf2 : ∀ j, j < i + 1 → leaf_maps t2 pt4 ((va + j * PAGE_SIZE) % U64)
          (((pa + j * PAGE_SIZE) % U64 ||| PAGE_WRITE ||| PAGE_PRESENT) % U64) := by
        intro j hj
        by_cases hji : j < i
        · exact walk_stable t t2 pt4 _ _ lvl hok ht (hleaf j hji) (get_flag_leaf_entry _ _) fp
        · have : j = i := by omega
          rw [this]
          exact hk
      obtain ⟨r1, r2, r3, r4, r5⟩ :=
        ih (i + 1) t2 t1 lvl2 (by omega) ok2 low2 ht2 free2 hva2 hleaf2 h
      obtain ⟨lvl1, q1, q2, q3⟩ := r4
      refine ⟨r1, footprint_trans t t2 t1 fp r2, ?_,
        ⟨lvl1, q1, fun X hX => by rw [q2 X (by rw [ext2 X hX]; exact hX), ext2 X hX],
          tree_grown_trans t t2 t1 lvl lvl2 lvl1 fp g2 q3⟩, r5⟩
      intro b hb
      rcases r3 b hb with h1 | h1
      · exact bits2 b h1
      · exact Or.inr h1

/-- The same, without the account of the growth. -/
theorem vmem_map_region_low (fuel pt4 va pa B n : Nat) :
    ∀ (left i : Nat) (t t1 : KState) (lvl : Nat → Nat),
    i + left = n → kstate_ok t → cursor_low t → TreeWf t pt4 lvl → frame_free t B →
    va = kwin t B →
    (∀ j, j < i → leaf_maps t pt4 ((va + j * PAGE_SIZE) % U64)
      (((pa + j * PAGE_SIZE) % U64 ||| PAGE_WRITE ||| PAGE_PRESENT) % U64)) →
    vmem_map_region_with (vmem_map fuel) pt4 va pa PAGE_WRITE left i t = Res.ok () t1 →
    kstate_ok t1 ∧ footprint t t1 ∧
    (∀ b, pmem_bitmap_get_block t1.bitmap b = true →
      pmem_bitmap_get_block t.bitmap b = true ∨ b < B) ∧
    (∃ lvl1, TreeWf t1 pt4 lvl1) ∧
    ∀ j, j < n → leaf_maps t1 pt4 ((va + j * PAGE_SIZE) % U64)
      (((pa + j * PAGE_SIZE) % U64 ||| PAGE_WRITE ||| PAGE_PRESENT) % U64) := by
  intro left i t t1 lvl hi hok hlow ht hBfree hva hleaf h
  obtain ⟨r1, r2, r3, ⟨lvl1, q1, _⟩, r5⟩ :=
    vmem_map_region_grow fuel pt4 va pa B n left i t t1 lvl hi hok hlow ht hBfree hva hleaf h
  exact ⟨r1, r2, r3, ⟨lvl1, q1⟩, r5⟩

/-! ### `pmem_alloc` and `pmem_alloc_clean` -/

/-- A word zeroed by `mem_set(P2V(F * PAGE_SIZE), 0, n * PAGE_SIZE)` lies in
the image of one of the frames `F .. F + n - 1`. -/
theorem zero_range_in_frame (s : KState) (F n a : Nat)
    (h : (a + (U64 - P2V s ((F * PAGE_SIZE) % U64) % U64)) % U64 < (n * PAGE_SIZE) % U64) :
    ∃ j, j < n ∧ in_frame s (F + j) a := by
  refine ⟨((a + (U64 - P2V s ((F * PAGE_SIZE) % U64) % U64)) % U64) / PAGE_SIZE, ?_, ?_⟩
  · unfold P2V at h ⊢
    simp only [U64, PAGE_SIZE] at h ⊢
    omega
  · unfold in_frame
    unfold P2V at h ⊢
    simp only [U64, PAGE_SIZE] at h ⊢
    omega

theorem leaf_entry_lt (X : Nat) (hX : X < 2 ^ 28) :
    (X * PAGE_SIZE ||| PAGE_WRITE ||| PAGE_PRESENT) % U64 =
      X * PAGE_SIZE ||| PAGE_WRITE ||| PAGE_PRESENT := by
  apply Nat.mod_eq_of_lt
  have h1 : X * PAGE_SIZE < 2 ^ 64 := by
    simp only [PAGE_SIZE]
    norm_num at hX
    omega
  exact Nat.or_lt_two_pow (Nat.or_lt_two_pow h1 (by decide)) (by decide)

theorem address_leaf_entry (X : Nat) (hX : X < 2 ^ 28) :
    ADDRESS (X * PAGE_SIZE ||| PAGE_WRITE ||| PAGE_PRESENT) = X * PAGE_SIZE := by
  apply Nat.eq_of_testBit_eq
  intro i
  unfold ADDRESS
  rw [Nat.testBit_and, Nat.testBit_or, Nat.testBit_or, clear_mask_testBit, frame_testBit]
  have h1 : PAGE_PRESENT = 2 ^ 0 := rfl
  have h2 : PAGE_WRITE = 2 ^ 1 := rfl
  rw [h1, h2, Nat.testBit_two_pow, Nat.testBit_two_pow]
  by_cases h12 : 12 ≤ i
  · by_cases h40 : i < 40
    · have a0 : ¬ (0 = i) := by omega
      have a1 : ¬ (1 = i) := by omega
      simp [h12, h40, a0, a1]
    · have : X.testBit (i - 12) = false :=
        Nat.testBit_lt_two_pow (lt_of_lt_of_le hX (Nat.pow_le_pow_right (by decide) (by omega)))
      simp [h12, h40, this]
  · simp [h12]

theorem get_flag_write_leaf (x : Nat) :
    GET_FLAG (x ||| PAGE_WRITE ||| PAGE_PRESENT) PAGE_WRITE = true := by
  unfold GET_FLAG
  have h : (x ||| PAGE_WRITE ||| PAGE_PRESENT) &&& PAGE_WRITE ≠ 0 := by
    intro e
    have := congrArg (fun y => Nat.testBit y 1) e
    simp only [Nat.testBit_and, Nat.testBit_or, Nat.zero_testBit] at this
    have h2 : PAGE_WRITE.testBit 1 = true := by decide
    rw [h2] at this
    simp at this
  simp [h]

/-- The mapping part of `pmem_alloc` / `pmem_alloc_clean`: after the search
found the `n ≥ 1` free frames from `F` on and `vmem_map_region` returned, the
frames are still free, the tree of tables is kept and has grown only into
frames that were free, no word outside the tables and the free frames has
changed, and every page of the kernel window of the region is mapped to its
frame. -/
theorem pmem_alloc_region_grow (fuel pt4 n : Nat) (s s2 : KState) (lvl : Nat → Nat)
    (hok : kstate_ok s) (ht : TreeWf s pt4 lvl) (hn : 1 ≤ n)
    (hne : (pmem_find_free_region s.bitmap s.bitmap_bit_size s.next n).1 ≠ NEG1)
    (hr : vmem_map_region_with (vmem_map fuel) pt4
      (kwin s (pmem_find_free_region s.bitmap s.bitmap_bit_size s.next n).1)
      (((pmem_find_free_region s.bitmap s.bitmap_bit_size s.next n).1 * PAGE_SIZE) % U64)
      PAGE_WRITE n 0
      { s with next := (pmem_find_free_region s.bitmap s.bitmap_bit_size s.next n).2 } =
        Res.ok () s2) :
    (pmem_find_free_region s.bitmap s.bitmap_bit_size s.next n).1 + n ≤ 2 ^ 28 ∧
    kstate_ok s2 ∧ footprint s s2 ∧
    (∀ j, j < n →
      frame_free s2 ((pmem_find_free_region s.bitmap s.bitmap_bit_size s.next n).1 + j)) ∧
    (∃ lvl2, TreeWf s2 pt4 lvl2 ∧ (∀ X, lvl X ≠ 0 → lvl2 X = lvl X) ∧
      tree_grown s s2 lvl lvl2) ∧
    ∀ j, j < n → leaf_maps s2 pt4
      ((s.kernel_virt + (pmem_find_free_region s.bitmap s.bitmap_bit_size s.next n).1 *
        PAGE_SIZE + j * PAGE_SIZE) % U64)
      (((pmem_find_free_region s.bitmap s.bitmap_bit_size s.next n).1 + j) * PAGE_SIZE |||
        PAGE_WRITE ||| PAGE_PRESENT) := by
  have hN64 : s.bitmap_bit_size < U64 := lt_of_le_of_lt hok.2.1 (by decide)
  obtain ⟨hrun1, hrun2⟩ := pmem_find_free_region_run _ _ _ n hok.1 hN64 hok.2.2 hn hne
  have hcur := pmem_find_free_region_cursor _ _ _ n hok.1 hN64 hok.2.2 hn hne
  generalize (pmem_find_free_region s.bitmap s.bitmap_bit_size s.next n).1 = F at *
  generalize (pmem_find_free_region s.bitmap s.bitmap_bit_size s.next n).2 = nx at *
  have hN28 := hok.2.1
  have hfree0 : frame_free s F := ⟨by omega, by have := hrun2 0 (by omega); rwa [Nat.add_zero] at this⟩
  have hok0 : kstate_ok { s with next := nx } := by
    refine ⟨hok.1, hok.2.1, ?_⟩
    show nx < s.bitmap_bit_size
    rw [hcur]
    exact Nat.mod_lt _ hok.1
  have hlow0 : cursor_low { s with next := nx } :=
    cursor_low_after_find { s with next := nx } F hfree0 hcur
  obtain ⟨r1, r2, r3, r4, r5⟩ :=
    vmem_map_region_grow fuel pt4 (kwin s F) ((F * PAGE_SIZE) % U64) F n n 0
      { s with next := nx } s2 lvl (by omega) hok0 hlow0 ht hfree0 rfl
      (fun j hj => absurd hj (by omega)) hr
  refine ⟨by omega, r1, r2, ?_, r4, ?_⟩
  · intro j hj
    refine ⟨by rw [r2.1]; show F + j < s.bitmap_bit_size; omega, ?_⟩
    cases hb : pmem_bitmap_get_block s2.bitmap (F + j) with
    | false => rfl
    | true =>
      rcases r3 (F + j) hb with h1 | h1
      · have := hrun2 j hj
        rw [this] at h1
        exact Bool.noConfusion h1
      · omega
  · intro j hj
    have := r5 j hj
    have hv : (kwin s F + j * PAGE_SIZE) % U64 =
        (s.kernel_virt + F * PAGE_SIZE + j * PAGE_SIZE) % U64 := by
      unfold kwin
      simp only [U64, PAGE_SIZE]
      omega
    have hp : ((F * PAGE_SIZE) % U64 + j * PAGE_SIZE) % U64 = (F + j) * PAGE_SIZE := by
      simp only [U64, PAGE_SIZE]
      norm_num at hN28
      omega
    rw [hv, hp, leaf_entry_lt (F + j) (by omega)] at this
    exact this

/-- The same, without the account of the growth. -/
theorem pmem_alloc_region (fuel pt4 n : Nat) (s s2 : KState) (lvl : Nat → Nat)
    (hok : kstate_ok s) (ht : TreeWf s pt4 lvl) (hn : 1 ≤ n)
    (hne : (pmem_find_free_region s.bitmap s.bitmap_bit_size s.next n).1 ≠ NEG1)
    (hr : vmem_map_region_with (vmem_map fuel) pt4
      (kwin s (pmem_find_free_region s.bitmap s.bitmap_bit_size s.next n).1)
      (((pmem_find_free_region s.bitmap s.bitmap_bit_size s.next n).1 * PAGE_SIZE) % U64)
      PAGE_WRITE n 0
      { s with next := (pmem_find_free_region s.bitmap s.bitmap_bit_size s.next n).2 } =
        Res.ok () s2) :
    (pmem_find_free_region s.bitmap s.bitmap_bit_size s.next n).1 + n ≤ 2 ^ 28 ∧
    kstate_ok s2 ∧ footprint s s2 ∧
    (∀ j, j < n →
      frame_free s2 ((pmem_find_free_region s.bitmap s.bitmap_bit_size s.next n).1 + j)) ∧
    (∃ lvl2, TreeWf s2 pt4 lvl2) ∧
    ∀ j, j < n → leaf_maps s2 pt4
      ((s.kernel_virt + (pmem_find_free_region s.bitmap s.bitmap_bit_size s.next n).1 *
        PAGE_SIZE + j * PAGE_SIZE) % U64)
      (((pmem_find_free_region s.bitmap s.bitmap_bit_size s.next n).1 + j) * PAGE_SIZE |||
        PAGE_WRITE ||| PAGE_PRESENT) := by
  obtain ⟨r1, r2, r3, r4, ⟨lvl2, q1, _⟩, r6⟩ :=
    pmem_alloc_region_grow fuel pt4 n s s2 lvl hok ht hn hne hr
  exact ⟨r1, r2, r3, r4, ⟨lvl2, q1⟩, r6⟩

/-- A normal return of `pmem_alloc(pt4, n)`, taken apart. -/
theorem pmem_alloc_with_inv (map : Nat → Nat → Nat → Nat → KState → Res Unit)
    (pt4 n : Nat) (s : KState) (p : Nat) (s1 : KState)
    (h : pmem_alloc_with map pt4 n s = Res.ok p s1) :
    ∃ s2, (pmem_find_free_region s.bitmap s.bitmap_bit_size s.next n).1 ≠ NEG1 ∧
      vmem_map_region_with map pt4
        (kwin s (pmem_find_free_region s.bitmap s.bitmap_bit_size s.next n).1)
        (((pmem_find_free_region s.bitmap s.bitmap_bit_size s.next n).1 * PAGE_SIZE) % U64)
        PAGE_WRITE n 0
        { s with next := (pmem_find_free_region s.bitmap s.bitmap_bit_size s.next n).2 } =
          Res.ok () s2 ∧
      p = ((pmem_find_free_region s.bitmap s.bitmap_bit_size s.next n).1 * PAGE_SIZE) % U64 ∧
      s1 = { s2 with
        bitmap := pmem_bitmap_mark_blocks s2.bitmap
          (pmem_find_free_region s.bitmap s.bitmap_bit_size s.next n).1 n true
        blocks_allocated := (s2.blocks_allocated + 1) % U64 } := by
  unfold pmem_alloc_with at h
  simp only [] at h
  by_cases hb : (pmem_find_free_region s.bitmap s.bitmap_bit_size s.next n).1 = NEG1
  · rw [if_pos hb] at h; exact Res.noConfusion h
  · rw [if_neg hb] at h
    cases hm : vmem_map_region_with map pt4
        ((s.kernel_virt + (pmem_find_free_region s.bitmap s.bitmap_bit_size s.next n).1 *
          PAGE_SIZE) % U64)
        (((pmem_find_free_region s.bitmap s.bitmap_bit_size s.next n).1 * PAGE_SIZE) % U64)
        PAGE_WRITE n 0
        { s with next := (pmem_find_free_region s.bitmap s.bitmap_bit_size s.next n).2 } with
    | fatal t => rw [hm] at h; exact Res.noConfusion h
    | timeout => rw [hm] at h; exact Res.noConfusion h
    | ok u s2 =>
      rw [hm] at h
      refine ⟨s2, hb, hm, ?_, ?_⟩
      · injection h with a b
        exact a.symm
      · injection h with a b
        exact b.symm

/-- A normal return of `pmem_alloc_clean(pt4, n)`, taken apart. -/
theorem pmem_alloc_clean_with_inv_n (map : Nat → Nat → Nat → Nat → KState → Res Unit)
    (pt4 n : Nat) (s : KState) (p : Nat) (s1 : KState)
    (h : pmem_alloc_clean_with map pt4 n s = Res.ok p s1) :
    ∃ s2, (pmem_find_free_region s.bitmap s.bitmap_bit_size s.next n).1 ≠ NEG1 ∧
      vmem_map_region_with map pt4
        (kwin s (pmem_find_free_region s.bitmap s.bitmap_bit_size s.next n).1)
        (((pmem_find_free_region s.bitmap s.bitmap_bit_size s.next n).1 * PAGE_SIZE) % U64)
        PAGE_WRITE n 0
        { s with next := (pmem_find_free_region s.bitmap s.bitmap_bit_size s.next n).2 } =
          Res.ok () s2 ∧
      p = ((pmem_find_free_region s.bitmap s.bitmap_bit_size s.next n).1 * PAGE_SIZE) % U64 ∧
      s1 = { s2 with
        bitmap := pmem_bitmap_mark_blocks s2.bitmap
          (pmem_find_free_region s.bitmap s.bitmap_bit_size s.next n).1 n true
        mem := mem_zero s2.mem
          (P2V s2 (((pmem_find_free_region s.bitmap s.bitmap_bit_size s.next n).1 *
            PAGE_SIZE) % U64)) ((n * PAGE_SIZE) % U64)
        blocks_allocated := (s2.blocks_allocated + 1) % U64 } := by
  unfold pmem_alloc_clean_with at h
  simp only [] at h
  by_cases hb : (pmem_find_free_region s.bitmap s.bitmap_bit_size s.next n).1 = NEG1
  · rw [if_pos hb] at h; exact Res.noConfusion h
  · rw [if_neg hb] at h
    cases hm : vmem_map_region_with map pt4
        ((s.kernel_virt + (pmem_find_free_region s.bitmap s.bitmap_bit_size s.next n).1 *
          PAGE_SIZE) % U64)
        (((pmem_find_free_region s.bitmap s.bitmap_bit_size s.next n).1 * PAGE_SIZE) % U64)
        PAGE_WRITE n 0
        { s with next := (pmem_find_free_region s.bitmap s.bitmap_bit_size s.next n).2 } with
    | fatal t => rw [hm] at h; exact Res.noConfusion h
    | timeout => rw [hm] at h; exact Res.noConfusion h
    | ok u s2 =>
      rw [hm] at h
      refine ⟨s2, hb, hm, ?_, ?_⟩
      · injection h with a b
        exact a.symm
      · injection h with a b
        exact b.symm

theorem get_flag_present_leaf (x : Nat) :
    GET_FLAG (x ||| PAGE_WRITE ||| PAGE_PRESENT) PAGE_PRESENT = true := by
  rw [get_flag_present_eq, Nat.testBit_or]
  have h1 : PAGE_PRESENT.testBit 0 = true := by decide
  simp [h1]

/-- The end of `pmem_alloc` / `pmem_alloc_clean`: marking the frames (and
zeroing them) keeps the pages of the region mapped. -/
theorem pmem_alloc_finish (pt4 n F : Nat) (s2 s1 : KState) (lvl2 : Nat → Nat)
    (hFn : F + n ≤ 2 ^ 28) (hok2 : kstate_ok s2) (ht2 : TreeWf s2 pt4 lvl2)
    (hfp : footprint s2 s1)
    (hbits : ∀ b, pmem_bitmap_get_block s1.bitmap b =
      if F ≤ b ∧ b < F + n then true else pmem_bitmap_get_block s2.bitmap b)
    (v : Nat → Nat)
    (hleaf : ∀ j, j < n → leaf_maps s2 pt4 (v j)
      ((F + j) * PAGE_SIZE ||| PAGE_WRITE ||| PAGE_PRESENT)) :
    (F * PAGE_SIZE) % U64 % PAGE_SIZE = 0 ∧
    (∀ i, i < n → pmem_bitmap_get_block s1.bitmap ((F * PAGE_SIZE) % U64 / PAGE_SIZE + i) = true) ∧
    ∀ i, i < n →
      leaf_present s1 pt4 (v i) = true ∧
      GET_FLAG (s1.mem (pt1_entry_of s1 pt4 (v i))) PAGE_WRITE = true ∧
      ADDRESS (s1.mem (pt1_entry_of s1 pt4 (v i))) = (F * PAGE_SIZE) % U64 + i * PAGE_SIZE := by
  have hp : (F * PAGE_SIZE) % U64 = F * PAGE_SIZE := by
    simp only [U64, PAGE_SIZE]
    norm_num at hFn
    omega
  have hdiv : F * PAGE_SIZE / PAGE_SIZE = F := Nat.mul_div_cancel F (by decide)
  refine ⟨?_, ?_, ?_⟩
  · rw [hp]
    exact Nat.mul_mod_left F PAGE_SIZE
  · intro i hi
    rw [hp, hdiv, hbits, if_pos (by omega)]
  · intro i hi
    have hm := walk_stable s2 s1 pt4 (v i) _ lvl2 hok2 ht2 (hleaf i hi)
      (get_flag_present_leaf _) hfp
    refine ⟨leaf_present_of_maps s1 pt4 _ _ hm (get_flag_present_leaf _), ?_, ?_⟩
    · rw [hm.2]
      exact get_flag_write_leaf _
    · rw [hm.2, address_leaf_entry (F + i) (by omega), hp, Nat.add_mul]

/-- C4: in a state whose bitmap covers at most `2^28` frames and whose page
tables form a tree of tables in used frames, whenever `pmem_alloc(pt4, n)` or
`pmem_alloc_clean(pt4, n)` returns a physical address `p`: `p` is a multiple of
4096, the `n` bitmap bits from `p / 4096` on are set, and for every `i < n`
the walk of `kernel_map.virt + p + i * 4096` reaches a present leaf entry that
is writable and whose address field is `p + i * 4096`. -/
theorem pmem_alloc_maps (fuel pt4 n : Nat) (s s1 : KState) (p : Nat) (lvl : Nat → Nat)
    (hok : kstate_ok s) (ht : TreeWf s pt4 lvl)
    (h : pmem_alloc fuel pt4 n s = Res.ok p s1 ∨
      pmem_alloc_clean fuel pt4 n s = Res.ok p s1) :
    p % PAGE_SIZE = 0 ∧
    (∀ i, i < n → pmem_bitmap_get_block s1.bitmap (p / PAGE_SIZE + i) = true) ∧
    ∀ i, i < n →
      leaf_present s1 pt4 ((s.kernel_virt + p + i * PAGE_SIZE) % U64) = true ∧
      GET_FLAG (s1.mem (pt1_entry_of s1 pt4 ((s.kernel_virt + p + i * PAGE_SIZE) % U64)))
        PAGE_WRITE = true ∧
      ADDRESS (s1.mem (pt1_entry_of s1 pt4 ((s.kernel_virt + p + i * PAGE_SIZE) % U64))) =
        p + i * PAGE_SIZE := by
  have hzero : ∀ F : Nat, (F * PAGE_SIZE) % U64 % PAGE_SIZE = 0 := by
    intro F
    simp only [U64, PAGE_SIZE]
    omega
  rcases h with h | h
  · unfold pmem_alloc at h
    obtain ⟨s2, hne, hr, hp, hs1⟩ := pmem_alloc_with_inv _ pt4 n s p s1 h
    rcases Nat.eq_zero_or_pos n with h0 | hpos
    · refine ⟨by rw [hp]; exact hzero _, fun i hi => absurd hi (by omega),
        fun i hi => absurd hi (by omega)⟩
    · obtain ⟨hFn, ok2, _, hfree, ⟨lvl2, ht2⟩, hleaf⟩ :=
        pmem_alloc_region fuel pt4 n s s2 lvl hok ht hpos hne hr
      generalize (pmem_find_free_region s.bitmap s.bitmap_bit_size s.next n).1 = F at *
      have hfp : footprint s2 s1 := by
        rw [hs1]
        refine ⟨rfl, rfl, rfl, ?_, fun _ _ _ => rfl⟩
        intro b hb
        show pmem_bitmap_get_block (pmem_bitmap_mark_blocks s2.bitmap F n true) b = true
        rw [pmem_bitmap_mark_blocks_get]
        by_cases hc : F ≤ b ∧ b < F + n
        · rw [if_pos hc]
        · rw [if_neg hc]; exact hb
      have hbits : ∀ b, pmem_bitmap_get_block s1.bitmap b =
          if F ≤ b ∧ b < F + n then true else pmem_bitmap_get_block s2.bitmap b := by
        intro b
        rw [hs1]
        exact pmem_bitmap_mark_blocks_get s2.bitmap F n true b
      have fin := pmem_alloc_finish pt4 n F s2 s1 lvl2 hFn ok2 ht2 hfp hbits
        (fun j => (s.kernel_virt + F * PAGE_SIZE + j * PAGE_SIZE) % U64) hleaf
      rw [← hp] at fin
      have hpF : p = F * PAGE_SIZE := by rw [hp]; exact frame_mod F (by omega)
      refine ⟨fin.1, fin.2.1, ?_⟩
      intro i hi
      have := fin.2.2 i hi
      simp only [] at this
      rw [← hpF] at this
      exact this
  · unfold pmem_alloc_clean at h
    obtain ⟨s2, hne, hr, hp, hs1⟩ := pmem_alloc_clean_with_inv_n _ pt4 n s p s1 h
    rcases Nat.eq_zero_or_pos n with h0 | hpos
    · refine ⟨by rw [hp]; exact hzero _, fun i hi => absurd hi (by omega),
        fun i hi => absurd hi (by omega)⟩
    · obtain ⟨hFn, ok2, _, hfree, ⟨lvl2, ht2⟩, hleaf⟩ :=
        pmem_alloc_region fuel pt4 n s s2 lvl hok ht hpos hne hr
      generalize (pmem_find_free_region s.bitmap s.bitmap_bit_size s.next n).1 = F at *
      have hfp : footprint s2 s1 := by
        rw [hs1]
        refine ⟨rfl, rfl, rfl, ?_, ?_⟩
        · intro b hb
          show pmem_bitmap_get_block (pmem_bitmap_mark_blocks s2.bitmap F n true) b = true
          rw [pmem_bitmap_mark_blocks_get]
          by_cases hc : F ≤ b ∧ b < F + n
          · rw [if_pos hc]
          · rw [if_neg hc]; exact hb
        · intro a hu _
          show mem_zero s2.mem (P2V s2 ((F * PAGE_SIZE) % U64)) ((n * PAGE_SIZE) % U64) a =
            s2.mem a
          unfold mem_zero
          rw [if_neg]
          intro hin
          obtain ⟨j, hj, hinj⟩ := zero_range_in_frame s2 F n a hin
          exact hu (F + j) (hfree j hj) hinj
      have hbits : ∀ b, pmem_bitmap_get_block s1.bitmap b =
          if F ≤ b ∧ b < F + n then true else pmem_bitmap_get_block s2.bitmap b := by
        intro b
        rw [hs1]
        exact pmem_bitmap_mark_blocks_get s2.bitmap F n true b
      have fin := pmem_alloc_finish pt4 n F s2 s1 lvl2 hFn ok2 ht2 hfp hbits
        (fun j => (s.kernel_virt + F * PAGE_SIZE + j * PAGE_SIZE) % U64) hleaf
      rw [← hp] at fin
      have hpF : p = F * PAGE_SIZE := by rw [hp]; exact frame_mod F (by omega)
      refine ⟨fin.1, fin.2.1, ?_⟩
      intro i hi
      have := fin.2.2 i hi
      simp only [] at this
      rw [← hpF] at this
      exact this

/-- The words of `demo_state2` that are not zero. -/
theorem demo_mem_cases (a : Nat) :
    demo_state2.mem a = 0 ∨ (a = 0xC0001000 ∧ demo_state2.mem a = 0x2007) ∨
    (a = 0xC0002018 ∧ demo_state2.mem a = 0x3007) ∨
    (a = 0xC0003000 ∧ demo_state2.mem a = 0x4007) ∨
    (0xC0004000 ≤ a ∧ a < 0xC0005000) := by
  show memOfList _ a = 0 ∨ (a = 0xC0001000 ∧ memOfList _ a = 0x2007) ∨
    (a = 0xC0002018 ∧ memOfList _ a = 0x3007) ∨ (a = 0xC0003000 ∧ memOfList _ a = 0x4007) ∨
    (0xC0004000 ≤ a ∧ a < 0xC0005000)
  simp only [memOfList]
  by_cases h1 : a = 0xC0001000
  · right; left
    exact ⟨h1, by rw [if_pos h1]⟩
  · rw [if_neg h1]
    by_cases h2 : a = 0xC0002018
    · right; right; left
      exact ⟨h2, by rw [if_pos h2]⟩
    · rw [if_neg h2]
      by_cases h3 : a = 0xC0003000
      · right; right; right; left
        exact ⟨h3, by rw [if_pos h3]⟩
      · rw [if_neg h3]
        by_cases h4 : 0xC0004000 ≤ a ∧ a < 0xC0005000
        · right; right; right; right
          exact h4
        · left
          rw [if_neg (by omega), if_neg (by omega), if_neg (by omega), if_neg (by omega),
            if_neg (by omega)]

theorem demo_table_slot (F idx : Nat) :
    table_slot demo_state2 F idx = (F * 0x1000 + 0xC0000000 + 8 * idx) % U64 := by
  unfold table_slot entry_addr P2V
  have : demo_state2.pv_base = 0xC0000000 := rfl
  rw [this]
  simp only [U64, PAGE_SIZE]
  omega

/-- The page tables of `demo_state2` form a tree of tables. -/
theorem demo_tree : TreeWf demo_state2 demo_pt4 demo_lvl := by
  refine ⟨⟨1, rfl, by decide⟩, ?_, ?_⟩
  · intro F hF
    unfold demo_lvl at hF ⊢
    by_cases h1 : F = 1
    · subst h1; decide
    · by_cases h2 : F = 2
      · subst h2; decide
      · by_cases h3 : F = 3
        · subst h3; decide
        · by_cases h4 : F = 4
          · subst h4; decide
          · rw [if_neg h1, if_neg h2, if_neg h3, if_neg h4] at hF
            exact absurd rfl hF
  · intro F idx hF hidx hp
    have hF3 : F = 1 ∨ F = 2 ∨ F = 3 := by
      unfold demo_lvl at hF
      by_cases h1 : F = 1
      · exact Or.inl h1
      · by_cases h2 : F = 2
        · exact Or.inr (Or.inl h2)
        · by_cases h3 : F = 3
          · exact Or.inr (Or.inr h3)
          · rw [if_neg h1, if_neg h2, if_neg h3] at hF
            split at hF <;> omega
    have hslot := demo_table_slot F idx
    rw [hslot] at hp ⊢
    simp only [U64] at hp ⊢
    rcases demo_mem_cases ((F * 0x1000 + 0xC0000000 + 8 * idx) % 2 ^ 64) with
      h | ⟨ha, hv⟩ | ⟨ha, hv⟩ | ⟨ha, hv⟩ | ha
    · rw [h, get_flag_zero] at hp
      exact Bool.noConfusion hp
    · rw [hv]
      have : F = 1 := by omega
      subst this
      exact ⟨2, by decide, by decide⟩
    · rw [hv]
      have : F = 2 := by omega
      subst this
      exact ⟨3, by decide, by decide⟩
    · rw [hv]
      have : F = 3 := by omega
      subst this
      exact ⟨4, by decide, by decide⟩
    · omega

/-- C4 at `demo_state2`: `pmem_alloc(pt4, 1)` finds frame 512, takes frame 5
for the missing L1 table of its kernel-window page and returns `0x200000`. -/
theorem pmem_alloc_maps_witness :
    ∃ s1, pmem_alloc 2 demo_pt4 1 demo_state2 = Res.ok 0x200000 s1 ∧
      0x200000 % PAGE_SIZE = 0 ∧
      (∀ i, i < 1 → pmem_bitmap_get_block s1.bitmap (0x200000 / PAGE_SIZE + i) = true) ∧
      ∀ i, i < 1 →
        leaf_present s1 demo_pt4 ((demo_state2.kernel_virt + 0x200000 + i * PAGE_SIZE) % U64) =
          true ∧
        GET_FLAG (s1.mem (pt1_entry_of s1 demo_pt4
          ((demo_state2.kernel_virt + 0x200000 + i * PAGE_SIZE) % U64))) PAGE_WRITE = true ∧
        ADDRESS (s1.mem (pt1_entry_of s1 demo_pt4
          ((demo_state2.kernel_virt + 0x200000 + i * PAGE_SIZE) % U64))) =
          0x200000 + i * PAGE_SIZE := by
  have hv : Res.value (pmem_alloc 2 demo_pt4 1 demo_state2) = some 0x200000 := by decide
  cases h : pmem_alloc 2 demo_pt4 1 demo_state2 with
  | fatal t =>
    rw [h] at hv
    exact Option.noConfusion hv
  | timeout =>
    rw [h] at hv
    exact Option.noConfusion hv
  | ok p s1 =>
    rw [h] at hv
    have hp : p = 0x200000 := by
      injection hv
    subst hp
    exact ⟨s1, rfl, pmem_alloc_maps 2 demo_pt4 1 demo_state2 s1 0x200000 demo_lvl
      ⟨by decide, by decide, by decide⟩ demo_tree (Or.inl h)⟩

/-! ### pmem.c: the cursor after a search -/

/-- C19 (fails on the code): in the 8-frame bitmap `0x0F` (frames 0..3 free)
with the cursor at 0, `pmem_find_free_region(2)` finds the run starting at
frame 0 and leaves the cursor at 1, not at `(0 + 2) mod 8`. -/
theorem pmem_find_free_region_cursor_not_past_run :
    (pmem_find_free_region (bitmapOfList [0x0F]) 8 0 2).1 = 0 ∧
    (pmem_find_free_region (bitmapOfList [0x0F]) 8 0 2).2 = 1 ∧
    ¬ ((pmem_find_free_region (bitmapOfList [0x0F]) 8 0 2).1 ≠ NEG1 →
      (pmem_find_free_region (bitmapOfList [0x0F]) 8 0 2).2 =
        ((pmem_find_free_region (bitmapOfList [0x0F]) 8 0 2).1 + 2) % 8) := by
  decide

/-- C19 (amended): whenever `pmem_find_free_region(n)` finds a run starting at
frame `s` in a bitmap of `N` bits, with `n >= 1`, it leaves the next-fit cursor
at `(s + 1) mod N`, the frame after the first frame of the match. -/
theorem pmem_find_free_region_next (bm : Nat → Nat) (N next n : Nat)
    (hN : 0 < N) (hN64 : N < U64) (hnext : next < N) (hn : 1 ≤ n)
    (hfound : (pmem_find_free_region bm N next n).1 ≠ NEG1) :
    (pmem_find_free_region bm N next n).2 =
      ((pmem_find_free_region bm N next n).1 + 1) % N :=
  pmem_find_free_region_cursor bm N next n hN hN64 hnext hn hfound

theorem pmem_find_free_region_next_witness :
    (pmem_find_free_region (bitmapOfList [0xF0]) 8 2 3).1 = 4 ∧
    (pmem_find_free_region (bitmapOfList [0xF0]) 8 2 3).2 =
      ((pmem_find_free_region (bitmapOfList [0xF0]) 8 2 3).1 + 1) % 8 :=
  ⟨by decide,
    pmem_find_free_region_next (bitmapOfList [0xF0]) 8 2 3 (by decide) (by decide) (by decide)
      (by decide) (by decide)⟩

/-! ### buddy.c: freeing a block twice -/

/-- C12 (fails on the code): in `demo_heap2` the blocks at `0x200080` and
`0x200088` are live.  The first `buddy_free(0x200080)` returns; the second one
does not take the fatal path: its probe goes on from the clear layer-9 bit to
layer 8, finds the bit of the split parent (bit 263) set, zeroes the 16 bytes of
the parent, among them the byte stored in the live block at `0x200088`, and
clears bit 263 and the ancestor bits 131, 65 and 32. -/
theorem buddy_free_twice_returns :
    BRes.isFatal (buddy_free demo_pool 0x200080 demo_heap2) = false ∧
    BRes.isFatal (buddy_free demo_pool 0x200080
      (buddy_free demo_pool 0x200080 demo_heap2).mem) = false ∧
    buddy_bitmap_get_bit (buddy_free demo_pool 0x200080 demo_heap2).mem 0x200000 528 = true ∧
    buddy_bitmap_get_bit (buddy_free demo_pool 0x200080 demo_heap2).mem 0x200000 263 = true ∧
    (buddy_free demo_pool 0x200080 demo_heap2).mem 0x200088 = 0xAB ∧
    buddy_bitmap_get_bit (buddy_free demo_pool 0x200080
      (buddy_free demo_pool 0x200080 demo_heap2).mem).mem 0x200000 263 = false ∧
    buddy_bitmap_get_bit (buddy_free demo_pool 0x200080
      (buddy_free demo_pool 0x200080 demo_heap2).mem).mem 0x200000 32 = false ∧
    (buddy_free demo_pool 0x200080
      (buddy_free demo_pool 0x200080 demo_heap2).mem).mem 0x200088 = 0 := by
  set_option maxRecDepth 100000 in decide

/-! ### buddy.c: pools of several pages -/

theorem buddy_get_bit_congr (mem mem1 : Nat → Nat) (bm i : Nat)
    (h : mem1 (bm + i / 8) = mem (bm + i / 8)) :
    buddy_bitmap_get_bit mem1 bm i = buddy_bitmap_get_bit mem bm i := by
  unfold buddy_bitmap_get_bit
  rw [h]

/-- One page of `buddy_init`: the six reserved bits are set, nothing else
changes. -/
theorem buddy_init_layers_page (bm : Nat) (mem : Nat → Nat) :
    (∀ a, (a < bm ∨ bm + 128 ≤ a) → buddy_init_layers bm 6 0 mem a = mem a) ∧
    (∀ i, buddy_bitmap_get_bit (buddy_init_layers bm 6 0 mem) bm i =
      (buddy_bitmap_get_bit mem bm i ||
        decide (i = 0 ∨ i = 1 ∨ i = 3 ∨ i = 7 ∨ i = 15 ∨ i = 31))) := by
  constructor
  · intro a ha
    simp only [buddy_init_layers, buddy_bit_offset_layer, math_pow]
    norm_num
    rw [buddy_mark_other _ _ _ _ _ (by omega), buddy_mark_other _ _ _ _ _ (by omega),
      buddy_mark_other _ _ _ _ _ (by omega), buddy_mark_other _ _ _ _ _ (by omega),
      buddy_mark_other _ _ _ _ _ (by omega), buddy_mark_other _ _ _ _ _ (by omega)]
  · intro i
    simp only [buddy_init_layers, buddy_get_mark, buddy_bit_offset_layer, math_pow]
    norm_num
    by_cases h0 : i = 0 <;> by_cases h1 : i = 1 <;> by_cases h3 : i = 3 <;>
      by_cases h7 : i = 7 <;> by_cases h15 : i = 15 <;> by_cases h31 : i = 31 <;>
      simp [h0, h1, h3, h7, h15, h31]

/-- The bits of every page after the page loop of `buddy_init`. -/
theorem buddy_init_pages_bits (self : BuddyAllocator) (left : Nat) :
    ∀ (i : Nat) (mem : Nat → Nat) (pg j : Nat), j < 1024 →
      buddy_bitmap_get_bit (buddy_init_pages self left i mem)
          (self.base_addr + pg * PAGE_SIZE) j =
        (buddy_bitmap_get_bit mem (self.base_addr + pg * PAGE_SIZE) j ||
          (decide (i ≤ pg ∧ pg < i + left) &&
            decide (j = 0 ∨ j = 1 ∨ j = 3 ∨ j = 7 ∨ j = 15 ∨ j = 31))) := by
  induction left with
  | zero =>
    intro i mem pg j _
    simp [buddy_init_pages]
  | succ left ih =>
    intro i mem pg j hj
    rw [buddy_init_pages, ih (i + 1) _ pg j hj]
    by_cases hpg : pg = i
    · subst hpg
      rw [(buddy_init_layers_page _ mem).2 j]
      simp
    · have hb : buddy_bitmap_get_bit
          (buddy_init_layers (self.base_addr + i * PAGE_SIZE) 6 0 mem)
          (self.base_addr + pg * PAGE_SIZE) j =
          buddy_bitmap_get_bit mem (self.base_addr + pg * PAGE_SIZE) j := by
        apply buddy_get_bit_congr
        apply (buddy_init_layers_page _ mem).1
        simp only [PAGE_SIZE]
        omega
      rw [hb]
      have e : decide (i + 1 ≤ pg ∧ pg < i + 1 + left) = decide (i ≤ pg ∧ pg < i + (left + 1)) := by
        apply decide_eq_decide.mpr
        omega
      rw [e]

/-- A normal return of `buddy_alloc` comes from one pool page. -/
theorem buddy_alloc_pages_some (self : BuddyAllocator) (mem : Nat → Nat) (L : Nat) (left : Nat) :
    ∀ (page a : Nat) (mem1 : Nat → Nat),
      buddy_alloc_pages self mem L left page = BRes.ok a mem1 →
      ∃ pg, page ≤ pg ∧ pg < page + left ∧
        buddy_alloc_layers self mem (self.base_addr + pg * PAGE_SIZE) L L = some (a, mem1) := by
  induction left with
  | zero =>
    intro page a mem1 h
    exact BRes.noConfusion h
  | succ left ih =>
    intro page a mem1 h
    rw [buddy_alloc_pages] at h
    cases hr : buddy_alloc_layers self mem (self.base_addr + page * PAGE_SIZE) L L with
    | none =>
      rw [hr] at h
      obtain ⟨pg, h1, h2, h3⟩ := ih (page + 1) a mem1 h
      exact ⟨pg, by omega, by omega, h3⟩
    | some r =>
      rw [hr] at h
      simp only [] at h
      injection h with h1 h2
      exact ⟨page, Nat.le_refl _, by omega, by rw [← h1, ← h2]; exact hr⟩

/-- What a normal return of `buddy_alloc` did, in a pool of any number of
pages: in the bitmap of one page `pg` it took a free buddy and its leftmost
descendants; the address carries no page offset. -/
theorem buddy_alloc_ok (self : BuddyAllocator) (n a : Nat)
    (mem mem1 : Nat → Nat) (h : buddy_alloc self n mem = BRes.ok a mem1) :
    ∃ pg L l off, pg < self.blocks ∧ buddy_layer_from_size n = some L ∧ 1 ≤ l ∧ l ≤ L ∧
      L ≤ 9 ∧ off < 2 ^ l ∧
      buddy_bit mem (self.base_addr + pg * PAGE_SIZE) l off = false ∧
      buddy_bit mem (self.base_addr + pg * PAGE_SIZE) l (buddy_sibling off) = true ∧
      a = self.base_addr + (off * 2 ^ (L - l)) * buddy_layer_block_size L ∧
      (∀ i, buddy_bitmap_get_bit mem1 (self.base_addr + pg * PAGE_SIZE) i = true ↔
        (buddy_bitmap_get_bit mem (self.base_addr + pg * PAGE_SIZE) i = true ∨
          buddy_chain l off (L - l) i)) ∧
      (∀ x, (x < self.base_addr + pg * PAGE_SIZE ∨ self.base_addr + pg * PAGE_SIZE + 128 ≤ x) →
        mem1 x = mem x) := by
  unfold buddy_alloc at h
  cases hl : buddy_layer_from_size n with
  | none => rw [hl] at h; exact BRes.noConfusion h
  | some L =>
    rw [hl] at h
    simp only [] at h
    have hL := buddy_layer_from_size_some n L hl
    rw [if_neg (by omega)] at h
    obtain ⟨pg, _, hpg, hr⟩ := buddy_alloc_pages_some self mem L self.blocks 0 a mem1 h
    obtain ⟨l, off, g1, g2, g3, g4, g5, g6, g7, g8⟩ :=
      buddy_alloc_layers_some self mem (self.base_addr + pg * PAGE_SIZE) L hL.2 L (a, mem1)
        (Nat.le_refl _) hr
    exact ⟨pg, L, l, off, by omega, rfl, g1, g2, hL.2, g3, g4, g5, g6, g7, g8⟩
theorem buddy_probe_block (layer x : Nat) (hl : layer ≤ 8) (hx : 128 ≤ x) (hx2 : x < 4096)
    (hm : x % buddy_layer_block_size (layer + 1) = 0) :
    x / buddy_layer_block_size (layer + 1) < 2 ^ (layer + 1) ∧
    2 ^ (layer + 1) ≤ x / buddy_layer_block_size (layer + 1) * 32 ∧
    x + buddy_layer_block_size (layer + 1) ≤ 4096 := by
  rw [buddy_layer_block_size_eq _ (by omega)] at hm ⊢
  interval_cases layer <;> norm_num at hm ⊢ <;> omega

theorem buddy_outside_parent (layer off : Nat) (hl : layer ≤ 8)
    (h0 : layer + 1 ≤ 5 → off ≠ 0) (hs : 2 ^ (layer + 1) ≤ buddy_sibling off * 32) :
    2 ^ layer ≤ off / 2 * 32 := by
  unfold buddy_sibling at hs
  interval_cases layer <;> norm_num at hs h0 ⊢ <;> split at hs <;> omega

/-- The climb of `buddy_free`, whatever the shape of the bitmap: it only clears
bits of the page bitmap, and none of the reserved ones when it starts beside a
block outside the bitmap area. -/
theorem buddy_free_climb_coarse (bm : Nat) : ∀ (layer off : Nat) (mem mem2 : Nat → Nat),
    layer ≤ 9 → off < 2 ^ layer →
    (∀ l, l ≤ 5 → buddy_bit mem bm l 0 = true) →
    buddy_bit mem bm layer off = false →
    2 ^ layer ≤ buddy_sibling off * 32 →
    buddy_free_climb bm layer off mem = BRes.ok () mem2 →
    (∀ a, (a < bm ∨ bm + 128 ≤ a) → mem2 a = mem a) ∧
    (∀ i, buddy_bitmap_get_bit mem2 bm i = true → buddy_bitmap_get_bit mem bm i = true) ∧
    (∀ l, l ≤ 5 → buddy_bit mem2 bm l 0 = true) := by
  intro layer
  induction layer with
  | zero =>
    intro off mem mem2 _ _ _ _ _ h
    exact BRes.noConfusion h
  | succ layer ih =>
    intro off mem mem2 hl ho hres hclear hout h
    have h0 : layer + 1 ≤ 5 → off ≠ 0 := by
      intro hl5 he
      rw [he, hres _ hl5] at hclear
      exact Bool.noConfusion hclear
    have hpar := buddy_outside_parent layer off (by omega) h0 hout
    have ho2 : off / 2 < 2 ^ layer := by rw [Nat.pow_succ] at ho; omega
    have hidx := buddy_idx_lt_total layer (off / 2) (by omega) ho2
    have hpos := two_pow_pos_nat layer
    -- the state after clearing the parent
    have hbytes : ∀ a, (a < bm ∨ bm + 128 ≤ a) →
        buddy_bitmap_mark_bit mem bm (buddy_bit_offset_layer layer + off / 2) false a = mem a := by
      intro a ha
      apply buddy_mark_other
      have : buddy_bit_offset_layer layer + off / 2 = buddy_idx layer (off / 2) := rfl
      omega
    have hbits : ∀ i, buddy_bitmap_get_bit
        (buddy_bitmap_mark_bit mem bm (buddy_bit_offset_layer layer + off / 2) false) bm i = true →
        buddy_bitmap_get_bit mem bm i = true := by
      intro i hi
      rw [buddy_get_mark] at hi
      split at hi
      · exact Bool.noConfusion hi
      · exact hi
    have hres1 : ∀ l, l ≤ 5 → buddy_bit
        (buddy_bitmap_mark_bit mem bm (buddy_bit_offset_layer layer + off / 2) false) bm l 0
          = true := by
      intro l hl5
      unfold buddy_bit
      rw [buddy_get_mark, if_neg]
      · exact hres l hl5
      · intro he
        have := buddy_idx_inj l layer 0 (off / 2) (two_pow_pos_nat l) ho2 he
        omega
    rw [buddy_free_climb] at h
    split at h
    · injection h with _ h2
      rw [← h2]
      exact ⟨hbytes, hbits, hres1⟩
    · rename_i hsib
      have hl1 : 1 ≤ layer := by
        rcases Nat.eq_zero_or_pos layer with hz | hz
        · subst hz
          exact BRes.noConfusion h
        · exact hz
      obtain ⟨g1, g2, g3⟩ := ih (buddy_sibling (off / 2)) _ mem2 (by omega)
        (buddy_sibling_lt _ _ hl1 ho2) hres1
        (by
          cases hc : buddy_bit (buddy_bitmap_mark_bit mem bm
            (buddy_bit_offset_layer layer + off / 2) false) bm layer (buddy_sibling (off / 2))
          · rfl
          · exact absurd hc hsib)
        (by rw [buddy_sibling_sibling]; exact hpar) h
      refine ⟨?_, ?_, g3⟩
      · intro a ha
        rw [g1 a ha, hbytes a ha]
      · intro i hi
        exact hbits i (g2 i hi)

/-- The probe of `buddy_free` at an in-page offset `x` of at least 128,
whatever the shape of the bitmap: on a normal return it has changed nothing
outside the page, has only cleared bits of the page bitmap, and has cleared
none of the reserved bits. -/
theorem buddy_free_probe_coarse (bm x vaddr : Nat) (hx : 128 ≤ x) (hx2 : x < 4096)
    (hv : vaddr = bm + x) : ∀ (layer : Nat) (mem mem2 : Nat → Nat), layer ≤ 9 →
    (∀ l, l ≤ 5 → buddy_bit mem bm l 0 = true) →
    buddy_free_probe bm x vaddr mem layer = BRes.ok () mem2 →
    (∀ a, (a < bm ∨ bm + 4096 ≤ a) → mem2 a = mem a) ∧
    (∀ i, i < 1024 → buddy_bitmap_get_bit mem2 bm i = true →
      buddy_bitmap_get_bit mem bm i = true) ∧
    (∀ l, l ≤ 5 → buddy_bit mem2 bm l 0 = true) := by
  intro layer
  induction layer with
  | zero =>
    intro mem mem2 _ _ h
    exact BRes.noConfusion h
  | succ layer ih =>
    intro mem mem2 hl hres h
    rw [buddy_free_probe] at h
    split at h
    · rename_i hm
      obtain ⟨b1, b2, b3⟩ := buddy_probe_block layer x (by omega) hx hx2 hm
      simp only [] at h
      split at h
      · -- the block found at this layer is freed
        have hidx := buddy_idx_lt_total (layer + 1) _ hl b1
        have hz : ∀ i, i < 1024 → buddy_bitmap_get_bit
            (heap_zero mem vaddr (buddy_layer_block_size (layer + 1))) bm i =
            buddy_bitmap_get_bit mem bm i := by
          intro i hi
          apply heap_zero_get
          omega
        have hbytes : ∀ a, (a < bm ∨ bm + 4096 ≤ a) →
            buddy_bitmap_mark_bit (heap_zero mem vaddr (buddy_layer_block_size (layer + 1))) bm
              (buddy_bit_offset_layer (layer + 1) + x / buddy_layer_block_size (layer + 1))
              false a = mem a := by
          intro a ha
          rw [buddy_mark_other]
          · unfold heap_zero
            rw [if_neg]
            omega
          · have : buddy_bit_offset_layer (layer + 1) + x / buddy_layer_block_size (layer + 1)
              = buddy_idx (layer + 1) (x / buddy_layer_block_size (layer + 1)) := rfl
            omega
        have hbits : ∀ i, i < 1024 → buddy_bitmap_get_bit
            (buddy_bitmap_mark_bit (heap_zero mem vaddr (buddy_layer_block_size (layer + 1))) bm
              (buddy_bit_offset_layer (layer + 1) + x / buddy_layer_block_size (layer + 1))
              false) bm i = true → buddy_bitmap_get_bit mem bm i = true := by
          intro i hi h1
          rw [buddy_get_mark] at h1
          split at h1
          · exact Bool.noConfusion h1
          · rw [hz i hi] at h1
            exact h1
        have hres1 : ∀ l, l ≤ 5 → buddy_bit
            (buddy_bitmap_mark_bit (heap_zero mem vaddr (buddy_layer_block_size (layer + 1))) bm
              (buddy_bit_offset_layer (layer + 1) + x / buddy_layer_block_size (layer + 1))
              false) bm l 0 = true := by
          intro l hl5
          unfold buddy_bit
          have hi := buddy_idx_lt_total l 0 (by omega) (two_pow_pos_nat l)
          rw [buddy_get_mark, if_neg, hz _ (by omega)]
          · exact hres l hl5
          · intro he
            have := buddy_idx_inj l (layer + 1) 0 _ (two_pow_pos_nat l) b1 he
            have hp := two_pow_pos_nat (layer + 1)
            omega
        split at h
        · injection h with _ h2
          rw [← h2]
          exact ⟨hbytes, hbits, hres1⟩
        · rename_i hsib
          obtain ⟨g1, g2, g3⟩ := buddy_free_climb_coarse bm (layer + 1)
            (buddy_sibling (x / buddy_layer_block_size (layer + 1))) _ mem2 hl
            (buddy_sibling_lt _ _ (by omega) b1) hres1
            (by
              cases hc : buddy_bit (buddy_bitmap_mark_bit
                (heap_zero mem vaddr (buddy_layer_block_size (layer + 1))) bm
                (buddy_bit_offset_layer (layer + 1) + x / buddy_layer_block_size (layer + 1))
                false) bm (layer + 1) (buddy_sibling (x / buddy_layer_block_size (layer + 1)))
              · rfl
              · exact absurd hc hsib)
            (by rw [buddy_sibling_sibling]; exact b2) h
          refine ⟨?_, ?_, g3⟩
          · intro a ha
            rw [g1 a (by omega), hbytes a ha]
          · intro i hi h1
            exact hbits i hi (g2 i h1)
      · exact ih mem mem2 (by omega) hres h
    · exact BRes.noConfusion h
theorem buddy_init_pages_inv (self : BuddyAllocator) (mem0 : Nat → Nat)
    (hzero : ∀ a, self.base_addr ≤ a → a < self.base_addr + self.blocks * PAGE_SIZE →
      mem0 a = 0) :
    BuddyPages self (buddy_init self mem0) [] := by
  have hbit : ∀ pg j, pg < self.blocks → j < 1024 →
      buddy_bitmap_get_bit (buddy_init self mem0) (self.base_addr + pg * PAGE_SIZE) j =
        decide (j = 0 ∨ j = 1 ∨ j = 3 ∨ j = 7 ∨ j = 15 ∨ j = 31) := by
    intro pg j hpg hj
    unfold buddy_init
    rw [buddy_init_pages_bits self self.blocks 0 mem0 pg j hj]
    have hz : buddy_bitmap_get_bit mem0 (self.base_addr + pg * PAGE_SIZE) j = false := by
      unfold buddy_bitmap_get_bit
      rw [hzero _ (by omega) (by
        have : (pg + 1) * PAGE_SIZE ≤ self.blocks * PAGE_SIZE := Nat.mul_le_mul_right _ hpg
        simp only [PAGE_SIZE] at this ⊢
        omega)]
      simp
    rw [hz]
    simp [hpg]
  refine ⟨?_, ?_, ?_⟩
  · intro pg l hpg hl
    unfold buddy_bit
    have hi := buddy_idx_lt_total l 0 (by omega) (two_pow_pos_nat l)
    rw [hbit pg _ hpg (by omega), buddy_idx_eq]
    interval_cases l <;> decide
  · intro pg l off hpg h6 h9 hoff
    have hlt : off < 2 ^ l :=
      Nat.lt_of_lt_of_le hoff (Nat.pow_le_pow_right (by decide) (by omega))
    unfold buddy_bit
    have hi := buddy_idx_lt_total l off h9 hlt
    rw [hbit pg _ hpg (by omega), buddy_idx_eq]
    simp only [decide_eq_false_iff_not]
    interval_cases l <;> norm_num at hoff ⊢ <;> omega
  · intro p hp
    cases hp

/-- The block taken by `buddy_alloc` lies outside the bitmap area. -/
theorem buddy_alloc_block_outside (mem : Nat → Nat) (bm l off : Nat) (hl9 : l ≤ 9)
    (hres : ∀ l, l ≤ 5 → buddy_bit mem bm l 0 = true)
    (hin : ∀ l off, 6 ≤ l → l ≤ 9 → off < 2 ^ (l - 5) → buddy_bit mem bm l off = false)
    (hclear : buddy_bit mem bm l off = false)
    (hsib : buddy_bit mem bm l (buddy_sibling off) = true) :
    2 ^ l ≤ off * 32 := by
  by_cases h5 : l ≤ 5
  · have h0 : off ≠ 0 := by
      intro he
      rw [he, hres l h5] at hclear
      exact Bool.noConfusion hclear
    have : 2 ^ l ≤ 2 ^ 5 := Nat.pow_le_pow_right (by decide) h5
    norm_num at this
    omega
  · by_contra hlt
    have e : 2 ^ l = 2 ^ (l - 5) * 32 := by
      rw [show (32 : Nat) = 2 ^ 5 by norm_num, ← Nat.pow_add, show l - 5 + 5 = l by omega]
    have h1 : off < 2 ^ (l - 5) := by omega
    have h2 := buddy_sibling_lt off (l - 5) (by omega) h1
    rw [hin l _ (by omega) hl9 h2] at hsib
    exact Bool.noConfusion hsib

theorem buddy_outside_scale (l off d : Nat) (h : 2 ^ l ≤ off * 32) :
    2 ^ (l + d) ≤ off * 2 ^ d * 32 := by
  rw [Nat.pow_add]
  have := Nat.mul_le_mul_right (2 ^ d) h
  calc 2 ^ l * 2 ^ d ≤ off * 32 * 2 ^ d := this
    _ = off * 2 ^ d * 32 := by ring

theorem buddy_outside_offset (L o : Nat) (hL : L ≤ 9) (h : 2 ^ L ≤ o * 32) :
    128 ≤ o * buddy_layer_block_size L := by
  rw [buddy_layer_block_size_eq L (by omega)]
  have h1 := Nat.mul_le_mul_right (2 ^ (12 - L)) h
  rw [← Nat.pow_add, show L + (12 - L) = 12 by omega] at h1
  have h2 : o * 32 * 2 ^ (12 - L) = 32 * (o * 2 ^ (12 - L)) := by ring
  rw [h2] at h1
  norm_num at h1
  omega

/-- `buddy_alloc` keeps the invariant of a pool of several pages. -/
theorem buddy_alloc_pages_inv (self : BuddyAllocator) (mem mem1 : Nat → Nat)
    (live : List (Nat × Nat)) (n a : Nat) (hinv : BuddyPages self mem live)
    (h : buddy_alloc self n mem = BRes.ok a mem1) :
    BuddyPages self mem1 ((a, n) :: live) := by
  obtain ⟨hres, hin, hlive⟩ := hinv
  obtain ⟨pg, L, l, off, hpg, hL, hl1, hlL, hL9, hoff, hclear, hsib, ha, hbits, hbytes⟩ :=
    buddy_alloc_ok self n a mem mem1 h
  have hout := buddy_alloc_block_outside mem _ l off (by omega) (fun l h => hres pg l hpg h)
    (fun l off h1 h2 h3 => hin pg l off hpg h1 h2 h3) hclear hsib
  have hother : ∀ pg2 j, pg2 ≠ pg → j < 1024 →
      buddy_bitmap_get_bit mem1 (self.base_addr + pg2 * PAGE_SIZE) j =
        buddy_bitmap_get_bit mem (self.base_addr + pg2 * PAGE_SIZE) j := by
    intro pg2 j hne hj
    apply buddy_get_bit_congr
    apply hbytes
    simp only [PAGE_SIZE]
    omega
  refine ⟨?_, ?_, ?_⟩
  · intro pg2 l2 hpg2 hl2
    by_cases hp : pg2 = pg
    · subst hp
      unfold buddy_bit
      rw [hbits]
      exact Or.inl (hres pg2 l2 hpg2 hl2)
    · unfold buddy_bit
      have hi := buddy_idx_lt_total l2 0 (by omega) (two_pow_pos_nat l2)
      rw [hother pg2 _ hp (by omega)]
      exact hres pg2 l2 hpg2 hl2
  · intro pg2 l2 off2 hpg2 h6 h9 hoff2
    have hlt : off2 < 2 ^ l2 :=
      Nat.lt_of_lt_of_le hoff2 (Nat.pow_le_pow_right (by decide) (by omega))
    by_cases hp : pg2 = pg
    · subst hp
      cases hc : buddy_bit mem1 (self.base_addr + pg2 * PAGE_SIZE) l2 off2
      · rfl
      · unfold buddy_bit at hc
        rw [hbits] at hc
        rcases hc with hc | ⟨j, hj, he⟩
        · have := hin pg2 l2 off2 hpg2 h6 h9 hoff2
          unfold buddy_bit at this
          rw [this] at hc
          exact Bool.noConfusion hc
        · have hlt2 : off * 2 ^ j < 2 ^ (l + j) := by
            rw [Nat.pow_add]
            exact Nat.mul_lt_mul_of_pos_right hoff (two_pow_pos_nat j)
          obtain ⟨e1, e2⟩ := buddy_idx_inj l2 (l + j) off2 (off * 2 ^ j) hlt hlt2 he
          have hs := buddy_outside_scale l off j hout
          rw [← e1, ← e2] at hs
          have e : 2 ^ l2 = 2 ^ (l2 - 5) * 32 := by
            rw [show (32 : Nat) = 2 ^ 5 by norm_num, ← Nat.pow_add,
              show l2 - 5 + 5 = l2 by omega]
          omega
    · unfold buddy_bit
      have hi := buddy_idx_lt_total l2 off2 h9 hlt
      rw [hother pg2 _ hp (by omega)]
      exact hin pg2 l2 off2 hpg2 h6 h9 hoff2
  · intro p hp
    rcases List.mem_cons.mp hp with hp | hp
    · subst hp
      refine ⟨L, off * 2 ^ (L - l), hL, ?_, ha, ?_⟩
      · have := Nat.mul_lt_mul_of_pos_right hoff (two_pow_pos_nat (L - l))
        rw [← Nat.pow_add, show l + (L - l) = L by omega] at this
        exact this
      · have hs := buddy_outside_scale l off (L - l) hout
        rw [show l + (L - l) = L by omega] at hs
        exact buddy_outside_offset L _ hL9 hs
    · exact hlive p hp

/-- `buddy_free` of a live block keeps the invariant of a pool of several
pages. -/
theorem buddy_free_pages_inv (self : BuddyAllocator) (mem mem1 : Nat → Nat)
    (live : List (Nat × Nat)) (n a : Nat) (hinv : BuddyPages self mem live)
    (hmem : (a, n) ∈ live) (h : buddy_free self a mem = BRes.ok () mem1) :
    BuddyPages self mem1 (live.erase (a, n)) := by
  obtain ⟨hres, hin, hlive⟩ := hinv
  refine ⟨?_, ?_, fun p hp => hlive p (List.mem_of_mem_erase hp)⟩
  all_goals
    obtain ⟨L, o, hL, ho, ha, h128⟩ := hlive (a, n) hmem
    have hL9 := (buddy_layer_from_size_some _ _ hL).2
    have hx := buddy_block_offset_lt L o (by omega) ho
    simp only [] at ha
    have hoff : (self.base_addr + o * buddy_layer_block_size L +
        (U64 - self.base_addr % U64)) % U64 = o * buddy_layer_block_size L := by
      simp only [U64]
      omega
    unfold buddy_free at h
    rw [ha] at h
    simp only [hoff] at h
    rw [show o * buddy_layer_block_size L / PAGE_SIZE = 0 by
          simp only [PAGE_SIZE]; omega,
        show o * buddy_layer_block_size L % PAGE_SIZE = o * buddy_layer_block_size L by
          simp only [PAGE_SIZE]; omega,
        Nat.zero_mul, Nat.add_zero, show LAYERS - 1 = 9 by simp only [LAYERS]] at h
  · intro pg l hpg hl
    by_cases hp : pg = 0
    · subst hp
      rw [Nat.zero_mul, Nat.add_zero]
      have h0 : ∀ l, l ≤ 5 → buddy_bit mem self.base_addr l 0 = true := by
        intro l hl
        have := hres 0 l hpg hl
        rwa [Nat.zero_mul, Nat.add_zero] at this
      exact (buddy_free_probe_coarse self.base_addr _ _ h128 hx rfl 9 mem mem1
        (Nat.le_refl _) h0 h).2.2 l hl
    · by_cases hb : 0 < self.blocks
      · have h0 : ∀ l, l ≤ 5 → buddy_bit mem self.base_addr l 0 = true := by
          intro l hl
          have := hres 0 l hb hl
          rwa [Nat.zero_mul, Nat.add_zero] at this
        have g := (buddy_free_probe_coarse self.base_addr _ _ h128 hx rfl 9 mem mem1
          (Nat.le_refl _) h0 h).1
        unfold buddy_bit
        rw [buddy_get_bit_congr mem mem1 _ _ (g _ (by simp only [PAGE_SIZE]; omega))]
        exact hres pg l hpg hl
      · omega
  · intro pg l off hpg h6 h9 hoff2
    have hb : 0 < self.blocks := by omega
    have h0 : ∀ l, l ≤ 5 → buddy_bit mem self.base_addr l 0 = true := by
      intro l hl
      have := hres 0 l hb hl
      rwa [Nat.zero_mul, Nat.add_zero] at this
    obtain ⟨g1, g2, _⟩ := buddy_free_probe_coarse self.base_addr _ _ h128 hx rfl 9 mem mem1
      (Nat.le_refl _) h0 h
    have hlt : off < 2 ^ l :=
      Nat.lt_of_lt_of_le hoff2 (Nat.pow_le_pow_right (by decide) (by omega))
    have hi := buddy_idx_lt_total l off h9 hlt
    by_cases hp : pg = 0
    · subst hp
      cases hc : buddy_bit mem1 (self.base_addr + 0 * PAGE_SIZE) l off
      · rfl
      · unfold buddy_bit at hc
        rw [Nat.zero_mul, Nat.add_zero] at hc
        have := g2 _ (by omega) hc
        have h2 := hin 0 l off hb h6 h9 hoff2
        unfold buddy_bit at h2
        rw [Nat.zero_mul, Nat.add_zero, this] at h2
        exact Bool.noConfusion h2
    · unfold buddy_bit
      rw [buddy_get_bit_congr mem mem1 _ _ (g1 _ (by simp only [PAGE_SIZE]; omega))]
      exact hin pg l off hpg h6 h9 hoff2

/-- Every reachable state of a pool of any number of pages satisfies the
invariant. -/
theorem buddy_reach_pages (self : BuddyAllocator) (mem : Nat → Nat) (live : List (Nat × Nat))
    (hr : BuddyReach self mem live) : BuddyPages self mem live := by
  induction hr with
  | init mem0 hzero => exact buddy_init_pages_inv self mem0 hzero
  | alloc mem mem1 live n a _ h ih => exact buddy_alloc_pages_inv self mem mem1 live n a ih h
  | free mem mem1 live n a _ hlive h ih =>
    exact buddy_free_pages_inv self mem mem1 live n a ih hlive h

theorem BRes.ok_of_value {α : Type} (r : BRes α) (a : α) (h : BRes.value r = some a) :
    r = BRes.ok a (BRes.mem r) := by
  cases r with
  | ok b m =>
    simp only [BRes.value, Option.some.injEq] at h
    rw [h]
    rfl
  | fatal m => exact Option.noConfusion h

/-- A fatal return of `buddy_alloc` leaves the memory as it was. -/
theorem buddy_alloc_pages_fatal (self : BuddyAllocator) (mem : Nat → Nat) (L left : Nat) :
    ∀ (page : Nat) (m : Nat → Nat),
      buddy_alloc_pages self mem L left page = BRes.fatal m → m = mem := by
  induction left with
  | zero =>
    intro page m h
    injection h with h
    exact h.symm
  | succ left ih =>
    intro page m h
    rw [buddy_alloc_pages] at h
    cases hr : buddy_alloc_layers self mem (self.base_addr + page * PAGE_SIZE) L L with
    | none =>
      rw [hr] at h
      exact ih (page + 1) m h
    | some r =>
      rw [hr] at h
      exact BRes.noConfusion h

theorem buddy_alloc_fatal (self : BuddyAllocator) (n : Nat) (mem m : Nat → Nat)
    (h : buddy_alloc self n mem = BRes.fatal m) : m = mem := by
  unfold buddy_alloc at h
  cases hl : buddy_layer_from_size n with
  | none =>
    rw [hl] at h
    injection h with h
    exact h.symm
  | some L =>
    rw [hl] at h
    simp only [] at h
    split at h
    · injection h with h
      exact h.symm
    · exact buddy_alloc_pages_fatal self mem L self.blocks 0 m h

/-- In a page whose minimum blocks outside the bitmap area are all under a
used block with free descendants, no sibling pair has exactly one bit set. -/
theorem buddy_full_no_pair (mem : Nat → Nat) (bm : Nat) (ht : BuddyTree mem bm)
    (hfull : ∀ o9, 16 ≤ o9 → o9 < 512 → ∃ L o, L ≤ 9 ∧ o < 2 ^ L ∧ buddy_anc L o 9 o9 ∧
      buddy_bit mem bm L o = true ∧
      ∀ lb ob, L < lb → lb ≤ 9 → ob < 2 ^ lb → buddy_anc L o lb ob →
        buddy_bit mem bm lb ob = false)
    (l off : Nat) (hl1 : 1 ≤ l) (hl9 : l ≤ 9) (hoff : off < 2 ^ l)
    (hclear : buddy_bit mem bm l off = false)
    (hsib : buddy_bit mem bm l (buddy_sibling off) = true) : False := by
  have hout := buddy_alloc_block_outside mem bm l off hl9 (buddy_tree_reserved mem bm ht)
    (buddy_tree_inside mem bm ht) hclear hsib
  have hs := buddy_outside_scale l off (9 - l) hout
  rw [show l + (9 - l) = 9 by omega] at hs
  have hlt := Nat.mul_lt_mul_of_pos_right hoff (two_pow_pos_nat (9 - l))
  rw [← Nat.pow_add, show l + (9 - l) = 9 by omega] at hlt
  norm_num at hs hlt
  obtain ⟨L, o, hL9, ho, hanc, hset, hdesc⟩ := hfull (off * 2 ^ (9 - l)) (by omega) hlt
  have hY : buddy_anc l off 9 (off * 2 ^ (9 - l)) := by
    have := buddy_anc_chain l off (9 - l)
    rwa [show l + (9 - l) = 9 by omega] at this
  by_cases hc : L ≤ l
  · have hZY := buddy_anc_cmp L o l off 9 _ hanc hY hc
    by_cases he : L = l
    · subst he
      rw [buddy_anc_eq L o off hZY, hclear] at hset
      exact Bool.noConfusion hset
    · have := hdesc l (buddy_sibling off) (by omega) hl9 (buddy_sibling_lt off l hl1 hoff)
        (buddy_anc_sibling L o l off hZY (by omega))
      rw [this] at hsib
      exact Bool.noConfusion hsib
  · have hYZ := buddy_anc_cmp l off L o 9 _ hY hanc (by omega)
    have := buddy_anc_tree mem bm ht l off L o hYZ hL9 ho hset
    rw [this] at hclear
    exact Bool.noConfusion hclear

/-- A live block covering the minimum block `o9` sits at an ancestor of it. -/
theorem buddy_cover_anc (L o o9 : Nat) (hL : L ≤ 9)
    (h1 : o * buddy_layer_block_size L ≤ o9 * 8)
    (h2 : o9 * 8 < o * buddy_layer_block_size L + buddy_layer_block_size L) :
    buddy_anc L o 9 o9 := by
  refine ⟨hL, ?_⟩
  rw [buddy_layer_block_size_eq L (by omega)] at h1 h2
  have e : 2 ^ (12 - L) = 2 ^ (9 - L) * 8 := by
    rw [show (8 : Nat) = 2 ^ 3 by norm_num, ← Nat.pow_add, show 9 - L + 3 = 12 - L by omega]
  rw [e] at h1 h2
  have hp := two_pow_pos_nat (9 - L)
  have g1 : o * 2 ^ (9 - L) ≤ o9 := by
    have : o * (2 ^ (9 - L) * 8) = (o * 2 ^ (9 - L)) * 8 := by ring
    omega
  have g2 : o9 < (o + 1) * 2 ^ (9 - L) := by
    have : o * (2 ^ (9 - L) * 8) = (o * 2 ^ (9 - L)) * 8 := by ring
    have : (o + 1) * 2 ^ (9 - L) = o * 2 ^ (9 - L) + 2 ^ (9 - L) := by ring
    omega
  apply Nat.le_antisymm
  · exact Nat.lt_succ_iff.mp ((Nat.div_lt_iff_lt_mul hp).mpr g2)
  · exact (Nat.le_div_iff_mul_le hp).mpr g1

/-- C14: in every pool state reachable from `buddy_init` on zeroed pages
through `buddy_alloc` and `buddy_free` of live blocks, for a pool of any number
of pages, the six reserved bits of each page (block 0 of the layers 0..5, bit
indices `2 ^ l - 1` = 0, 1, 3, 7, 15, 31) are set, and every address `a`
returned by `buddy_alloc` has an in-page offset of at least
`BUDDY_BITMAP_SIZE` = 128 bytes; the returned block overlaps the 128-byte
bitmap of no pool page. -/
theorem buddy_reserved_bits_kept (self : BuddyAllocator) (mem : Nat → Nat)
    (live : List (Nat × Nat)) (hr : BuddyReach self mem live) :
    (∀ pg l, pg < self.blocks → l ≤ 5 →
      buddy_bitmap_get_bit mem (self.base_addr + pg * PAGE_SIZE) (2 ^ l - 1) = true) ∧
    (∀ n a mem1, buddy_alloc self n mem = BRes.ok a mem1 →
      self.base_addr ≤ a ∧ BUDDY_BITMAP_SIZE ≤ (a - self.base_addr) % PAGE_SIZE ∧
      ∃ L, buddy_layer_from_size n = some L ∧
        ∀ pg, a + buddy_layer_block_size L ≤ self.base_addr + pg * PAGE_SIZE ∨
          self.base_addr + pg * PAGE_SIZE + BUDDY_BITMAP_SIZE ≤ a) := by
  have hinv := buddy_reach_pages self mem live hr
  constructor
  · intro pg l hpg hl
    have := hinv.1 pg l hpg hl
    unfold buddy_bit at this
    rw [buddy_idx_eq, Nat.add_zero] at this
    exact this
  · intro n a mem1 h
    have h2 := buddy_alloc_pages_inv self mem mem1 live n a hinv h
    obtain ⟨L, o, hL, ho, ha, h128⟩ := h2.2.2 (a, n) (List.mem_cons_self _ _)
    simp only [] at hL ha
    have hL9 := (buddy_layer_from_size_some _ _ hL).2
    have hx := buddy_block_offset_lt L o (by omega) ho
    have hx2 : o * buddy_layer_block_size L + buddy_layer_block_size L ≤ 4096 := by
      have h3 : (o + 1) * buddy_layer_block_size L ≤ 2 ^ L * buddy_layer_block_size L :=
        Nat.mul_le_mul_right _ ho
      rw [buddy_layer_block_size_eq L (by omega)] at h3 ⊢
      rw [← Nat.pow_add, show L + (12 - L) = 12 by omega] at h3
      have : (o + 1) * 2 ^ (12 - L) = o * 2 ^ (12 - L) + 2 ^ (12 - L) := by ring
      norm_num at h3
      omega
    refine ⟨by omega, ?_, L, hL, ?_⟩
    · simp only [BUDDY_BITMAP_SIZE, PAGE_SIZE]
      omega
    · intro pg
      simp only [BUDDY_BITMAP_SIZE, PAGE_SIZE]
      omega

theorem demo_heap1_reach : BuddyReach demo_pool demo_heap1 [(0x200080, 8)] :=
  BuddyReach.alloc demo_heap demo_heap1 [] 8 0x200080
    (BuddyReach.init (fun _ => 0) (fun _ _ _ => rfl))
    (BRes.ok_of_value _ _ (by set_option maxRecDepth 100000 in decide))

theorem demo_heap_pair_reach :
    BuddyReach demo_pool demo_heap_pair [(0x200088, 8), (0x200080, 8)] :=
  BuddyReach.alloc demo_heap1 demo_heap_pair [(0x200080, 8)] 8 0x200088 demo_heap1_reach
    (BRes.ok_of_value _ _ (by set_option maxRecDepth 100000 in decide))

theorem buddy_reserved_bits_kept_witness :
    BuddyReach demo_pool demo_heap_pair [(0x200088, 8), (0x200080, 8)] ∧
    (∀ pg l, pg < demo_pool.blocks → l ≤ 5 →
      buddy_bitmap_get_bit demo_heap_pair (demo_pool.base_addr + pg * PAGE_SIZE) (2 ^ l - 1)
        = true) ∧
    (∀ n a mem1, buddy_alloc demo_pool n demo_heap_pair = BRes.ok a mem1 →
      demo_pool.base_addr ≤ a ∧ BUDDY_BITMAP_SIZE ≤ (a - demo_pool.base_addr) % PAGE_SIZE ∧
      ∃ L, buddy_layer_from_size n = some L ∧
        ∀ pg, a + buddy_layer_block_size L ≤ demo_pool.base_addr + pg * PAGE_SIZE ∨
          demo_pool.base_addr + pg * PAGE_SIZE + BUDDY_BITMAP_SIZE ≤ a) :=
  ⟨demo_heap_pair_reach,
    buddy_reserved_bits_kept demo_pool demo_heap_pair [(0x200088, 8), (0x200080, 8)]
      demo_heap_pair_reach⟩
theorem buddy_block_end_le (L o : Nat) (hL : L ≤ 9) (ho : o < 2 ^ L) :
    o * buddy_layer_block_size L + buddy_layer_block_size L ≤ 4096 := by
  have h3 : (o + 1) * buddy_layer_block_size L ≤ 2 ^ L * buddy_layer_block_size L :=
    Nat.mul_le_mul_right _ ho
  rw [buddy_layer_block_size_eq L (by omega)] at h3 ⊢
  rw [← Nat.pow_add, show L + (12 - L) = 12 by omega] at h3
  have : (o + 1) * 2 ^ (12 - L) = o * 2 ^ (12 - L) + 2 ^ (12 - L) := by ring
  norm_num at h3
  omega

/-- C11: in a state of a pool of any number of pages that is reachable from
`buddy_init` through `buddy_alloc` and `buddy_free` of live blocks and in which
every 8-byte minimum block outside the bitmap area of every page (block `o` of
page `pg`, `16 <= o < 512`) lies inside the block of a live allocation,
`buddy_alloc(n)` with `n <= 2048` has a target layer of at least 1 (it passes
the size checks) and takes the fatal path with the memory, and so every bitmap
bit, unchanged. -/
theorem buddy_alloc_full_is_fatal (self : BuddyAllocator) (mem : Nat → Nat)
    (live : List (Nat × Nat)) (n : Nat) (hr : BuddyReach self mem live)
    (hfull : ∀ pg o, pg < self.blocks → 16 ≤ o → o < 512 →
      ∃ p, p ∈ live ∧ ∃ L, buddy_layer_from_size p.2 = some L ∧
        p.1 ≤ self.base_addr + pg * PAGE_SIZE + o * SMALLEST ∧
        self.base_addr + pg * PAGE_SIZE + o * SMALLEST < p.1 + buddy_layer_block_size L)
    (hn : n ≤ 2048) :
    (∃ L, buddy_layer_from_size n = some L ∧ 1 ≤ L) ∧
    buddy_alloc self n mem = BRes.fatal mem := by
  obtain ⟨L0, hL0, hL01, _⟩ := (buddy_layer_from_size_spec n).1 hn
  refine ⟨⟨L0, hL0, hL01⟩, ?_⟩
  cases hres : buddy_alloc self n mem with
  | fatal m => rw [buddy_alloc_fatal self n mem m hres]
  | ok a mem1 =>
    exfalso
    obtain ⟨pg, L, l, off, hpg, _, hl1, hlL, hL9, hoff, hclear, hsib, _, _, _⟩ :=
      buddy_alloc_ok self n a mem mem1 hres
    have hpages := buddy_reach_pages self mem live hr
    by_cases hb : self.blocks = 1
    · have hinv := buddy_reach_inv self hb mem live hr
      have hpg0 : pg = 0 := by omega
      subst hpg0
      rw [Nat.zero_mul, Nat.add_zero] at hclear hsib
      apply buddy_full_no_pair mem self.base_addr hinv.1 ?_ l off hl1 (by omega) hoff hclear hsib
      intro o9 h16 h512
      obtain ⟨p, hp, L1, hL1, c1, c2⟩ := hfull 0 o9 (by omega) h16 h512
      obtain ⟨L2, o, hL2, ho, ha, _, hset, hdesc⟩ := hinv.2.2 p hp
      rw [hL1] at hL2
      injection hL2 with hL2
      subst hL2
      have hL19 := (buddy_layer_from_size_some _ _ hL1).2
      refine ⟨L1, o, hL19, ho, ?_, hset, hdesc⟩
      apply buddy_cover_anc L1 o o9 hL19
      · simp only [SMALLEST, PAGE_SIZE] at c1
        omega
      · simp only [SMALLEST, PAGE_SIZE] at c2
        omega
    · obtain ⟨p, hp, L1, hL1, c1, c2⟩ := hfull 1 16 (by omega) (by omega) (by omega)
      obtain ⟨L2, o, hL2, ho, ha, _⟩ := hpages.2.2 p hp
      rw [hL1] at hL2
      injection hL2 with hL2
      subst hL2
      have hL19 := (buddy_layer_from_size_some _ _ hL1).2
      have := buddy_block_end_le L1 o hL19 ho
      simp only [SMALLEST, PAGE_SIZE] at c2
      omega

theorem demo_fill_reach : BuddyReach demo_pool (demo_fill 5)
    [(0x200080, 128), (0x200100, 256), (0x200200, 512), (0x200400, 1024), (0x200800, 2048)] :=
  BuddyReach.alloc (demo_fill 4) (demo_fill 5) _ 128 0x200080
    (BuddyReach.alloc (demo_fill 3) (demo_fill 4) _ 256 0x200100
      (BuddyReach.alloc (demo_fill 2) (demo_fill 3) _ 512 0x200200
        (BuddyReach.alloc (demo_fill 1) (demo_fill 2) _ 1024 0x200400
          (BuddyReach.alloc (demo_fill 0) (demo_fill 1) _ 2048 0x200800
            (BuddyReach.init (fun _ => 0) (fun _ _ _ => rfl))
            (BRes.ok_of_value _ _ (by set_option maxRecDepth 100000 in decide)))
          (BRes.ok_of_value _ _ (by set_option maxRecDepth 100000 in decide)))
        (BRes.ok_of_value _ _ (by set_option maxRecDepth 100000 in decide)))
      (BRes.ok_of_value _ _ (by set_option maxRecDepth 100000 in decide)))
    (BRes.ok_of_value _ _ (by set_option maxRecDepth 100000 in decide))

theorem demo_fill_full (pg o : Nat) (hpg : pg < demo_pool.blocks) (h1 : 16 ≤ o) (h2 : o < 512) :
    ∃ p, p ∈ [(0x200080, 128), (0x200100, 256), (0x200200, 512), (0x200400, 1024),
        (0x200800, 2048)] ∧ ∃ L, buddy_layer_from_size p.2 = some L ∧
      p.1 ≤ demo_pool.base_addr + pg * PAGE_SIZE + o * SMALLEST ∧
      demo_pool.base_addr + pg * PAGE_SIZE + o * SMALLEST < p.1 + buddy_layer_block_size L := by
  have hpg0 : pg = 0 := by
    have : demo_pool.blocks = 1 := rfl
    omega
  subst hpg0
  have e5 : buddy_layer_block_size 5 = 128 := by decide
  have e4 : buddy_layer_block_size 4 = 256 := by decide
  have e3 : buddy_layer_block_size 3 = 512 := by decide
  have e2 : buddy_layer_block_size 2 = 1024 := by decide
  have e1 : buddy_layer_block_size 1 = 2048 := by decide
  have eb : demo_pool.base_addr = 0x200000 := rfl
  by_cases c5 : o < 32
  · refine ⟨(0x200080, 128), by simp, 5, by decide, ?_, ?_⟩ <;>
      simp only [eb, e5, PAGE_SIZE, SMALLEST] <;> omega
  by_cases c4 : o < 64
  · refine ⟨(0x200100, 256), by simp, 4, by decide, ?_, ?_⟩ <;>
      simp only [eb, e4, PAGE_SIZE, SMALLEST] <;> omega
  by_cases c3 : o < 128
  · refine ⟨(0x200200, 512), by simp, 3, by decide, ?_, ?_⟩ <;>
      simp only [eb, e3, PAGE_SIZE, SMALLEST] <;> omega
  by_cases c2 : o < 256
  · refine ⟨(0x200400, 1024), by simp, 2, by decide, ?_, ?_⟩ <;>
      simp only [eb, e2, PAGE_SIZE, SMALLEST] <;> omega
  · refine ⟨(0x200800, 2048), by simp, 1, by decide, ?_, ?_⟩ <;>
      simp only [eb, e1, PAGE_SIZE, SMALLEST] <;> omega

theorem buddy_alloc_full_is_fatal_witness :
    (∃ L, buddy_layer_from_size 8 = some L ∧ 1 ≤ L) ∧
    buddy_alloc demo_pool 8 (demo_fill 5) = BRes.fatal (demo_fill 5) :=
  buddy_alloc_full_is_fatal demo_pool (demo_fill 5) _ 8 demo_fill_reach demo_fill_full
    (by decide)

/-! ### buddy.c: which block `buddy_alloc` takes -/

theorem buddy_scan_pairs_none (mem : Nat → Nat) (bm limit : Nat) :
    ∀ (fuel off : Nat), buddy_scan_pairs mem bm limit fuel off = none →
      ∀ k, k < fuel → off + 2 * k < limit →
        buddy_bitmap_get_bit mem bm (off + 2 * k) =
          buddy_bitmap_get_bit mem bm (off + 2 * k + 1) := by
  intro fuel
  induction fuel with
  | zero => intro off _ k hk; omega
  | succ fuel ih =>
    intro off h k hk hlim
    simp only [buddy_scan_pairs] at h
    rw [if_pos (by omega)] at h
    by_cases hd : (buddy_bitmap_get_bit mem bm off != buddy_bitmap_get_bit mem bm (off + 1)) = true
    · rw [if_pos hd] at h
      exact Option.noConfusion h
    · rw [if_neg hd] at h
      rcases Nat.eq_zero_or_pos k with hk0 | hk0
      · subst hk0
        simpa using hd
      · have := ih (off + 2) h (k - 1) (by omega) (by omega)
        rw [show off + 2 + 2 * (k - 1) = off + 2 * k by omega] at this
        exact this

/-- A layer whose pair scan finds nothing has no sibling pair with exactly one
bit set. -/
theorem buddy_layer_no_pair (mem : Nat → Nat) (bm l : Nat) (hl : 1 ≤ l)
    (h : buddy_scan_pairs mem bm (buddy_bit_offset_layer l + buddy_bits_in_layer l)
      (buddy_bits_in_layer l) (buddy_bit_offset_layer l) = none)
    (off : Nat) (hoff : off < 2 ^ l) :
    buddy_bit mem bm l off = buddy_bit mem bm l (buddy_sibling off) := by
  have heven : 2 ^ l = 2 * 2 ^ (l - 1) := by
    obtain ⟨l2, rfl⟩ : ∃ l2, l = l2 + 1 := ⟨l - 1, by omega⟩
    rw [Nat.pow_succ, Nat.add_sub_cancel]; omega
  have := buddy_scan_pairs_none mem bm _ _ _ h (off / 2)
    (by rw [buddy_bits_in_layer_eq]; omega) (by rw [buddy_bits_in_layer_eq]; omega)
  unfold buddy_bit buddy_idx buddy_sibling
  by_cases hodd : off % 2 = 1
  · rw [if_pos hodd]
    rw [show buddy_bit_offset_layer l + 2 * (off / 2) = buddy_bit_offset_layer l + (off - 1)
      by omega, show buddy_bit_offset_layer l + (off - 1) + 1 = buddy_bit_offset_layer l + off
      by omega] at this
    exact this.symm
  · rw [if_neg hodd]
    rw [show buddy_bit_offset_layer l + 2 * (off / 2) = buddy_bit_offset_layer l + off
      by omega] at this
    exact this

/-- When the layer loop of `buddy_alloc` finds nothing, no layer from 1 to
`top` has a sibling pair with exactly one bit set. -/
theorem buddy_alloc_layers_none (self : BuddyAllocator) (mem : Nat → Nat) (bm L : Nat) :
    ∀ (top : Nat), buddy_alloc_layers self mem bm L top = none →
      ∀ l off, 1 ≤ l → l ≤ top → off < 2 ^ l →
        buddy_bit mem bm l off = buddy_bit mem bm l (buddy_sibling off) := by
  intro top
  induction top with
  | zero => intro _ l off h1 h2; omega
  | succ top ih =>
    intro h l off hl1 hl2 hoff
    simp only [buddy_alloc_layers] at h
    cases hs : buddy_scan_pairs mem bm
        (buddy_bit_offset_layer (top + 1) + buddy_bits_in_layer (top + 1))
        (buddy_bits_in_layer (top + 1)) (buddy_bit_offset_layer (top + 1)) with
    | none =>
      rw [hs] at h
      by_cases he : l = top + 1
      · subst he
        exact buddy_layer_no_pair mem bm _ hl1 hs off hoff
      · exact ih h l off hl1 (by omega) hoff
    | some p =>
      rw [hs] at h
      exact Option.noConfusion h

/-- The layer loop of `buddy_alloc` takes a free buddy of the deepest layer,
from `top` upwards, that has a sibling pair with exactly one bit set. -/
theorem buddy_alloc_layers_deepest (self : BuddyAllocator) (mem : Nat → Nat) (bm L : Nat)
    (hL : L ≤ 9) :
    ∀ (top : Nat) (r : Nat × (Nat → Nat)), top ≤ L →
      buddy_alloc_layers self mem bm L top = some r →
      ∃ l off, 1 ≤ l ∧ l ≤ top ∧ off < 2 ^ l ∧ buddy_bit mem bm l off = false ∧
        buddy_bit mem bm l (buddy_sibling off) = true ∧
        r.1 = self.base_addr + (off * 2 ^ (L - l)) * buddy_layer_block_size L ∧
        (∀ i, buddy_bitmap_get_bit r.2 bm i = true ↔
          (buddy_bitmap_get_bit mem bm i = true ∨ buddy_chain l off (L - l) i)) ∧
        (∀ a, (a < bm ∨ bm + 128 ≤ a) → r.2 a = mem a) ∧
        (∀ l2 off2, l < l2 → l2 ≤ top → off2 < 2 ^ l2 →
          buddy_bit mem bm l2 off2 = buddy_bit mem bm l2 (buddy_sibling off2)) := by
  intro top
  induction top with
  | zero => intro r _ h; simp [buddy_alloc_layers] at h
  | succ top ih =>
    intro r htop h
    simp only [buddy_alloc_layers] at h
    cases hs : buddy_scan_pairs mem bm
        (buddy_bit_offset_layer (top + 1) + buddy_bits_in_layer (top + 1))
        (buddy_bits_in_layer (top + 1)) (buddy_bit_offset_layer (top + 1)) with
    | none =>
      rw [hs] at h
      obtain ⟨l, off, h1, h2, h3, h4, h5, h6, h7, h8, h9⟩ := ih r (by omega) h
      refine ⟨l, off, h1, by omega, h3, h4, h5, h6, h7, h8, ?_⟩
      intro l2 off2 g1 g2 g3
      by_cases he : l2 = top + 1
      · subst he
        exact buddy_layer_no_pair mem bm _ (by omega) hs off2 g3
      · exact h9 l2 off2 g1 (by omega) g3
    | some p =>
      rw [hs] at h
      have hr : buddy_take self mem bm L (top + 1) p = r := by simpa using h
      obtain ⟨k, hk, hlim, hne⟩ := buddy_scan_pairs_some mem bm _ _ _ _ hs
      rw [buddy_bits_in_layer_eq] at hlim
      obtain ⟨off, g1, g2, g3, g4, g5, g6⟩ := buddy_take_spec self mem bm L (top + 1) p k hL
        (by omega) htop hk (by omega) hne
      rw [hr] at g4 g5 g6
      exact ⟨top + 1, off, by omega, by omega, g1, g2, g3, g4, g5, g6,
        fun l2 off2 c1 c2 _ => by omega⟩

/-- In a single-page pool `buddy_alloc` returns normally when some layer from 1
to the target layer has a sibling pair with exactly one bit set, and it takes a
free buddy of the deepest such layer. -/
theorem buddy_alloc_single_deepest (self : BuddyAllocator) (hb : self.blocks = 1) (n L : Nat)
    (mem : Nat → Nat) (hL : buddy_layer_from_size n = some L)
    (l0 off0 : Nat) (hl0 : 1 ≤ l0) (hl0L : l0 ≤ L) (hoff0 : off0 < 2 ^ l0)
    (hpair : buddy_bit mem self.base_addr l0 off0 ≠
      buddy_bit mem self.base_addr l0 (buddy_sibling off0)) :
    ∃ a mem1 l off, buddy_alloc self n mem = BRes.ok a mem1 ∧ l0 ≤ l ∧ l ≤ L ∧ off < 2 ^ l ∧
      buddy_bit mem self.base_addr l off = false ∧
      buddy_bit mem self.base_addr l (buddy_sibling off) = true ∧
      a = self.base_addr + (off * 2 ^ (L - l)) * buddy_layer_block_size L ∧
      (∀ i, buddy_bitmap_get_bit mem1 self.base_addr i = true ↔
        (buddy_bitmap_get_bit mem self.base_addr i = true ∨ buddy_chain l off (L - l) i)) ∧
      (∀ l2 off2, l < l2 → l2 ≤ L → off2 < 2 ^ l2 →
        buddy_bit mem self.base_addr l2 off2 =
          buddy_bit mem self.base_addr l2 (buddy_sibling off2)) := by
  have hL9 := buddy_layer_from_size_some n L hL
  unfold buddy_alloc
  rw [hL]
  simp only []
  rw [if_neg (by omega), hb]
  simp only [buddy_alloc_pages, Nat.zero_mul, Nat.add_zero]
  cases hr : buddy_alloc_layers self mem self.base_addr L L with
  | none =>
    exact absurd (buddy_alloc_layers_none self mem self.base_addr L L hr l0 off0 hl0 hl0L hoff0)
      hpair
  | some r =>
    obtain ⟨l, off, g1, g2, g3, g4, g5, g6, g7, _, g9⟩ :=
      buddy_alloc_layers_deepest self mem self.base_addr L hL9.2 L r (Nat.le_refl _) hr
    refine ⟨r.1, r.2, l, off, rfl, ?_, g2, g3, g4, g5, g6, g7, g9⟩
    by_contra hlt
    exact hpair (g9 l0 off0 (by omega) hl0L hoff0)

theorem bool_eq_decide (b : Bool) (p : Prop) [Decidable p] (h : b = true ↔ p) :
    b = decide p := by
  cases b <;> simp_all

/-- Freeing a used minimum-size block `o` of a single-page pool whose bitmap is
described by `S`: the climb stops at layer `t`, the first one from the bottom
at which the sibling is used. -/
theorem buddy_free_leaf (self : BuddyAllocator) (mem : Nat → Nat) (S : Nat → Bool) (o t : Nat)
    (hS : ∀ i, i < 1024 → buddy_bitmap_get_bit mem self.base_addr i = S i)
    (ho : o < 512) (h16 : 16 ≤ o) (hset : S (511 + o) = true) (ht1 : 1 ≤ t) (ht9 : t ≤ 9)
    (hsibs : ∀ l, l ≤ 9 → t < l → S (2 ^ l - 1 + buddy_sibling (o / 2 ^ (9 - l))) = false)
    (hstop : S (2 ^ t - 1 + buddy_sibling (o / 2 ^ (9 - t))) = true) :
    ∃ mem2, buddy_free self (self.base_addr + o * 8) mem = BRes.ok () mem2 ∧
      ∀ i, i < 1024 → buddy_bitmap_get_bit mem2 self.base_addr i =
        (S i && !decide (∃ l : Nat, l < 10 ∧ (t ≤ l ∧ i = 2 ^ l - 1 + o / 2 ^ (9 - l)))) := by
  have e9 : buddy_layer_block_size 9 = 8 := by decide
  have ho9 : o < 2 ^ 9 := by norm_num; exact ho
  have hbit : ∀ l x, l ≤ 9 → x < 2 ^ l →
      buddy_bit mem self.base_addr l x = S (2 ^ l - 1 + x) := by
    intro l x hl hx
    have := buddy_idx_lt_total l x hl hx
    unfold buddy_bit
    rw [hS _ (by omega), buddy_idx_eq]
  obtain ⟨mem2, h1, h2⟩ := buddy_free_block_spec self mem 9 o t (by omega) (Nat.le_refl _) ho9
    (by rw [e9]; omega)
    (by rw [hbit 9 o (Nat.le_refl _) ho9]; exact hset)
    (by intro j hj1 hj2; omega) ht1 ht9
    (by
      intro l hl1 hl2
      rw [hbit l _ hl2 (buddy_sibling_lt _ l (by omega) (div_two_pow_lt o 9 l hl2 ho9))]
      exact hsibs l hl2 hl1)
    (by
      rw [hbit t _ ht9 (buddy_sibling_lt _ t ht1 (div_two_pow_lt o 9 t ht9 ho9))]
      exact hstop)
  rw [e9] at h1
  refine ⟨mem2, h1, ?_⟩
  intro i hi
  have h3 := h2 i hi
  rw [hS i hi] at h3
  cases hc : buddy_bitmap_get_bit mem2 self.base_addr i
  · symm
    rw [Bool.and_eq_false_iff]
    by_cases hs : S i = true
    · right
      simp only [Bool.not_eq_false', decide_eq_true_eq]
      by_contra hne
      have := h3.mpr ⟨hs, fun ⟨l, g1, g2, g3⟩ => hne ⟨l, by omega, g1, g3⟩⟩
      rw [hc] at this
      exact Bool.noConfusion this
    · left
      simpa using hs
  · symm
    obtain ⟨g1, g2⟩ := h3.mp hc
    rw [Bool.and_eq_true]
    refine ⟨g1, ?_⟩
    simp only [Bool.not_eq_true', decide_eq_false_iff_not]
    rintro ⟨l, c1, c2, c3⟩
    exact g2 ⟨l, c2, by omega, c3⟩
theorem buddy_chain_first (i : Nat) :
    buddy_chain 5 1 4 i ↔ (i = 32 ∨ i = 65 ∨ i = 131 ∨ i = 263 ∨ i = 527) := by
  unfold buddy_chain
  constructor
  · rintro ⟨j, hj, rfl⟩
    interval_cases j <;> simp [buddy_idx_eq]
  · rintro (h | h | h | h | h)
    · exact ⟨0, by omega, by rw [h]; rfl⟩
    · exact ⟨1, by omega, by rw [h]; rfl⟩
    · exact ⟨2, by omega, by rw [h]; rfl⟩
    · exact ⟨3, by omega, by rw [h]; rfl⟩
    · exact ⟨4, by omega, by rw [h]; rfl⟩

theorem buddy_chain_leaf (o i : Nat) : buddy_chain 9 o 0 i ↔ i = 511 + o := by
  unfold buddy_chain
  constructor
  · rintro ⟨j, hj, rfl⟩
    have : j = 0 := by omega
    subst this
    simp [buddy_idx_eq]
  · intro h
    exact ⟨0, Nat.le_refl _, by rw [h]; simp [buddy_idx_eq]⟩

/-- C13 (amended): in a freshly initialised single-page pool two
`buddy_alloc(8)` calls return the buddy-adjacent minimum-size blocks at offsets
128 and 136 (blocks 16 and 17 of layer 9).  After freeing both, in either
order, the bits of the two blocks, of their parent (layer 8) and of their
ancestors at the layers 7, 6 and 5 are clear; their ancestors at the layers 0
to 4 are the reserved blocks 0 of those layers, whose bits stay set; both free
orders produce the same bitmap, the one `buddy_init` left. -/
theorem buddy_pair_free_coalesces (self : BuddyAllocator) (hb : self.blocks = 1)
    (mem0 : Nat → Nat)
    (hzero : ∀ a, self.base_addr ≤ a → a < self.base_addr + self.blocks * PAGE_SIZE →
      mem0 a = 0) :
    ∃ m1 m2 ma mb mc md,
      buddy_alloc self 8 (buddy_init self mem0) = BRes.ok (self.base_addr + 128) m1 ∧
      buddy_alloc self 8 m1 = BRes.ok (self.base_addr + 136) m2 ∧
      buddy_free self (self.base_addr + 128) m2 = BRes.ok () ma ∧
      buddy_free self (self.base_addr + 136) ma = BRes.ok () mb ∧
      buddy_free self (self.base_addr + 136) m2 = BRes.ok () mc ∧
      buddy_free self (self.base_addr + 128) mc = BRes.ok () md ∧
      buddy_bit mb self.base_addr 9 16 = false ∧ buddy_bit mb self.base_addr 9 17 = false ∧
      (∀ l, 5 ≤ l → l ≤ 8 → buddy_bit mb self.base_addr l (16 / 2 ^ (9 - l)) = false) ∧
      (∀ l, l ≤ 4 → 16 / 2 ^ (9 - l) = 0 ∧ buddy_bit mb self.base_addr l 0 = true) ∧
      (∀ i, i < 1024 → buddy_bitmap_get_bit mb self.base_addr i =
        buddy_bitmap_get_bit md self.base_addr i) ∧
      (∀ i, i < 1024 → buddy_bitmap_get_bit mb self.base_addr i =
        buddy_bitmap_get_bit (buddy_init self mem0) self.base_addr i) := by
  have hS0 := buddy_init_bits self hb mem0 hzero
  have e9 : buddy_layer_block_size 9 = 8 := by decide
  have hL : buddy_layer_from_size 8 = some 9 := by decide
  have hbit0 : ∀ l x, l ≤ 9 → x < 2 ^ l →
      buddy_bit (buddy_init self mem0) self.base_addr l x =
        decide (2 ^ l - 1 + x = 0 ∨ 2 ^ l - 1 + x = 1 ∨ 2 ^ l - 1 + x = 3 ∨
          2 ^ l - 1 + x = 7 ∨ 2 ^ l - 1 + x = 15 ∨ 2 ^ l - 1 + x = 31) := by
    intro l x hl hx
    have := buddy_idx_lt_total l x hl hx
    unfold buddy_bit
    rw [hS0 _ (by omega), buddy_idx_eq]
  -- the first allocation takes block 1 of layer 5 and descends to block 16 of layer 9
  obtain ⟨a1, m1, l, off, h1, g1, g2, g3, _, g5, g6, g7, _⟩ :=
    buddy_alloc_single_deepest self hb 8 9 (buddy_init self mem0) hL 5 1 (by omega) (by omega)
      (by norm_num)
      (by rw [hbit0 5 1 (by omega) (by norm_num),
            hbit0 5 (buddy_sibling 1) (by omega) (by decide)]; decide)
  have hs := g5
  rw [hbit0 l _ g2 (buddy_sibling_lt off l (by omega) g3)] at hs
  simp only [decide_eq_true_eq] at hs
  have hl5 : l = 5 ∧ buddy_sibling off = 0 := by
    interval_cases l <;> norm_num at hs ⊢ <;> omega
  obtain ⟨hl, hsib⟩ := hl5
  subst hl
  have hoff : off = 1 := by
    unfold buddy_sibling at hsib
    split at hsib <;> omega
  subst hoff
  rw [e9] at g6
  norm_num at g6
  subst g6
  have hS1 : ∀ i, i < 1024 → buddy_bitmap_get_bit m1 self.base_addr i =
      decide (i = 0 ∨ i = 1 ∨ i = 3 ∨ i = 7 ∨ i = 15 ∨ i = 31 ∨ i = 32 ∨ i = 65 ∨ i = 131 ∨
        i = 263 ∨ i = 527) := by
    intro i hi
    apply bool_eq_decide
    rw [g7 i, hS0 i hi, buddy_chain_first]
    simp only [decide_eq_true_eq]
    omega
  have hbit1 : ∀ l x, l ≤ 9 → x < 2 ^ l → buddy_bit m1 self.base_addr l x =
      decide (2 ^ l - 1 + x = 0 ∨ 2 ^ l - 1 + x = 1 ∨ 2 ^ l - 1 + x = 3 ∨ 2 ^ l - 1 + x = 7 ∨
        2 ^ l - 1 + x = 15 ∨ 2 ^ l - 1 + x = 31 ∨ 2 ^ l - 1 + x = 32 ∨ 2 ^ l - 1 + x = 65 ∨
        2 ^ l - 1 + x = 131 ∨ 2 ^ l - 1 + x = 263 ∨ 2 ^ l - 1 + x = 527) := by
    intro l x hl hx
    have := buddy_idx_lt_total l x hl hx
    unfold buddy_bit
    rw [hS1 _ (by omega), buddy_idx_eq]
  -- the second allocation takes the free buddy, block 17 of layer 9
  obtain ⟨a2, m2, l, off, h2, k1, k2, k3, _, k5, k6, k7, _⟩ :=
    buddy_alloc_single_deepest self hb 8 9 m1 hL 9 16 (by omega) (by omega)
      (by norm_num)
      (by rw [hbit1 9 16 (by omega) (by norm_num),
            hbit1 9 (buddy_sibling 16) (by omega) (by decide)]; decide)
  have hl : l = 9 := by omega
  subst hl
  have hs2 := k5
  rw [hbit1 9 _ (Nat.le_refl _) (buddy_sibling_lt off 9 (by omega) k3)] at hs2
  simp only [decide_eq_true_eq] at hs2
  norm_num at hs2 k3
  have hoff : off = 17 := by
    unfold buddy_sibling at hs2
    split at hs2 <;> omega
  subst hoff
  rw [e9] at k6
  norm_num at k6
  subst k6
  have hS2 : ∀ i, i < 1024 → buddy_bitmap_get_bit m2 self.base_addr i =
      decide (i = 0 ∨ i = 1 ∨ i = 3 ∨ i = 7 ∨ i = 15 ∨ i = 31 ∨ i = 32 ∨ i = 65 ∨ i = 131 ∨
        i = 263 ∨ i = 527 ∨ i = 528) := by
    intro i hi
    apply bool_eq_decide
    rw [k7 i, hS1 i hi, buddy_chain_leaf]
    simp only [decide_eq_true_eq]
    omega
  -- first order: the block at 128, then the block at 136
  obtain ⟨ma, f1, hSa⟩ := buddy_free_leaf self m2 _ 16 9 hS2 (by omega) (by omega) (by decide)
    (by omega) (by omega) (by decide) (by decide)
  obtain ⟨mb, f2, hSb⟩ := buddy_free_leaf self ma _ 17 5 hSa (by omega) (by omega) (by decide)
    (by omega) (by omega) (by decide) (by decide)
  -- second order: the block at 136, then the block at 128
  obtain ⟨mc, f3, hSc⟩ := buddy_free_leaf self m2 _ 17 9 hS2 (by omega) (by omega) (by decide)
    (by omega) (by omega) (by decide) (by decide)
  obtain ⟨md, f4, hSd⟩ := buddy_free_leaf self mc _ 16 5 hSc (by omega) (by omega) (by decide)
    (by omega) (by omega) (by decide) (by decide)
  have kb : ∀ i, i < 1024 → buddy_bitmap_get_bit mb self.base_addr i =
      buddy_bitmap_get_bit (buddy_init self mem0) self.base_addr i := by
    intro i hi
    rw [hSb i hi, hS0 i hi]
    revert i
    set_option maxRecDepth 100000 in decide
  have kd : ∀ i, i < 1024 → buddy_bitmap_get_bit md self.base_addr i =
      buddy_bitmap_get_bit (buddy_init self mem0) self.base_addr i := by
    intro i hi
    rw [hSd i hi, hS0 i hi]
    revert i
    set_option maxRecDepth 100000 in decide
  have hbitb : ∀ l x, l ≤ 9 → x < 2 ^ l → buddy_bit mb self.base_addr l x =
      decide (2 ^ l - 1 + x = 0 ∨ 2 ^ l - 1 + x = 1 ∨ 2 ^ l - 1 + x = 3 ∨
        2 ^ l - 1 + x = 7 ∨ 2 ^ l - 1 + x = 15 ∨ 2 ^ l - 1 + x = 31) := by
    intro l x hl hx
    rw [← hbit0 l x hl hx]
    have := buddy_idx_lt_total l x hl hx
    unfold buddy_bit
    exact kb _ (by omega)
  refine ⟨m1, m2, ma, mb, mc, md, h1, h2, f1, f2, f3, f4, ?_, ?_, ?_, ?_, ?_, kb⟩
  · rw [hbitb 9 16 (by omega) (by norm_num)]
    decide
  · rw [hbitb 9 17 (by omega) (by norm_num)]
    decide
  · intro l h5 h8
    rw [hbitb l _ (by omega) (div_two_pow_lt 16 9 l (by omega) (by norm_num))]
    interval_cases l <;> decide
  · intro l h4
    rw [hbitb l 0 (by omega) (two_pow_pos_nat l)]
    interval_cases l <;> decide
  · intro i hi
    rw [kb i hi, kd i hi]

theorem buddy_pair_free_coalesces_witness :
    ∃ m1 m2 ma mb mc md,
      buddy_alloc demo_pool 8 (buddy_init demo_pool (fun _ => 0)) =
        BRes.ok (demo_pool.base_addr + 128) m1 ∧
      buddy_alloc demo_pool 8 m1 = BRes.ok (demo_pool.base_addr + 136) m2 ∧
      buddy_free demo_pool (demo_pool.base_addr + 128) m2 = BRes.ok () ma ∧
      buddy_free demo_pool (demo_pool.base_addr + 136) ma = BRes.ok () mb ∧
      buddy_free demo_pool (demo_pool.base_addr + 136) m2 = BRes.ok () mc ∧
      buddy_free demo_pool (demo_pool.base_addr + 128) mc = BRes.ok () md ∧
      buddy_bit mb demo_pool.base_addr 9 16 = false ∧
      buddy_bit mb demo_pool.base_addr 9 17 = false ∧
      (∀ l, 5 ≤ l → l ≤ 8 → buddy_bit mb demo_pool.base_addr l (16 / 2 ^ (9 - l)) = false) ∧
      (∀ l, l ≤ 4 → 16 / 2 ^ (9 - l) = 0 ∧ buddy_bit mb demo_pool.base_addr l 0 = true) ∧
      (∀ i, i < 1024 → buddy_bitmap_get_bit mb demo_pool.base_addr i =
        buddy_bitmap_get_bit md demo_pool.base_addr i) ∧
      (∀ i, i < 1024 → buddy_bitmap_get_bit mb demo_pool.base_addr i =
        buddy_bitmap_get_bit (buddy_init demo_pool (fun _ => 0)) demo_pool.base_addr i) :=
  buddy_pair_free_coalesces demo_pool rfl (fun _ => 0) (fun _ _ _ => rfl)

/-- C13 (fails on the code): in `demo_pool`, freshly initialised, after the two
`buddy_alloc(8)` calls (memory `demo_heap_pair`, blocks at `0x200080` and
`0x200088`) and both frees, the bits of the ancestors of the two blocks at the
layers 0 to 4 (bit indices 0, 1, 3, 7, 15), among them the root, are set, not
clear: they are the reserved bits. -/
theorem buddy_pair_free_root_set :
    BRes.isFatal (buddy_free demo_pool 0x200080 demo_heap_pair) = false ∧
    BRes.isFatal (buddy_free demo_pool 0x200088
      (buddy_free demo_pool 0x200080 demo_heap_pair).mem) = false ∧
    buddy_bit (buddy_free demo_pool 0x200088
      (buddy_free demo_pool 0x200080 demo_heap_pair).mem).mem 0x200000 0 (16 / 2 ^ (9 - 0))
        = true ∧
    buddy_bit (buddy_free demo_pool 0x200088
      (buddy_free demo_pool 0x200080 demo_heap_pair).mem).mem 0x200000 4 (16 / 2 ^ (9 - 4))
        = true ∧
    ¬ (∀ l, l ≤ 8 → buddy_bit (buddy_free demo_pool 0x200088
      (buddy_free demo_pool 0x200080 demo_heap_pair).mem).mem 0x200000 l (16 / 2 ^ (9 - l))
        = false) := by
  set_option maxRecDepth 100000 in decide

/-! ### vmem.c: `vmem_create_address_space` -/

theorem or_flags_eq_add (x : Nat) (h : x % 8 = 0) :
    x ||| PAGE_PRESENT ||| PAGE_WRITE ||| PAGE_USER = x + 7 := by
  have e : x = 2 ^ 3 * (x / 8) := by norm_num; omega
  rw [Nat.lor_assoc, Nat.lor_assoc]
  have : (PAGE_PRESENT ||| (PAGE_WRITE ||| PAGE_USER) : Nat) = 7 := by decide
  rw [this, e]
  exact (Nat.mul_add_lt_is_or (by norm_num : 7 < 2 ^ 3) (x / 8)).symm

/-- The two stores of `vmem_create_address_space`: slot 0 of the new root `R`
gets the word `W` pointing to the new L3 table `pt3`, then slot `idx` of `pt3`
gets the word found through slot 0 of the kernel root `k`; afterwards slot
`idx` reads the same through both roots. -/
theorem create_address_space_core (s : KState) (m : Nat → Nat) (R pt3 k idx W : Nat)
    (hE03 : entry_addr R 0 ≠ entry_addr pt3 idx) (hk3 : entry_addr k 0 ≠ entry_addr pt3 idx)
    (hW : P2V s (ADDRESS W) = pt3) :
    mem_write (mem_write m (entry_addr R 0) W) (entry_addr pt3 idx)
        (mem_write m (entry_addr R 0) W
          (entry_addr (P2V s (ADDRESS (mem_write m (entry_addr R 0) W (entry_addr k 0)))) idx))
        (entry_addr (P2V s (ADDRESS
          (mem_write (mem_write m (entry_addr R 0) W) (entry_addr pt3 idx)
            (mem_write m (entry_addr R 0) W
              (entry_addr (P2V s (ADDRESS (mem_write m (entry_addr R 0) W (entry_addr k 0))))
                idx))
            (entry_addr R 0)))) idx) =
      mem_write (mem_write m (entry_addr R 0) W) (entry_addr pt3 idx)
        (mem_write m (entry_addr R 0) W
          (entry_addr (P2V s (ADDRESS (mem_write m (entry_addr R 0) W (entry_addr k 0)))) idx))
        (entry_addr (P2V s (ADDRESS
          (mem_write (mem_write m (entry_addr R 0) W) (entry_addr pt3 idx)
            (mem_write m (entry_addr R 0) W
              (entry_addr (P2V s (ADDRESS (mem_write m (entry_addr R 0) W (entry_addr k 0))))
                idx))
            (entry_addr k 0)))) idx) := by
  generalize hm3 : mem_write m (entry_addr R 0) W = m3
  have h0 : m3 (entry_addr R 0) = W := by rw [← hm3, mem_write_eq]
  generalize hX : m3 (entry_addr (P2V s (ADDRESS (m3 (entry_addr k 0)))) idx) = X
  rw [mem_write_ne _ _ _ _ hE03, h0, hW, mem_write_eq, mem_write_ne _ _ _ _ hk3]
  by_cases hy : entry_addr (P2V s (ADDRESS (m3 (entry_addr k 0)))) idx = entry_addr pt3 idx
  · rw [hy, mem_write_eq]
  · rw [mem_write_ne _ _ _ _ hy, hX]

/-- C20 (amended): when `vmem_create_address_space` returns a root `R` and the
kernel virtual base has L4 index 0 (`INDEX_PT4(kernel_map.virt) = 0`, a kernel
mapped below 512 GiB, as at `0xC0000000`), the L3 entry reached in `R` for the
kernel virtual base equals the L3 entry reached for it from the kernel root
`kernel_pt4`; hence every address of that 1 GiB slot has the same L2 and L1
entries in both address spaces.  The frame bitmap is not empty, its cursor is
inside it, it has at most `2 ^ 28` frames, `pv_base` is a multiple of 8, and
slot 0 of `kernel_pt4` lies in no free frame. -/
theorem vmem_create_address_space_shares_kernel (fuel kernel_pt4 : Nat) (s s1 : KState)
    (R : Nat) (hok : kstate_ok s) (hused : slot_used s (entry_addr kernel_pt4 0))
    (hpv : s.pv_base % 8 = 0) (hidx : INDEX_PT4 s.kernel_virt = 0)
    (h : vmem_create_address_space fuel kernel_pt4 s = Res.ok R s1) :
    s1.kernel_virt = s.kernel_virt ∧
    s1.mem (pt3_entry_of s1 R s1.kernel_virt) =
      s1.mem (pt3_entry_of s1 kernel_pt4 s1.kernel_virt) ∧
    ∀ vaddr, INDEX_PT4 vaddr = 0 → INDEX_PT3 vaddr = INDEX_PT3 s1.kernel_virt →
      pt2_entry_of s1 R vaddr = pt2_entry_of s1 kernel_pt4 vaddr ∧
      pt1_entry_of s1 R vaddr = pt1_entry_of s1 kernel_pt4 vaddr := by
  unfold vmem_create_address_space at h
  cases h1 : pmem_alloc_clean fuel kernel_pt4 1 s with
  | fatal sA => rw [h1] at h; exact Res.noConfusion h
  | timeout => rw [h1] at h; exact Res.noConfusion h
  | ok p1 sA =>
    rw [h1] at h
    simp only [] at h
    cases h2 : pmem_alloc_clean fuel kernel_pt4 1 sA with
    | fatal sB => rw [h2] at h; exact Res.noConfusion h
    | timeout => rw [h2] at h; exact Res.noConfusion h
    | ok p2 sB =>
      rw [h2] at h
      simp only [] at h
      injection h with hR hs1
      obtain ⟨fA, okA, F1, hF1, hp1, hbit1, _⟩ :=
        vmem_map_alloc_spec fuel kernel_pt4 s p1 sA hok h1
      obtain ⟨fB, okB, F2, hF2, hp2, _, _⟩ :=
        vmem_map_alloc_spec fuel kernel_pt4 sA p2 sB okA h2
      have hN1 : F1 < 2 ^ 28 := Nat.lt_of_lt_of_le hF1.1 hok.2.1
      have hN2 : F2 < 2 ^ 28 := Nat.lt_of_lt_of_le hF2.1 okA.2.1
      have hne : F1 ≠ F2 := by
        intro he
        rw [he, hF2.2] at hbit1
        exact Bool.noConfusion hbit1
      have hpvA : sA.pv_base = s.pv_base := fA.2.1
      have hpvB : sB.pv_base = s.pv_base := by rw [fB.2.1, hpvA]
      have hkv : sB.kernel_virt = s.kernel_virt := by rw [fB.2.2.1, fA.2.2.1]
      have hidx3 : INDEX_PT3 s.kernel_virt < 512 := by
        unfold INDEX_PT3
        exact Nat.lt_of_le_of_lt Nat.and_le_right (by norm_num)
      -- the two new tables lie in different frames
      have hE0 : in_frame sA F1 (entry_addr (P2V sA p1) 0) := by
        have := entry_in_frame sA F1 0 (by norm_num)
        rwa [frame_mod F1 hN1, ← hp1] at this
      have hE3 : in_frame sA F2 (entry_addr (P2V sB p2) (INDEX_PT3 s.kernel_virt)) := by
        have := entry_in_frame sA F2 _ hidx3
        rwa [frame_mod F2 hN2, ← hp2, ← P2V_congr sA sB fB.2.1] at this
      have hE03 : entry_addr (P2V sA p1) 0 ≠
          entry_addr (P2V sB p2) (INDEX_PT3 s.kernel_virt) := by
        intro he
        rw [he] at hE0
        exact hne (in_frame_inj sA F1 F2 _ hN1 hN2 hE0 hE3)
      -- slot 0 of the kernel root is not in the new L3 table
      have hk3 : entry_addr kernel_pt4 0 ≠
          entry_addr (P2V sB p2) (INDEX_PT3 s.kernel_virt) := by
        intro he
        rw [← he] at hE3
        exact slot_used_mono s sA fA _ hused F2 hF2 hE3
      -- the word stored in slot 0 of the new root
      have hw : ADDRESS (V2P sB (P2V sB p2 ||| PAGE_PRESENT ||| PAGE_WRITE ||| PAGE_USER)) =
          p2 := by
        have hF : F2 * PAGE_SIZE < 2 ^ 40 := by
          simp only [PAGE_SIZE]
          norm_num at hN2 ⊢
          omega
        have hpt3 : P2V sB p2 % 8 = 0 := by
          unfold P2V
          rw [hpvB, hp2]
          simp only [PAGE_SIZE, U64]
          omega
        rw [or_flags_eq_add _ hpt3]
        have hv : V2P sB (P2V sB p2 + 7) = F2 * PAGE_SIZE + 7 := by
          unfold V2P P2V
          rw [hpvB, hp2]
          simp only [PAGE_SIZE, U64] at hF ⊢
          omega
        have hfr : (F2 * PAGE_SIZE) % 8 = 0 := by
          simp only [PAGE_SIZE]
          omega
        rw [hv, ← or_flags_eq_add _ hfr, address_table_entry F2 hN2, hp2]
      have hW : P2V sB (ADDRESS
          (V2P sB (P2V sB p2 ||| PAGE_PRESENT ||| PAGE_WRITE ||| PAGE_USER))) = P2V sB p2 := by
        rw [hw]
      have hkv1 : s1.kernel_virt = s.kernel_virt := by
        rw [← hs1]
        exact hkv
      have key : s1.mem (pt3_entry_of s1 R s.kernel_virt) =
          s1.mem (pt3_entry_of s1 kernel_pt4 s.kernel_virt) := by
        rw [← hs1, ← hR]
        unfold pt3_entry_of pt4_entry_of
        rw [hidx]
        simp only [hkv]
        exact create_address_space_core sB sB.mem (P2V sA p1) (P2V sB p2) kernel_pt4
          (INDEX_PT3 s.kernel_virt) _ hE03 hk3 hW
      rw [hkv1]
      refine ⟨rfl, key, ?_⟩
      intro vaddr hv4 hv3
      have e3 : ∀ root, pt3_entry_of s1 root vaddr = pt3_entry_of s1 root s.kernel_virt := by
        intro root
        unfold pt3_entry_of pt4_entry_of
        rw [hv4, hv3, hidx]
      have e2 : pt2_entry_of s1 R vaddr = pt2_entry_of s1 kernel_pt4 vaddr := by
        unfold pt2_entry_of
        rw [e3 R, e3 kernel_pt4, key]
      refine ⟨e2, ?_⟩
      unfold pt1_entry_of
      rw [e2]
theorem vmem_create_address_space_shares_kernel_witness :
    ∃ R s1, vmem_create_address_space 1 demo_pt4 demo_state = Res.ok R s1 ∧
      s1.kernel_virt = demo_state.kernel_virt ∧
      s1.mem (pt3_entry_of s1 R s1.kernel_virt) =
        s1.mem (pt3_entry_of s1 demo_pt4 s1.kernel_virt) ∧
      ∀ vaddr, INDEX_PT4 vaddr = 0 → INDEX_PT3 vaddr = INDEX_PT3 s1.kernel_virt →
        pt2_entry_of s1 R vaddr = pt2_entry_of s1 demo_pt4 vaddr ∧
        pt1_entry_of s1 R vaddr = pt1_entry_of s1 demo_pt4 vaddr := by
  cases h : vmem_create_address_space 1 demo_pt4 demo_state with
  | fatal s1 =>
    have hv : Res.value (vmem_create_address_space 1 demo_pt4 demo_state) = some 0xC0005000 := by
      set_option maxRecDepth 100000 in decide
    rw [h] at hv
    exact Option.noConfusion hv
  | timeout =>
    have hv : Res.value (vmem_create_address_space 1 demo_pt4 demo_state) = some 0xC0005000 := by
      set_option maxRecDepth 100000 in decide
    rw [h] at hv
    exact Option.noConfusion hv
  | ok R s1 =>
    exact ⟨R, s1, rfl, vmem_create_address_space_shares_kernel 1 demo_pt4 demo_state s1 R
      ⟨by decide, by decide, by decide⟩ (demo_slot_used _ (by decide)) (by decide) (by decide)
      h⟩

/-- C20 (fails on the code): in `demo_state_high` the kernel virtual base
`0x8000000000` has L4 index 1.  `vmem_create_address_space` returns the root
`0x8000005000` with only its slot 0 filled, so the L3 entry reached in it for
the kernel virtual base is 0, while the one reached from the kernel root
`0x8000001000` is `0x3007`. -/
theorem vmem_create_address_space_high_kernel :
    INDEX_PT4 demo_state_high.kernel_virt = 1 ∧
    Res.value (vmem_create_address_space 1 0x8000001000 demo_state_high) =
      some 0x8000005000 ∧
    Res.l3_entry_new (vmem_create_address_space 1 0x8000001000 demo_state_high)
      0x8000000000 = some 0 ∧
    Res.l3_entry_from (vmem_create_address_space 1 0x8000001000 demo_state_high)
      0x8000001000 0x8000000000 = some 0x3007 := by
  set_option maxRecDepth 100000 in decide

/-! ### pmem.c: `pmem_init` -/

theorem pmem_place_step_spec (load bs a : Nat) (r : Region) :
    pmem_place_step load bs a r ≤ a ∧
    (pmem_place_step load bs a r = a ∨
      (r.type = FREE ∧ bs ≤ r.length ∧ load ≤ r.base ∧ pmem_place_step load bs a r = r.base)) ∧
    (r.type = FREE → bs ≤ r.length → load ≤ r.base → pmem_place_step load bs a r ≤ r.base) := by
  unfold pmem_place_step
  by_cases h1 : r.type ≠ FREE
  · rw [if_pos h1]
    exact ⟨Nat.le_refl _, Or.inl rfl, fun h => absurd h h1⟩
  · rw [if_neg h1]
    have h1' : r.type = FREE := not_not.mp h1
    by_cases h2 : r.length < bs
    · rw [if_pos h2]
      exact ⟨Nat.le_refl _, Or.inl rfl, fun _ h => by omega⟩
    · rw [if_neg h2]
      by_cases h3 : r.base < load
      · rw [if_pos h3]
        exact ⟨Nat.le_refl _, Or.inl rfl, fun _ _ h => by omega⟩
      · rw [if_neg h3]
        by_cases h4 : r.base > a
        · rw [if_pos h4]
          exact ⟨Nat.le_refl _, Or.inl rfl, fun _ _ _ => by omega⟩
        · rw [if_neg h4]
          exact ⟨by omega, Or.inr ⟨h1', by omega, by omega, rfl⟩, fun _ _ _ => Nat.le_refl _⟩

/-- The placement loop computes the lowest base among the qualifying regions,
capped by its start value. -/
theorem pmem_place_foldl_spec (load bs : Nat) : ∀ (regions : List Region) (a : Nat),
    regions.foldl (pmem_place_step load bs) a ≤ a ∧
    (regions.foldl (pmem_place_step load bs) a = a ∨
      ∃ r, r ∈ regions ∧ r.type = FREE ∧ bs ≤ r.length ∧ load ≤ r.base ∧
        regions.foldl (pmem_place_step load bs) a = r.base) ∧
    (∀ r, r ∈ regions → r.type = FREE → bs ≤ r.length → load ≤ r.base →
      regions.foldl (pmem_place_step load bs) a ≤ r.base) := by
  intro regions
  induction regions with
  | nil =>
    intro a
    exact ⟨Nat.le_refl _, Or.inl rfl, fun r hr => by cases hr⟩
  | cons r rest ih =>
    intro a
    rw [List.foldl_cons]
    obtain ⟨s1, s2, s3⟩ := pmem_place_step_spec load bs a r
    obtain ⟨i1, i2, i3⟩ := ih (pmem_place_step load bs a r)
    refine ⟨by omega, ?_, ?_⟩
    · rcases i2 with i2 | ⟨r2, hr2, g⟩
      · rcases s2 with s2 | ⟨g1, g2, g3, g4⟩
        · left
          rw [i2, s2]
        · right
          exact ⟨r, List.mem_cons_self _ _, g1, g2, g3, by rw [i2, g4]⟩
      · right
        exact ⟨r2, List.mem_cons_of_mem _ hr2, g⟩
    · intro r2 hr2 g1 g2 g3
      rcases List.mem_cons.mp hr2 with he | hm
      · subst he
        have := s3 g1 g2 g3
        omega
      · exact i3 r2 hm g1 g2 g3

/-- The placement does not depend on the order of the regions. -/
theorem pmem_bitmap_place_perm (load bs : Nat) (l1 l2 : List Region)
    (hmem : ∀ r, r ∈ l1 ↔ r ∈ l2) :
    pmem_bitmap_place load bs l1 = pmem_bitmap_place load bs l2 := by
  unfold pmem_bitmap_place
  obtain ⟨a1, a2, a3⟩ := pmem_place_foldl_spec load bs l1 NEG1
  obtain ⟨b1, b2, b3⟩ := pmem_place_foldl_spec load bs l2 NEG1
  apply Nat.le_antisymm
  · rcases b2 with b2 | ⟨r, hr, g1, g2, g3, g4⟩
    · rw [b2]; exact a1
    · rw [g4]
      exact a3 r ((hmem r).mpr hr) g1 g2 g3
  · rcases a2 with a2 | ⟨r, hr, g1, g2, g3, g4⟩
    · rw [a2]; exact b1
    · rw [g4]
      exact b3 r ((hmem r).mp hr) g1 g2 g3

/-- The range loop computes the lowest base and the highest end among the free
regions, capped by its start values. -/
theorem pmem_range_foldl_spec : ∀ (regions : List Region) (acc : Nat × Nat),
    (regions.foldl pmem_range_step acc).1 ≤ acc.1 ∧
    ((regions.foldl pmem_range_step acc).1 = acc.1 ∨
      ∃ r, r ∈ regions ∧ r.type = FREE ∧ (regions.foldl pmem_range_step acc).1 = r.base) ∧
    (∀ r, r ∈ regions → r.type = FREE → (regions.foldl pmem_range_step acc).1 ≤ r.base) ∧
    acc.2 ≤ (regions.foldl pmem_range_step acc).2 ∧
    ((regions.foldl pmem_range_step acc).2 = acc.2 ∨
      ∃ r, r ∈ regions ∧ r.type = FREE ∧
        (regions.foldl pmem_range_step acc).2 = (r.base + r.length) % U64) ∧
    (∀ r, r ∈ regions → r.type = FREE →
      (r.base + r.length) % U64 ≤ (regions.foldl pmem_range_step acc).2) := by
  intro regions
  induction regions with
  | nil =>
    intro acc
    exact ⟨Nat.le_refl _, Or.inl rfl, (fun r hr => by cases hr), Nat.le_refl _, Or.inl rfl,
      (fun r hr => by cases hr)⟩
  | cons r rest ih =>
    intro acc
    rw [List.foldl_cons]
    obtain ⟨i1, i2, i3, i4, i5, i6⟩ := ih (pmem_range_step acc r)
    by_cases hf : r.type = FREE
    · have e1 : (pmem_range_step acc r).1 = if r.base < acc.1 then r.base else acc.1 := by
        unfold pmem_range_step
        rw [if_neg (not_not.mpr hf)]
      have e2 : (pmem_range_step acc r).2 =
          if (r.base + r.length) % U64 > acc.2 then (r.base + r.length) % U64 else acc.2 := by
        unfold pmem_range_step
        rw [if_neg (not_not.mpr hf)]
      refine ⟨?_, ?_, ?_, ?_, ?_, ?_⟩
      · rw [e1] at i1
        split at i1 <;> omega
      · rcases i2 with i2 | ⟨r2, hr2, g⟩
        · rw [i2, e1]
          by_cases hlt : r.base < acc.1
          · rw [if_pos hlt]
            right
            exact ⟨r, List.mem_cons_self _ _, hf, rfl⟩
          · rw [if_neg hlt]
            left
            rfl
        · right
          exact ⟨r2, List.mem_cons_of_mem _ hr2, g⟩
      · intro r2 hr2 g
        rcases List.mem_cons.mp hr2 with he | hm
        · subst he
          rw [e1] at i1
          split at i1 <;> omega
        · exact i3 r2 hm g
      · rw [e2] at i4
        split at i4 <;> omega
      · rcases i5 with i5 | ⟨r2, hr2, g⟩
        · rw [i5, e2]
          by_cases hlt : (r.base + r.length) % U64 > acc.2
          · rw [if_pos hlt]
            right
            exact ⟨r, List.mem_cons_self _ _, hf, rfl⟩
          · rw [if_neg hlt]
            left
            rfl
        · right
          exact ⟨r2, List.mem_cons_of_mem _ hr2, g⟩
      · intro r2 hr2 g
        rcases List.mem_cons.mp hr2 with he | hm
        · subst he
          rw [e2] at i4
          split at i4 <;> omega
        · exact i6 r2 hm g
    · have e : pmem_range_step acc r = acc := by
        unfold pmem_range_step
        rw [if_pos hf]
      rw [e] at i1 i2 i3 i4 i5 i6 ⊢
      refine ⟨i1, ?_, ?_, i4, ?_, ?_⟩
      · rcases i2 with i2 | ⟨r2, hr2, g⟩
        · exact Or.inl i2
        · exact Or.inr ⟨r2, List.mem_cons_of_mem _ hr2, g⟩
      · intro r2 hr2 g
        rcases List.mem_cons.mp hr2 with he | hm
        · subst he
          exact absurd g hf
        · exact i3 r2 hm g
      · rcases i5 with i5 | ⟨r2, hr2, g⟩
        · exact Or.inl i5
        · exact Or.inr ⟨r2, List.mem_cons_of_mem _ hr2, g⟩
      · intro r2 hr2 g
        rcases List.mem_cons.mp hr2 with he | hm
        · subst he
          exact absurd g hf
        · exact i6 r2 hm g

/-- The usable range does not depend on the order of the regions. -/
theorem pmem_get_usable_mem_range_perm (l1 l2 : List Region) (hmem : ∀ r, r ∈ l1 ↔ r ∈ l2) :
    pmem_get_usable_mem_range l1 = pmem_get_usable_mem_range l2 := by
  unfold pmem_get_usable_mem_range
  obtain ⟨a1, a2, a3, a4, a5, a6⟩ := pmem_range_foldl_spec l1 (NEG1, 0)
  obtain ⟨b1, b2, b3, b4, b5, b6⟩ := pmem_range_foldl_spec l2 (NEG1, 0)
  apply Prod.ext
  · apply Nat.le_antisymm
    · rcases b2 with b2 | ⟨r, hr, g1, g2⟩
      · rw [b2]; exact a1
      · rw [g2]; exact a3 r ((hmem r).mpr hr) g1
    · rcases a2 with a2 | ⟨r, hr, g1, g2⟩
      · rw [a2]; exact b1
      · rw [g2]; exact b3 r ((hmem r).mp hr) g1
  · apply Nat.le_antisymm
    · rcases a5 with a5 | ⟨r, hr, g1, g2⟩
      · rw [a5]; exact b4
      · rw [g2]; exact b6 r ((hmem r).mp hr) g1
    · rcases b5 with b5 | ⟨r, hr, g1, g2⟩
      · rw [b5]; exact a4
      · rw [g2]; exact a6 r ((hmem r).mpr hr) g1
/-- The globals that a normal return of `pmem_init` leaves. -/
theorem pmem_init_some (bi : BootInfo) (bitmap0 : Nat → Nat) (st : PmemInit)
    (h : pmem_init bi bitmap0 = some st) :
    st.bitmap_bit_size =
      (((pmem_get_usable_mem_range bi.regions).2 +
        (U64 - (pmem_get_usable_mem_range bi.regions).1)) % U64) / PAGE_SIZE ∧
    st.bitmap_byte_size = st.bitmap_bit_size / 8 ∧
    st.bitmap_addr = pmem_bitmap_place bi.kernel_load_addr st.bitmap_byte_size bi.regions ∧
    st.bitmap_addr ≠ NEG1 ∧
    (st.bitmap_addr + st.bitmap_byte_size) % U64 ≤
      (bi.kernel_map.phys + bi.kernel_map.size) % U64 ∧
    st.kernel_region_end = page_round_up (pmem_nearest_address bi.kernel_load_addr bi.regions) ∧
    st.bitmap =
      pmem_bitmap_mark_blocks
        (pmem_bitmap_mark_blocks
          (pmem_mark_reserved_regions st.bitmap_bit_size bi.regions
            (pmem_mark_free_regions bi.regions
              (bitmap_fill bitmap0 0 st.bitmap_byte_size true)))
          0 st.kernel_region_end true)
        (page_round_down (((st.bitmap_addr + bi.kernel_map.virt) % U64 +
          (U64 - bi.kernel_map.virt % U64)) % U64))
        (page_round_up st.bitmap_byte_size) true := by
  unfold pmem_init at h
  simp only [] at h
  split at h
  · exact Option.noConfusion h
  · rename_i hc
    injection h with h
    subst h
    simp only [not_or, not_lt] at hc
    exact ⟨rfl, rfl, rfl, hc.1, hc.2, rfl, rfl⟩

theorem pmem_init_none (bi : BootInfo) (bitmap0 : Nat → Nat)
    (h : pmem_bitmap_place bi.kernel_load_addr
      ((((pmem_get_usable_mem_range bi.regions).2 +
        (U64 - (pmem_get_usable_mem_range bi.regions).1)) % U64) / PAGE_SIZE / 8)
      bi.regions = NEG1) :
    pmem_init bi bitmap0 = none := by
  unfold pmem_init
  simp only []
  rw [if_pos (Or.inl h)]

/-- C18: `pmem_init`, when it returns, has sized the bitmap as
`bitmap_bit_size = (max free-region end - min free-region base) / 4096` and
`bitmap_byte_size = bitmap_bit_size / 8`, and has placed it at the base of a
free region at or above `kernel_load_addr` whose length is at least
`bitmap_byte_size`, the lowest base among the regions that qualify; it takes
the fatal path when no region qualifies; the place is the same for every
order of the regions.  No region of the map wraps around `2 ^ 64`. -/
theorem pmem_init_bitmap_place (bi : BootInfo) (bitmap0 : Nat → Nat)
    (hw : ∀ r, r ∈ bi.regions → r.base + r.length < U64) :
    (∀ st, pmem_init bi bitmap0 = some st →
      (∃ rmin, rmin ∈ bi.regions ∧ rmin.type = FREE ∧
        ∃ rmax, rmax ∈ bi.regions ∧ rmax.type = FREE ∧
          (∀ r, r ∈ bi.regions → r.type = FREE →
            rmin.base ≤ r.base ∧ r.base + r.length ≤ rmax.base + rmax.length) ∧
          st.bitmap_bit_size = (rmax.base + rmax.length - rmin.base) / PAGE_SIZE) ∧
      st.bitmap_byte_size = st.bitmap_bit_size / 8 ∧
      (∃ r, r ∈ bi.regions ∧ r.type = FREE ∧ st.bitmap_byte_size ≤ r.length ∧
        bi.kernel_load_addr ≤ r.base ∧ st.bitmap_addr = r.base) ∧
      (∀ r, r ∈ bi.regions → r.type = FREE → st.bitmap_byte_size ≤ r.length →
        bi.kernel_load_addr ≤ r.base → st.bitmap_addr ≤ r.base)) ∧
    ((∀ r, r ∈ bi.regions → ¬ (r.type = FREE ∧
        (((pmem_get_usable_mem_range bi.regions).2 +
          (U64 - (pmem_get_usable_mem_range bi.regions).1)) % U64) / PAGE_SIZE / 8 ≤ r.length ∧
        bi.kernel_load_addr ≤ r.base)) →
      pmem_init bi bitmap0 = none) ∧
    (∀ regions2 : List Region, regions2.Perm bi.regions →
      (pmem_init { bi with regions := regions2 } bitmap0).map (fun st => st.bitmap_addr) =
        (pmem_init bi bitmap0).map (fun st => st.bitmap_addr)) := by
  refine ⟨?_, ?_, ?_⟩
  · intro st h
    obtain ⟨h1, h2, h3, h4, _, _, _⟩ := pmem_init_some bi bitmap0 st h
    obtain ⟨_, a2, a3⟩ := pmem_place_foldl_spec bi.kernel_load_addr st.bitmap_byte_size
      bi.regions NEG1
    have h3' : st.bitmap_addr = List.foldl
        (pmem_place_step bi.kernel_load_addr st.bitmap_byte_size) NEG1 bi.regions := h3
    rw [← h3'] at a2 a3
    rcases a2 with a2 | ⟨r0, hr0, q1, q2, q3, q4⟩
    · exact absurd a2 h4
    · refine ⟨?_, h2, ⟨r0, hr0, q1, q2, q3, q4⟩, a3⟩
      obtain ⟨b1, b2, b3, b4, b5, b6⟩ := pmem_range_foldl_spec bi.regions (NEG1, 0)
      have hr : pmem_get_usable_mem_range bi.regions =
          List.foldl pmem_range_step (NEG1, 0) bi.regions := rfl
      rw [← hr] at b1 b2 b3 b4 b5 b6
      have hmod : ∀ r, r ∈ bi.regions → (r.base + r.length) % U64 = r.base + r.length :=
        fun r hr => Nat.mod_eq_of_lt (hw r hr)
      have hN : NEG1 = U64 - 1 := rfl
      -- a free region with the lowest base
      have hmin : ∃ rmin, rmin ∈ bi.regions ∧ rmin.type = FREE ∧
          (pmem_get_usable_mem_range bi.regions).1 = rmin.base := by
        rcases b2 with b2 | ⟨r, hr, g1, g2⟩
        · refine ⟨r0, hr0, q1, ?_⟩
          have c1 := b3 r0 hr0 q1
          have c2 := hw r0 hr0
          simp only [] at b2
          rw [b2] at c1 ⊢
          omega
        · exact ⟨r, hr, g1, g2⟩
      -- a free region with the highest end
      have hmax : ∃ rmax, rmax ∈ bi.regions ∧ rmax.type = FREE ∧
          (pmem_get_usable_mem_range bi.regions).2 = rmax.base + rmax.length := by
        rcases b5 with b5 | ⟨r, hr, g1, g2⟩
        · refine ⟨r0, hr0, q1, ?_⟩
          have c1 := b6 r0 hr0 q1
          rw [hmod r0 hr0] at c1
          simp only [] at b5
          rw [b5] at c1 ⊢
          omega
        · exact ⟨r, hr, g1, by rw [g2, hmod r hr]⟩
      obtain ⟨rmin, m1, m2, m3⟩ := hmin
      obtain ⟨rmax, x1, x2, x3⟩ := hmax
      refine ⟨rmin, m1, m2, rmax, x1, x2, ?_, ?_⟩
      · intro r hr hf
        have c1 := b3 r hr hf
        have c2 := b6 r hr hf
        rw [hmod r hr] at c2
        omega
      · rw [h1, m3, x3]
        have c1 := b6 rmin m1 m2
        rw [hmod rmin m1, x3] at c1
        have c2 := hw rmax x1
        congr 1
        simp only [U64] at c2 ⊢
        omega
  · intro hnone
    apply pmem_init_none
    obtain ⟨_, a2, _⟩ := pmem_place_foldl_spec bi.kernel_load_addr
      ((((pmem_get_usable_mem_range bi.regions).2 +
        (U64 - (pmem_get_usable_mem_range bi.regions).1)) % U64) / PAGE_SIZE / 8)
      bi.regions NEG1
    rcases a2 with a2 | ⟨r, hr, g1, g2, g3, _⟩
    · exact a2
    · exact absurd ⟨g1, g2, g3⟩ (hnone r hr)
  · intro regions2 hperm
    have hm : ∀ r, r ∈ regions2 ↔ r ∈ bi.regions := fun r => hperm.mem_iff
    have e1 := pmem_get_usable_mem_range_perm regions2 bi.regions hm
    unfold pmem_init
    simp only [e1]
    rw [pmem_bitmap_place_perm _ _ regions2 bi.regions hm]
    split <;> rfl
theorem pmem_free_step_get (bm : Nat → Nat) (r : Region) (b : Nat)
    (hw : r.base + r.length < U64)
    (hfree : r.type = FREE → page_round_up r.base ≤ page_round_down (r.base + r.length)) :
    pmem_bitmap_get_block (pmem_free_step bm r) b =
      if r.type = FREE ∧ page_round_up r.base ≤ b ∧ b < page_round_down (r.base + r.length)
      then false else pmem_bitmap_get_block bm b := by
  unfold pmem_free_step
  by_cases hf : r.type = FREE
  · rw [if_neg (not_not.mpr hf)]
    simp only []
    rw [pmem_bitmap_mark_blocks_get, Nat.mod_eq_of_lt hw]
    have h1 := hfree hf
    have h2 : page_round_down (r.base + r.length) < U64 := by
      unfold page_round_down
      exact Nat.lt_of_le_of_lt (Nat.div_le_self _ _) hw
    have e : (page_round_down (r.base + r.length) + (U64 - page_round_up r.base)) % U64 =
        page_round_down (r.base + r.length) - page_round_up r.base := by
      simp only [U64] at h2 ⊢
      omega
    rw [e]
    by_cases hc : page_round_up r.base ≤ b ∧ b < page_round_down (r.base + r.length)
    · rw [if_pos ⟨hc.1, by omega⟩, if_pos ⟨hf, hc⟩]
    · rw [if_neg (by omega), if_neg (fun h => hc h.2)]
  · rw [if_pos hf, if_neg (fun h => hf h.1)]

/-- The bits after the "mark free regions" loop: a bit is set when it was set
before and lies in the frame-rounded interior of no free region. -/
theorem pmem_mark_free_regions_get : ∀ (regions : List Region) (bm : Nat → Nat) (b : Nat),
    (∀ r, r ∈ regions → r.base + r.length < U64) →
    (∀ r, r ∈ regions → r.type = FREE →
      page_round_up r.base ≤ page_round_down (r.base + r.length)) →
    (pmem_bitmap_get_block (pmem_mark_free_regions regions bm) b = true ↔
      (pmem_bitmap_get_block bm b = true ∧
        ¬ ∃ r, r ∈ regions ∧ r.type = FREE ∧ page_round_up r.base ≤ b ∧
          b < page_round_down (r.base + r.length))) := by
  intro regions
  induction regions with
  | nil =>
    intro bm b _ _
    unfold pmem_mark_free_regions
    simp
  | cons r rest ih =>
    intro bm b hw hfree
    have ih2 := ih (pmem_free_step bm r) b (fun r2 h => hw r2 (List.mem_cons_of_mem _ h))
      (fun r2 h => hfree r2 (List.mem_cons_of_mem _ h))
    unfold pmem_mark_free_regions at ih2 ⊢
    rw [List.foldl_cons, ih2, pmem_free_step_get bm r b (hw r (List.mem_cons_self _ _))
      (hfree r (List.mem_cons_self _ _))]
    constructor
    · rintro ⟨h1, h2⟩
      split at h1
      · exact Bool.noConfusion h1
      · rename_i hc
        refine ⟨h1, ?_⟩
        rintro ⟨r2, hr2, g⟩
        rcases List.mem_cons.mp hr2 with he | hm
        · subst he
          exact hc g
        · exact h2 ⟨r2, hm, g⟩
    · rintro ⟨h1, h2⟩
      have hc : ¬ (r.type = FREE ∧ page_round_up r.base ≤ b ∧
          b < page_round_down (r.base + r.length)) :=
        fun g => h2 ⟨r, List.mem_cons_self _ _, g⟩
      rw [if_neg hc]
      exact ⟨h1, fun ⟨r2, hr2, g⟩ => h2 ⟨r2, List.mem_cons_of_mem _ hr2, g⟩⟩

theorem pmem_reserved_step_get (N : Nat) (bm : Nat → Nat) (r : Region) (b : Nat)
    (hw : r.base + r.length < U64) :
    pmem_bitmap_get_block (pmem_reserved_step N bm r) b =
      if r.type ≠ FREE ∧ page_round_up (r.base + r.length) ≤ N ∧
        page_round_down r.base ≤ b ∧ b < page_round_up (r.base + r.length)
      then true else pmem_bitmap_get_block bm b := by
  unfold pmem_reserved_step
  by_cases hf : r.type = FREE
  · rw [if_pos hf, if_neg (fun h => h.1 hf)]
  · rw [if_neg hf, Nat.mod_eq_of_lt hw]
    simp only []
    by_cases hN : page_round_up (r.base + r.length) > N
    · rw [if_pos hN, if_neg (fun h => by omega)]
    · rw [if_neg hN, pmem_bitmap_mark_blocks_get]
      have h1 : page_round_down r.base ≤ page_round_up (r.base + r.length) := by
        unfold page_round_down page_round_up
        apply Nat.div_le_div_right
        omega
      have h2 : page_round_up (r.base + r.length) < U64 := by
        unfold page_round_up
        simp only [PAGE_SIZE, U64] at hw ⊢
        omega
      have e : (page_round_up (r.base + r.length) + (U64 - page_round_down r.base)) % U64 =
          page_round_up (r.base + r.length) - page_round_down r.base := by
        simp only [U64] at h2 ⊢
        omega
      rw [e]
      by_cases hc : page_round_down r.base ≤ b ∧ b < page_round_up (r.base + r.length)
      · rw [if_pos ⟨hc.1, by omega⟩, if_pos ⟨hf, by omega, hc⟩]
      · rw [if_neg (by omega), if_neg (fun h => hc h.2.2)]

/-- The bits after the "mark reserved regions" loop: a bit is set when it was
set before or lies in the frames of a non-free region that the loop did not
skip. -/
theorem pmem_mark_reserved_regions_get (N : Nat) :
    ∀ (regions : List Region) (bm : Nat → Nat) (b : Nat),
    (∀ r, r ∈ regions → r.base + r.length < U64) →
    (pmem_bitmap_get_block (pmem_mark_reserved_regions N regions bm) b = true ↔
      ((∃ r, r ∈ regions ∧ r.type ≠ FREE ∧ page_round_up (r.base + r.length) ≤ N ∧
          page_round_down r.base ≤ b ∧ b < page_round_up (r.base + r.length)) ∨
        pmem_bitmap_get_block bm b = true)) := by
  intro regions
  induction regions with
  | nil =>
    intro bm b _
    unfold pmem_mark_reserved_regions
    simp
  | cons r rest ih =>
    intro bm b hw
    have ih2 := ih (pmem_reserved_step N bm r) b (fun r2 h => hw r2 (List.mem_cons_of_mem _ h))
    unfold pmem_mark_reserved_regions at ih2 ⊢
    rw [List.foldl_cons, ih2, pmem_reserved_step_get N bm r b (hw r (List.mem_cons_self _ _))]
    constructor
    · rintro (⟨r2, hr2, g⟩ | h1)
      · exact Or.inl ⟨r2, List.mem_cons_of_mem _ hr2, g⟩
      · split at h1
        · rename_i hc
          exact Or.inl ⟨r, List.mem_cons_self _ _, hc⟩
        · exact Or.inr h1
    · rintro (⟨r2, hr2, g⟩ | h1)
      · rcases List.mem_cons.mp hr2 with he | hm
        · subst he
          right
          rw [if_pos g]
        · exact Or.inl ⟨r2, hm, g⟩
      · right
        split
        · rfl
        · exact h1

theorem pmem_bitmap_place_base (load bs : Nat) (regions : List Region)
    (h : pmem_bitmap_place load bs regions ≠ NEG1) :
    ∃ r, r ∈ regions ∧ pmem_bitmap_place load bs regions = r.base := by
  obtain ⟨_, a2, _⟩ := pmem_place_foldl_spec load bs regions NEG1
  rcases a2 with a2 | ⟨r, hr, _, _, _, g⟩
  · exact absurd a2 h
  · exact ⟨r, hr, g⟩

/-- C15 (amended): after `pmem_init` on a boot memory map for which it does not
take the fatal path, in which no region wraps around `2 ^ 64` and every free
region reaches from its base rounded up to a frame boundary at least to its
end rounded down, for every frame index `i` below `8 * bitmap_byte_size` (the
bits of the bytes that `pmem_init` initialises): bit `i` is set (used) if and
only if frame `i` overlaps a non-free region whose rounded end is at most
`bitmap_bit_size`, lies below `kernel_region_end`, is one of the frames holding
the bitmap, or lies in the frame-rounded interior of no free region; the bit
of every other frame is clear. -/
theorem pmem_init_bits (bi : BootInfo) (bitmap0 : Nat → Nat) (st : PmemInit)
    (h : pmem_init bi bitmap0 = some st)
    (hw : ∀ r, r ∈ bi.regions → r.base + r.length < U64)
    (hfree : ∀ r, r ∈ bi.regions → r.type = FREE →
      page_round_up r.base ≤ page_round_down (r.base + r.length))
    (i : Nat) (hi : i < 8 * st.bitmap_byte_size) :
    pmem_bitmap_get_block st.bitmap i = true ↔
      ((∃ r, r ∈ bi.regions ∧ r.type ≠ FREE ∧
          page_round_up (r.base + r.length) ≤ st.bitmap_bit_size ∧
          page_round_down r.base ≤ i ∧ i < page_round_up (r.base + r.length)) ∨
        i < st.kernel_region_end ∨
        (page_round_down st.bitmap_addr ≤ i ∧
          i < page_round_down st.bitmap_addr + page_round_up st.bitmap_byte_size) ∨
        ¬ ∃ r, r ∈ bi.regions ∧ r.type = FREE ∧ page_round_up r.base ≤ i ∧
          i < page_round_down (r.base + r.length)) := by
  obtain ⟨_, _, h3, h4, _, _, h7⟩ := pmem_init_some bi bitmap0 st h
  have haddr : st.bitmap_addr < U64 := by
    rw [h3] at h4 ⊢
    obtain ⟨r, hr, g⟩ := pmem_bitmap_place_base _ _ _ h4
    rw [g]
    have := hw r hr
    omega
  have hv : ((st.bitmap_addr + bi.kernel_map.virt) % U64 +
      (U64 - bi.kernel_map.virt % U64)) % U64 = st.bitmap_addr := by
    simp only [U64] at haddr ⊢
    omega
  rw [hv] at h7
  have hfill : pmem_bitmap_get_block (bitmap_fill bitmap0 0 st.bitmap_byte_size true) i
      = true := by
    rw [bitmap_fill_get, if_pos (by omega)]
  rw [h7, pmem_bitmap_mark_blocks_get, pmem_bitmap_mark_blocks_get]
  have hres := pmem_mark_reserved_regions_get st.bitmap_bit_size bi.regions
    (pmem_mark_free_regions bi.regions (bitmap_fill bitmap0 0 st.bitmap_byte_size true)) i hw
  have hfr := pmem_mark_free_regions_get bi.regions
    (bitmap_fill bitmap0 0 st.bitmap_byte_size true) i hw hfree
  rw [hfr] at hres
  by_cases c1 : page_round_down st.bitmap_addr ≤ i ∧
      i < page_round_down st.bitmap_addr + page_round_up st.bitmap_byte_size
  · rw [if_pos c1]
    exact ⟨fun _ => Or.inr (Or.inr (Or.inl c1)), fun _ => rfl⟩
  · rw [if_neg c1]
    by_cases c2 : i < st.kernel_region_end
    · rw [if_pos ⟨Nat.zero_le _, by omega⟩]
      exact ⟨fun _ => Or.inr (Or.inl c2), fun _ => rfl⟩
    · rw [if_neg (by omega), hres]
      constructor
      · rintro (g | ⟨_, g⟩)
        · exact Or.inl g
        · exact Or.inr (Or.inr (Or.inr g))
      · rintro (g | g | g | g)
        · exact Or.inl g
        · exact absurd g c2
        · exact absurd g c1
        · exact Or.inr ⟨hfill, g⟩

theorem pmem_init_bits_witness :
    ∃ st, pmem_init demo_boot_hole (fun _ => 0) = some st ∧
      (pmem_bitmap_get_block st.bitmap 9 = true ↔
        ((∃ r, r ∈ demo_boot_hole.regions ∧ r.type ≠ FREE ∧
            page_round_up (r.base + r.length) ≤ st.bitmap_bit_size ∧
            page_round_down r.base ≤ 9 ∧ 9 < page_round_up (r.base + r.length)) ∨
          9 < st.kernel_region_end ∨
          (page_round_down st.bitmap_addr ≤ 9 ∧
            9 < page_round_down st.bitmap_addr + page_round_up st.bitmap_byte_size) ∨
          ¬ ∃ r, r ∈ demo_boot_hole.regions ∧ r.type = FREE ∧ page_round_up r.base ≤ 9 ∧
            9 < page_round_down (r.base + r.length))) := by
  cases h : pmem_init demo_boot_hole (fun _ => 0) with
  | none =>
    have hv : PmemInit.globals (pmem_init demo_boot_hole (fun _ => 0)) =
        some (0x10000, 32, 4, 8) := by decide
    rw [h] at hv
    exact Option.noConfusion hv
  | some st =>
    have hv : PmemInit.globals (pmem_init demo_boot_hole (fun _ => 0)) =
        some (0x10000, 32, 4, 8) := by decide
    rw [h] at hv
    simp only [PmemInit.globals, Option.map_some', Option.some.injEq, Prod.mk.injEq] at hv
    exact ⟨st, rfl, pmem_init_bits demo_boot_hole (fun _ => 0) st h (by decide) (by decide) 9
      (by rw [hv.2.2.1]; decide)⟩

/-- C15 (fails on the code): for `demo_boot_hole`, `pmem_init` returns with
`bitmap_bit_size = 32`, `kernel_region_end = 8` and the bitmap in frame 16.
Frame 9 is below `bitmap_bit_size`, overlaps no non-free region, is not below
`kernel_region_end` and does not hold the bitmap, yet its bit is set: it lies
in a hole of the memory map, and only frames inside free regions are cleared
from the all-used start. -/
theorem pmem_init_hole_stays_used :
    PmemInit.globals (pmem_init demo_boot_hole (fun _ => 0)) = some (0x10000, 32, 4, 8) ∧
    PmemInit.bit (pmem_init demo_boot_hole (fun _ => 0)) 9 = some true ∧
    (∀ r, r ∈ demo_boot_hole.regions → r.type ≠ FREE →
      ¬ (r.base < (9 + 1) * PAGE_SIZE ∧ 9 * PAGE_SIZE < r.base + r.length)) ∧
    ¬ (9 < 8) ∧ ¬ (0x10000 < (9 + 1) * PAGE_SIZE ∧ 9 * PAGE_SIZE < 0x10000 + 4) := by
  decide

/-- C16 (fails on the code): `demo_boot_tiny` has the free region
`0x100..0x1FF`, for which `page_round_up(base) = 1` and
`page_round_down(base + length) = 0`; the `u64` difference
`end_block - start_block` is `2 ^ 64 - 1` and `pmem_bitmap_mark_blocks` clears
every bit from frame 1 on.  After `pmem_init` the bit of frame 9 is clear,
though frame 9 lies in no free region; without that region it is set. -/
theorem pmem_init_tiny_region_clears_hole :
    PmemInit.globals (pmem_init demo_boot_tiny (fun _ => 0)) = some (0x1000, 32, 4, 8) ∧
    PmemInit.bit (pmem_init demo_boot_tiny (fun _ => 0)) 9 = some false ∧
    (∀ r, r ∈ demo_boot_tiny.regions → r.type = FREE →
      ¬ (r.base ≤ 9 * PAGE_SIZE ∧ (9 + 1) * PAGE_SIZE ≤ r.base + r.length)) ∧
    (∀ r, r ∈ demo_boot_tiny.regions → r.type = FREE →
      ¬ (r.base < (9 + 1) * PAGE_SIZE ∧ 9 * PAGE_SIZE < r.base + r.length)) ∧
    PmemInit.bit (pmem_init { demo_boot_tiny with regions := demo_boot_tiny.regions.tail }
      (fun _ => 0)) 9 = some true := by
  decide

/-- C17 (fails on the code): for the boot memory map `demo_boot` (free regions
`0x0 + 0x9FC00` and `0x100000 + 0x7F00000`, kernel loaded at `0x100000`),
`pmem_init` places the bitmap of `0x8000` bits at physical `0x100000` and
leaves bit 0 set, but no non-free region lies at or above the load address, so
`nearest_address` stays `(u64)-1`, `kernel_region_end` is
`page_round_up(2 ^ 64 - 1) = 2 ^ 52` and every bit of the bitmap is set: bit
`0x101` is not clear, and there is no clear bit. -/
theorem pmem_init_demo_boot_all_used :
    PmemInit.globals (pmem_init demo_boot (fun _ => 0)) =
      some (0x100000, 0x8000, 0x1000, 2 ^ 52) ∧
    pmem_nearest_address demo_boot.kernel_load_addr demo_boot.regions = NEG1 ∧
    PmemInit.bit (pmem_init demo_boot (fun _ => 0)) 0 = some true ∧
    PmemInit.bit (pmem_init demo_boot (fun _ => 0)) 0x101 = some true ∧
    ∀ i, i < 0x8000 → PmemInit.bit (pmem_init demo_boot (fun _ => 0)) i = some true := by
  have hg : PmemInit.globals (pmem_init demo_boot (fun _ => 0)) =
      some (0x100000, 0x8000, 0x1000, 2 ^ 52) := by decide
  have hall : ∀ i, i < 2 ^ 52 →
      PmemInit.bit (pmem_init demo_boot (fun _ => 0)) i = some true := by
    intro i hi
    cases h : pmem_init demo_boot (fun _ => 0) with
    | none =>
      rw [h] at hg
      exact Option.noConfusion hg
    | some st =>
      rw [h] at hg
      simp only [PmemInit.globals, Option.map_some', Option.some.injEq, Prod.mk.injEq] at hg
      obtain ⟨_, _, _, _, _, _, h7⟩ := pmem_init_some demo_boot (fun _ => 0) st h
      simp only [PmemInit.bit, Option.map_some', Option.some.injEq]
      rw [h7, pmem_bitmap_mark_blocks_get, pmem_bitmap_mark_blocks_get, hg.2.2.2]
      split
      · rfl
      · rw [if_pos ⟨Nat.zero_le _, by omega⟩]
  exact ⟨hg, by decide, hall 0 (by norm_num), hall 0x101 (by norm_num),
    fun i hi => hall i (by omega)⟩

theorem pmem_init_bitmap_place_witness :
    PmemInit.globals (pmem_init demo_boot (fun _ => 0)) =
      some (0x100000, 0x8000, 0x1000, 2 ^ 52) ∧
    (∀ st, pmem_init demo_boot (fun _ => 0) = some st →
      (∃ rmin, rmin ∈ demo_boot.regions ∧ rmin.type = FREE ∧
        ∃ rmax, rmax ∈ demo_boot.regions ∧ rmax.type = FREE ∧
          (∀ r, r ∈ demo_boot.regions → r.type = FREE →
            rmin.base ≤ r.base ∧ r.base + r.length ≤ rmax.base + rmax.length) ∧
          st.bitmap_bit_size = (rmax.base + rmax.length - rmin.base) / PAGE_SIZE) ∧
      st.bitmap_byte_size = st.bitmap_bit_size / 8 ∧
      (∃ r, r ∈ demo_boot.regions ∧ r.type = FREE ∧ st.bitmap_byte_size ≤ r.length ∧
        demo_boot.kernel_load_addr ≤ r.base ∧ st.bitmap_addr = r.base) ∧
      (∀ r, r ∈ demo_boot.regions → r.type = FREE → st.bitmap_byte_size ≤ r.length →
        demo_boot.kernel_load_addr ≤ r.base → st.bitmap_addr ≤ r.base)) :=
  ⟨by decide, (pmem_init_bitmap_place demo_boot (fun _ => 0) (by decide)).1⟩

/-! ### vmem.c: `vmem_init` -/

/-- C30 (fails on the code): for `demo_state_boot` (1 GiB: `bitmap_bit_size` =
`2 ^ 18`, so `bitmap_byte_size = 2 ^ 15` and the bitmap takes 8 pages), with
`kernel_region_end = 0xA0` and the bitmap at virtual `0xC0100000`, `vmem_init`
has made four allocations when it maps the bitmap, and the page count it passes
is `page_round_up(2 ^ 18 / 4096) + 4 = 5`, less than 8: after `vmem_init` the
sixth page of the bitmap is not mapped. -/
theorem vmem_init_bitmap_not_covered :
    Res.bitmap_blocks (vmem_init_kernel 0xA0 demo_state_boot) = some 5 ∧
    page_round_up (demo_state_boot.bitmap_bit_size / 8) = 8 ∧
    Res.mapped (vmem_init 0xA0 0xC0100000 demo_state_boot) (0xC0100000 + 4 * PAGE_SIZE)
      = some true ∧
    Res.mapped (vmem_init 0xA0 0xC0100000 demo_state_boot) (0xC0100000 + 5 * PAGE_SIZE)
      = some false := by
  decide!

/-! ### buddy.c: pools of several pages -/

/-- C23 (fails on the code): in the two-page pool `demo_pool2` at `0x200000`,
after `buddy_init` and one `buddy_alloc(2048)` (which returns `0x200800`), a
second `buddy_alloc(2048)` is served from pool page 1: it sets bit 2 (block 1
of layer 1) in the bitmap at `0x201000` and leaves the bitmap of page 0 as it
was.  The address it returns is `0x200800` again, which lies in page 0, below
`0x201000`; `buddy_free(0x200800)` afterwards clears bit 2 of page 0 and leaves
bit 2 of page 1 set. -/
theorem buddy_alloc_second_page_address :
    (buddy_alloc demo_pool2 2048 demo_pages).value = some 0x200800 ∧
    (buddy_alloc demo_pool2 2048 demo_pages1).value = some 0x200800 ∧
    buddy_bitmap_get_bit demo_pages1 0x201000 2 = false ∧
    buddy_bitmap_get_bit demo_pages2 0x201000 2 = true ∧
    (∀ a, a < 128 → demo_pages2 (0x200000 + a) = demo_pages1 (0x200000 + a)) ∧
    ¬ (demo_pool2.base_addr + 1 * PAGE_SIZE ≤ 0x200800) ∧
    (buddy_free demo_pool2 0x200800 demo_pages2).isFatal = false ∧
    buddy_bitmap_get_bit demo_pages2 0x200000 2 = true ∧
    buddy_bitmap_get_bit (buddy_free demo_pool2 0x200800 demo_pages2).mem 0x200000 2 = false ∧
    buddy_bitmap_get_bit (buddy_free demo_pool2 0x200800 demo_pages2).mem 0x201000 2 = true := by
  decide!

/-! ### pmem.c: the extent of the writes of `pmem_init` -/

/-- C29 (fails on the code): on the boot memory map `demo_boot_offset`, whose
free memory is the frames 256..511, `pmem_init` returns with `bitmap_bit_size`
= 256 and `bitmap_byte_size = 32` (the size is taken from the length of the
usable range, the indices are absolute frame numbers), and it has written bits
past them: starting from zeroed memory, the bit of frame 300, in byte 37, is
set afterwards. -/
theorem pmem_init_writes_past_bitmap :
    PmemInit.globals (pmem_init demo_boot_offset (fun _ => 0)) = some (0x100000, 256, 32, 512) ∧
    pmem_bitmap_get_block (fun _ => 0) 300 = false ∧
    PmemInit.bit (pmem_init demo_boot_offset (fun _ => 0)) 300 = some true ∧
    ¬ (300 < 256) ∧ ¬ (300 / 8 < 32) := by
  decide!

/-- The page loop of `buddy_alloc` returns from the first page whose layer loop
finds a free buddy. -/
theorem buddy_alloc_pages_first (self : BuddyAllocator) (mem : Nat → Nat) (L : Nat) :
    ∀ (left page pg0 : Nat), page ≤ pg0 → pg0 < page + left →
      buddy_alloc_layers self mem (self.base_addr + pg0 * PAGE_SIZE) L L ≠ none →
      ∃ pg r, page ≤ pg ∧ pg ≤ pg0 ∧
        buddy_alloc_layers self mem (self.base_addr + pg * PAGE_SIZE) L L = some r ∧
        (∀ pg2, page ≤ pg2 → pg2 < pg →
          buddy_alloc_layers self mem (self.base_addr + pg2 * PAGE_SIZE) L L = none) ∧
        buddy_alloc_pages self mem L left page = BRes.ok r.1 r.2 := by
  intro left
  induction left with
  | zero => intro page pg0 h1 h2; omega
  | succ left ih =>
    intro page pg0 h1 h2 h3
    rw [buddy_alloc_pages]
    cases hr : buddy_alloc_layers self mem (self.base_addr + page * PAGE_SIZE) L L with
    | some r =>
      exact ⟨page, r, Nat.le_refl _, h1, hr, fun pg2 g1 g2 => by omega, rfl⟩
    | none =>
      have hne : page ≠ pg0 := by
        intro e
        subst e
        exact h3 hr
      obtain ⟨pg, r, g1, g2, g3, g4, g5⟩ := ih (page + 1) pg0 (by omega) (by omega) h3
      refine ⟨pg, r, by omega, g2, g3, ?_, g5⟩
      intro pg2 c1 c2
      by_cases e : pg2 = page
      · rw [e]; exact hr
      · exact g4 pg2 (by omega) c2

/-- C22 (fails on the code): in the two-page pool `demo_pool2`, after
`buddy_init` and one `buddy_alloc(128)` (a reachable state), pool page 1 has a
free buddy at the target layer 5 of a request of 128 bytes (block 1 of layer 5
is free, its sibling is used), yet `buddy_alloc(128)` takes the free block 1 of
layer 4 of page 0 and splits it: it sets bit 16 (block 1 of layer 4) and bit 33
(block 2 of layer 5) in the bitmap of page 0, returns `0x200100`, and leaves
the free buddy of page 1 as it was. -/
theorem buddy_alloc_splits_before_later_page :
    BuddyReach demo_pool2 demo_pages_small [(0x200080, 128)] ∧
    buddy_layer_from_size 128 = some 5 ∧
    buddy_bit demo_pages_small (demo_pool2.base_addr + 1 * PAGE_SIZE) 5 1 = false ∧
    buddy_bit demo_pages_small (demo_pool2.base_addr + 1 * PAGE_SIZE) 5 (buddy_sibling 1)
      = true ∧
    (buddy_alloc demo_pool2 128 demo_pages_small).value = some 0x200100 ∧
    buddy_bit demo_pages_small demo_pool2.base_addr 4 1 = false ∧
    buddy_bit (buddy_alloc demo_pool2 128 demo_pages_small).mem demo_pool2.base_addr 4 1
      = true ∧
    buddy_bit (buddy_alloc demo_pool2 128 demo_pages_small).mem demo_pool2.base_addr 5 2
      = true ∧
    buddy_bit (buddy_alloc demo_pool2 128 demo_pages_small).mem
      (demo_pool2.base_addr + 1 * PAGE_SIZE) 5 1 = false :=
  ⟨BuddyReach.alloc demo_pages demo_pages_small [] 128 0x200080
      (BuddyReach.init (fun _ => 0) (fun _ _ _ => rfl))
      (BRes.ok_of_value _ _ (by decide!)),
    by decide!⟩

/-- C22 (amended): in a pool of any number of pages, in every state (so in
every state reachable from `buddy_init`), for a request with target layer `L`:
when some pool page `pg0` has a free buddy at a layer `l0` with
`1 ≤ l0 ≤ L`, `buddy_alloc` returns normally and serves the request from the
first pool page `pg` that has a free buddy at a layer from 1 to `L` (no earlier
page has one; `pg ≤ pg0`), out of a free buddy of the deepest such layer `l` of
that page: no layer of page `pg` between `l` and `L` has a free buddy, the bits
set are those of the block taken and of its leftmost descendants down to layer
`L`, in the bitmap of page `pg` only.  Free buddies of later pages play no
part. -/
theorem buddy_alloc_first_page_deepest (self : BuddyAllocator) (n L : Nat)
    (mem : Nat → Nat) (hL : buddy_layer_from_size n = some L)
    (pg0 l0 off0 : Nat) (hpg0 : pg0 < self.blocks) (hl0 : 1 ≤ l0) (hl0L : l0 ≤ L)
    (hoff0 : off0 < 2 ^ l0)
    (hpair : buddy_bit mem (self.base_addr + pg0 * PAGE_SIZE) l0 off0 ≠
      buddy_bit mem (self.base_addr + pg0 * PAGE_SIZE) l0 (buddy_sibling off0)) :
    ∃ a mem1 pg l off, buddy_alloc self n mem = BRes.ok a mem1 ∧ pg ≤ pg0 ∧
      1 ≤ l ∧ l ≤ L ∧ (pg = pg0 → l0 ≤ l) ∧ off < 2 ^ l ∧
      buddy_bit mem (self.base_addr + pg * PAGE_SIZE) l off = false ∧
      buddy_bit mem (self.base_addr + pg * PAGE_SIZE) l (buddy_sibling off) = true ∧
      (∀ i, buddy_bitmap_get_bit mem1 (self.base_addr + pg * PAGE_SIZE) i = true ↔
        (buddy_bitmap_get_bit mem (self.base_addr + pg * PAGE_SIZE) i = true ∨
          buddy_chain l off (L - l) i)) ∧
      (∀ x, (x < self.base_addr + pg * PAGE_SIZE ∨ self.base_addr + pg * PAGE_SIZE + 128 ≤ x) →
        mem1 x = mem x) ∧
      (∀ l2 off2, l < l2 → l2 ≤ L → off2 < 2 ^ l2 →
        buddy_bit mem (self.base_addr + pg * PAGE_SIZE) l2 off2 =
          buddy_bit mem (self.base_addr + pg * PAGE_SIZE) l2 (buddy_sibling off2)) ∧
      (∀ pg2 l2 off2, pg2 < pg → 1 ≤ l2 → l2 ≤ L → off2 < 2 ^ l2 →
        buddy_bit mem (self.base_addr + pg2 * PAGE_SIZE) l2 off2 =
          buddy_bit mem (self.base_addr + pg2 * PAGE_SIZE) l2 (buddy_sibling off2)) := by
  have hL9 := buddy_layer_from_size_some n L hL
  have hne : buddy_alloc_layers self mem (self.base_addr + pg0 * PAGE_SIZE) L L ≠ none :=
    fun hn => hpair (buddy_alloc_layers_none self mem _ L L hn l0 off0 hl0 hl0L hoff0)
  obtain ⟨pg, r, _, g2, g3, g4, g5⟩ :=
    buddy_alloc_pages_first self mem L self.blocks 0 pg0 (Nat.zero_le _) (by omega) hne
  obtain ⟨l, off, c1, c2, c3, c4, c5, _, c7, c8, c9⟩ :=
    buddy_alloc_layers_deepest self mem (self.base_addr + pg * PAGE_SIZE) L hL9.2 L r
      (Nat.le_refl _) g3
  refine ⟨r.1, r.2, pg, l, off, ?_, g2, c1, c2, ?_, c3, c4, c5, c7, c8, c9, ?_⟩
  · unfold buddy_alloc
    rw [hL]
    simp only []
    rw [if_neg (by omega)]
    exact g5
  · intro e
    subst e
    by_contra hlt
    exact hpair (c9 l0 off0 (by omega) hl0L hoff0)
  · intro pg2 l2 off2 d1 d2 d3 d4
    exact buddy_alloc_layers_none self mem _ L L (g4 pg2 (Nat.zero_le _) d1) l2 off2 d2 d3 d4

theorem buddy_alloc_first_page_deepest_witness :
    buddy_layer_from_size 128 = some 5 ∧
    buddy_bit demo_pages_small (demo_pool2.base_addr + 1 * PAGE_SIZE) 5 1 ≠
      buddy_bit demo_pages_small (demo_pool2.base_addr + 1 * PAGE_SIZE) 5 (buddy_sibling 1) ∧
    ∃ a mem1 pg l off, buddy_alloc demo_pool2 128 demo_pages_small = BRes.ok a mem1 ∧ pg ≤ 1 ∧
      1 ≤ l ∧ l ≤ 5 ∧ (pg = 1 → 5 ≤ l) ∧ off < 2 ^ l ∧
      buddy_bit demo_pages_small (demo_pool2.base_addr + pg * PAGE_SIZE) l off = false ∧
      buddy_bit demo_pages_small (demo_pool2.base_addr + pg * PAGE_SIZE) l (buddy_sibling off)
        = true ∧
      (∀ i, buddy_bitmap_get_bit mem1 (demo_pool2.base_addr + pg * PAGE_SIZE) i = true ↔
        (buddy_bitmap_get_bit demo_pages_small (demo_pool2.base_addr + pg * PAGE_SIZE) i = true ∨
          buddy_chain l off (5 - l) i)) ∧
      (∀ x, (x < demo_pool2.base_addr + pg * PAGE_SIZE ∨
          demo_pool2.base_addr + pg * PAGE_SIZE + 128 ≤ x) →
        mem1 x = demo_pages_small x) ∧
      (∀ l2 off2, l < l2 → l2 ≤ 5 → off2 < 2 ^ l2 →
        buddy_bit demo_pages_small (demo_pool2.base_addr + pg * PAGE_SIZE) l2 off2 =
          buddy_bit demo_pages_small (demo_pool2.base_addr + pg * PAGE_SIZE) l2
            (buddy_sibling off2)) ∧
      (∀ pg2 l2 off2, pg2 < pg → 1 ≤ l2 → l2 ≤ 5 → off2 < 2 ^ l2 →
        buddy_bit demo_pages_small (demo_pool2.base_addr + pg2 * PAGE_SIZE) l2 off2 =
          buddy_bit demo_pages_small (demo_pool2.base_addr + pg2 * PAGE_SIZE) l2
            (buddy_sibling off2)) :=
  ⟨by decide, by decide!,
    buddy_alloc_first_page_deepest demo_pool2 128 5 demo_pages_small (by decide) 1 5 1
      (by decide) (by decide) (by decide) (by decide) (by decide!)⟩

/-! ### Marking runs of bits against marking them one by one -/

theorem mark_block_byte_lt (bm : Nat → Nat) (block : Nat) (used : Bool)
    (h : ∀ x, bm x < 256) : ∀ x, pmem_bitmap_mark_block bm block used x < 256 := by
  intro x
  unfold pmem_bitmap_mark_block
  by_cases hx : x = block / 8
  · rw [if_pos hx]
    cases used with
    | true =>
      rw [if_pos rfl]
      have h1 : (1 : Nat) <<< (7 - block % 8) < 2 ^ 8 := by
        rw [Nat.one_shiftLeft]
        exact Nat.pow_lt_pow_right (by decide) (by omega)
      exact Nat.or_lt_two_pow (h x) h1
    | false =>
      rw [if_neg (by decide)]
      exact Nat.lt_of_le_of_lt Nat.and_le_left (h x)
  · rw [if_neg hx]
    exact h x

theorem bitmap_fill_byte_lt (bm : Nat → Nat) (first len : Nat) (used : Bool)
    (h : ∀ x, bm x < 256) : ∀ x, bitmap_fill bm first len used x < 256 := by
  intro x
  unfold bitmap_fill
  by_cases hx : first ≤ x ∧ x < first + len
  · rw [if_pos hx]
    cases used <;> decide
  · rw [if_neg hx]
    exact h x

theorem pmem_mark_rest_byte_lt (used : Bool) : ∀ (c : Nat) (bm : Nat → Nat) (b0 : Nat),
    (∀ x, bm x < 256) → ∀ x, pmem_mark_rest used c bm b0 x < 256 := by
  intro c
  induction c with
  | zero => intro bm b0 h; exact h
  | succ c ih =>
    intro bm b0 h
    exact ih _ _ (mark_block_byte_lt bm b0 used h)

theorem pmem_mark_head_byte_lt (used : Bool) : ∀ (c : Nat) (bm : Nat → Nat) (b0 : Nat),
    (∀ x, bm x < 256) → ∀ x, (pmem_mark_head used c bm b0).1 x < 256 := by
  intro c
  induction c with
  | zero => intro bm b0 h; exact h
  | succ c ih =>
    intro bm b0 h
    simp only [pmem_mark_head]
    by_cases hb : b0 % 8 ≠ 0
    · rw [if_pos hb]
      exact ih _ _ (mark_block_byte_lt bm b0 used h)
    · rw [if_neg hb]
      exact h

theorem pmem_bitmap_mark_blocks_byte_lt (bm : Nat → Nat) (block count : Nat) (used : Bool)
    (h : ∀ x, bm x < 256) : ∀ x, pmem_bitmap_mark_blocks bm block count used x < 256 := by
  unfold pmem_bitmap_mark_blocks
  have h1 := pmem_mark_head_byte_lt used count bm block h
  by_cases hc : (pmem_mark_head used count bm block).2.2 ≥ 8
  · rw [if_pos hc]
    exact pmem_mark_rest_byte_lt used _ _ _ (bitmap_fill_byte_lt _ _ _ used h1)
  · rw [if_neg hc]
    exact pmem_mark_rest_byte_lt used _ _ _ h1

theorem pmem_bitmap_mark_each_succ (bm : Nat → Nat) (b c : Nat) (v : Bool) :
    pmem_bitmap_mark_each bm b (c + 1) v =
      pmem_bitmap_mark_block (pmem_bitmap_mark_each bm b c v) (b + c) v := by
  unfold pmem_bitmap_mark_each
  rw [List.range_succ, List.foldl_append]
  rfl

theorem pmem_bitmap_mark_each_byte_lt (bm : Nat → Nat) (b : Nat) (v : Bool)
    (h : ∀ x, bm x < 256) : ∀ c x, pmem_bitmap_mark_each bm b c v x < 256 := by
  intro c
  induction c with
  | zero => exact h
  | succ c ih =>
    rw [pmem_bitmap_mark_each_succ]
    exact mark_block_byte_lt _ _ v ih

theorem pmem_bitmap_mark_each_get (bm : Nat → Nat) (b : Nat) (v : Bool) :
    ∀ c i, pmem_bitmap_get_block (pmem_bitmap_mark_each bm b c v) i =
      if b ≤ i ∧ i < b + c then v else pmem_bitmap_get_block bm i := by
  intro c
  induction c with
  | zero =>
    intro i
    rw [if_neg (by omega)]
    rfl
  | succ c ih =>
    intro i
    rw [pmem_bitmap_mark_each_succ, pmem_get_mark, ih]
    by_cases e : i = b + c
    · rw [if_pos e, if_pos (by omega)]
    · rw [if_neg e]
      by_cases g : b ≤ i ∧ i < b + c
      · rw [if_pos g, if_pos (by omega)]
      · rw [if_neg g, if_neg (by omega)]

/-- Bitmaps of bytes (values below 256) with the same bits are equal. -/
theorem bitmap_ext (f g : Nat → Nat) (hf : ∀ x, f x < 256) (hg : ∀ x, g x < 256)
    (h : ∀ i, pmem_bitmap_get_block f i = pmem_bitmap_get_block g i) : f = g := by
  funext x
  apply Nat.eq_of_testBit_eq
  intro k
  by_cases hk : k < 8
  · have := h (8 * x + (7 - k))
    unfold pmem_bitmap_get_block at this
    rw [shift_and_one_eq_testBit, shift_and_one_eq_testBit,
      show (8 * x + (7 - k)) / 8 = x by omega,
      show 7 - (8 * x + (7 - k)) % 8 = k by omega] at this
    exact this
  · have h8 : (2 : Nat) ^ 8 ≤ 2 ^ k := Nat.pow_le_pow_right (by decide) (by omega)
    rw [Nat.testBit_lt_two_pow (Nat.lt_of_lt_of_le (hf x) h8),
      Nat.testBit_lt_two_pow (Nat.lt_of_lt_of_le (hg x) h8)]

theorem pmem_bitmap_mark_blocks_eq_each (bm : Nat → Nat) (b c : Nat) (v : Bool)
    (h : ∀ x, bm x < 256) :
    pmem_bitmap_mark_blocks bm b c v = pmem_bitmap_mark_each bm b c v := by
  apply bitmap_ext _ _ (pmem_bitmap_mark_blocks_byte_lt bm b c v h)
    (pmem_bitmap_mark_each_byte_lt bm b v h c)
  intro i
  rw [pmem_bitmap_mark_blocks_get, pmem_bitmap_mark_each_get]

theorem bitmapOfList_byte_lt (l : List Nat) (h : ∀ y ∈ l, y < 256) :
    ∀ x, bitmapOfList l x < 256 := by
  intro x
  unfold bitmapOfList
  by_cases hx : x < l.length
  · rw [List.getD_eq_getElem l 0 hx]
    exact h _ (List.getElem_mem hx)
  · rw [List.getD_eq_default l 0 (by omega)]
    decide

theorem buddy_mark_bit_byte_lt (mem : Nat → Nat) (bm off : Nat) (val : Bool)
    (h : ∀ a, mem a < 256) : ∀ a, buddy_bitmap_mark_bit mem bm off val a < 256 := by
  intro a
  unfold buddy_bitmap_mark_bit
  by_cases hx : a = bm + off / 8
  · rw [if_pos hx]
    cases val with
    | true =>
      rw [if_pos rfl]
      have h1 : (1 : Nat) <<< (7 - off % 8) < 2 ^ 8 := by
        rw [Nat.one_shiftLeft]
        exact Nat.pow_lt_pow_right (by decide) (by omega)
      exact Nat.or_lt_two_pow (h a) h1
    | false =>
      rw [if_neg (by decide)]
      exact Nat.lt_of_le_of_lt Nat.and_le_left (h a)
  · rw [if_neg hx]
    exact h a

theorem demo_heap_byte_lt : ∀ a, demo_heap a < 256 := by
  unfold demo_heap buddy_init
  simp only [demo_pool, buddy_init_pages, buddy_init_layers]
  intro a
  repeat apply buddy_mark_bit_byte_lt
  intro _
  decide

theorem heap_embed_self (B : Nat) (mem : Nat → Nat) :
    heap_embed B (fun i => mem (B + i)) mem = mem := by
  funext a
  unfold heap_embed
  by_cases h : B ≤ a
  · rw [if_pos h]
    simp only []
    rw [show B + (a - B) = a by omega]
  · rw [if_neg h]

theorem heap_embed_mark_bit (B : Nat) (bm mem : Nat → Nat) (off : Nat) (val : Bool) :
    buddy_bitmap_mark_bit (heap_embed B bm mem) B off val =
      heap_embed B (pmem_bitmap_mark_block bm off val) mem := by
  funext a
  unfold buddy_bitmap_mark_bit heap_embed pmem_bitmap_mark_block
  by_cases h : B ≤ a
  · rw [if_pos h, if_pos h]
    by_cases e : a = B + off / 8
    · rw [if_pos e, if_pos (show a - B = off / 8 by omega)]
    · rw [if_neg e, if_neg (show ¬ a - B = off / 8 by omega)]
  · rw [if_neg h, if_neg h, if_neg (show ¬ a = B + off / 8 by omega)]

theorem heap_embed_fill (B : Nat) (bm mem : Nat → Nat) (first len : Nat) (val : Bool) :
    heap_fill (heap_embed B bm mem) (B + first) len val =
      heap_embed B (bitmap_fill bm first len val) mem := by
  funext a
  unfold heap_fill heap_embed bitmap_fill
  by_cases h : B ≤ a
  · rw [if_pos h, if_pos h]
    by_cases e : B + first ≤ a ∧ a < B + first + len
    · rw [if_pos e, if_pos (show first ≤ a - B ∧ a - B < first + len by omega)]
    · rw [if_neg e, if_neg (show ¬ (first ≤ a - B ∧ a - B < first + len) by omega)]
  · rw [if_neg h, if_neg h, if_neg (show ¬ (B + first ≤ a ∧ a < B + first + len) by omega)]

theorem heap_embed_mark_rest (B : Nat) (mem : Nat → Nat) (val : Bool) :
    ∀ (c : Nat) (bm : Nat → Nat) (off : Nat),
      buddy_mark_rest val B c (heap_embed B bm mem) off =
        heap_embed B (pmem_mark_rest val c bm off) mem := by
  intro c
  induction c with
  | zero => intro bm off; rfl
  | succ c ih =>
    intro bm off
    simp only [buddy_mark_rest, pmem_mark_rest]
    rw [heap_embed_mark_bit, ih]

theorem heap_embed_mark_head (B : Nat) (mem : Nat → Nat) (val : Bool) :
    ∀ (c : Nat) (bm : Nat → Nat) (off : Nat),
      buddy_mark_head val B c (heap_embed B bm mem) off =
        (heap_embed B (pmem_mark_head val c bm off).1 mem, (pmem_mark_head val c bm off).2.1,
          (pmem_mark_head val c bm off).2.2) := by
  intro c
  induction c with
  | zero => intro bm off; rfl
  | succ c ih =>
    intro bm off
    simp only [buddy_mark_head, pmem_mark_head]
    by_cases h : off % 8 ≠ 0
    · rw [if_pos h, if_pos h, heap_embed_mark_bit, ih]
    · rw [if_neg h, if_neg h]

theorem heap_embed_mark_bits (B : Nat) (bm mem : Nat → Nat) (off count : Nat) (val : Bool) :
    buddy_bitmap_mark_bits (heap_embed B bm mem) B off count val =
      heap_embed B (pmem_bitmap_mark_blocks bm off count val) mem := by
  unfold buddy_bitmap_mark_bits pmem_bitmap_mark_blocks
  rw [heap_embed_mark_head]
  by_cases hc : (pmem_mark_head val count bm off).2.2 ≥ 8
  · simp only [if_pos hc]
    rw [heap_embed_fill, heap_embed_mark_rest]
  · simp only [if_neg hc]
    rw [heap_embed_mark_rest]

theorem heap_embed_mark_each (B : Nat) (bm mem : Nat → Nat) (off : Nat) (val : Bool) :
    ∀ count, buddy_bitmap_mark_each (heap_embed B bm mem) B off count val =
      heap_embed B (pmem_bitmap_mark_each bm off count val) mem := by
  intro count
  induction count with
  | zero => rfl
  | succ c ih =>
    rw [pmem_bitmap_mark_each_succ, ← heap_embed_mark_bit, ← ih]
    unfold buddy_bitmap_mark_each
    rw [List.range_succ, List.foldl_append]
    rfl

theorem heap_embed_get_bit (B : Nat) (bm mem : Nat → Nat) (i : Nat) :
    buddy_bitmap_get_bit (heap_embed B bm mem) B i = pmem_bitmap_get_block bm i := by
  unfold buddy_bitmap_get_bit heap_embed pmem_bitmap_get_block
  rw [if_pos (by omega), show B + i / 8 - B = i / 8 by omega]

/-- C28: on a frame bitmap whose bytes are `u8` values, for a run of `c` bits
from `b` that does not wrap around `2 ^ 64`, `pmem_bitmap_mark_blocks(b, c, v)`
(loops and the whole-byte `mem_set`) gives the very bitmap that `c` calls of
`pmem_bitmap_mark_block(i, v)`, for `i = b .. b+c-1`, give; afterwards
`pmem_bitmap_get_block(i) = v` for those `i` and every other bit is as before.
The same holds for `buddy_bitmap_mark_bits` against `buddy_bitmap_mark_bit`, on
the whole memory. -/
theorem pmem_bitmap_mark_blocks_refines (bitmap : Nat → Nat) (b c : Nat) (v : Bool)
    (mem : Nat → Nat) (bm off count : Nat) (val : Bool)
    (hbytes : ∀ x, bitmap x < 256) (hmem : ∀ a, mem a < 256)
    (_hrun : b + c ≤ U64) (_hrun2 : off + count ≤ U64) :
    pmem_bitmap_mark_blocks bitmap b c v = pmem_bitmap_mark_each bitmap b c v ∧
    (∀ i, pmem_bitmap_get_block (pmem_bitmap_mark_blocks bitmap b c v) i =
      if b ≤ i ∧ i < b + c then v else pmem_bitmap_get_block bitmap i) ∧
    buddy_bitmap_mark_bits mem bm off count val = buddy_bitmap_mark_each mem bm off count val ∧
    (∀ i, buddy_bitmap_get_bit (buddy_bitmap_mark_bits mem bm off count val) bm i =
      if off ≤ i ∧ i < off + count then val else buddy_bitmap_get_bit mem bm i) := by
  refine ⟨pmem_bitmap_mark_blocks_eq_each bitmap b c v hbytes,
    pmem_bitmap_mark_blocks_get bitmap b c v, ?_, ?_⟩
  · rw [← heap_embed_self bm mem, heap_embed_mark_bits, heap_embed_mark_each,
      pmem_bitmap_mark_blocks_eq_each _ _ _ _ (fun x => hmem (bm + x))]
  · intro i
    rw [← heap_embed_self bm mem, heap_embed_mark_bits, heap_embed_get_bit,
      heap_embed_get_bit, pmem_bitmap_mark_blocks_get]

theorem pmem_bitmap_mark_blocks_refines_witness :
    (∀ x, bitmapOfList [0xA5, 0x0F, 0xFF, 0x00, 0x3C] x < 256) ∧
    (∀ a, demo_heap a < 256) ∧ 3 + 29 ≤ U64 ∧ 37 + 20 ≤ U64 ∧
    pmem_bitmap_mark_blocks (bitmapOfList [0xA5, 0x0F, 0xFF, 0x00, 0x3C]) 3 29 true =
      pmem_bitmap_mark_each (bitmapOfList [0xA5, 0x0F, 0xFF, 0x00, 0x3C]) 3 29 true ∧
    (∀ i, pmem_bitmap_get_block
        (pmem_bitmap_mark_blocks (bitmapOfList [0xA5, 0x0F, 0xFF, 0x00, 0x3C]) 3 29 true) i =
      if 3 ≤ i ∧ i < 3 + 29 then true
      else pmem_bitmap_get_block (bitmapOfList [0xA5, 0x0F, 0xFF, 0x00, 0x3C]) i) ∧
    buddy_bitmap_mark_bits demo_heap 0x200000 37 20 false =
      buddy_bitmap_mark_each demo_heap 0x200000 37 20 false ∧
    (∀ i, buddy_bitmap_get_bit (buddy_bitmap_mark_bits demo_heap 0x200000 37 20 false)
        0x200000 i =
      if 37 ≤ i ∧ i < 37 + 20 then false else buddy_bitmap_get_bit demo_heap 0x200000 i) :=
  ⟨bitmapOfList_byte_lt _ (by decide), demo_heap_byte_lt, by decide, by decide,
    pmem_bitmap_mark_blocks_refines (bitmapOfList [0xA5, 0x0F, 0xFF, 0x00, 0x3C]) 3 29 true
      demo_heap 0x200000 37 20 false (bitmapOfList_byte_lt _ (by decide)) demo_heap_byte_lt
      (by decide) (by decide)⟩

/-! ### buddy.c: the live blocks of a single-page pool -/

/-- Two blocks whose byte ranges overlap: the one on the shallower layer is an
ancestor of the other. -/
theorem buddy_overlap_anc (L1 L2 o1 o2 : Nat) (hle : L1 ≤ L2) (h9 : L2 ≤ 9)
    (h1 : o1 * buddy_layer_block_size L1 < o2 * buddy_layer_block_size L2 +
      buddy_layer_block_size L2)
    (h2 : o2 * buddy_layer_block_size L2 < o1 * buddy_layer_block_size L1 +
      buddy_layer_block_size L1) : buddy_anc L1 o1 L2 o2 := by
  refine ⟨hle, ?_⟩
  have hs := buddy_block_size_split L1 (L2 - L1) (by omega)
  rw [show L1 + (L2 - L1) = L2 by omega] at hs
  have hpos := buddy_block_size_pos L2 (by omega)
  rw [hs] at h1 h2
  generalize buddy_layer_block_size L2 = s at *
  generalize 2 ^ (L2 - L1) = d at *
  have hd : 0 < d := by
    rcases Nat.eq_zero_or_pos d with h0 | hp
    · subst h0; omega
    · exact hp
  have e1 : o1 * d * s < (o2 + 1) * s := by
    rw [Nat.mul_assoc, Nat.add_mul, Nat.one_mul]; exact h1
  have e2 : o2 * s < (o1 * d + d) * s := by
    rw [Nat.add_mul, Nat.mul_assoc]; exact h2
  have f1 := Nat.lt_of_mul_lt_mul_right e1
  have f2 := Nat.lt_of_mul_lt_mul_right e2
  apply Nat.div_eq_of_lt_le
  · omega
  · rw [Nat.succ_mul]; exact f2

/-- C24: in a single-page pool, in every state reachable from `buddy_init` on
a zeroed page through `buddy_alloc` and `buddy_free` of live blocks, every live
block `(a, n)`, as the byte range `[a, a + buddy_layer_block_size(L))` with
`L = buddy_layer_from_size(n)`, starts at a multiple of its block size from the
page base (so `a` itself is a multiple when the base is page aligned), lies
inside the page and past the bitmap, and any two different live blocks are
disjoint. -/
theorem buddy_live_blocks_disjoint (self : BuddyAllocator) (hb : self.blocks = 1)
    (mem : Nat → Nat) (live : List (Nat × Nat)) (hr : BuddyReach self mem live) :
    (∀ p, p ∈ live → ∃ L, buddy_layer_from_size p.2 = some L ∧
      self.base_addr + BUDDY_BITMAP_SIZE ≤ p.1 ∧
      (p.1 - self.base_addr) % buddy_layer_block_size L = 0 ∧
      (self.base_addr % PAGE_SIZE = 0 → p.1 % buddy_layer_block_size L = 0) ∧
      p.1 + buddy_layer_block_size L ≤ self.base_addr + PAGE_SIZE) ∧
    (∀ p q L1 L2, p ∈ live → q ∈ live → p ≠ q →
      buddy_layer_from_size p.2 = some L1 → buddy_layer_from_size q.2 = some L2 →
      p.1 + buddy_layer_block_size L1 ≤ q.1 ∨ q.1 + buddy_layer_block_size L2 ≤ p.1) := by
  obtain ⟨ht, hnd, hlive⟩ := buddy_reach_inv self hb mem live hr
  constructor
  · intro p hp
    obtain ⟨L, o, hL, ho, ha, h128, _, _⟩ := hlive p hp
    have hL9 := buddy_layer_from_size_some p.2 L hL
    have hend := buddy_block_end_le L o hL9.2 ho
    refine ⟨L, hL, ?_, ?_, ?_, ?_⟩
    · rw [ha]; simp only [BUDDY_BITMAP_SIZE]; omega
    · rw [ha, Nat.add_sub_cancel_left]
      exact Nat.mul_mod_left _ _
    · intro hbase
      rw [ha]
      have hdvd : buddy_layer_block_size L ∣ self.base_addr := by
        have h1 : buddy_layer_block_size L ∣ PAGE_SIZE := by
          rw [buddy_layer_block_size_eq L (by omega)]
          simp only [PAGE_SIZE]
          rw [show (0x1000 : Nat) = 2 ^ 12 by norm_num]
          exact Nat.pow_dvd_pow 2 (by omega)
        exact Nat.dvd_trans h1 (Nat.dvd_of_mod_eq_zero hbase)
      exact Nat.mod_eq_zero_of_dvd (Nat.dvd_add hdvd (Nat.dvd_mul_left _ _))
    · rw [ha]; simp only [PAGE_SIZE]; omega
  · intro p q L1 L2 hp hq hne hL1 hL2
    obtain ⟨L1', o1, hL1', ho1, ha1, _, hs1, hd1⟩ := hlive p hp
    obtain ⟨L2', o2, hL2', ho2, ha2, _, hs2, hd2⟩ := hlive q hq
    rw [hL1] at hL1'
    rw [hL2] at hL2'
    have e1 : L1' = L1 := (Option.some.inj hL1').symm
    have e2 : L2' = L2 := (Option.some.inj hL2').symm
    subst e1
    subst e2
    have g1 := buddy_layer_from_size_some p.2 L1' hL1
    have g2 := buddy_layer_from_size_some q.2 L2' hL2
    have hfst : p.1 ≠ q.1 := by
      intro e
      exact hne (List.inj_on_of_nodup_map hnd hp hq e)
    by_contra hcon
    have c1 : o1 * buddy_layer_block_size L1' <
        o2 * buddy_layer_block_size L2' + buddy_layer_block_size L2' := by
      rw [ha1, ha2] at hcon; omega
    have c2 : o2 * buddy_layer_block_size L2' <
        o1 * buddy_layer_block_size L1' + buddy_layer_block_size L1' := by
      rw [ha1, ha2] at hcon; omega
    rcases Nat.lt_trichotomy L1' L2' with hlt | heq | hgt
    · have hanc := buddy_overlap_anc L1' L2' o1 o2 (by omega) g2.2 c1 c2
      have := hd1 L2' o2 hlt g2.2 ho2 hanc
      rw [hs2] at this
      exact Bool.noConfusion this
    · subst heq
      have hanc := buddy_overlap_anc L1' L1' o1 o2 (Nat.le_refl _) g1.2 c1 c2
      have := buddy_anc_eq L1' o1 o2 hanc
      apply hfst
      rw [ha1, ha2, this]
    · have hanc := buddy_overlap_anc L2' L1' o2 o1 (by omega) g1.2 c2 c1
      have := hd2 L1' o1 hgt g1.2 ho1 hanc
      rw [hs1] at this
      exact Bool.noConfusion this

theorem buddy_live_blocks_disjoint_witness :
    demo_pool.blocks = 1 ∧
    BuddyReach demo_pool demo_heap_pair [(0x200088, 8), (0x200080, 8)] ∧
    (∀ p, p ∈ [(0x200088, 8), (0x200080, 8)] → ∃ L, buddy_layer_from_size p.2 = some L ∧
      demo_pool.base_addr + BUDDY_BITMAP_SIZE ≤ p.1 ∧
      (p.1 - demo_pool.base_addr) % buddy_layer_block_size L = 0 ∧
      (demo_pool.base_addr % PAGE_SIZE = 0 → p.1 % buddy_layer_block_size L = 0) ∧
      p.1 + buddy_layer_block_size L ≤ demo_pool.base_addr + PAGE_SIZE) ∧
    (∀ p q L1 L2, p ∈ [(0x200088, 8), (0x200080, 8)] → q ∈ [(0x200088, 8), (0x200080, 8)] →
      p ≠ q →
      buddy_layer_from_size p.2 = some L1 → buddy_layer_from_size q.2 = some L2 →
      p.1 + buddy_layer_block_size L1 ≤ q.1 ∨ q.1 + buddy_layer_block_size L2 ≤ p.1) :=
  ⟨rfl, demo_heap_pair_reach,
    buddy_live_blocks_disjoint demo_pool rfl demo_heap_pair _ demo_heap_pair_reach⟩

/-! ### buddy.c: which bits are set in a single-page pool -/

/-- Every bitmap index below 1023 is that of a block of one of the ten
layers. -/
theorem buddy_idx_surj (i : Nat) (hi : i < 1023) :
    ∃ la x, la ≤ 9 ∧ x < 2 ^ la ∧ i = buddy_idx la x := by
  have key : ∀ k, k ≤ 9 → 2 ^ k - 1 ≤ i → i < 2 ^ (k + 1) - 1 →
      ∃ la x, la ≤ 9 ∧ x < 2 ^ la ∧ i = buddy_idx la x := by
    intro k hk h1 h2
    refine ⟨k, i - (2 ^ k - 1), hk, ?_, ?_⟩
    · rw [Nat.pow_succ] at h2
      have := two_pow_pos_nat k
      omega
    · rw [buddy_idx_eq]; omega
  by_cases h0 : i < 2 ^ 1 - 1
  · exact key 0 (by omega) (by norm_num) h0
  by_cases h1 : i < 2 ^ 2 - 1
  · exact key 1 (by omega) (by omega) h1
  by_cases h2 : i < 2 ^ 3 - 1
  · exact key 2 (by omega) (by omega) h2
  by_cases h3 : i < 2 ^ 4 - 1
  · exact key 3 (by omega) (by omega) h3
  by_cases h4 : i < 2 ^ 5 - 1
  · exact key 4 (by omega) (by omega) h4
  by_cases h5 : i < 2 ^ 6 - 1
  · exact key 5 (by omega) (by omega) h5
  by_cases h6 : i < 2 ^ 7 - 1
  · exact key 6 (by omega) (by omega) h6
  by_cases h7 : i < 2 ^ 8 - 1
  · exact key 7 (by omega) (by omega) h7
  by_cases h8 : i < 2 ^ 9 - 1
  · exact key 8 (by omega) (by omega) h8
  · exact key 9 (by omega) (by omega) (by norm_num; omega)

theorem buddy_reserved_idx (la x : Nat) (hla : la ≤ 9) (hx : x < 2 ^ la) :
    (buddy_idx la x = 0 ∨ buddy_idx la x = 1 ∨ buddy_idx la x = 3 ∨ buddy_idx la x = 7 ∨
      buddy_idx la x = 15 ∨ buddy_idx la x = 31) ↔ (x = 0 ∧ la ≤ 5) := by
  rw [buddy_idx_eq]
  interval_cases la <;> norm_num at hx ⊢ <;> omega

/-- The layer and the offset of the block of an allocation are determined by
its address and size. -/
theorem buddy_block_unique (base n L L2 o o2 : Nat) (h1 : buddy_layer_from_size n = some L)
    (h2 : buddy_layer_from_size n = some L2)
    (h : base + o * buddy_layer_block_size L = base + o2 * buddy_layer_block_size L2) :
    L2 = L ∧ o2 = o := by
  rw [h1] at h2
  have e : L = L2 := Option.some.inj h2
  subst e
  have hL := buddy_layer_from_size_some n L h1
  refine ⟨rfl, ?_⟩
  have h3 : o * buddy_layer_block_size L = o2 * buddy_layer_block_size L := by omega
  exact (Nat.eq_of_mul_eq_mul_right (buddy_block_size_pos L (by omega)) h3).symm

theorem buddy_covered_mono (self : BuddyAllocator) (live live2 : List (Nat × Nat))
    (h : ∀ p, p ∈ live → p ∈ live2) (la x : Nat) (hc : buddy_covered self live la x) :
    buddy_covered self live2 la x := by
  rcases hc with hc | ⟨p, hp, rest⟩
  · exact Or.inl hc
  · exact Or.inr ⟨p, h p hp, rest⟩

/-- In a single-page pool that satisfies the invariant, the reserved blocks,
the live blocks and their ancestors are marked used. -/
theorem buddy_inv_covered_set (self : BuddyAllocator) (mem : Nat → Nat)
    (live : List (Nat × Nat)) (hinv : BuddyInv self mem live) (la x : Nat)
    (hc : buddy_covered self live la x) : buddy_bit mem self.base_addr la x = true := by
  obtain ⟨ht, _, hlive⟩ := hinv
  rcases hc with ⟨h0, h5⟩ | ⟨p, hp, L, o, hL, ho, ha, hanc⟩
  · rw [h0]
    exact buddy_tree_reserved mem self.base_addr ht la h5
  · obtain ⟨L2, o2, hL2, ho2, ha2, _, hset, _⟩ := hlive p hp
    rw [ha] at ha2
    obtain ⟨e1, e2⟩ := buddy_block_unique self.base_addr p.2 L L2 o o2 hL hL2 ha2
    subst e1
    subst e2
    have hL9 := buddy_layer_from_size_some p.2 L2 hL
    exact buddy_anc_tree mem self.base_addr ht la x L2 o2 hanc hL9.2 ho hset

/-- In a reachable state of a single-page pool, a block that is marked used is
reserved, live, or an ancestor of a live block. -/
theorem buddy_reach_set_covered (self : BuddyAllocator) (hb : self.blocks = 1)
    (mem : Nat → Nat) (live : List (Nat × Nat)) (hr : BuddyReach self mem live) :
    ∀ la x, la ≤ 9 → x < 2 ^ la → buddy_bit mem self.base_addr la x = true →
      buddy_covered self live la x := by
  induction hr with
  | init mem0 hzero =>
    intro la x hla hx hset
    left
    unfold buddy_bit at hset
    rw [buddy_init_bits self hb mem0 hzero _ (by have := buddy_idx_lt_total la x hla hx; omega),
      decide_eq_true_eq] at hset
    exact (buddy_reserved_idx la x hla hx).mp hset
  | alloc mem mem1 live n a hr0 h ih =>
    intro la x hla hx hset
    obtain ⟨L, l, off, hLn, hl1, hlL, hL9, hoff, _, _, ha, hbits, _⟩ :=
      buddy_alloc_ok_single self hb n a mem mem1 h
    rw [buddy_bits_after_chain mem mem1 self.base_addr L l off hlL hoff hbits la x hx] at hset
    rcases hset with hset | ⟨g1, g2, g3⟩
    · exact buddy_covered_mono self live _ (fun p hp => List.mem_cons_of_mem _ hp) la x
        (ih la x hla hx hset)
    · right
      refine ⟨(a, n), List.mem_cons_self _ _, L, off * 2 ^ (L - l), hLn, ?_, ha, g2, ?_⟩
      · have := mul_pow_lt_pow off l (L - l) hoff
        rwa [show l + (L - l) = L by omega] at this
      · rw [g3, mul_pow_div_pow off (L - l) (L - la) (by omega)]
        congr 2
        omega
  | free mem mem1 live n a hr0 hmem h ih =>
    intro la x hla hx hset
    obtain ⟨ht, hnd, hlive⟩ := buddy_reach_inv self hb mem live hr0
    obtain ⟨L, o, hLn, ho, ha, h128, hbit, hdesc⟩ := hlive (a, n) hmem
    simp only [] at hLn ha
    have hL := buddy_layer_from_size_some n L hLn
    obtain ⟨mem2, t, e1, ht1, htL, _, hsib, hb2⟩ :=
      buddy_free_live_spec self mem L o ht hL.1 hL.2 ho h128 hbit hdesc
    rw [← ha, h] at e1
    have hm : mem1 = mem2 := by
      injection e1
    subst hm
    rw [hb2 la x hla hx] at hset
    obtain ⟨hset0, hnp⟩ := hset
    have hot : o / 2 ^ (L - t) < 2 ^ t := div_two_pow_lt o L t htL ho
    have hSlt := buddy_sibling_lt _ _ ht1 hot
    -- a block covered by a live block other than the freed one stays covered
    have keep : ∀ (p : Nat × Nat) (lb y : Nat), p ∈ live → p ≠ (a, n) →
        (∃ L2 o2, buddy_layer_from_size p.2 = some L2 ∧ o2 < 2 ^ L2 ∧
          p.1 = self.base_addr + o2 * buddy_layer_block_size L2 ∧ buddy_anc lb y L2 o2) →
        buddy_covered self (live.erase (a, n)) lb y := by
      intro p lb y hp hne hex
      exact Or.inr ⟨p, (List.mem_erase_of_ne hne).mpr hp, hex⟩
    rcases ih la x hla hx hset0 with hres | ⟨p, hp, L2, o2, hL2, ho2, ha2, hanc⟩
    · exact Or.inl hres
    · by_cases hpe : p = (a, n)
      · subst hpe
        simp only [] at hL2 ha2
        rw [ha] at ha2
        obtain ⟨e1, e2⟩ := buddy_block_unique self.base_addr n L L2 o o2 hLn hL2 ha2
        subst e1
        subst e2
        have hlt : la < t := by
          by_contra hge
          exact hnp ⟨by omega, hanc.1, hanc.2.symm⟩
        have hanc_t : buddy_anc la x t (o2 / 2 ^ (L2 - t)) :=
          buddy_anc_cmp la x t _ L2 o2 hanc ⟨htL, rfl⟩ (by omega)
        have hanc_s := buddy_anc_sibling la x t _ hanc_t hlt
        rcases ih t _ (by omega) hSlt hsib with ⟨s0, s5⟩ | ⟨q, hq, L3, o3, hL3, ho3, ha3, hanc3⟩
        · left
          have hx0 := hanc_s.2
          rw [s0, Nat.zero_div] at hx0
          exact ⟨hx0.symm, by omega⟩
        · by_cases hqe : q = (a, n)
          · subst hqe
            simp only [] at hL3 ha3
            rw [ha] at ha3
            obtain ⟨e3, e4⟩ := buddy_block_unique self.base_addr n L2 L3 o2 o3 hLn hL3 ha3
            subst e3
            subst e4
            exact absurd hanc3.2.symm (buddy_sibling_ne _)
          · exact keep q la x hq hqe ⟨L3, o3, hL3, ho3, ha3,
              buddy_anc_trans la x t _ L3 o3 hanc_s hanc3⟩
      · exact keep p la x hp hpe ⟨L2, o2, hL2, ho2, ha2, hanc⟩

/-- C25: in a single-page pool, in every state reachable from `buddy_init` on
a zeroed page through `buddy_alloc` and `buddy_free` of live blocks, a block
is marked used exactly when it is one of the six reserved blocks (block 0 of
the layers 0..5) or a live block or an ancestor of a live block; a block that
is marked free has only free descendants; `buddy_free` of any live block
returns normally, in a state that is reachable again with that block removed
from the live ones; and when no block is live, each of the 1023 bits has the
value it had right after `buddy_init`. -/
theorem buddy_bits_exact (self : BuddyAllocator) (hb : self.blocks = 1)
    (mem : Nat → Nat) (live : List (Nat × Nat)) (hr : BuddyReach self mem live) :
    (∀ la x, la ≤ 9 → x < 2 ^ la →
      (buddy_bit mem self.base_addr la x = true ↔ buddy_covered self live la x)) ∧
    (∀ l o j y, l + j ≤ 9 → y < 2 ^ (l + j) → y / 2 ^ j = o →
      buddy_bit mem self.base_addr l o = false →
      buddy_bit mem self.base_addr (l + j) y = false) ∧
    (∀ p, p ∈ live → ∃ mem2, buddy_free self p.1 mem = BRes.ok () mem2 ∧
      BuddyReach self mem2 (live.erase p)) ∧
    (live = [] → ∀ mem0 : Nat → Nat,
      (∀ a, self.base_addr ≤ a → a < self.base_addr + self.blocks * PAGE_SIZE → mem0 a = 0) →
      ∀ i, i < 1023 → buddy_bitmap_get_bit mem self.base_addr i =
        buddy_bitmap_get_bit (buddy_init self mem0) self.base_addr i) := by
  have hinv := buddy_reach_inv self hb mem live hr
  have hiff : ∀ la x, la ≤ 9 → x < 2 ^ la →
      (buddy_bit mem self.base_addr la x = true ↔ buddy_covered self live la x) :=
    fun la x hla hx => ⟨buddy_reach_set_covered self hb mem live hr la x hla hx,
      buddy_inv_covered_set self mem live hinv la x⟩
  refine ⟨hiff, ?_, ?_, ?_⟩
  · intro l o j y h9 hy hanc hfree
    exact buddy_tree_desc mem self.base_addr hinv.1 j l o y h9 hy hanc hfree
  · intro p hp
    obtain ⟨L, o, hLn, ho, ha, h128, hbit, hdesc⟩ := hinv.2.2 p hp
    have hL := buddy_layer_from_size_some p.2 L hLn
    obtain ⟨mem2, t, e1, _⟩ :=
      buddy_free_live_spec self mem L o hinv.1 hL.1 hL.2 ho h128 hbit hdesc
    rw [← ha] at e1
    exact ⟨mem2, e1, BuddyReach.free mem mem2 live p.2 p.1 hr hp e1⟩
  · intro hnil mem0 hzero i hi
    obtain ⟨la, x, hla, hx, rfl⟩ := buddy_idx_surj i hi
    rw [buddy_init_bits self hb mem0 hzero _ (by omega), Bool.eq_iff_iff, decide_eq_true_eq,
      buddy_reserved_idx la x hla hx]
    have := hiff la x hla hx
    unfold buddy_bit at this
    rw [this, hnil]
    constructor
    · rintro (h | ⟨p, hp, _⟩)
      · exact h
      · cases hp
    · exact fun h => Or.inl h

theorem buddy_bits_exact_witness :
    demo_pool.blocks = 1 ∧
    BuddyReach demo_pool demo_heap_pair [(0x200088, 8), (0x200080, 8)] ∧
    (∀ la x, la ≤ 9 → x < 2 ^ la →
      (buddy_bit demo_heap_pair demo_pool.base_addr la x = true ↔
        buddy_covered demo_pool [(0x200088, 8), (0x200080, 8)] la x)) ∧
    (∀ l o j y, l + j ≤ 9 → y < 2 ^ (l + j) → y / 2 ^ j = o →
      buddy_bit demo_heap_pair demo_pool.base_addr l o = false →
      buddy_bit demo_heap_pair demo_pool.base_addr (l + j) y = false) ∧
    (∀ p, p ∈ [(0x200088, 8), (0x200080, 8)] →
      ∃ mem2, buddy_free demo_pool p.1 demo_heap_pair = BRes.ok () mem2 ∧
        BuddyReach demo_pool mem2 (List.erase [(0x200088, 8), (0x200080, 8)] p)) ∧
    ([(0x200088, 8), (0x200080, 8)] = ([] : List (Nat × Nat)) → ∀ mem0 : Nat → Nat,
      (∀ a, demo_pool.base_addr ≤ a → a < demo_pool.base_addr + demo_pool.blocks * PAGE_SIZE →
        mem0 a = 0) →
      ∀ i, i < 1023 → buddy_bitmap_get_bit demo_heap_pair demo_pool.base_addr i =
        buddy_bitmap_get_bit (buddy_init demo_pool mem0) demo_pool.base_addr i) :=
  ⟨rfl, demo_heap_pair_reach,
    buddy_bits_exact demo_pool rfl demo_heap_pair _ demo_heap_pair_reach⟩

/-! ### The tree of tables across `pmem_alloc` -/

theorem pmem_find_loop_next_lt (bm : Nat → Nat) (N size next : Nat) (hN : 0 < N) :
    ∀ (fuel i cs cst : Nat), (pmem_find_loop bm N size next fuel i cs cst).1 ≠ NEG1 →
      (pmem_find_loop bm N size next fuel i cs cst).2 < N := by
  intro fuel
  induction fuel with
  | zero =>
    intro i cs cst h
    exact absurd rfl h
  | succ fuel ih =>
    intro i cs cst h
    simp only [pmem_find_loop] at h ⊢
    split_ifs at h ⊢ <;> first | exact ih _ _ _ h | exact Nat.mod_lt _ hN

/-- A search that finds a region leaves the cursor inside the bitmap. -/
theorem pmem_find_free_region_next_lt (bm : Nat → Nat) (N next size : Nat) (hN : 0 < N)
    (h : (pmem_find_free_region bm N next size).1 ≠ NEG1) :
    (pmem_find_free_region bm N next size).2 < N :=
  pmem_find_loop_next_lt bm N size _ hN _ _ _ _ h

/-- A word of one of the frames `F .. F + n - 1` lies in the range zeroed by
`mem_set(P2V(F * PAGE_SIZE), 0, n * PAGE_SIZE)`. -/
theorem in_frame_zero_range (s : KState) (F n j a : Nat) (hj : j < n) (hFn : F + n ≤ 2 ^ 28)
    (h : in_frame s (F + j) a) :
    (a + (U64 - P2V s ((F * PAGE_SIZE) % U64) % U64)) % U64 < (n * PAGE_SIZE) % U64 := by
  unfold in_frame at h
  unfold P2V at h ⊢
  simp only [U64, PAGE_SIZE] at h ⊢
  norm_num at hFn
  omega

/-- The last statements of `pmem_alloc` / `pmem_alloc_clean`, from `s2` to
`s1`: the bits of the frames `F .. F + n - 1`, free so far, are set and at most
words of these frames change.  The tree of tables is kept as it is. -/
theorem tree_alloc_finish (pt4 n F : Nat) (s2 s1 : KState) (lvl2 : Nat → Nat)
    (hN28 : s2.bitmap_bit_size ≤ 2 ^ 28) (ht2 : TreeWf s2 pt4 lvl2)
    (hfree : ∀ j, j < n → frame_free s2 (F + j))
    (hN : s1.bitmap_bit_size = s2.bitmap_bit_size) (hpv : s1.pv_base = s2.pv_base)
    (hkv : s1.kernel_virt = s2.kernel_virt)
    (hbits : ∀ b, pmem_bitmap_get_block s1.bitmap b =
      if F ≤ b ∧ b < F + n then true else pmem_bitmap_get_block s2.bitmap b)
    (hmem : ∀ a, (∀ j, j < n → ¬ in_frame s2 (F + j) a) → s1.mem a = s2.mem a) :
    TreeWf s1 pt4 lvl2 ∧ tree_grown s2 s1 lvl2 lvl2 ∧ footprint s2 s1 := by
  have hset : ∀ b, pmem_bitmap_get_block s2.bitmap b = true →
      pmem_bitmap_get_block s1.bitmap b = true := by
    intro b hb
    rw [hbits]
    by_cases hc : F ≤ b ∧ b < F + n
    · rw [if_pos hc]
    · rw [if_neg hc]; exact hb
  refine ⟨⟨?_, ?_, ?_⟩, ⟨fun _ h => Or.inl h, ?_⟩, ⟨hN, hpv, hkv, hset, ?_⟩⟩
  · obtain ⟨F4, h4, hp4⟩ := ht2.1
    exact ⟨F4, h4, by rw [P2V_congr s2 s1 hpv]; exact hp4⟩
  · intro X hX
    obtain ⟨a1, a2, a3⟩ := ht2.2.1 X hX
    exact ⟨by rw [hN]; exact a1, hset X a2, a3⟩
  · intro X idx hX hidx hp
    rw [table_slot_congr s2 s1 hpv] at hp ⊢
    have hX28 : X < 2 ^ 28 := Nat.lt_of_lt_of_le (ht2.2.1 X (by omega)).1 hN28
    have hm : s1.mem (table_slot s2 X idx) = s2.mem (table_slot s2 X idx) := by
      apply hmem
      intro j hj hin
      have hj28 : F + j < 2 ^ 28 := Nat.lt_of_lt_of_le (hfree j hj).1 hN28
      have := in_frame_inj s2 X (F + j) _ hX28 hj28 (table_slot_in_frame s2 X idx hidx) hin
      have h0 := tree_free_untyped s2 pt4 lvl2 ht2 (F + j) (hfree j hj)
      rw [← this] at h0
      omega
    rw [hm] at hp ⊢
    exact ht2.2.2 X idx hX hidx hp
  · intro a ha
    apply hmem
    intro j hj
    exact ha (F + j) (Or.inr (hfree j hj))
  · intro a hu _
    apply hmem
    intro j hj
    exact hu (F + j) (hfree j hj)

/-- The mapping part of `pmem_alloc` / `pmem_alloc_clean` for a region of any
length: the frames found are still free afterwards, the tree of tables is kept
and has grown only into frames that were free. -/
theorem pmem_alloc_region_any (fuel pt4 n : Nat) (s s2 : KState) (lvl : Nat → Nat)
    (hok : kstate_ok s) (ht : TreeWf s pt4 lvl)
    (hne : (pmem_find_free_region s.bitmap s.bitmap_bit_size s.next n).1 ≠ NEG1)
    (hr : vmem_map_region_with (vmem_map fuel) pt4
      (kwin s (pmem_find_free_region s.bitmap s.bitmap_bit_size s.next n).1)
      (((pmem_find_free_region s.bitmap s.bitmap_bit_size s.next n).1 * PAGE_SIZE) % U64)
      PAGE_WRITE n 0
      { s with next := (pmem_find_free_region s.bitmap s.bitmap_bit_size s.next n).2 } =
        Res.ok () s2) :
    kstate_ok s2 ∧ footprint s s2 ∧
    (∀ j, j < n →
      frame_free s2 ((pmem_find_free_region s.bitmap s.bitmap_bit_size s.next n).1 + j)) ∧
    ∃ lvl2, TreeWf s2 pt4 lvl2 ∧ (∀ X, lvl X ≠ 0 → lvl2 X = lvl X) ∧
      tree_grown s s2 lvl lvl2 := by
  rcases Nat.eq_zero_or_pos n with h0 | hpos
  · subst h0
    simp only [vmem_map_region_with] at hr
    have e : s2 = { s with
        next := (pmem_find_free_region s.bitmap s.bitmap_bit_size s.next 0).2 } := by
      injection hr with a b
      exact b.symm
    subst e
    refine ⟨⟨hok.1, hok.2.1, pmem_find_free_region_next_lt _ _ _ 0 hok.1 hne⟩,
      ⟨rfl, rfl, rfl, fun _ h => h, fun _ _ _ => rfl⟩, fun j hj => absurd hj (by omega),
      lvl, ht, fun _ _ => rfl, fun _ h => Or.inl h, fun _ _ => rfl⟩
  · obtain ⟨_, r2, r3, r4, r5, _⟩ := pmem_alloc_region_grow fuel pt4 n s s2 lvl hok ht hpos hne hr
    exact ⟨r2, r3, r4, r5⟩

/-- A normal return of `pmem_alloc(pt4, n)` or `pmem_alloc_clean(pt4, n)` in a
tree of tables: the frames `F .. F + n - 1` handed out were free and are marked
used, the tree of tables is kept, it has grown only into frames that were free
and into none of the frames handed out, and no word outside the tables and the
frames free before has changed; `pmem_alloc_clean` leaves the frames zeroed. -/
theorem pmem_alloc_tree (fuel pt4 n : Nat) (s s1 : KState) (p : Nat) (lvl : Nat → Nat)
    (hok : kstate_ok s) (ht : TreeWf s pt4 lvl)
    (h : pmem_alloc fuel pt4 n s = Res.ok p s1 ∨
      pmem_alloc_clean fuel pt4 n s = Res.ok p s1) :
    ∃ F lvl1, p = (F * PAGE_SIZE) % U64 ∧ (∀ j, j < n → frame_free s (F + j)) ∧
      kstate_ok s1 ∧ footprint s s1 ∧ TreeWf s1 pt4 lvl1 ∧
      (∀ X, lvl X ≠ 0 → lvl1 X = lvl X) ∧ tree_grown s s1 lvl lvl1 ∧
      (∀ j, j < n → lvl1 (F + j) = 0) ∧
      (∀ j, j < n → pmem_bitmap_get_block s1.bitmap (F + j) = true) ∧
      (pmem_alloc_clean fuel pt4 n s = Res.ok p s1 →
        ∀ j a, j < n → in_frame s (F + j) a → s1.mem a = 0) := by
  have core : ∀ s2, (pmem_find_free_region s.bitmap s.bitmap_bit_size s.next n).1 ≠ NEG1 →
      vmem_map_region_with (vmem_map fuel) pt4
        (kwin s (pmem_find_free_region s.bitmap s.bitmap_bit_size s.next n).1)
        (((pmem_find_free_region s.bitmap s.bitmap_bit_size s.next n).1 * PAGE_SIZE) % U64)
        PAGE_WRITE n 0
        { s with next := (pmem_find_free_region s.bitmap s.bitmap_bit_size s.next n).2 } =
          Res.ok () s2 →
      s1.bitmap_bit_size = s2.bitmap_bit_size → s1.pv_base = s2.pv_base →
      s1.kernel_virt = s2.kernel_virt → s1.next = s2.next →
      (∀ b, pmem_bitmap_get_block s1.bitmap b =
        if (pmem_find_free_region s.bitmap s.bitmap_bit_size s.next n).1 ≤ b ∧
          b < (pmem_find_free_region s.bitmap s.bitmap_bit_size s.next n).1 + n then true
        else pmem_bitmap_get_block s2.bitmap b) →
      (∀ a, (∀ j, j < n →
        ¬ in_frame s2 ((pmem_find_free_region s.bitmap s.bitmap_bit_size s.next n).1 + j) a) →
          s1.mem a = s2.mem a) →
      ∃ lvl1, (∀ j, j < n →
          frame_free s ((pmem_find_free_region s.bitmap s.bitmap_bit_size s.next n).1 + j)) ∧
        kstate_ok s1 ∧ footprint s s1 ∧ TreeWf s1 pt4 lvl1 ∧
        (∀ X, lvl X ≠ 0 → lvl1 X = lvl X) ∧ tree_grown s s1 lvl lvl1 ∧
        (∀ j, j < n →
          lvl1 ((pmem_find_free_region s.bitmap s.bitmap_bit_size s.next n).1 + j) = 0) ∧
        (∀ j, j < n → pmem_bitmap_get_block s1.bitmap
          ((pmem_find_free_region s.bitmap s.bitmap_bit_size s.next n).1 + j) = true) := by
    intro s2 hne hr hN hpv hkv hnx hbits hmem
    obtain ⟨ok2, fp2, hfree, lvl2, ht2, rel, gr⟩ :=
      pmem_alloc_region_any fuel pt4 n s s2 lvl hok ht hne hr
    generalize (pmem_find_free_region s.bitmap s.bitmap_bit_size s.next n).1 = F at *
    obtain ⟨t1, g1, f1⟩ := tree_alloc_finish pt4 n F s2 s1 lvl2 ok2.2.1 ht2 hfree hN hpv hkv
      hbits hmem
    refine ⟨lvl2, fun j hj => frame_free_of_footprint s s2 fp2 _ (hfree j hj), ?_,
      footprint_trans s s2 s1 fp2 f1, t1, rel, tree_grown_trans s s2 s1 lvl lvl2 lvl2 fp2 gr g1,
      fun j hj => tree_free_untyped s2 pt4 lvl2 ht2 _ (hfree j hj), ?_⟩
    · exact ⟨by rw [hN]; exact ok2.1, by rw [hN]; exact ok2.2.1, by rw [hN, hnx]; exact ok2.2.2⟩
    · intro j hj
      rw [hbits, if_pos (by omega)]
  have hz : pmem_alloc_clean fuel pt4 n s = Res.ok p s1 → ∀ j a, j < n →
      in_frame s ((pmem_find_free_region s.bitmap s.bitmap_bit_size s.next n).1 + j) a →
      s1.mem a = 0 := by
    intro hc j a hj hin
    unfold pmem_alloc_clean at hc
    obtain ⟨s2, hne, hr, _, hs1⟩ := pmem_alloc_clean_with_inv_n _ pt4 n s p s1 hc
    obtain ⟨_, fp2, _, _⟩ := pmem_alloc_region_any fuel pt4 n s s2 lvl hok ht hne hr
    have hFn : (pmem_find_free_region s.bitmap s.bitmap_bit_size s.next n).1 + n ≤ 2 ^ 28 := by
      have hN64 : s.bitmap_bit_size < U64 := lt_of_le_of_lt hok.2.1 (by decide)
      have := (pmem_find_free_region_run _ _ _ n hok.1 hN64 hok.2.2 (by omega) hne).1
      exact Nat.le_trans this hok.2.1
    rw [hs1]
    show mem_zero s2.mem _ _ a = 0
    unfold mem_zero
    rw [if_pos (in_frame_zero_range s2 _ n j a hj hFn ((in_frame_congr s s2 fp2.2.1 _ a).2 hin))]
  rcases h with h | h
  · unfold pmem_alloc at h
    obtain ⟨s2, hne, hr, hp, hs1⟩ := pmem_alloc_with_inv _ pt4 n s p s1 h
    obtain ⟨lvl1, c1, c2, c3, c4, c5, c6, c7, c8⟩ := core s2 hne hr (by rw [hs1]) (by rw [hs1])
      (by rw [hs1]) (by rw [hs1])
      (by intro b; rw [hs1]; exact pmem_bitmap_mark_blocks_get _ _ _ _ _)
      (by intro a _; rw [hs1])
    exact ⟨_, lvl1, hp, c1, c2, c3, c4, c5, c6, c7, c8, hz⟩
  · have h' := h
    unfold pmem_alloc_clean at h'
    obtain ⟨s2, hne, hr, hp, hs1⟩ := pmem_alloc_clean_with_inv_n _ pt4 n s p s1 h'
    obtain ⟨lvl1, c1, c2, c3, c4, c5, c6, c7, c8⟩ := core s2 hne hr (by rw [hs1]) (by rw [hs1])
      (by rw [hs1]) (by rw [hs1])
      (by intro b; rw [hs1]; exact pmem_bitmap_mark_blocks_get _ _ _ _ _)
      (by
        intro a ha
        rw [hs1]
        show mem_zero s2.mem _ _ a = s2.mem a
        unfold mem_zero
        rw [if_neg]
        intro hin
        obtain ⟨j, hj, hinj⟩ := zero_range_in_frame s2 _ n a hin
        exact ha j hj hinj)
    exact ⟨_, lvl1, hp, c1, c2, c3, c4, c5, c6, c7, c8, hz⟩

/-- In a tree of tables every table on a walk lies in a frame with a level. -/
theorem tree_walk_tables (s : KState) (pt4 : Nat) (lvl : Nat → Nat) (hok : kstate_ok s)
    (ht : TreeWf s pt4 lvl) (v : Nat) (P : Nat → Prop)
    (hP : ∀ G, lvl G ≠ 0 → P (G * PAGE_SIZE)) : walk_tables s pt4 v P := by
  obtain ⟨F4, hF4, e4⟩ := tree_walk_root s pt4 lvl ht v
  intro hp4
  rw [e4] at hp4
  obtain ⟨G3, hl3, hA3, hj3⟩ :=
    tree_walk_next s pt4 lvl hok ht F4 (INDEX_PT4 v) (by omega) (index_lt _ _) hp4
  have E3 : pt3_entry_of s pt4 v = table_slot s G3 (INDEX_PT3 v) := by
    unfold pt3_entry_of
    rw [e4]
    exact hj3 _
  rw [e4, hA3, E3]
  refine ⟨hP G3 (by omega), ?_⟩
  intro hp3
  obtain ⟨G2, hl2, hA2, hj2⟩ :=
    tree_walk_next s pt4 lvl hok ht G3 (INDEX_PT3 v) (by omega) (index_lt _ _) hp3
  have E2 : pt2_entry_of s pt4 v = table_slot s G2 (INDEX_PT2 v) := by
    unfold pt2_entry_of
    rw [E3]
    exact hj2 _
  rw [hA2, E2]
  refine ⟨hP G2 (by omega), ?_⟩
  intro hp2
  obtain ⟨G1, hl1, hA1, _⟩ :=
    tree_walk_next s pt4 lvl hok ht G2 (INDEX_PT2 v) (by omega) (index_lt _ _) hp2
  rw [hA1]
  exact hP G1 (by omega)

/-- C26: whenever `pmem_alloc(pt4, n)` (or `pmem_alloc_clean`) returns normally
with address `p`, from a state whose page tables form a tree of tables in used
frames, the page tables form such a tree afterwards, with the tables of before
at their levels; every frame that has become a table during the call was free
before the call, has its bit set and is none of the frames of the returned
region `p / 4096 .. p / 4096 + n - 1`; the frames of the region, free before,
are no tables and have their bits set; and on the walk of any address no table
lies in a frame of the region, each lies in a frame whose bit is set. -/
theorem pmem_alloc_region_no_table (fuel pt4 n : Nat) (s s1 : KState) (p : Nat)
    (lvl : Nat → Nat) (hok : kstate_ok s) (ht : TreeWf s pt4 lvl)
    (h : pmem_alloc fuel pt4 n s = Res.ok p s1 ∨
      pmem_alloc_clean fuel pt4 n s = Res.ok p s1) :
    ∃ lvl1, TreeWf s1 pt4 lvl1 ∧ (∀ X, lvl X ≠ 0 → lvl1 X = lvl X) ∧
      (∀ X, lvl1 X ≠ 0 → lvl X = 0 →
        frame_free s X ∧ pmem_bitmap_get_block s1.bitmap X = true ∧
        ∀ i, i < n → X ≠ p / PAGE_SIZE + i) ∧
      (∀ i, i < n → frame_free s (p / PAGE_SIZE + i) ∧ lvl1 (p / PAGE_SIZE + i) = 0 ∧
        pmem_bitmap_get_block s1.bitmap (p / PAGE_SIZE + i) = true) ∧
      ∀ v i, i < n → walk_tables s1 pt4 v (fun q =>
        q ≠ p + i * PAGE_SIZE ∧ pmem_bitmap_get_block s1.bitmap (q / PAGE_SIZE) = true) := by
  obtain ⟨F, lvl1, hp, hfree, ok1, _, ht1, rel, gr, hl1, hb1, _⟩ :=
    pmem_alloc_tree fuel pt4 n s s1 p lvl hok ht h
  have hpF : ∀ i, i < n → p = F * PAGE_SIZE ∧ p / PAGE_SIZE = F := by
    intro i hi
    have hF28 : F < 2 ^ 28 := by
      have := (hfree 0 (by omega)).1
      rw [Nat.add_zero] at this
      exact Nat.lt_of_lt_of_le this hok.2.1
    have e : p = F * PAGE_SIZE := by rw [hp]; exact frame_mod F hF28
    exact ⟨e, by rw [e]; exact Nat.mul_div_cancel _ (by decide)⟩
  refine ⟨lvl1, ht1, rel, ?_, ?_, ?_⟩
  · intro X hX hX0
    have hfX : frame_free s X := by
      rcases gr.1 X hX with h1 | h1
      · exact absurd hX0 h1
      · exact h1
    refine ⟨hfX, (ht1.2.1 X hX).2.1, ?_⟩
    intro i hi e
    rw [(hpF i hi).2] at e
    rw [e] at hX
    exact hX (hl1 i hi)
  · intro i hi
    rw [(hpF i hi).2]
    exact ⟨hfree i hi, hl1 i hi, hb1 i hi⟩
  · intro v i hi
    apply tree_walk_tables s1 pt4 lvl1 ok1 ht1 v
    intro G hG
    refine ⟨?_, ?_⟩
    · intro e
      rw [(hpF i hi).1, ← Nat.add_mul] at e
      have : G = F + i := Nat.eq_of_mul_eq_mul_right (by decide : 0 < PAGE_SIZE) e
      rw [this] at hG
      exact hG (hl1 i hi)
    · rw [Nat.mul_div_cancel _ (by decide : 0 < PAGE_SIZE)]
      exact (ht1.2.1 G hG).2.1

/-- C26 at `demo_state2`: `pmem_alloc(pt4, 1)` finds frame 512 and takes frame
5 for the missing L1 table of its kernel-window page. -/
theorem pmem_alloc_region_no_table_witness :
    ∃ s1, pmem_alloc 2 demo_pt4 1 demo_state2 = Res.ok 0x200000 s1 ∧
      ∃ lvl1, TreeWf s1 demo_pt4 lvl1 ∧ (∀ X, demo_lvl X ≠ 0 → lvl1 X = demo_lvl X) ∧
        (∀ X, lvl1 X ≠ 0 → demo_lvl X = 0 →
          frame_free demo_state2 X ∧ pmem_bitmap_get_block s1.bitmap X = true ∧
          ∀ i, i < 1 → X ≠ 0x200000 / PAGE_SIZE + i) ∧
        (∀ i, i < 1 → frame_free demo_state2 (0x200000 / PAGE_SIZE + i) ∧
          lvl1 (0x200000 / PAGE_SIZE + i) = 0 ∧
          pmem_bitmap_get_block s1.bitmap (0x200000 / PAGE_SIZE + i) = true) ∧
        ∀ v i, i < 1 → walk_tables s1 demo_pt4 v (fun q =>
          q ≠ 0x200000 + i * PAGE_SIZE ∧
          pmem_bitmap_get_block s1.bitmap (q / PAGE_SIZE) = true) := by
  have hv : Res.value (pmem_alloc 2 demo_pt4 1 demo_state2) = some 0x200000 := by decide
  cases h : pmem_alloc 2 demo_pt4 1 demo_state2 with
  | fatal t =>
    rw [h] at hv
    exact Option.noConfusion hv
  | timeout =>
    rw [h] at hv
    exact Option.noConfusion hv
  | ok p s1 =>
    rw [h] at hv
    have hp : p = 0x200000 := by
      injection hv
    subst hp
    exact ⟨s1, rfl, pmem_alloc_region_no_table 2 demo_pt4 1 demo_state2 s1 0x200000 demo_lvl
      ⟨by decide, by decide, by decide⟩ demo_tree (Or.inl h)⟩

/-! ### vmem.c: the tables of a new address space -/

theorem get_flag_of_testBit (x k : Nat) (h : x.testBit k = true) :
    GET_FLAG x (2 ^ k) = true := by
  unfold GET_FLAG
  have hne : x &&& 2 ^ k ≠ 0 := by
    intro e
    have := congrArg (fun y => Nat.testBit y k) e
    simp only [Nat.testBit_and, Nat.zero_testBit, h, Nat.testBit_two_pow_self,
      Bool.and_self] at this
    exact Bool.noConfusion this
  simp [hne]

/-- A freshly written table entry has the write and user flags. -/
theorem get_flag_table_entry_rw (F : Nat) :
    GET_FLAG (F ||| PAGE_PRESENT ||| PAGE_WRITE ||| PAGE_USER) PAGE_WRITE = true ∧
    GET_FLAG (F ||| PAGE_PRESENT ||| PAGE_WRITE ||| PAGE_USER) PAGE_USER = true := by
  constructor
  · apply get_flag_of_testBit _ 1
    rw [Nat.testBit_or, Nat.testBit_or]
    have : PAGE_WRITE.testBit 1 = true := by decide
    simp [this]
  · apply get_flag_of_testBit _ 2
    rw [Nat.testBit_or]
    have : PAGE_USER.testBit 2 = true := by decide
    simp [this]

theorem table_slot_idx_inj (s : KState) (F i j : Nat) (hi : i < 512) (hj : j < 512)
    (h : table_slot s F i = table_slot s F j) : i = j := by
  unfold table_slot entry_addr at h
  simp only [U64] at h
  have := Nat.mod_lt (P2V s ((F * PAGE_SIZE) % 2 ^ 64)) (by decide : 0 < 2 ^ 64)
  unfold P2V at h this
  simp only [U64] at h this
  omega

/-- C21: when `vmem_create_address_space` returns the root `R`, from a state
whose page tables (of `kernel_pt4`) form a tree of tables in used frames and
whose `pv_base` is a multiple of 8: `R` is the image of a frame `F1` and the
new L3 table that of a frame `F2`, two different frames that were free; slot 0
of `R` holds `F2 * 4096` with the present, write and user flags, every other
slot of `R` is 0, every slot of the new L3 table other than
`INDEX_PT3(kernel_map.virt)` is 0, and so no address outside that one L3 slot
is mapped from `R`. -/
theorem vmem_create_address_space_fresh (fuel kernel_pt4 : Nat) (s s1 : KState)
    (R : Nat) (lvl : Nat → Nat) (hok : kstate_ok s) (ht : TreeWf s kernel_pt4 lvl)
    (hpv : s.pv_base % 8 = 0)
    (h : vmem_create_address_space fuel kernel_pt4 s = Res.ok R s1) :
    ∃ F1 F2, F1 ≠ F2 ∧ frame_free s F1 ∧ frame_free s F2 ∧ R = P2V s1 (F1 * PAGE_SIZE) ∧
      s1.mem (entry_addr R 0) = F2 * PAGE_SIZE ||| PAGE_PRESENT ||| PAGE_WRITE ||| PAGE_USER ∧
      GET_FLAG (s1.mem (entry_addr R 0)) PAGE_PRESENT = true ∧
      GET_FLAG (s1.mem (entry_addr R 0)) PAGE_WRITE = true ∧
      GET_FLAG (s1.mem (entry_addr R 0)) PAGE_USER = true ∧
      ADDRESS (s1.mem (entry_addr R 0)) = F2 * PAGE_SIZE ∧
      s1.mem (entry_addr R 0) ≠ 0 ∧
      (∀ j, j < 512 → j ≠ 0 → s1.mem (entry_addr R j) = 0) ∧
      (∀ j, j < 512 → j ≠ INDEX_PT3 s1.kernel_virt →
        s1.mem (entry_addr (P2V s1 (F2 * PAGE_SIZE)) j) = 0) ∧
      (∀ vaddr, INDEX_PT4 vaddr ≠ 0 ∨ INDEX_PT3 vaddr ≠ INDEX_PT3 s1.kernel_virt →
        leaf_present s1 R vaddr = false) := by
  unfold vmem_create_address_space at h
  cases h1 : pmem_alloc_clean fuel kernel_pt4 1 s with
  | fatal sA => rw [h1] at h; exact Res.noConfusion h
  | timeout => rw [h1] at h; exact Res.noConfusion h
  | ok p1 sA =>
    rw [h1] at h
    simp only [] at h
    cases h2 : pmem_alloc_clean fuel kernel_pt4 1 sA with
    | fatal sB => rw [h2] at h; exact Res.noConfusion h
    | timeout => rw [h2] at h; exact Res.noConfusion h
    | ok p2 sB =>
      rw [h2] at h
      simp only [] at h
      injection h with hR hs1
      obtain ⟨F1, lvl1, hp1, hfree1, okA, fpA, htA, _, _, hl1, hbit1, hz1⟩ :=
        pmem_alloc_tree fuel kernel_pt4 1 s sA p1 lvl hok ht (Or.inr h1)
      obtain ⟨F2, lvl2, hp2, hfree2, okB, fpB, _, _, grB, _, _, hz2⟩ :=
        pmem_alloc_tree fuel kernel_pt4 1 sA sB p2 lvl1 okA htA (Or.inr h2)
      have hF1 : frame_free s F1 := by
        have := hfree1 0 (by omega)
        rwa [Nat.add_zero] at this
      have hF2 : frame_free sA F2 := by
        have := hfree2 0 (by omega)
        rwa [Nat.add_zero] at this
      have hl1' : lvl1 F1 = 0 := by
        have := hl1 0 (by omega)
        rwa [Nat.add_zero] at this
      have hb1 : pmem_bitmap_get_block sA.bitmap F1 = true := by
        have := hbit1 0 (by omega)
        rwa [Nat.add_zero] at this
      have hN1 : F1 < 2 ^ 28 := Nat.lt_of_lt_of_le hF1.1 hok.2.1
      have hN2 : F2 < 2 ^ 28 := Nat.lt_of_lt_of_le hF2.1 okA.2.1
      have hne : F1 ≠ F2 := by
        intro he
        rw [he, hF2.2] at hb1
        exact Bool.noConfusion hb1
      rw [frame_mod F1 hN1] at hp1
      rw [frame_mod F2 hN2] at hp2
      have hpvA : sA.pv_base = s.pv_base := fpA.2.1
      have hpvB : sB.pv_base = s.pv_base := by rw [fpB.2.1, hpvA]
      have hkv : sB.kernel_virt = s.kernel_virt := by rw [fpB.2.2.1, fpA.2.2.1]
      -- the two tables as tables of frames, in the state after the second allocation
      have hRs : P2V sA p1 = P2V sB (F1 * PAGE_SIZE) := by
        rw [hp1, P2V_congr sA sB fpB.2.1]
      have hT1 : ∀ j, entry_addr (P2V sA p1) j = table_slot sB F1 j := by
        intro j
        unfold table_slot
        rw [frame_mod F1 hN1, hRs]
      have hT2 : ∀ j, entry_addr (P2V sB p2) j = table_slot sB F2 j := by
        intro j
        unfold table_slot
        rw [frame_mod F2 hN2, hp2]
      have hdiff : ∀ i j, i < 512 → j < 512 → table_slot sB F1 i ≠ table_slot sB F2 j := by
        intro i j hi hj e
        exact hne (table_slot_frame_inj sB F1 F2 i j hN1 hN2 hi hj e)
      -- the page of the new root is zero after both allocations
      have hzero1 : ∀ j, j < 512 → sB.mem (table_slot sB F1 j) = 0 := by
        intro j hj
        have hin : in_frame sA F1 (table_slot sB F1 j) := by
          rw [table_slot_congr sA sB fpB.2.1]
          exact table_slot_in_frame sA F1 j hj
        rw [grB.2 _ ?_]
        · exact hz1 h1 0 _ (by omega)
            (by rw [Nat.add_zero]; exact (in_frame_congr s sA hpvA F1 _).1 hin)
        · intro X hX hinX
          have hX28 : X < 2 ^ 28 := by
            rcases hX with hX | hX
            · exact tree_typed_lt sA kernel_pt4 lvl1 okA htA X hX
            · exact Nat.lt_of_lt_of_le hX.1 okA.2.1
          have hXF := in_frame_inj sA X F1 _ hX28 hN1 hinX hin
          rcases hX with hX | hX
          · rw [hXF] at hX
            exact hX hl1'
          · have hc := hX.2
            rw [hXF, hb1] at hc
            exact Bool.noConfusion hc
      have hzero2 : ∀ j, j < 512 → sB.mem (table_slot sB F2 j) = 0 := by
        intro j hj
        apply hz2 h2 0 _ (by omega)
        rw [Nat.add_zero, table_slot_congr sA sB fpB.2.1]
        exact table_slot_in_frame sA F2 j hj
      have hidx3 : INDEX_PT3 s.kernel_virt < 512 := index_lt _ _
      -- the word stored in slot 0 of the new root
      have hW : V2P sB (P2V sB p2 ||| PAGE_PRESENT ||| PAGE_WRITE ||| PAGE_USER) =
          F2 * PAGE_SIZE ||| PAGE_PRESENT ||| PAGE_WRITE ||| PAGE_USER := by
        have hF : F2 * PAGE_SIZE < 2 ^ 40 := by
          simp only [PAGE_SIZE]
          norm_num at hN2 ⊢
          omega
        have hpt3 : P2V sB p2 % 8 = 0 := by
          unfold P2V
          rw [hpvB, hp2]
          simp only [PAGE_SIZE, U64]
          omega
        rw [or_flags_eq_add _ hpt3]
        have hv : V2P sB (P2V sB p2 + 7) = F2 * PAGE_SIZE + 7 := by
          unfold V2P P2V
          rw [hpvB, hp2]
          simp only [PAGE_SIZE, U64] at hF ⊢
          omega
        have hfr : (F2 * PAGE_SIZE) % 8 = 0 := by
          simp only [PAGE_SIZE]
          omega
        rw [hv, ← or_flags_eq_add _ hfr]
      have hmem : ∀ a, s1.mem a =
          if a = table_slot sB F2 (INDEX_PT3 s.kernel_virt) then
            s1.mem (table_slot sB F2 (INDEX_PT3 s.kernel_virt))
          else if a = table_slot sB F1 0 then
            F2 * PAGE_SIZE ||| PAGE_PRESENT ||| PAGE_WRITE ||| PAGE_USER
          else sB.mem a := by
        intro a
        by_cases e3 : a = table_slot sB F2 (INDEX_PT3 s.kernel_virt)
        · rw [if_pos e3, e3]
        · rw [if_neg e3, ← hs1]
          simp only [hkv, hT1, hT2]
          rw [mem_write_ne _ _ _ _ e3]
          by_cases e0 : a = table_slot sB F1 0
          · rw [if_pos e0, e0, mem_write_eq, hW]
          · rw [if_neg e0, mem_write_ne _ _ _ _ e0]
      have hpv1 : s1.pv_base = sB.pv_base := by rw [← hs1]
      have hkv1 : s1.kernel_virt = s.kernel_virt := by rw [← hs1]; exact hkv
      have hR1 : ∀ j, entry_addr R j = table_slot sB F1 j := by
        intro j
        rw [← hR]
        exact hT1 j
      have h0 : s1.mem (entry_addr R 0) =
          F2 * PAGE_SIZE ||| PAGE_PRESENT ||| PAGE_WRITE ||| PAGE_USER := by
        rw [hR1, hmem, if_neg (hdiff 0 _ (by decide) hidx3), if_pos rfl]
      have hother1 : ∀ j, j < 512 → j ≠ 0 → s1.mem (entry_addr R j) = 0 := by
        intro j hj hj0
        rw [hR1, hmem, if_neg (hdiff j _ hj hidx3),
          if_neg (fun e => hj0 (table_slot_idx_inj sB F1 j 0 hj (by decide) e))]
        exact hzero1 j hj
      have hL3 : ∀ j, entry_addr (P2V s1 (F2 * PAGE_SIZE)) j = table_slot sB F2 j := by
        intro j
        unfold table_slot
        rw [frame_mod F2 hN2, P2V_congr sB s1 hpv1]
      have hother3 : ∀ j, j < 512 → j ≠ INDEX_PT3 s1.kernel_virt →
          s1.mem (entry_addr (P2V s1 (F2 * PAGE_SIZE)) j) = 0 := by
        intro j hj hj3
        rw [hkv1] at hj3
        rw [hL3, hmem,
          if_neg (fun e => hj3 (table_slot_idx_inj sB F2 j _ hj hidx3 e)),
          if_neg (fun e => hdiff 0 j (by decide) hj e.symm)]
        exact hzero2 j hj
      have hA : ADDRESS (s1.mem (entry_addr R 0)) = F2 * PAGE_SIZE := by
        rw [h0]
        exact address_table_entry F2 hN2
      have hP : GET_FLAG (s1.mem (entry_addr R 0)) PAGE_PRESENT = true := by
        rw [h0]
        exact get_flag_table_entry _
      refine ⟨F1, F2, hne, hF1, frame_free_of_footprint s sA fpA F2 hF2, ?_, h0, hP, ?_, ?_, hA,
        ?_, hother1, hother3, ?_⟩
      · rw [← hR, hRs, P2V_congr sB s1 hpv1]
      · rw [h0]
        exact (get_flag_table_entry_rw _).1
      · rw [h0]
        exact (get_flag_table_entry_rw _).2
      · intro e
        rw [e, get_flag_zero] at hP
        exact Bool.noConfusion hP
      · intro vaddr hv
        unfold leaf_present
        have htp : tables_present s1 R vaddr = false := by
          by_cases h4 : INDEX_PT4 vaddr = 0
          · have h3 : INDEX_PT3 vaddr ≠ INDEX_PT3 s1.kernel_virt := by
              rcases hv with hv | hv
              · exact absurd h4 hv
              · exact hv
            apply tables_present_false3
            unfold pt3_entry_of pt4_entry_of
            rw [h4, hA, hother3 (INDEX_PT3 vaddr) (index_lt _ _) h3]
            exact get_flag_zero
          · apply tables_present_false4
            unfold pt4_entry_of
            rw [hother1 (INDEX_PT4 vaddr) (index_lt _ _) h4]
            exact get_flag_zero
        rw [htp]
        rfl

/-- C21 at `demo_state2`: the root of the new address space is in frame 512
(the first allocation takes frame 5 for the L1 table that the kernel-window
page of frame 512 needs), its L3 table in frame 513. -/
theorem vmem_create_address_space_fresh_witness :
    demo_state2.pv_base % 8 = 0 ∧
    ∃ R s1, vmem_create_address_space 2 demo_pt4 demo_state2 = Res.ok R s1 ∧
      ∃ F1 F2, F1 ≠ F2 ∧ frame_free demo_state2 F1 ∧ frame_free demo_state2 F2 ∧
        R = P2V s1 (F1 * PAGE_SIZE) ∧
        s1.mem (entry_addr R 0) =
          F2 * PAGE_SIZE ||| PAGE_PRESENT ||| PAGE_WRITE ||| PAGE_USER ∧
        GET_FLAG (s1.mem (entry_addr R 0)) PAGE_PRESENT = true ∧
        GET_FLAG (s1.mem (entry_addr R 0)) PAGE_WRITE = true ∧
        GET_FLAG (s1.mem (entry_addr R 0)) PAGE_USER = true ∧
        ADDRESS (s1.mem (entry_addr R 0)) = F2 * PAGE_SIZE ∧
        s1.mem (entry_addr R 0) ≠ 0 ∧
        (∀ j, j < 512 → j ≠ 0 → s1.mem (entry_addr R j) = 0) ∧
        (∀ j, j < 512 → j ≠ INDEX_PT3 s1.kernel_virt →
          s1.mem (entry_addr (P2V s1 (F2 * PAGE_SIZE)) j) = 0) ∧
        (∀ vaddr, INDEX_PT4 vaddr ≠ 0 ∨ INDEX_PT3 vaddr ≠ INDEX_PT3 s1.kernel_virt →
          leaf_present s1 R vaddr = false) := by
  refine ⟨by decide, ?_⟩
  have hv : Res.value (vmem_create_address_space 2 demo_pt4 demo_state2) = some 0xC0200000 := by
    decide!
  cases h : vmem_create_address_space 2 demo_pt4 demo_state2 with
  | fatal t =>
    rw [h] at hv
    exact Option.noConfusion hv
  | timeout =>
    rw [h] at hv
    exact Option.noConfusion hv
  | ok R s1 =>
    exact ⟨R, s1, rfl, vmem_create_address_space_fresh 2 demo_pt4 demo_state2 s1 R demo_lvl
      ⟨by decide, by decide, by decide⟩ demo_tree (by decide) h⟩

/-! ### The recursion through `vmem_map` when the kernel window has its tables -/

/-- The precondition is kept by every routine that stays within the footprint,
in a tree of tables. -/
theorem window_tables_keep (s t : KState) (pt4 : Nat) (lvl : Nat → Nat) (hok : kstate_ok s)
    (ht : TreeWf s pt4 lvl) (hfp : footprint s t) (hP : window_tables s pt4) :
    window_tables t pt4 := by
  intro f hf
  have hfs := frame_free_of_footprint s t hfp f hf
  have htp := hP f hfs
  have hk : kwin t f = kwin s f := by unfold kwin; rw [hfp.2.2.1]
  rw [hk]
  have hw := tree_walk_clear s pt4 lvl hok ht (kwin s f)
  have htp2 := htp
  simp only [tables_present, Bool.and_eq_true] at htp2
  obtain ⟨⟨p4, p3⟩, p2⟩ := htp2
  obtain ⟨u4, hw3⟩ := hw
  obtain ⟨u3, hw2⟩ := hw3 p4
  obtain ⟨u2, _⟩ := hw2 p3
  have := walk_congr s t pt4 (kwin s f) hfp.2.1 (hfp.2.2.2.2 _ u4 p4) (hfp.2.2.2.2 _ u3 p3)
    (hfp.2.2.2.2 _ u2 p2)
  rw [this.2]
  exact htp

/-- `pmem_alloc_clean(pt4, 1)` when the kernel-window page of every free frame
has its tables: the nested `vmem_map` allocates nothing, so the call ends, on
the fatal path with nothing but the cursor changed, or with one frame handed
out, zeroed and marked. -/
theorem pmem_alloc_clean_window (k pt4 : Nat) (s : KState) (hok : kstate_ok s)
    (hP : window_tables s pt4) :
    (∃ nx, pmem_alloc_clean_with (vmem_map (k + 1)) pt4 1 s =
      Res.fatal { s with next := nx }) ∨
    ∃ G0 s1, pmem_alloc_clean_with (vmem_map (k + 1)) pt4 1 s = Res.ok (G0 * PAGE_SIZE) s1 ∧
      frame_free s G0 ∧ tables_present s pt4 (kwin s G0) = true ∧
      s1.bitmap_bit_size = s.bitmap_bit_size ∧ s1.pv_base = s.pv_base ∧
      s1.blocks_allocated = (s.blocks_allocated + 1) % U64 ∧
      (∀ b, pmem_bitmap_get_block s1.bitmap b =
        if b = G0 then true else pmem_bitmap_get_block s.bitmap b) ∧
      (∀ a, in_frame s G0 a → s1.mem a = 0) ∧
      (∀ a, ¬ in_frame s G0 a → a ≠ pt1_entry_of s pt4 (kwin s G0) → s1.mem a = s.mem a) := by
  have hN64 : s.bitmap_bit_size < U64 := lt_of_le_of_lt hok.2.1 (by decide)
  by_cases hF : (pmem_find_free_region s.bitmap s.bitmap_bit_size s.next 1).1 = NEG1
  · left
    refine ⟨(pmem_find_free_region s.bitmap s.bitmap_bit_size s.next 1).2, ?_⟩
    unfold pmem_alloc_clean_with
    simp only []
    rw [if_pos hF]
  · obtain ⟨hrun1, hrun2⟩ := pmem_find_free_region_run _ _ _ 1 hok.1 hN64 hok.2.2 (by omega) hF
    have hb0 := hrun2 0 (by omega)
    rw [Nat.add_zero] at hb0
    generalize hFe : (pmem_find_free_region s.bitmap s.bitmap_bit_size s.next 1).1 = F at *
    generalize hnx : (pmem_find_free_region s.bitmap s.bitmap_bit_size s.next 1).2 = nx at *
    have hfree : frame_free s F := ⟨by omega, hb0⟩
    have hF28 : F < 2 ^ 28 := Nat.lt_of_lt_of_le hfree.1 hok.2.1
    have htp := hP F hfree
    have hv0 : ((s.kernel_virt + F * PAGE_SIZE) % U64 + 0 * PAGE_SIZE) % U64 = kwin s F := by
      unfold kwin
      rw [Nat.zero_mul, Nat.add_zero, Nat.mod_mod]
    have hp0 : ((F * PAGE_SIZE) % U64 + 0 * PAGE_SIZE) % U64 = F * PAGE_SIZE := by
      rw [Nat.zero_mul, Nat.add_zero, Nat.mod_mod, frame_mod F hF28]
    have hmap : vmem_map_region_with (vmem_map (k + 1)) pt4 ((s.kernel_virt + F * PAGE_SIZE) % U64)
        ((F * PAGE_SIZE) % U64) PAGE_WRITE 1 0 { s with next := nx } =
        if GET_FLAG (s.mem (pt1_entry_of s pt4 (kwin s F))) PAGE_PRESENT then
          Res.fatal { s with next := nx }
        else Res.ok () { ({ s with next := nx } : KState) with
          mem := mem_write s.mem (pt1_entry_of s pt4 (kwin s F))
            ((F * PAGE_SIZE ||| PAGE_WRITE ||| PAGE_PRESENT) % U64) } := by
      rw [vmem_map_region_with_one, hv0, hp0]
      simp only [vmem_map]
      rw [vmem_map_with_tables_present _ pt4 (kwin s F) _ _ { s with next := nx }
        (show tables_present { s with next := nx } pt4 (kwin s F) = true from htp)]
      by_cases hl : GET_FLAG (s.mem (pt1_entry_of s pt4 (kwin s F))) PAGE_PRESENT = true
      · rw [if_pos hl]
        rw [show ({ s with next := nx } : KState).mem = s.mem from rfl,
          show pt1_entry_of { s with next := nx } pt4 (kwin s F) =
            pt1_entry_of s pt4 (kwin s F) from rfl, if_pos hl]
      · rw [if_neg hl]
        rw [show ({ s with next := nx } : KState).mem = s.mem from rfl,
          show pt1_entry_of { s with next := nx } pt4 (kwin s F) =
            pt1_entry_of s pt4 (kwin s F) from rfl, if_neg hl]
    by_cases hl : GET_FLAG (s.mem (pt1_entry_of s pt4 (kwin s F))) PAGE_PRESENT = true
    · left
      refine ⟨nx, ?_⟩
      unfold pmem_alloc_clean_with
      simp only []
      rw [hFe, hnx, if_neg hF]
      show (match vmem_map_region_with (vmem_map (k + 1)) pt4
          ((s.kernel_virt + F * PAGE_SIZE) % U64) ((F * PAGE_SIZE) % U64) PAGE_WRITE 1 0
          { s with next := nx } with
        | Res.ok _ s2 => _
        | Res.fatal s2 => Res.fatal s2
        | Res.timeout => Res.timeout) = _
      rw [hmap, if_pos hl]
    · right
      refine ⟨F, { s with
          next := nx
          bitmap := pmem_bitmap_mark_blocks s.bitmap F 1 true
          mem := mem_zero (mem_write s.mem (pt1_entry_of s pt4 (kwin s F))
            ((F * PAGE_SIZE ||| PAGE_WRITE ||| PAGE_PRESENT) % U64))
            (P2V s ((F * PAGE_SIZE) % U64)) ((1 * PAGE_SIZE) % U64)
          blocks_allocated := (s.blocks_allocated + 1) % U64 }, ?_, hfree, htp, ?_⟩
      · unfold pmem_alloc_clean_with
        simp only []
        rw [hFe, hnx, if_neg hF]
        show (match vmem_map_region_with (vmem_map (k + 1)) pt4
            ((s.kernel_virt + F * PAGE_SIZE) % U64) ((F * PAGE_SIZE) % U64) PAGE_WRITE 1 0
            { s with next := nx } with
          | Res.ok _ s2 => _
          | Res.fatal s2 => Res.fatal s2
          | Res.timeout => Res.timeout) = _
        rw [hmap, if_neg hl, frame_mod F hF28]
        rfl
      · refine ⟨rfl, rfl, rfl, ?_, ?_, ?_⟩
        · intro b
          show pmem_bitmap_get_block (pmem_bitmap_mark_blocks s.bitmap F 1 true) b = _
          rw [pmem_bitmap_mark_blocks_one, pmem_get_mark]
        · intro a hin
          exact mem_zero_page_in _ _ _ _ hin
        · intro a hin hne
          show mem_zero (mem_write s.mem (pt1_entry_of s pt4 (kwin s F)) _)
            (P2V s ((F * PAGE_SIZE) % U64)) ((1 * PAGE_SIZE) % U64) a = s.mem a
          rw [mem_zero_page_out _ _ _ _ hin]
          exact mem_write_ne _ _ _ _ hne

/-- One level of the walk of `vmem_map` when the kernel-window page of every
free frame has its tables: the step ends, on the fatal path with nothing but
the cursor changed, or with the entry present after at most one allocation;
the tree of tables is kept. -/
theorem vmem_ensure_table_window (k pt4 : Nat) (t : KState) (lvl : Nat → Nat) (F idx : Nat)
    (hok : kstate_ok t) (ht : TreeWf t pt4 lvl) (hP : window_tables t pt4)
    (hF : 2 ≤ lvl F) (hidx : idx < 512) :
    (∃ nx, vmem_ensure_table (pmem_alloc_clean_with (vmem_map (k + 1)) pt4 1)
      (table_slot t F idx) t = Res.fatal { t with next := nx }) ∨
    ∃ t1 lvl1 G j, vmem_ensure_table (pmem_alloc_clean_with (vmem_map (k + 1)) pt4 1)
        (table_slot t F idx) t = Res.ok () t1 ∧
      j ≤ 1 ∧ t1.blocks_allocated % U64 = (t.blocks_allocated + j) % U64 ∧
      kstate_ok t1 ∧ footprint t t1 ∧ TreeWf t1 pt4 lvl1 ∧ lvl1 G + 1 = lvl F ∧
      ADDRESS (t1.mem (table_slot t F idx)) = G * PAGE_SIZE := by
  by_cases hp : GET_FLAG (t.mem (table_slot t F idx)) PAGE_PRESENT = true
  · right
    obtain ⟨G, hG, hl⟩ := ht.2.2 F idx hF hidx hp
    exact ⟨t, lvl, G, 0, vmem_ensure_table_present _ _ t hp, by omega, rfl, hok,
      footprint_refl t, ht, hl, hG⟩
  · rcases pmem_alloc_clean_window k pt4 t hok hP with
      ⟨nx, hfat⟩ | ⟨G0, s2, hres, hfree, htp, hN, hpv, hba, hbits, hzero, hother⟩
    · left
      refine ⟨nx, ?_⟩
      unfold vmem_ensure_table
      rw [if_neg hp, hfat]
    · right
      have he : vmem_ensure_table (pmem_alloc_clean_with (vmem_map (k + 1)) pt4 1)
          (table_slot t F idx) t = Res.ok () { s2 with
            mem := mem_write s2.mem (table_slot t F idx)
              (G0 * PAGE_SIZE ||| PAGE_PRESENT ||| PAGE_WRITE ||| PAGE_USER) } := by
        unfold vmem_ensure_table
        rw [if_neg hp, hres]
      obtain ⟨fp, ok1, _⟩ :=
        vmem_ensure_table_spec _ (vmem_map_alloc_spec (k + 1) pt4) _ t _ hok he
      obtain ⟨lvl1, c1, _, c3, c4, _⟩ :=
        vmem_ensure_table_tree pt4 t s2 _ lvl F idx G0 (G0 * PAGE_SIZE) hok ht hF hidx hfree rfl
          htp hN hpv hbits hzero hother rfl
      refine ⟨_, lvl1, G0, 1, he, Nat.le_refl _, ?_, ok1, fp, c1, c3, c4⟩
      show s2.blocks_allocated % U64 = _
      rw [hba, Nat.mod_mod]

/-- C27: when the page tables of `pt4` form a tree of tables in used frames and
for every free frame `f` the L4, L3 and L2 entries on the walk of
`kernel_map.virt + f * 4096` in `pt4` are present, then for every `v`
`vmem_map(pt4, v, p, flags)` ends within a nesting depth of two calls of
`vmem_map` (the bound `fuel + 2` is never reached), by returning or on the
fatal path, after at most three allocations (increments of `blocks_allocated`),
and the precondition holds in the state it ends in. -/
theorem vmem_map_window_terminates (fuel pt4 v p f : Nat) (s : KState) (lvl : Nat → Nat)
    (hok : kstate_ok s) (ht : TreeWf s pt4 lvl) (hP : window_tables s pt4) :
    ∃ s1 k, k ≤ 3 ∧
      (vmem_map (fuel + 2) pt4 v p f s = Res.ok () s1 ∨
        vmem_map (fuel + 2) pt4 v p f s = Res.fatal s1) ∧
      s1.blocks_allocated % U64 = (s.blocks_allocated + k) % U64 ∧
      window_tables s1 pt4 := by
  have hvm : vmem_map (fuel + 2) pt4 v p f s =
      vmem_map_with (pmem_alloc_clean_with (vmem_map (fuel + 1)) pt4 1) pt4 v p f s := rfl
  rw [hvm]
  unfold vmem_map_with
  obtain ⟨F4, hF4, e4⟩ := tree_walk_root s pt4 lvl ht v
  unfold pt4_entry_of at e4
  simp only []
  rw [e4]
  rcases vmem_ensure_table_window fuel pt4 s lvl F4 (INDEX_PT4 v) hok ht hP (by omega)
    (index_lt _ _) with ⟨nx, r1⟩ | ⟨t1, lvl1, G3, k1, r1, hk1, b1, ok1, f1, ht1, hG3, a4⟩
  · rw [r1]
    exact ⟨_, 0, by omega, Or.inr rfl, rfl, hP⟩
  · rw [r1]
    simp only []
    have P1 := window_tables_keep s t1 pt4 lvl hok ht f1 hP
    have E3 : entry_addr (P2V t1 (ADDRESS (t1.mem (table_slot s F4 (INDEX_PT4 v)))))
        (INDEX_PT3 v) = table_slot t1 G3 (INDEX_PT3 v) := by
      rw [a4]
      unfold table_slot
      rw [frame_mod G3 (tree_typed_lt t1 pt4 lvl1 ok1 ht1 G3 (by omega))]
    rw [E3]
    rcases vmem_ensure_table_window fuel pt4 t1 lvl1 G3 (INDEX_PT3 v) ok1 ht1 P1 (by omega)
      (index_lt _ _) with ⟨nx, r2⟩ | ⟨t2, lvl2, G2, k2, r2, hk2, b2, ok2, f2, ht2, hG2, a3⟩
    · rw [r2]
      exact ⟨_, k1, by omega, Or.inr rfl, b1, P1⟩
    · rw [r2]
      simp only []
      have P2 := window_tables_keep t1 t2 pt4 lvl1 ok1 ht1 f2 P1
      have E2 : entry_addr (P2V t2 (ADDRESS (t2.mem (table_slot t1 G3 (INDEX_PT3 v)))))
          (INDEX_PT2 v) = table_slot t2 G2 (INDEX_PT2 v) := by
        rw [a3]
        unfold table_slot
        rw [frame_mod G2 (tree_typed_lt t2 pt4 lvl2 ok2 ht2 G2 (by omega))]
      rw [E2]
      have b12 : t2.blocks_allocated % U64 = (s.blocks_allocated + (k1 + k2)) % U64 := by
        simp only [U64] at b1 b2 ⊢
        omega
      rcases vmem_ensure_table_window fuel pt4 t2 lvl2 G2 (INDEX_PT2 v) ok2 ht2 P2 (by omega)
        (index_lt _ _) with ⟨nx, r3⟩ | ⟨t3, lvl3, G1, k3, r3, hk3, b3, ok3, f3, ht3, hG1, a2⟩
      · rw [r3]
        exact ⟨_, k1 + k2, by omega, Or.inr rfl, b12, P2⟩
      · rw [r3]
        simp only []
        have P3 := window_tables_keep t2 t3 pt4 lvl2 ok2 ht2 f3 P2
        have b123 : t3.blocks_allocated % U64 =
            (s.blocks_allocated + (k1 + k2 + k3)) % U64 := by
          simp only [U64] at b12 b3 ⊢
          omega
        by_cases hl : GET_FLAG (t3.mem (entry_addr
            (P2V t3 (ADDRESS (t3.mem (table_slot t2 G2 (INDEX_PT2 v))))) (INDEX_PT1 v)))
            PAGE_PRESENT = true
        · rw [if_pos hl]
          exact ⟨_, k1 + k2 + k3, by omega, Or.inr rfl, b123, P3⟩
        · rw [if_neg hl]
          refine ⟨_, k1 + k2 + k3, by omega, Or.inl rfl, b123, ?_⟩
          exact window_tables_keep t3 _ pt4 lvl3 ok3 ht3
            (footprint_leaf_write t3 _ _ (by simpa using hl)) P3

/-- The page tables of `demo_state` form a tree of tables. -/
theorem demo_tree_small : TreeWf demo_state demo_pt4 demo_lvl := by
  refine ⟨demo_tree.1, ?_, demo_tree.2.2⟩
  intro F hF
  unfold demo_lvl at hF ⊢
  by_cases h1 : F = 1
  · subst h1; decide
  · by_cases h2 : F = 2
    · subst h2; decide
    · by_cases h3 : F = 3
      · subst h3; decide
      · by_cases h4 : F = 4
        · subst h4; decide
        · rw [if_neg h1, if_neg h2, if_neg h3, if_neg h4] at hF
          exact absurd rfl hF

/-- In `demo_state` the kernel-window page of every frame has its tables. -/
theorem demo_window_tables : window_tables demo_state demo_pt4 := by
  intro f hf
  have hf8 : f < 8 := hf.1
  interval_cases f <;> decide

/-- C27 at `demo_state` (frames 5, 6 and 7 free, their kernel-window pages in
the one L1 table): `vmem_map(pt4, 0x40000000, 0x7000, PAGE_WRITE)`, which needs
an L2 and an L1 table. -/
theorem vmem_map_window_terminates_witness :
    kstate_ok demo_state ∧ TreeWf demo_state demo_pt4 demo_lvl ∧
    window_tables demo_state demo_pt4 ∧
    ∃ s1 k, k ≤ 3 ∧
      (vmem_map (0 + 2) demo_pt4 0x40000000 0x7000 PAGE_WRITE demo_state = Res.ok () s1 ∨
        vmem_map (0 + 2) demo_pt4 0x40000000 0x7000 PAGE_WRITE demo_state = Res.fatal s1) ∧
      s1.blocks_allocated % U64 = (demo_state.blocks_allocated + k) % U64 ∧
      window_tables s1 demo_pt4 :=
  ⟨⟨by decide, by decide, by decide⟩, demo_tree_small, demo_window_tables,
    vmem_map_window_terminates 0 demo_pt4 0x40000000 0x7000 PAGE_WRITE demo_state demo_lvl
      ⟨by decide, by decide, by decide⟩ demo_tree_small demo_window_tables⟩

end Kernel
